import Mathlib

/-!
# Smart calculator: the expression engine of `s21::Model`

A shallow embedding of `src/Model/s21_model.cc`, and of the credit schedules of
`src/Model/s21_creditmodel.cc` in exact arithmetic.

* `std::string` is a `List Char`; a `std::stack<Token>` is a `List Token` whose head is the
  top of the stack.
* `double` is an abstract carrier `D`; the operations of the C library the code calls
  (`pow`, `fmod`, `cos`, ..., `std::stod`, `sprintf("%.7lf")`) are the fields of `Libm D`.
* A member function is a function from the object state (`Model D`) to a `Run`: it returns
  normally with a new state, throws `std::invalid_argument` leaving a state behind, or has
  undefined behaviour (`top()`/`pop()` of an empty stack, a write past the end of `buff`).
-/

namespace s21

/-! ## Outcomes -/

/-- Outcome of running a piece of the code on a state of type `σ`. -/
inductive Run (σ : Type) where
  /-- normal return, with the state reached -/
  | done (s : σ)
  /-- an exception `std::invalid_argument` was thrown; `s` is the state at the throw -/
  | thrown (s : σ)
  /-- undefined behaviour: `top()`/`pop()` on an empty `std::stack`, or `sprintf` writing
  past the 255 bytes of `buff` -/
  | undefined
  /-- the loop bound of the embedding was exhausted (see `ReplaceScientificNotationLoop`) -/
  | unfinished
  deriving DecidableEq, Repr

/-- Sequencing: run `f` on the state of a normal return; everything else propagates. -/
def Run.andThen {σ : Type} (r : Run σ) (f : σ → Run σ) : Run σ :=
  match r with
  | .done s => f s
  | .thrown s => .thrown s
  | .undefined => .undefined
  | .unfinished => .unfinished

/-- Transport of the state of an outcome. -/
def Run.map {σ τ : Type} (f : σ → τ) (r : Run σ) : Run τ :=
  match r with
  | .done s => .done (f s)
  | .thrown s => .thrown (f s)
  | .undefined => .undefined
  | .unfinished => .unfinished

/-! ## The numeric primitives -/

/-- The `double` operations the engine uses, over an abstract carrier `D`. -/
structure Libm (D : Type) where
  /-- the literal `0.0` -/
  zero : D
  add : D → D → D
  sub : D → D → D
  mul : D → D → D
  div : D → D → D
  pow : D → D → D
  fmod : D → D → D
  neg : D → D
  cos : D → D
  sin : D → D
  tan : D → D
  acos : D → D
  asin : D → D
  atan : D → D
  sqrt : D → D
  log10 : D → D
  log : D → D
  /-- the function `std::stod`; `none` when it throws (no conversion could be performed) -/
  stod : List Char → Option D
  /-- the characters `sprintf(buff, "%.7lf", num)` produces, without the final NUL -/
  sprintf7 : D → List Char

/-! ## Data model -/

/-- The type `struct Token { std::string value; int priority; }`. -/
structure Token where
  value : List Char
  priority : Int
  deriving DecidableEq, Repr

/-- The data members of `s21::Model` (`priorities_` is the constant below). -/
structure Model (D : Type) where
  expression_ : List Char
  x_ : D
  dot_count_ : Int
  postfix_ : List Token
  operators_ : List Token
  calculation_ : List Token
  result_ : D
  deriving DecidableEq, Repr

/-- The member `priorities_`, the constant map built by the constructor. -/
def priorities_ : List (List Char × Int) :=
  [([')'], 6), (['('], 6), ("cos".toList, 5), ("sin".toList, 5), ("tan".toList, 5),
   ("acos".toList, 5), ("asin".toList, 5), ("atan".toList, 5), ("ln".toList, 5),
   ("log".toList, 5), (['~'], 4), ("sqrt".toList, 3), (['^'], 3), (['%'], 2), (['*'], 2),
   (['/'], 2), (['-'], 1), (['+'], 1)]

/-- Embedding of `Model::Model()`: value-initialised members. -/
def Model.fresh {D : Type} (L : Libm D) : Model D :=
  { expression_ := [], x_ := L.zero, dot_count_ := 0, postfix_ := [], operators_ := [],
    calculation_ := [], result_ := L.zero }

/-! ## Validator -/

/-- Embedding of `Model::ValidateInput`: `true` when it returns, `false` when it throws
`std::invalid_argument`. -/
def ValidateInput (input : List Char) : Bool :=
  let is_valid_size := !input.isEmpty && decide (input.length < 256)
  let is_valid_parenthesis := input.count '(' == input.count ')'
  let is_valid_first_unary := !input.isEmpty && input.headD '\x00' != '*' &&
    input.headD '\x00' != '/' && input.headD '\x00' != '^' && input.headD '\x00' != '%'
  let is_math_expression := input.any (fun c => c.isDigit || c == 'x')
  is_valid_size && is_valid_parenthesis && is_math_expression && is_valid_first_unary

/-- Embedding of `Model::SetInput`: validate, then assign `expression_`. -/
def SetInput {D : Type} (m : Model D) (input : List Char) : Run (Model D) :=
  if ValidateInput input then .done { m with expression_ := input } else .thrown m

/-- Embedding of `Model::SetX` -/
def SetX {D : Type} (m : Model D) (x : D) : Model D :=
  { m with x_ := x }

/-! ## Scientific-notation normalizer -/

/-- Embedding of `std::string::find(c, start)`; `none` is `npos`. -/
def find (s : List Char) (c : Char) (start : Nat) : Option Nat :=
  let i := (s.drop start).indexOf c
  if i < (s.drop start).length then some (start + i) else none

/-- Embedding of `std::string::replace(pos, 1, by)` -/
def replace1 (s : List Char) (pos : Nat) (by_ : List Char) : List Char :=
  s.take pos ++ by_ ++ s.drop (pos + 1)

/-- The `while (pos != npos)` loop of `ReplaceScientificNotation` on `expression_`, with a
bound on the number of iterations. -/
def ReplaceScientificNotationLoop : Nat → List Char → Option Nat → Run (List Char)
  | _, expression_, none => .done expression_
  | 0, _, some _ => .unfinished
  | fuel + 1, expression_, some pos =>
    let is_valid_prev := decide (pos > 1) && (expression_.getD (pos - 1) '\x00').isDigit
    let is_valid_nxt := decide (pos + 1 < expression_.length) &&
      ((expression_.getD (pos + 1) '\x00').isDigit || expression_.getD (pos + 1) '\x00' == '+' ||
        expression_.getD (pos + 1) '\x00' == '-')
    if !is_valid_nxt || !is_valid_prev then .thrown expression_
    else
      let expression_ := replace1 expression_ pos "*10^".toList
      ReplaceScientificNotationLoop fuel expression_ (find expression_ 'e' (pos + 4))

/-- Embedding of `Model::ReplaceScientificNotation`. Every iteration of the loop consumes one
`e` of the string, so `length + 1` iterations are enough. -/
def ReplaceScientificNotation {D : Type} (m : Model D) : Run (Model D) :=
  (ReplaceScientificNotationLoop (m.expression_.length + 1) m.expression_
    (find m.expression_ 'e' 0)).map (fun e => { m with expression_ := e })

/-! ## Tokenizer and shunting-yard converter -/

/-- Embedding of `Model::IsOperator` -/
def IsOperator (c : Char) : Bool :=
  c == '+' || c == '-' || c == '*' || c == '/' || c == '^' || c == '%'

/-- Embedding of `Model::SetTokenPriority`: `priorities_.at(operation)`; `none` when `at`
throws, which the function turns into `std::invalid_argument`. -/
def SetTokenPriority (operation : List Char) : Option Int :=
  priorities_.lookup operation

/-- Embedding of `Model::IsUnary(it)`. `prev` is `none` when `it == expression_.begin()` and
`*(it - 1)` otherwise; `next` is `*(it + 1)`, which for the last character is the terminating
NUL of the string. -/
def IsUnary (prev : Option Char) (next : Char) : Bool :=
  match prev with
  | none => true
  | some p => p == '(' || IsOperator p || IsOperator next

/-- Embedding of `Model::DoubleToString`: `sprintf(buff, "%.7lf", num)` into `char buff[255]`;
`none` when the text and its NUL do not fit the buffer (undefined behaviour). -/
def DoubleToString {D : Type} (L : Libm D) (num : D) : Option (List Char) :=
  if (L.sprintf7 num).length < 255 then some (L.sprintf7 num) else none

/-- The locals of `ToPostfix` and the members it changes. -/
structure Scan where
  number : List Char
  operation : List Char
  dot_count_ : Int
  postfix_ : List Token
  operators_ : List Token
  deriving DecidableEq, Repr

/-- Embedding of `Model::PushNumberToPostfix(number)` -/
def PushNumberToPostfix (st : Scan) : Run Scan :=
  if st.dot_count_ > 1 then .thrown st
  else .done { st with dot_count_ := 0, postfix_ := ⟨st.number, 0⟩ :: st.postfix_, number := [] }

/-- Embedding of `Model::PushOperationToOperators(operators_, operation)` for the `std::string`
accumulator: the priority lookup may throw; afterwards the accumulator is cleared. -/
def PushOperationToOperators (st : Scan) : Run Scan :=
  match SetTokenPriority st.operation with
  | none => .thrown st
  | some p => .done { st with operators_ := ⟨st.operation, p⟩ :: st.operators_, operation := [] }

/-- Embedding of `Model::PushOperationToOperators(operators_, c)` for a single character. -/
def PushCharToOperators (st : Scan) (c : Char) : Run Scan :=
  match SetTokenPriority [c] with
  | none => .thrown st
  | some p => .done { st with operators_ := ⟨[c], p⟩ :: st.operators_ }

/-- The loop `while (!operators_.empty() && GetTokenPriority(operators_) >= p &&
GetTokenValue(operators_) != "(")` of the operator branch, on the pair
(`operators_`, `postfix_`). -/
def PopOperators (p : Int) : List Token → List Token → List Token × List Token
  | [], postfix_ => ([], postfix_)
  | t :: operators_, postfix_ =>
    if t.priority ≥ p && t.value != ['('] then PopOperators p operators_ (t :: postfix_)
    else (t :: operators_, postfix_)

/-- The loop `while (!operators_.empty() && GetTokenValue(operators_) != "(")` of the `)`
branch, on the pair (`operators_`, `postfix_`). -/
def PopToParen : List Token → List Token → List Token × List Token
  | [], postfix_ => ([], postfix_)
  | t :: operators_, postfix_ =>
    if t.value != ['('] then PopToParen operators_ (⟨t.value, t.priority⟩ :: postfix_)
    else (t :: operators_, postfix_)

/-- The operator branch of the loop body, for a character `c` with `IsOperator c`.  The
priority of the incoming symbol is read once: the lookup is the first thing that can throw,
in the loop condition or in the push, and nothing has changed before it. -/
def OperatorBranch (prev : Option Char) (c next : Char) (st : Scan) : Run Scan :=
  if c == '+' && IsUnary prev next then .done st
  else
    let c := if c == '-' && IsUnary prev next then '~' else c
    match SetTokenPriority [c] with
    | none => .thrown st
    | some p =>
      let r := PopOperators p st.operators_ st.postfix_
      PushCharToOperators { st with operators_ := r.1, postfix_ := r.2 } c

/-- The parenthesis part of the loop body. -/
def ParenBranch (c : Char) (st : Scan) : Run Scan :=
  (if c == '(' then PushCharToOperators st c else .done st).andThen fun st =>
    if c == ')' then
      let r := PopToParen st.operators_ st.postfix_
      .done { st with operators_ := r.1.tail, postfix_ := r.2 }
    else .done st

/-- Loop body, "Incrementing counter" and "Write number": the dot counter, then the number
accumulator is extended or flushed. -/
def NumberBranch (c : Char) (st : Scan) : Run Scan :=
  let is_exp := c == 'e'
  let st := if c == '.' && !st.number.isEmpty then { st with dot_count_ := st.dot_count_ + 1 }
            else st
  if c.isDigit || c == '.' || is_exp then .done { st with number := st.number ++ [c] }
  else if !st.number.isEmpty then PushNumberToPostfix st
  else .done st

/-- Loop body, "Replace x to number". -/
def VariableBranch {D : Type} (L : Libm D) (x_ : D) (c : Char) (st : Scan) : Run Scan :=
  if c == 'x' then
    match DoubleToString L x_ with
    | none => .undefined
    | some s => .done { st with postfix_ := ⟨s, 0⟩ :: st.postfix_ }
  else .done st

/-- Loop body, "Write trigonometry or functions": the name accumulator is extended or
flushed. -/
def FunctionBranch (c : Char) (st : Scan) : Run Scan :=
  if c.isAlpha && c != 'x' then .done { st with operation := st.operation ++ [c] }
  else if !st.operation.isEmpty then PushOperationToOperators st
  else .done st

/-- One iteration of the `for` loop of `ToPostfix` at the character `c = *it`. -/
def ToPostfixStep {D : Type} (L : Libm D) (x_ : D) (prev : Option Char) (c next : Char)
    (st : Scan) : Run Scan :=
  (((NumberBranch c st).andThen (VariableBranch L x_ c)).andThen (FunctionBranch c)).andThen
    fun st => if IsOperator c then OperatorBranch prev c next st else ParenBranch c st

/-- The `for` loop of `ToPostfix` from an iterator position on: `prev` is the character
before the position (`none` at `begin()`), the list is the rest of `expression_`. -/
def ToPostfixLoop {D : Type} (L : Libm D) (x_ : D) : Option Char → List Char → Scan → Run Scan
  | _, [], st => .done st
  | prev, c :: rest, st =>
    (ToPostfixStep L x_ prev c (rest.headD '\x00') st).andThen
      (ToPostfixLoop L x_ (some c) rest)

/-- The final `while (!operators_.empty())` drain, on (`operators_`, `postfix_`). -/
def DrainOperators : List Token → List Token → List Token
  | [], postfix_ => postfix_
  | t :: operators_, postfix_ => DrainOperators operators_ (⟨t.value, t.priority⟩ :: postfix_)

/-- Embedding of `Model::ReverseStack` on `postfix_` (head = top). -/
def ReverseStack (postfix_ : List Token) : List Token :=
  postfix_.foldl (fun reversed_stack t => t :: reversed_stack) []

/-- What `ToPostfix` does after the `for` loop. -/
def ToPostfixFinish (st : Scan) : Run Scan :=
  (if !st.number.isEmpty then PushNumberToPostfix st else .done st).andThen fun st =>
  (if !st.operation.isEmpty then PushOperationToOperators st else .done st).andThen fun st =>
  .done { st with operators_ := [],
                  postfix_ := ReverseStack (DrainOperators st.operators_ st.postfix_) }

/-- The members `ToPostfix` leaves in the object. -/
def Scan.toModel {D : Type} (m : Model D) (st : Scan) : Model D :=
  { m with dot_count_ := st.dot_count_, postfix_ := st.postfix_, operators_ := st.operators_ }

/-- Embedding of `Model::ToPostfix` -/
def ToPostfix {D : Type} (L : Libm D) (m : Model D) : Run (Model D) :=
  ((ToPostfixLoop L m.x_ none m.expression_
      { number := [], operation := [], dot_count_ := m.dot_count_, postfix_ := m.postfix_,
        operators_ := m.operators_ }).andThen ToPostfixFinish).map (Scan.toModel m)

/-! ## RPN evaluator -/

/-- The value `Model::CalculateArithmetic` computes. -/
def ArithmeticResult {D : Type} (L : Libm D) (num1 num2 : D) (operation : Char) : D :=
  if operation == '+' then L.add num1 num2
  else if operation == '-' then L.sub num1 num2
  else if operation == '*' then L.mul num1 num2
  else if operation == '/' then L.div num1 num2
  else if operation == '^' then L.pow num1 num2
  else if operation == '%' then L.fmod num1 num2
  else L.zero

/-- The value `Model::CalculateTrigonometry` computes: `result` starts at `0.0` and every
`if` whose name matches overwrites it. -/
def TrigonometryResult {D : Type} (L : Libm D) (num : D) (operation : List Char) : D :=
  let result := L.zero
  let result := if operation = "cos".toList then L.cos num else result
  let result := if operation = "sin".toList then L.sin num else result
  let result := if operation = "tan".toList then L.tan num else result
  let result := if operation = "acos".toList then L.acos num else result
  let result := if operation = "asin".toList then L.asin num else result
  let result := if operation = "atan".toList then L.atan num else result
  let result := if operation = "sqrt".toList then L.sqrt num else result
  let result := if operation = "log".toList then L.log10 num else result
  let result := if operation = "ln".toList then L.log num else result
  let result := if operation = "~".toList then L.neg num else result
  result

/-- The statement `calculation_.push({DoubleToString(result), 0})`, the end of
`CalculateArithmetic` and of `CalculateTrigonometry`. -/
def PushResult {D : Type} (L : Libm D) (m : Model D) (result : D) : Run (Model D) :=
  match DoubleToString L result with
  | none => .undefined
  | some s => .done { m with calculation_ := ⟨s, 0⟩ :: m.calculation_ }

/-- One iteration of the `while (!postfix_.empty())` loop of `Calculate`, up to (not
including) `postfix_.pop()`; `t` is `postfix_.top()`. -/
def CalculateStep {D : Type} (L : Libm D) (t : Token) (m : Model D) : Run (Model D) :=
  let token := t.value
  let is_number := t.priority == 0
  if is_number then .done { m with calculation_ := t :: m.calculation_ }
  else if IsOperator (token.headD '\x00') then
    match m.calculation_ with
    | [] => .undefined
    | a :: calc1 =>
      match L.stod a.value with
      | none => .thrown m
      | some num =>
        match calc1 with
        | [] => .undefined
        | b :: calc2 =>
          match L.stod b.value with
          | none => .thrown { m with calculation_ := calc1 }
          | some num2 =>
            PushResult L { m with calculation_ := calc2 }
              (ArithmeticResult L num2 num (token.headD '\x00'))
  else
    match m.calculation_ with
    | [] => .undefined
    | a :: calc1 =>
      match L.stod a.value with
      | none => .thrown m
      | some num => PushResult L { m with calculation_ := calc1 } (TrigonometryResult L num token)

/-- The `while (!postfix_.empty())` loop of `Calculate`; the list is `postfix_`. -/
def CalculateLoop {D : Type} (L : Libm D) : List Token → Model D → Run (Model D)
  | [], m => .done { m with postfix_ := [] }
  | t :: postfix_, m =>
    (CalculateStep L t { m with postfix_ := t :: postfix_ }).andThen fun m =>
      CalculateLoop L postfix_ { m with postfix_ := postfix_ }

/-- Embedding of `Model::Calculate` -/
def Calculate {D : Type} (L : Libm D) (m : Model D) : Run (Model D) :=
  (CalculateLoop L m.postfix_ m).andThen fun m =>
    match m.calculation_ with
    | [] => .undefined
    | a :: calc1 =>
      match L.stod a.value with
      | none => .thrown m
      | some r =>
        if calc1.isEmpty then .done { m with result_ := r, calculation_ := calc1 }
        else .thrown { m with result_ := r, calculation_ := calc1 }

/-- Embedding of `Model::CalculateMathExpression`; the value returned is `result_` of the final
state. -/
def CalculateMathExpression {D : Type} (L : Libm D) (m : Model D) : Run (Model D) :=
  ((ReplaceScientificNotation m).andThen (ToPostfix L)).andThen (Calculate L)


/-! ## Controller -/

/-- The `try` block of `Controller::ProcessMathExpression` on the controller's `model_`:
`SetInput`, `SetX`, `CalculateMathExpression`.  On `done` the controller returns
`QString::number(result_, 'g', 8)`; on `thrown` the `catch (...)` returns `"calc_error"`;
in both cases the state shown is the `model_` the next call starts from. -/
def ProcessMathExpression {D : Type} (L : Libm D) (model_ : Model D) (expression : List Char)
    (x : D) : Run (Model D) :=
  (SetInput model_ expression).andThen fun m => CalculateMathExpression L (SetX m x)

/-- What a run of `CalculateMathExpression` hands to its caller: the `double` it returns
(`result_`), or the way it fails. -/
def returned {D : Type} (r : Run (Model D)) : Run D :=
  r.map (fun m => m.result_)


/-! ## An exact interpretation of the numeric primitives -/

/-- A `double` read exactly: a rational number, an infinity, or NaN. -/
inductive Dbl where
  | fin (q : ℚ)
  | inf (negative : Bool)
  | nan
  deriving DecidableEq, Repr

namespace Dbl

def add : Dbl → Dbl → Dbl
  | fin a, fin b => fin (a + b)
  | fin _, inf s => inf s
  | inf s, fin _ => inf s
  | inf s, inf t => if s = t then inf s else nan
  | _, _ => nan

def neg : Dbl → Dbl
  | fin a => fin (-a)
  | inf s => inf (!s)
  | nan => nan

def sub (a b : Dbl) : Dbl := add a (neg b)

def mul : Dbl → Dbl → Dbl
  | fin a, fin b => fin (a * b)
  | fin a, inf s => if a = 0 then nan else inf (if a < 0 then !s else s)
  | inf s, fin b => if b = 0 then nan else inf (if b < 0 then !s else s)
  | inf s, inf t => inf (s != t)
  | _, _ => nan

def div : Dbl → Dbl → Dbl
  | fin a, fin b => if b = 0 then (if a = 0 then nan else inf (decide (a < 0))) else fin (a / b)
  | fin _, inf _ => fin 0
  | inf s, fin b => inf (if b < 0 then !s else s)
  | _, _ => nan

/-- The function `pow` for a finite base and an integral exponent; the other cases are not exact
rational values and are not interpreted (`nan`). -/
def pow : Dbl → Dbl → Dbl
  | fin a, fin b =>
    if b.den = 1 then
      if a = 0 ∧ b < 0 then inf false else fin (a ^ b.num)
    else nan
  | _, _ => nan

/-- The function `fmod`: the remainder of the division truncated towards zero. -/
def fmod : Dbl → Dbl → Dbl
  | fin a, fin b =>
    if b = 0 then nan
    else fin (a - b * ((if a / b < 0 then -(Int.floor (-(a / b))) else Int.floor (a / b) : ℤ) : ℚ))
  | fin a, inf _ => fin a
  | _, _ => nan

/-- Decimal value of a run of digits. -/
def digitsValue (ds : List Char) : Nat :=
  ds.foldl (fun n c => 10 * n + (c.toNat - 48)) 0

/-- The function `std::stod` on texts of the form `[sign] digits [. digits]`, `[sign] inf` and
`[sign] nan`, read up to the first character that does not fit. -/
def stod (s : List Char) : Option Dbl :=
  let s := s.dropWhile (fun c => c == ' ' || c == '\t' || c == '\n' || c == '\r')
  let negative := s.headD '0' == '-'
  let s := if s.headD '0' == '-' || s.headD '0' == '+' then s.tail else s
  if s.take 3 = "inf".toList then some (inf negative)
  else if s.take 3 = "nan".toList then some nan
  else
    let ip := s.takeWhile Char.isDigit
    let r := s.dropWhile Char.isDigit
    let fp := if r.headD '0' == '.' then r.tail.takeWhile Char.isDigit else []
    if ip.isEmpty && fp.isEmpty then none
    else
      let v : ℚ := (digitsValue ip : ℚ) + (digitsValue fp : ℚ) / (10 ^ fp.length : ℚ)
      some (fin (if negative then -v else v))

/-- The integer nearest to `|q| * 10^7`, ties to even. -/
def scaled7 (q : ℚ) : Nat :=
  let n := q.num.natAbs * 10 ^ 7
  let f := n / q.den
  let r := n % q.den
  if 2 * r < q.den then f else if q.den < 2 * r then f + 1 else if f % 2 = 0 then f else f + 1

/-- The text of `sprintf("%.7lf")`. -/
def sprintf7 : Dbl → List Char
  | fin q =>
    (if q < 0 then ['-'] else []) ++ Nat.toDigits 10 (scaled7 q / 10 ^ 7) ++ ['.'] ++
      (Nat.toDigits 10 (10 ^ 7 + scaled7 q % 10 ^ 7)).tail
  | inf s => (if s then ['-'] else []) ++ "inf".toList
  | nan => "nan".toList

/-- Binary search for the integer square root: the greatest `r` below `2 ^ bits` with
`r * r ≤ n`, bit by bit. -/
def isqrtAux (n : Nat) : Nat → Nat → Nat
  | 0, r => r
  | b + 1, r => if (r + 2 ^ b) * (r + 2 ^ b) ≤ n then isqrtAux n b (r + 2 ^ b) else isqrtAux n b r

/-- The number of binary digits of `n` (`fuel` bounds the search). -/
def bitLength : Nat → Nat → Nat
  | 0, _ => 0
  | fuel + 1, n => if n = 0 then 0 else bitLength fuel (n / 2) + 1

/-- The integer square root. -/
def isqrt (n : Nat) : Nat := isqrtAux n (bitLength n n / 2 + 1) 0

/-- The function `sqrt`: NaN for a negative argument, the root of a rational square; the
other finite cases are not exact rational values and are not interpreted (`nan`). -/
def sqrt : Dbl → Dbl
  | fin q =>
    if q < 0 then nan
    else if isqrt q.num.natAbs * isqrt q.num.natAbs = q.num.natAbs ∧
        isqrt q.den * isqrt q.den = q.den then
      fin ((isqrt q.num.natAbs : ℚ) / (isqrt q.den : ℚ))
    else nan
  | inf s => if s then nan else inf false
  | nan => nan

end Dbl

/-- The exact interpretation.  The functions whose values are irrational are outside it and
yield `nan`. -/
def exact : Libm Dbl where
  zero := .fin 0
  add := Dbl.add
  sub := Dbl.sub
  mul := Dbl.mul
  div := Dbl.div
  pow := Dbl.pow
  fmod := Dbl.fmod
  neg := Dbl.neg
  cos := fun _ => .nan
  sin := fun _ => .nan
  tan := fun _ => .nan
  acos := fun _ => .nan
  asin := fun _ => .nan
  atan := fun _ => .nan
  sqrt := Dbl.sqrt
  log10 := fun _ => .nan
  log := fun _ => .nan
  stod := Dbl.stod
  sprintf7 := Dbl.sprintf7

/-! ## The credit model (`s21_creditmodel.cc`), in the exact interpretation -/

/-- The value of an `int` expression whose mathematical value is `z`, kept in 32 bits. -/
def int32 (z : Int) : Int := (z + 2 ^ 31) % 2 ^ 32 - 2 ^ 31

/-- The conversion of an `int` to `double`. -/
def Dbl.ofInt (z : Int) : Dbl := .fin (z : ℚ)

/-- The locals of the loop of `CalculateDifferentialCredit`. -/
structure DifferentialState where
  amount : Dbl
  pay : Dbl
  perc : Dbl
  total : Dbl
  deriving DecidableEq, Repr

/-- The loop `for (int i = 0; i < time; ++i)` of `CalculateDifferentialCredit`, from index `i`
with `left` passes to go. -/
def DifferentialLoop (m_rate tmp : Dbl) (month : Int) :
    Nat → Int → DifferentialState → DifferentialState
  | 0, _, s => s
  | left + 1, i, s =>
    let interest_payment := Dbl.mul s.amount m_rate
    DifferentialLoop m_rate tmp month left (i + 1)
      { pay := if month = i + 1 then Dbl.add interest_payment tmp else s.pay
        total := Dbl.add s.total (Dbl.add tmp interest_payment)
        perc := Dbl.add s.perc interest_payment
        amount := Dbl.sub s.amount tmp }

/-- The function `CreditModel::CalculateAnnuityCredit`. -/
def CalculateAnnuityCredit (k : Int) (amount : Dbl) (term : Int) (rate : Dbl) :
    Dbl × Dbl × Dbl :=
  let time := int32 (term * k)
  let r := Dbl.div (Dbl.div rate (.fin 12)) (.fin 100)
  let pay := Dbl.div
    (Dbl.mul amount (Dbl.mul r (Dbl.pow (Dbl.add (.fin 1) r) (Dbl.ofInt time))))
    (Dbl.sub (Dbl.pow (Dbl.add (.fin 1) r) (Dbl.ofInt time)) (.fin 1))
  let perc := Dbl.sub (Dbl.mul pay (Dbl.ofInt time)) amount
  let total := Dbl.add amount perc
  (pay, perc, total)

/-- The function `CreditModel::CalculateDifferentialCredit`; the loop makes a pass for each
`i` with `0 ≤ i < time`. -/
def CalculateDifferentialCredit (k : Int) (amount : Dbl) (term : Int) (rate : Dbl)
    (month : Int) : Dbl × Dbl × Dbl :=
  let time := int32 (term * k)
  let m_rate := Dbl.div (Dbl.div rate (.fin 12)) (.fin 100)
  let tmp := Dbl.div amount (Dbl.ofInt time)
  let s := DifferentialLoop m_rate tmp month time.toNat 0
    { amount := amount, pay := .fin 0, perc := .fin 0, total := .fin 0 }
  (s.pay, s.perc, s.total)

/-- The function `CreditModel::CalculateResult`. -/
def CalculateResult (k : Int) (amount : Dbl) (term : Int) (rate : Dbl) (month : Int)
    (type : Char) : Dbl × Dbl × Dbl :=
  if type = 'a' then CalculateAnnuityCredit k amount term rate
  else CalculateDifferentialCredit k amount term rate month

/-! ## Definitions in the words of the specification -/

/-- The state after `SetInput(e)` and `SetX(x)` on a freshly constructed `Model`. -/
def Model.holding {D : Type} (L : Libm D) (x : D) (e : List Char) : Model D :=
  { Model.fresh L with expression_ := e, x_ := x }

/-- The state after `SetInput(s)` on a freshly constructed `Model`, over the exact
interpretation. -/
def holding (s : String) : Model Dbl :=
  Model.holding exact (.fin 0) s.toList

/-- The four conditions of the validator contract, in the words of the specification. -/
def ValidatorConditions (s : List Char) : Prop :=
  (1 ≤ s.length ∧ s.length ≤ 255) ∧
  s.count '(' = s.count ')' ∧
  (∃ c ∈ s, ('0' ≤ c ∧ c ≤ '9') ∨ c = 'x') ∧
  (∀ c, s.head? = some c → c ≠ '*' ∧ c ≠ '/' ∧ c ≠ '^' ∧ c ≠ '%')

/-- The string with every `e` replaced by the four characters `*10^`, all other characters
kept in order. -/
def expandE : List Char → List Char
  | [] => []
  | c :: t => if c = 'e' then '*' :: '1' :: '0' :: '^' :: expandE t else c :: expandE t

/-- The condition of the normalizer contract on the occurrences of `e`: each is immediately
preceded by a digit and immediately followed by a digit, `+` or `-`.  `prev` is the
character before the list (`none` at the start of the string). -/
def WellPlacedE : Option Char → List Char → Prop
  | _, [] => True
  | prev, c :: t =>
    (c = 'e' → (∃ p, prev = some p ∧ p.isDigit = true) ∧
      (∃ n, t.head? = some n ∧ (n.isDigit = true ∨ n = '+' ∨ n = '-'))) ∧
    WellPlacedE (some c) t

/-- A numeric literal: a non-empty run of digits with at most one decimal point and at
least one digit. -/
def NumericLiteral (a : List Char) : Prop :=
  (∀ c ∈ a, c.isDigit = true ∨ c = '.') ∧ a.count '.' ≤ 1 ∧ ∃ c ∈ a, c.isDigit = true

/-- The RPN token sequence `A 10 B ~ ^ *`. -/
def exponentRPN (A B : List Char) : List Token :=
  [⟨A, 0⟩, ⟨['1', '0'], 0⟩, ⟨B, 0⟩, ⟨['~'], 4⟩, ⟨['^'], 3⟩, ⟨['*'], 2⟩]

/-- The four arithmetic operators. -/
inductive BinOp where
  | add
  | sub
  | mul
  | div
  deriving DecidableEq, Repr

/-- The symbol of an operator. -/
def BinOp.sym : BinOp → Char
  | .add => '+'
  | .sub => '-'
  | .mul => '*'
  | .div => '/'

/-- Conventional precedence: `*` and `/` bind tighter than `+` and `-`. -/
def BinOp.prio : BinOp → Int
  | .add => 1
  | .sub => 1
  | .mul => 2
  | .div => 2

/-- The arithmetic of an operator. -/
def BinOp.apply {D : Type} (L : Libm D) : BinOp → D → D → D
  | .add => L.add
  | .sub => L.sub
  | .mul => L.mul
  | .div => L.div

/-- Infix expressions over digits, the four arithmetic operators and parentheses, as
syntax trees. -/
inductive Expr where
  | num (ds : List Char)
  | paren (e : Expr)
  | bin (l : Expr) (op : BinOp) (r : Expr)
  deriving Repr

/-- How tightly the top of an expression binds: 3 for a number or a parenthesised
expression, the precedence of the operator otherwise. -/
def Expr.level : Expr → Int
  | .num _ => 3
  | .paren _ => 3
  | .bin _ op _ => op.prio

/-- The trees that are the reading of their text under conventional precedence with
operators of equal precedence grouped from the left: numbers are non-empty runs of digits,
the left operand of an operator binds at least as tightly as the operator and the right
operand binds strictly tighter (anything else needs parentheses). -/
def Expr.WellFormed : Expr → Bool
  | .num ds => !ds.isEmpty && ds.all Char.isDigit
  | .paren e => e.WellFormed
  | .bin l op r =>
    l.WellFormed && r.WellFormed && decide (op.prio ≤ l.level) && decide (op.prio < r.level)

/-- The text of an expression. -/
def Expr.print : Expr → List Char
  | .num ds => ds
  | .paren e => '(' :: (e.print ++ [')'])
  | .bin l op r => l.print ++ op.sym :: r.print

/-- The value of an expression in standard infix arithmetic: a number is read by
`std::stod`, an operator is applied to the values of its operands. -/
def Expr.standardValue {D : Type} (L : Libm D) : Expr → Option D
  | .num ds => L.stod ds
  | .paren e => e.standardValue L
  | .bin l op r =>
    match l.standardValue L, r.standardValue L with
    | some a, some b => some (op.apply L a b)
    | _, _ => none

/-- The value of an expression when the result of every operator is printed with 7
decimals by `DoubleToString` and read back by `std::stod`; `none` when a text does not fit
the buffer or cannot be read. -/
def Expr.roundedValue {D : Type} (L : Libm D) : Expr → Option D
  | .num ds => L.stod ds
  | .paren e => e.roundedValue L
  | .bin l op r =>
    match l.roundedValue L, r.roundedValue L with
    | some a, some b => (DoubleToString L (op.apply L a b)).bind L.stod
    | _, _ => none

/-- The tree of `5*(28-(9-(5-(1+1))))`. -/
def nestedDifference : Expr :=
  let e1 : Expr := .paren (.bin (.num ['1']) .add (.num ['1']))
  let e2 : Expr := .paren (.bin (.num ['5']) .sub e1)
  let e3 : Expr := .paren (.bin (.num ['9']) .sub e2)
  let e4 : Expr := .paren (.bin (.num ['2', '8']) .sub e3)
  .bin (.num ['5']) .mul e4

/-- The names of the functions the engine knows. -/
def functionNames : List (List Char) :=
  ["cos".toList, "sin".toList, "tan".toList, "acos".toList, "asin".toList, "atan".toList,
   "ln".toList, "log".toList, "sqrt".toList]

/-- The operator table in the words of the specification. -/
def specPriority (k : List Char) : Option Int :=
  if k = [')'] ∨ k = ['('] then some 6
  else if k ∈ ["cos".toList, "sin".toList, "tan".toList, "acos".toList, "asin".toList,
      "atan".toList, "ln".toList, "log".toList] then some 5
  else if k = ['~'] then some 4
  else if k = "sqrt".toList ∨ k = ['^'] then some 3
  else if k = ['%'] ∨ k = ['*'] ∨ k = ['/'] then some 2
  else if k = ['-'] ∨ k = ['+'] then some 1
  else none

/-- A token whose symbol is a key of the operator table and whose precedence is the
table's value. -/
def TableToken (t : Token) : Prop :=
  SetTokenPriority t.value = some t.priority

/-- The accepted character set: digits, `.`, `x`, parentheses, the six operator symbols,
`e` and letters. -/
def AcceptedChar (c : Char) : Prop :=
  c.isDigit = true ∨ c = '.' ∨ c = 'x' ∨ c = '(' ∨ c = ')' ∨ IsOperator c = true ∨ c = 'e' ∨
    c.isAlpha = true

/-- The text contains a maximal run of letters other than `x` that is not the name of a
function. -/
def HasUnknownName (e : List Char) : Prop :=
  ∃ pre run post, e = pre ++ run ++ post ∧ run ≠ [] ∧
    (∀ c ∈ run, c.isAlpha = true ∧ c ≠ 'x') ∧
    (∀ c, pre.getLast? = some c → ¬ (c.isAlpha = true ∧ c ≠ 'x')) ∧
    (∀ c, post.head? = some c → ¬ (c.isAlpha = true ∧ c ≠ 'x')) ∧
    run ∉ functionNames

/-- Properly nested parentheses: read from depth `d`, no `)` of the text comes without an
open `(` before it, and every `(` is closed at the end. -/
def nested : Nat → List Char → Bool
  | d, [] => d == 0
  | d, c :: t =>
    if c = '(' then nested (d + 1) t
    else if c = ')' then
      match d with
      | 0 => false
      | d1 + 1 => nested d1 t
    else nested d t

/-- The text contains a maximal run of digits and dots that starts with a digit and holds
two or more dots. -/
def HasDottedLiteral (e : List Char) : Prop :=
  ∃ pre lit post, e = pre ++ lit ++ post ∧ (∀ c ∈ lit, c.isDigit = true ∨ c = '.') ∧
    (∃ c t, lit = c :: t ∧ c.isDigit = true) ∧ 2 ≤ lit.count '.' ∧
    (∀ c, pre.getLast? = some c → ¬ (c.isDigit = true ∨ c = '.')) ∧
    (∀ c, post.head? = some c → ¬ (c.isDigit = true ∨ c = '.'))

/-- No prefix of the text closes more parentheses than it opens. -/
def NoEarlyClose (E : List Char) : Prop :=
  ∀ p, p <+: E → p.count ')' ≤ p.count '('

/-- A clean session: the operator stack, the RPN output and the operand stack are empty
and the dot counter is 0. -/
def Model.Clean {D : Type} (m : Model D) : Prop :=
  m.operators_ = [] ∧ m.postfix_ = [] ∧ m.calculation_ = [] ∧ m.dot_count_ = 0

/-- Two runs look the same to the caller: both return, with the same value, or both throw,
or both have undefined behaviour. -/
def sameOutcome {D : Type} : Run (Model D) → Run (Model D) → Prop
  | .done a, .done b => a.result_ = b.result_
  | .thrown _, .thrown _ => True
  | .undefined, .undefined => True
  | .unfinished, .unfinished => True
  | _, _ => False

/-- The balance of the specification's recurrence after `i` payments of `P`:
`B(0) = amount`, `B(i+1) = B(i) * (1 + r) - P`. -/
def specBalance (amount r P : ℚ) : Nat → ℚ
  | 0 => amount
  | i + 1 => specBalance amount r P i * (1 + r) - P

/-- The annuity payment of the specification:
`P = amount * r * (1 + r) ^ n / ((1 + r) ^ n - 1)`. -/
def specAnnuityPayment (amount r : ℚ) (n : Nat) : ℚ :=
  amount * r * (1 + r) ^ n / ((1 + r) ^ n - 1)

/-! ## Auxiliary definitions of the proofs -/

/-- The loop of `ReplaceScientificNotation` told on the string split at the search
position: `pre` is the part already searched (and rewritten), the list is the part still
to search. -/
def NormalizeFrom : List Char → List Char → Run (List Char)
  | pre, [] => .done pre
  | pre, c :: rest =>
    if c = 'e' then
      if (!rest.isEmpty && ((rest.headD '\x00').isDigit || rest.headD '\x00' == '+' ||
            rest.headD '\x00' == '-')) &&
          (decide (pre.length > 1) && (pre.getLastD '\x00').isDigit) then
        NormalizeFrom (pre ++ "*10^".toList) rest
      else .thrown (pre ++ c :: rest)
    else NormalizeFrom (pre ++ [c]) rest

/-- The state after the number accumulator, if not empty, has been pushed to `postfix_`
by `PushNumberToPostfix` (when that does not throw). -/
def Scan.flush (st : Scan) : Scan :=
  if st.number.isEmpty then st
  else { st with dot_count_ := 0, postfix_ := ⟨st.number, 0⟩ :: st.postfix_, number := [] }

/-- How often the loop body increments `dot_count_` while it scans a run of digits and
dots: once for every `.` that meets a non-empty number accumulator (`emp` tells whether the
accumulator is empty at the start). -/
def litDots : Bool → List Char → Int
  | _, [] => 0
  | emp, c :: t => (if c == '.' && !emp then 1 else 0) + litDots false t

/-- The operator stack does not yield to an incoming operator of priority `p`: it is empty,
or its top is `(` or has a lower priority. -/
def Low (p : Int) : List Token → Prop
  | [] => True
  | t :: _ => t.value = ['('] ∨ t.priority < p

/-- Every token of the list is popped by an incoming operator of priority `p`. -/
def HiPend (p : Int) (pend : List Token) : Prop :=
  ∀ t ∈ pend, t.priority ≥ p ∧ t.value ≠ ['(']

/-- The RPN sequence of an expression tree. -/
def Expr.rpn : Expr → List Token
  | .num ds => [⟨ds, 0⟩]
  | .paren e => e.rpn
  | .bin l op r => l.rpn ++ r.rpn ++ [⟨[op.sym], op.prio⟩]

/-- The text the evaluator has on its operand stack for an expression tree. -/
def Expr.text {D : Type} (L : Libm D) : Expr → Option (List Char)
  | .num ds => some ds
  | .paren e => e.text L
  | .bin l op r =>
    match l.text L, r.text L with
    | some tl, some tr =>
      match L.stod tl, L.stod tr with
      | some a, some b => DoubleToString L (op.apply L a b)
      | _, _ => none
    | _, _ => none

/-- The property `P` holds of the state an outcome carries, if it carries one. -/
def Run.All {σ : Type} (P : σ → Prop) : Run σ → Prop
  | .done s => P s
  | .thrown s => P s
  | .undefined => True
  | .unfinished => True

/-- Every token of the operator stack is a table token, and every token of the output is a
number token (precedence 0) or a table token. -/
def TokensOk (st : Scan) : Prop :=
  (∀ t ∈ st.operators_, TableToken t) ∧ (∀ t ∈ st.postfix_, t.priority = 0 ∨ TableToken t)

/-- The outcome is a normal return or a thrown `std::invalid_argument`. -/
def Run.Settled {σ : Type} : Run σ → Prop
  | .done _ => True
  | .thrown _ => True
  | .undefined => False
  | .unfinished => False

/-- Whether the scan of the rest of the expression, entered with the name accumulator
`acc`, comes to flush a name that is not in the operator table. -/
def flushesUnknown : List Char → List Char → Bool
  | acc, [] => !acc.isEmpty && (SetTokenPriority acc).isNone
  | acc, c :: rest =>
    if c.isAlpha && c != 'x' then flushesUnknown (acc ++ [c]) rest
    else (!acc.isEmpty && (SetTokenPriority acc).isNone) || flushesUnknown [] rest

/-- The scan state with `F` under the operator stack and `P` under the output stack. -/
def Scan.frame (F P : List Token) (st : Scan) : Scan :=
  { st with operators_ := st.operators_ ++ F, postfix_ := st.postfix_ ++ P }

/-- The number of `(` tokens on an operator stack. -/
def parenCount (ops : List Token) : Nat :=
  ops.countP (fun t => t.value == ['('])

/-- Whether the scan of the rest of the expression, entered with a number accumulator that
is empty or not (`emp`) and with `d` dots counted, comes to flush a number with more than
one dot counted. -/
def flushesDots : Bool → Int → List Char → Bool
  | emp, d, [] => !emp && decide (d > 1)
  | emp, d, c :: rest =>
    if c.isDigit || c == '.' || c == 'e' then
      flushesDots false (d + (if c == '.' && !emp then 1 else 0)) rest
    else (!emp && decide (d > 1)) || flushesDots true (if emp then d else 0) rest

/-- No operator token of the output is a parenthesis token, no token of the operator stack
is a `)`, and the name accumulator holds letters only. -/
def ParenFree (st : Scan) : Prop :=
  (∀ t ∈ st.postfix_, t.priority ≠ 0 → t.value ≠ ['('] ∧ t.value ≠ [')']) ∧
  (∀ t ∈ st.operators_, t.value ≠ [')']) ∧ (∀ a ∈ st.operation, a.isAlpha = true)

/-- The operand stack is not empty, and when it holds a single token, that token is the text
`DoubleToString` gave for some value. -/
def CarriedText {D : Type} (L : Libm D) : List Token → Prop
  | [] => False
  | [a] => ∃ v, DoubleToString L v = some a.value
  | _ :: _ :: _ => True

/-! ## Sequencing -/

theorem Run.done_andThen {σ : Type} (s : σ) (f : σ → Run σ) : (Run.done s).andThen f = f s :=
  rfl

/-! ## Validator (C1) -/

theorem isDigit_iff (c : Char) : c.isDigit = true ↔ ('0' ≤ c ∧ c ≤ '9') := by
  simp only [Char.isDigit, Bool.and_eq_true, decide_eq_true_eq]
  constructor
  · rintro ⟨h1, h2⟩
    exact ⟨h1, h2⟩
  · rintro ⟨h1, h2⟩
    exact ⟨h1, h2⟩

theorem ValidateInput_iff (s : List Char) : ValidateInput s = true ↔ ValidatorConditions s := by
  cases s with
  | nil => simp [ValidateInput, ValidatorConditions]
  | cons a t =>
    simp only [ValidateInput, ValidatorConditions, List.isEmpty_cons, Bool.not_false,
      Bool.true_and, List.headD_cons, Bool.and_eq_true, decide_eq_true_eq, bne_iff_ne, ne_eq,
      beq_iff_eq, List.any_eq_true, Bool.or_eq_true, List.length_cons, List.head?_cons,
      Option.some.injEq, isDigit_iff]
    constructor
    · rintro ⟨⟨⟨h1, h2⟩, h3⟩, h4⟩
      refine ⟨⟨by omega, by omega⟩, h2, h3, ?_⟩
      rintro c rfl
      tauto
    · rintro ⟨⟨_, h1⟩, h2, h3, h4⟩
      have := h4 a rfl
      refine ⟨⟨⟨by omega, h2⟩, h3⟩, ?_⟩
      tauto

/-- C1: `SetInput`/`ValidateInput` succeeds exactly when the four conditions of the
contract hold (length in [1, 255], as many `(` as `)`, a digit or `x` present, first
character none of `*`, `/`, `^`, `%`), and then stores the input; otherwise it throws
`std::invalid_argument` and the object is unchanged. -/
theorem validator_acceptance {D : Type} (m : Model D) (s : List Char) :
    (ValidateInput s = true ↔ ValidatorConditions s) ∧
    (SetInput m s = .done { m with expression_ := s } ↔ ValidatorConditions s) ∧
    (SetInput m s = .thrown m ↔ ¬ ValidatorConditions s) := by
  refine ⟨ValidateInput_iff s, ?_, ?_⟩
  · rw [← ValidateInput_iff]
    unfold SetInput
    split <;> simp_all
  · rw [← ValidateInput_iff]
    unfold SetInput
    split <;> simp_all

/-! ## Scientific-notation normalizer (C4, C5, C6) -/

theorem find_none_of_not_mem (pre r : List Char) (h : 'e' ∉ r) :
    find (pre ++ r) 'e' pre.length = none := by
  have h1 : List.indexOf 'e' r = r.length := List.indexOf_eq_length.mpr h
  simp [find, List.drop_left, h1]

theorem find_some_of_split (pre r1 r2 : List Char) (h : 'e' ∉ r1) :
    find (pre ++ (r1 ++ 'e' :: r2)) 'e' pre.length = some (pre.length + r1.length) := by
  have h1 : List.indexOf 'e' (r1 ++ 'e' :: r2) = r1.length := by
    rw [List.indexOf_append_of_not_mem h]
    simp
  simp [find, List.drop_left, h1]

theorem split_at_e (r : List Char) :
    'e' ∉ r ∨ ∃ r1 r2, r = r1 ++ 'e' :: r2 ∧ 'e' ∉ r1 := by
  induction r with
  | nil => left; simp
  | cons c t ih =>
    by_cases hc : c = 'e'
    · right
      exact ⟨[], t, by simp [hc], by simp⟩
    · rcases ih with h | ⟨r1, r2, h1, h2⟩
      · left
        simp only [List.mem_cons, not_or]
        exact ⟨fun h' => hc h'.symm, h⟩
      · right
        refine ⟨c :: r1, r2, by simp [h1], ?_⟩
        simp only [List.mem_cons, not_or]
        exact ⟨fun h' => hc h'.symm, h2⟩

theorem NormalizeFrom_skip (pre r1 rest : List Char) (h : 'e' ∉ r1) :
    NormalizeFrom pre (r1 ++ rest) = NormalizeFrom (pre ++ r1) rest := by
  induction r1 generalizing pre with
  | nil => simp
  | cons c t ih =>
    simp only [List.mem_cons, not_or] at h
    have hc : c ≠ 'e' := fun h' => h.1 h'.symm
    have := ih (pre ++ [c]) h.2
    simp only [List.append_assoc, List.singleton_append] at this
    simp only [List.cons_append, NormalizeFrom, hc, if_false]
    exact this

theorem NormalizeFrom_no_e (pre r : List Char) (h : 'e' ∉ r) :
    NormalizeFrom pre r = .done (pre ++ r) := by
  have := NormalizeFrom_skip pre r [] h
  simpa [NormalizeFrom] using this

theorem getD_before (pre rest : List Char) (h : pre.length > 1) :
    (pre ++ rest).getD (pre.length - 1) '\x00' = pre.getLastD '\x00' := by
  rw [List.getD_append _ _ _ _ (by omega)]
  rw [List.getD_eq_getElem _ _ (by omega)]
  have hne : pre ≠ [] := by
    rintro rfl
    simp at h
  rw [List.getLastD_eq_getLast?, List.getLast?_eq_getLast _ hne, List.getLast_eq_getElem]
  simp

theorem getD_after (pre rest : List Char) (c : Char) :
    (pre ++ c :: rest).getD (pre.length + 1) '\x00' = rest.headD '\x00' := by
  rw [List.getD_append_right _ _ _ _ (by omega)]
  cases rest <;> simp

/-- The bounded loop of the embedding computes `NormalizeFrom` whenever the bound exceeds
the length of the part still to search: the bound is never the reason it stops. -/
theorem loop_eq_NormalizeFrom (fuel : Nat) :
    ∀ (pre rest : List Char), rest.length < fuel →
      ReplaceScientificNotationLoop fuel (pre ++ rest) (find (pre ++ rest) 'e' pre.length)
        = NormalizeFrom pre rest := by
  induction fuel with
  | zero => intro pre rest h; omega
  | succ n ih =>
    intro pre rest hlen
    rcases split_at_e rest with h | ⟨r1, r2, rfl, h1⟩
    · rw [find_none_of_not_mem _ _ h, NormalizeFrom_no_e _ _ h]
      rfl
    · rw [find_some_of_split _ _ _ h1, NormalizeFrom_skip _ _ _ h1]
      have e1 : pre ++ (r1 ++ 'e' :: r2) = (pre ++ r1) ++ 'e' :: r2 := by simp
      have e2 : pre.length + r1.length = (pre ++ r1).length := by simp
      rw [e1, e2]
      generalize pre ++ r1 = p
      simp only [List.length_append, List.length_cons] at hlen
      simp only [ReplaceScientificNotationLoop, NormalizeFrom, if_true]
      have hn : (decide (p.length + 1 < (p ++ 'e' :: r2).length) &&
          (((p ++ 'e' :: r2).getD (p.length + 1) '\x00').isDigit ||
            (p ++ 'e' :: r2).getD (p.length + 1) '\x00' == '+' ||
            (p ++ 'e' :: r2).getD (p.length + 1) '\x00' == '-')) =
          (!r2.isEmpty && ((r2.headD '\x00').isDigit || r2.headD '\x00' == '+' ||
            r2.headD '\x00' == '-')) := by
        rw [getD_after]
        cases r2 <;> simp
      have hp : (decide (p.length > 1) && ((p ++ 'e' :: r2).getD (p.length - 1) '\x00').isDigit) =
          (decide (p.length > 1) && (p.getLastD '\x00').isDigit) := by
        by_cases h : p.length > 1
        · rw [getD_before _ _ h]
        · simp [h]
      rw [hn, hp]
      have e3 : replace1 (p ++ 'e' :: r2) p.length "*10^".toList = (p ++ "*10^".toList) ++ r2 := by
        simp [replace1, List.take_left, List.drop_append_of_le_length]
      have e4 : p.length + 4 = (p ++ "*10^".toList).length := by simp
      rw [e3, e4, ih _ r2 (by omega)]
      generalize (!r2.isEmpty && ((r2.headD '\x00').isDigit || r2.headD '\x00' == '+' ||
            r2.headD '\x00' == '-')) = a
      generalize (decide (p.length > 1) && (p.getLastD '\x00').isDigit) = b
      cases a <;> cases b <;> simp

theorem ReplaceScientificNotation_eq {D : Type} (m : Model D) :
    ReplaceScientificNotation m =
      (NormalizeFrom [] m.expression_).map (fun e => { m with expression_ := e }) := by
  unfold ReplaceScientificNotation
  have := loop_eq_NormalizeFrom (m.expression_.length + 1) [] m.expression_ (by omega)
  simp only [List.nil_append, List.length_nil] at this
  rw [this]

theorem NormalizeFrom_done (rest : List Char) :
    ∀ (pre t : List Char), NormalizeFrom pre rest = .done t → t = pre ++ expandE rest := by
  induction rest with
  | nil =>
    intro pre t h
    simp only [NormalizeFrom, Run.done.injEq] at h
    simp [expandE, h]
  | cons c r ih =>
    intro pre t h
    by_cases hc : c = 'e'
    · simp only [NormalizeFrom, hc, if_true] at h
      split at h
      · have := ih _ _ h
        simp [this, expandE, hc]
      · simp at h
    · simp only [NormalizeFrom, hc, if_false] at h
      have := ih _ _ h
      simp [this, expandE, hc]

theorem not_mem_expandE (s : List Char) : 'e' ∉ expandE s := by
  induction s with
  | nil => simp [expandE]
  | cons c t ih =>
    by_cases hc : c = 'e'
    · simp only [expandE, hc, if_true, List.mem_cons, not_or]
      exact ⟨by decide, by decide, by decide, by decide, ih⟩
    · simp only [expandE, hc, if_false, List.mem_cons, not_or]
      exact ⟨fun h => hc h.symm, ih⟩

theorem length_expandE (s : List Char) :
    (expandE s).length = s.length + 3 * s.count 'e' := by
  induction s with
  | nil => simp [expandE]
  | cons c t ih =>
    by_cases hc : c = 'e'
    · simp only [expandE, hc, if_true, List.length_cons, ih, List.count_cons_self]
      omega
    · simp only [expandE, hc, if_false, List.length_cons, ih]
      rw [List.count_cons_of_ne (fun h => hc h.symm)]
      omega

theorem ReplaceScientificNotation_done {D : Type} (m m' : Model D)
    (h : ReplaceScientificNotation m = .done m') :
    m' = { m with expression_ := expandE m.expression_ } := by
  rw [ReplaceScientificNotation_eq] at h
  cases hn : NormalizeFrom [] m.expression_ with
  | done t =>
    rw [hn] at h
    simp only [Run.map, Run.done.injEq] at h
    have := NormalizeFrom_done _ _ _ hn
    simp only [List.nil_append] at this
    rw [← h, this]
  | thrown t => rw [hn] at h; simp [Run.map] at h
  | undefined => rw [hn] at h; simp [Run.map] at h
  | unfinished => rw [hn] at h; simp [Run.map] at h

theorem ReplaceScientificNotation_no_e {D : Type} (m : Model D) (h : 'e' ∉ m.expression_) :
    ReplaceScientificNotation m = .done m := by
  rw [ReplaceScientificNotation_eq, NormalizeFrom_no_e _ _ h]
  simp [Run.map]

theorem NormalizeFrom_done_or_thrown (rest : List Char) :
    ∀ pre : List Char, (∃ t, NormalizeFrom pre rest = .done t) ∨
      ∃ t, NormalizeFrom pre rest = .thrown t := by
  induction rest with
  | nil => intro pre; left; exact ⟨pre, rfl⟩
  | cons c r ih =>
    intro pre
    by_cases hc : c = 'e'
    · simp only [NormalizeFrom, hc, if_true]
      split
      · exact ih _
      · exact Or.inr ⟨_, rfl⟩
    · simp only [NormalizeFrom, hc, if_false]
      exact ih _

theorem NormalizeFrom_succeeds_iff (rest : List Char) :
    ∀ (pre : List Char) (prev : Char), pre.length ≥ 2 →
      (pre.getLastD '\x00').isDigit = prev.isDigit →
      ((∃ t, NormalizeFrom pre rest = .done t) ↔ WellPlacedE (some prev) rest) := by
  induction rest with
  | nil => intro pre prev _ _; simp [NormalizeFrom, WellPlacedE]
  | cons c r ih =>
    intro pre prev hlen hd
    by_cases hc : c = 'e'
    · subst hc
      have hih := ih (pre ++ "*10^".toList) 'e' (by simp)
        (by rw [show pre ++ "*10^".toList = (pre ++ "*10".toList) ++ ['^'] by simp,
              List.getLastD_concat]; decide)
      have hgt : decide (pre.length > 1) = true := by simp; omega
      simp only [NormalizeFrom, if_true, WellPlacedE, forall_const, Option.some.injEq,
        exists_eq_left', hgt, Bool.true_and, hd]
      by_cases hv : ((!r.isEmpty && ((r.headD '\x00').isDigit || r.headD '\x00' == '+' ||
          r.headD '\x00' == '-')) && prev.isDigit) = true
      · rw [if_pos hv, hih]
        simp only [Bool.and_eq_true, Bool.or_eq_true, beq_iff_eq] at hv
        constructor
        · intro h
          refine ⟨⟨hv.2, ?_⟩, h⟩
          cases r with
          | nil => simp at hv
          | cons n r' => exact ⟨n, rfl, by simpa [or_assoc] using hv.1.2⟩
        · intro h; exact h.2
      · rw [if_neg hv]
        simp only [Bool.and_eq_true, Bool.or_eq_true, beq_iff_eq] at hv
        constructor
        · rintro ⟨t, ht⟩
          simp at ht
        · rintro ⟨⟨h1, n, hn, h2⟩, _⟩
          exfalso
          apply hv
          cases r with
          | nil => simp at hn
          | cons n' r' =>
            simp only [List.head?_cons, Option.some.injEq] at hn
            subst hn
            refine ⟨⟨by simp, ?_⟩, h1⟩
            simpa [or_assoc] using h2
    · have hih := ih (pre ++ [c]) c (by simp; omega) (by rw [List.getLastD_concat])
      simp only [NormalizeFrom, hc, if_false, WellPlacedE, false_implies, true_and]
      exact hih

/-- The function `ReplaceScientificNotation` returns normally or throws: it has no undefined
behaviour and the loop bound of the embedding is never exhausted. -/
theorem ReplaceScientificNotation_done_or_thrown {D : Type} (m : Model D) :
    (∃ m', ReplaceScientificNotation m = .done m') ∨
      ∃ m', ReplaceScientificNotation m = .thrown m' := by
  rw [ReplaceScientificNotation_eq]
  rcases NormalizeFrom_done_or_thrown m.expression_ [] with ⟨t, h⟩ | ⟨t, h⟩ <;>
    simp [h, Run.map]

/-- Acceptance by the normalizer, as the code has it: when the character at index 1 is not
an `e`, `ReplaceScientificNotation` returns normally exactly when every `e` has a digit
before it and a digit, `+` or `-` after it; in every case it returns normally or throws. -/
theorem normalizer_acceptance_off_index_one {D : Type} (m : Model D)
    (h1 : m.expression_.getD 1 '\x00' ≠ 'e') :
    ((∃ m', ReplaceScientificNotation m = .done m') ↔ WellPlacedE none m.expression_) ∧
    ((∃ m', ReplaceScientificNotation m = .done m') ∨
      ∃ m', ReplaceScientificNotation m = .thrown m') := by
  constructor
  · rw [ReplaceScientificNotation_eq]
    have key : (∃ m', (NormalizeFrom [] m.expression_).map
        (fun e => { m with expression_ := e }) = .done m') ↔
        ∃ t, NormalizeFrom [] m.expression_ = .done t := by
      cases NormalizeFrom [] m.expression_ <;> simp [Run.map]
    rw [key]
    rcases hs : m.expression_ with _ | ⟨a, _ | ⟨b, t⟩⟩
    · simp [NormalizeFrom, WellPlacedE]
    · by_cases ha : a = 'e'
      · simp [NormalizeFrom, WellPlacedE, ha]
      · simp [NormalizeFrom, WellPlacedE, ha]
    · rw [hs] at h1
      simp only [List.getD_cons_succ, List.getD_cons_zero, ne_eq] at h1
      by_cases ha : a = 'e'
      · simp [NormalizeFrom, WellPlacedE, ha]
      · have := NormalizeFrom_succeeds_iff t [a, b] b (by simp) (by simp [List.getLastD])
        simp only [NormalizeFrom, ha, h1, if_false, List.nil_append, List.singleton_append,
          WellPlacedE, false_implies, true_and]
        exact this
  · exact ReplaceScientificNotation_done_or_thrown m

/-- C4 (the code at the failing input): `5e3` passes the validator and its only `e` has a
digit before and a digit after, yet `ReplaceScientificNotation` throws: the test
`pos > 1` rejects an `e` at index 1. -/
theorem normalizer_rejects_e_at_index_one :
    ValidateInput "5e3".toList = true ∧ WellPlacedE none "5e3".toList ∧
    ReplaceScientificNotation (holding "5e3") = .thrown (holding "5e3") := by
  refine ⟨by decide, ?_, by rfl⟩
  simp [WellPlacedE]

/-- C5: whenever `ReplaceScientificNotation` returns normally, the stored expression is the
old one with every `e` replaced by `*10^` and every other character kept in order; its
length is the old length plus three times the number of `e`; no other member changes. -/
theorem normalizer_rewrites {D : Type} (m m' : Model D)
    (h : ReplaceScientificNotation m = .done m') :
    m' = { m with expression_ := expandE m.expression_ } ∧
    m'.expression_.length = m.expression_.length + 3 * m.expression_.count 'e' := by
  have h1 := ReplaceScientificNotation_done m m' h
  refine ⟨h1, ?_⟩
  rw [h1]
  exact length_expandE _

/-- C5 at `3.96e3`, which becomes `3.96*10^3`. -/
theorem normalizer_rewrites_witness :
    ReplaceScientificNotation (holding "3.96e3") = .done (holding "3.96*10^3") ∧
    (holding "3.96*10^3" = { holding "3.96e3" with expression_ := expandE "3.96e3".toList } ∧
      "3.96*10^3".toList.length = "3.96e3".toList.length + 3 * "3.96e3".toList.count 'e') :=
  ⟨by rfl, normalizer_rewrites (holding "3.96e3") (holding "3.96*10^3") (by rfl)⟩

/-- C6: when `ReplaceScientificNotation` returns normally with expression `t`, `t` has no
`e` (so the test `c == 'e'` of the tokenizer is false at every character of `t`), and
running `ReplaceScientificNotation` again returns normally and changes nothing. -/
theorem normalizer_idempotent {D : Type} (m m' : Model D)
    (h : ReplaceScientificNotation m = .done m') :
    'e' ∉ m'.expression_ ∧ (∀ c ∈ m'.expression_, (c == 'e') = false) ∧
    ReplaceScientificNotation m' = .done m' := by
  have h1 := ReplaceScientificNotation_done m m' h
  have h2 : 'e' ∉ m'.expression_ := by
    rw [h1]
    exact not_mem_expandE _
  refine ⟨h2, ?_, ReplaceScientificNotation_no_e m' h2⟩
  intro c hc
  simp only [beq_eq_false_iff_ne, ne_eq]
  rintro rfl
  exact h2 hc

/-- C6 at `17.356e-4`. -/
theorem normalizer_idempotent_witness :
    ReplaceScientificNotation (holding "17.356e-4") = .done (holding "17.356*10^-4") ∧
    ('e' ∉ (holding "17.356*10^-4").expression_ ∧
      (∀ c ∈ (holding "17.356*10^-4").expression_, (c == 'e') = false) ∧
      ReplaceScientificNotation (holding "17.356*10^-4") = .done (holding "17.356*10^-4")) :=
  ⟨by rfl, normalizer_idempotent (holding "17.356e-4") (holding "17.356*10^-4") (by rfl)⟩

/-! ## Empty-stack reads and state left behind (C2, C3) -/

/-- C2 (the code at failing inputs): `1+`, `--1`, `cos+1` and `(*5)` pass the validator,
and evaluating them makes `Calculate` call `top()` on an empty operand stack (undefined
behaviour) instead of throwing: for `1+` the RPN is `1 +` and the second operand of `+` is
missing. -/
theorem evaluation_reads_empty_stack :
    ToPostfix exact (holding "1+") =
      .done { holding "1+" with postfix_ := [⟨['1'], 0⟩, ⟨['+'], 1⟩] } ∧
    ProcessMathExpression exact (Model.fresh exact) "1+".toList (.fin 0) = .undefined ∧
    ProcessMathExpression exact (Model.fresh exact) "--1".toList (.fin 0) = .undefined ∧
    ProcessMathExpression exact (Model.fresh exact) "cos+1".toList (.fin 0) = .undefined ∧
    ProcessMathExpression exact (Model.fresh exact) "(*5)".toList (.fin 0) = .undefined := by
  refine ⟨by rfl, by decide!, by decide!, by decide!, by decide!⟩

/-- C3 (the code at failing inputs): after the failed evaluation of `6.7.0-6` the dot
counter of the model is still 2, and after the failed evaluation of `2(3)` the operand
stack still holds a token; in both states evaluating `1+2` throws, while on a freshly
constructed model it returns 3. -/
theorem failure_leaves_state_behind :
    (∃ m, ProcessMathExpression exact (Model.fresh exact) "6.7.0-6".toList (.fin 0) = .thrown m ∧
      m.dot_count_ = 2 ∧
      ∃ m', ProcessMathExpression exact m "1+2".toList (.fin 0) = .thrown m') ∧
    (∃ m, ProcessMathExpression exact (Model.fresh exact) "2(3)".toList (.fin 0) = .thrown m ∧
      m.calculation_ = [⟨['2'], 0⟩] ∧
      ∃ m', ProcessMathExpression exact m "1+2".toList (.fin 0) = .thrown m') ∧
    (ProcessMathExpression exact (Model.fresh exact) "1+2".toList (.fin 0)).map
      (fun m => m.result_) = .done (.fin 3) := by
  refine ⟨⟨_, by with_unfolding_all rfl, by rfl, _, by with_unfolding_all rfl⟩,
    ⟨_, by with_unfolding_all rfl, by rfl, _, by with_unfolding_all rfl⟩, by decide!⟩

/-- The text of a result can outgrow the buffer of `DoubleToString`: `10e300` passes the
validator and the normalizer, `pow(10, 300)` prints with 309 characters, and `sprintf`
writes past the 255 bytes of `buff`. -/
theorem evaluation_overflows_buffer :
    ProcessMathExpression exact (Model.fresh exact) "10e300".toList (.fin 0) = .undefined ∧
    (exact.sprintf7 (exact.pow (.fin 10) (.fin 300))).length = 309 := by
  refine ⟨by decide!, by decide!⟩

/-! ## Character classes -/

theorem char_eq_of_toNat (c d : Char) (h : c.toNat = d.toNat) : c = d := by
  rw [← Char.ofNat_toNat c, ← Char.ofNat_toNat d, h]

theorem digit_cases (c : Char) (h : c.isDigit = true) :
    c = '0' ∨ c = '1' ∨ c = '2' ∨ c = '3' ∨ c = '4' ∨ c = '5' ∨ c = '6' ∨ c = '7' ∨
      c = '8' ∨ c = '9' := by
  simp only [Char.isDigit, Bool.and_eq_true, decide_eq_true_eq] at h
  obtain ⟨h1, h2⟩ := h
  have h1' : 48 ≤ c.toNat := h1
  have h2' : c.toNat ≤ 57 := h2
  have hc : c.toNat = 48 ∨ c.toNat = 49 ∨ c.toNat = 50 ∨ c.toNat = 51 ∨ c.toNat = 52 ∨
      c.toNat = 53 ∨ c.toNat = 54 ∨ c.toNat = 55 ∨ c.toNat = 56 ∨ c.toNat = 57 := by omega
  rcases hc with h | h | h | h | h | h | h | h | h | h
  · exact Or.inl (char_eq_of_toNat c '0' h)
  · exact Or.inr (Or.inl (char_eq_of_toNat c '1' h))
  · exact Or.inr (Or.inr (Or.inl (char_eq_of_toNat c '2' h)))
  · exact Or.inr (Or.inr (Or.inr (Or.inl (char_eq_of_toNat c '3' h))))
  · exact Or.inr (Or.inr (Or.inr (Or.inr (Or.inl (char_eq_of_toNat c '4' h)))))
  · exact Or.inr (Or.inr (Or.inr (Or.inr (Or.inr (Or.inl (char_eq_of_toNat c '5' h))))))
  · exact Or.inr (Or.inr (Or.inr (Or.inr (Or.inr (Or.inr (Or.inl (char_eq_of_toNat c '6' h)))))))
  · exact Or.inr (Or.inr (Or.inr (Or.inr (Or.inr (Or.inr (Or.inr
      (Or.inl (char_eq_of_toNat c '7' h))))))))
  · exact Or.inr (Or.inr (Or.inr (Or.inr (Or.inr (Or.inr (Or.inr (Or.inr
      (Or.inl (char_eq_of_toNat c '8' h)))))))))
  · exact Or.inr (Or.inr (Or.inr (Or.inr (Or.inr (Or.inr (Or.inr (Or.inr
      (Or.inr (char_eq_of_toNat c '9' h)))))))))

/-- What the loop body of `ToPostfix` tests on a digit. -/
theorem digit_class (c : Char) (h : c.isDigit = true) :
    (c == '.') = false ∧ (c == 'e') = false ∧ (c == 'x') = false ∧ c.isAlpha = false ∧
    IsOperator c = false ∧ (c == '(') = false ∧ (c == ')') = false := by
  rcases digit_cases c h with h | h | h | h | h | h | h | h | h | h <;> subst h <;> decide

theorem operator_cases (c : Char) (h : IsOperator c = true) :
    c = '+' ∨ c = '-' ∨ c = '*' ∨ c = '/' ∨ c = '^' ∨ c = '%' := by
  simpa [IsOperator, or_assoc] using h

/-- What the loop body of `ToPostfix` tests on an operator symbol. -/
theorem operator_class (c : Char) (h : IsOperator c = true) :
    c.isDigit = false ∧ (c == '.') = false ∧ (c == 'e') = false ∧ (c == 'x') = false ∧
    c.isAlpha = false ∧ (c == '(') = false ∧ (c == ')') = false := by
  rcases operator_cases c h with h | h | h | h | h | h <;> subst h <;> decide

/-- What the loop body of `ToPostfix` and the validator test on a digit or a dot. -/
theorem literal_class (c : Char) (h : c.isDigit = true ∨ c = '.') :
    c ≠ 'e' ∧ c ≠ 'x' ∧ c ≠ '(' ∧ c ≠ ')' ∧ IsOperator c = false ∧ c.isAlpha = false := by
  rcases h with h | h
  · rcases digit_cases c h with h | h | h | h | h | h | h | h | h | h <;> subst h <;> decide
  · subst h; decide

/-! ## The loop body of `ToPostfix`, case by case -/

theorem PopOperators_low (p : Int) (S O : List Token) (h : Low p S) :
    PopOperators p S O = (S, O) := by
  cases S with
  | nil => rfl
  | cons t S =>
    simp only [Low] at h
    simp only [PopOperators]
    rw [if_neg]
    rcases h with h | h
    · simp [h]
    · simp only [Bool.and_eq_true, decide_eq_true_eq, not_and]
      intro h'
      omega

theorem PopOperators_pend (p : Int) (pend : List Token) :
    ∀ (S O : List Token), HiPend p pend →
      PopOperators p (pend ++ S) O = PopOperators p S (pend.reverse ++ O) := by
  induction pend with
  | nil => intro S O _; rfl
  | cons t pend ih =>
    intro S O h
    have ht := h t (List.mem_cons_self _ _)
    rw [List.cons_append, PopOperators, if_pos (by simp [ht.1, ht.2])]
    rw [ih S (t :: O) (fun u hu => h u (List.mem_cons_of_mem _ hu))]
    simp

theorem PopToParen_pend (pend : List Token) :
    ∀ (q : Int) (S O : List Token), (∀ t ∈ pend, t.value ≠ ['(']) →
      PopToParen (pend ++ ⟨['('], q⟩ :: S) O = (⟨['('], q⟩ :: S, pend.reverse ++ O) := by
  induction pend with
  | nil => intro q S O _; simp [PopToParen]
  | cons t pend ih =>
    intro q S O h
    have ht := h t (List.mem_cons_self _ _)
    rw [List.cons_append, PopToParen, if_pos (by simp [ht])]
    rw [ih q S _ (fun u hu => h u (List.mem_cons_of_mem _ hu))]
    simp

theorem DrainOperators_eq (pend : List Token) :
    ∀ O : List Token, DrainOperators pend O = pend.reverse ++ O := by
  induction pend with
  | nil => intro O; rfl
  | cons t pend ih => intro O; simp [DrainOperators, ih]

theorem ReverseStack_eq (l : List Token) : ReverseStack l = l.reverse := by
  have key : ∀ (l acc : List Token),
      l.foldl (fun reversed_stack t => t :: reversed_stack) acc = l.reverse ++ acc := by
    intro l
    induction l with
    | nil => intro acc; rfl
    | cons t l ih => intro acc; simp [ih]
  simp [ReverseStack, key]

theorem NumberBranch_literal (c : Char) (st : Scan) (hc : c.isDigit = true ∨ c = '.') :
    NumberBranch c st = .done { st with
      number := st.number ++ [c],
      dot_count_ := st.dot_count_ + (if c == '.' && !st.number.isEmpty then 1 else 0) } := by
  have h1 : (c.isDigit || c == '.' || c == 'e') = true := by
    rcases hc with h | h <;> simp [h]
  unfold NumberBranch
  simp only [h1, if_true]
  split <;> simp

theorem NumberBranch_flush (c : Char) (st : Scan) (h1 : c.isDigit = false)
    (h2 : (c == '.') = false) (h3 : (c == 'e') = false) (hd : st.dot_count_ ≤ 1) :
    NumberBranch c st = .done st.flush := by
  have hd' : ¬ st.dot_count_ > 1 := by omega
  cases hn : st.number.isEmpty <;>
    simp [NumberBranch, Scan.flush, PushNumberToPostfix, h1, h2, h3, hn, hd']

/-- A digit or a dot, met with an empty name accumulator, only extends the number. -/
theorem step_literal {D : Type} (L : Libm D) (x_ : D) (prev : Option Char) (c next : Char)
    (st : Scan) (hc : c.isDigit = true ∨ c = '.') (hop : st.operation = []) :
    ToPostfixStep L x_ prev c next st = .done { st with
      number := st.number ++ [c],
      dot_count_ := st.dot_count_ + (if c == '.' && !st.number.isEmpty then 1 else 0) } := by
  have hcl : (c == 'x') = false ∧ c.isAlpha = false ∧ IsOperator c = false ∧
      (c == '(') = false ∧ (c == ')') = false := by
    rcases hc with h | h
    · have := digit_class c h
      tauto
    · subst h; decide
  obtain ⟨h1, h2, h3, h4, h5⟩ := hcl
  unfold ToPostfixStep
  rw [NumberBranch_literal c st hc]
  simp [Run.andThen, VariableBranch, FunctionBranch, ParenBranch, h1, h2, h3, h4, h5, hop]

theorem ToPostfixLoop_cons {D : Type} (L : Libm D) (x_ : D) (prev : Option Char) (c : Char)
    (rest : List Char) (st : Scan) :
    ToPostfixLoop L x_ prev (c :: rest) st =
      (ToPostfixStep L x_ prev c (rest.headD '\x00') st).andThen
        (ToPostfixLoop L x_ (some c) rest) := rfl

/-- A run of digits and dots, met with an empty name accumulator, is appended to the number
accumulator and counted in `dot_count_`. -/
theorem scan_literal {D : Type} (L : Libm D) (x_ : D) (lit : List Char) :
    ∀ (prev : Option Char) (rest : List Char) (st : Scan),
      (∀ c ∈ lit, c.isDigit = true ∨ c = '.') → st.operation = [] →
      ToPostfixLoop L x_ prev (lit ++ rest) st =
        ToPostfixLoop L x_ (if lit.isEmpty then prev else some (lit.getLastD '\x00')) rest
          { st with number := st.number ++ lit,
                    dot_count_ := st.dot_count_ + litDots st.number.isEmpty lit } := by
  induction lit with
  | nil => intro prev rest st _ _; simp [litDots]
  | cons c t ih =>
    intro prev rest st hl hop
    have hc := hl c (List.mem_cons_self _ _)
    rw [List.cons_append, ToPostfixLoop_cons, step_literal L x_ prev c _ st hc hop]
    simp only [Run.andThen]
    rw [ih (some c) rest { st with
        number := st.number ++ [c],
        dot_count_ := st.dot_count_ + (if c == '.' && !st.number.isEmpty then 1 else 0) }
      (fun d hd => hl d (List.mem_cons_of_mem _ hd)) hop]
    congr 1
    · cases t <;> simp [List.getLastD]
    · have he : (st.number ++ [c]).isEmpty = false := by cases st.number <;> rfl
      simp [litDots, add_assoc, he]

theorem flush_operation (st : Scan) : st.flush.operation = st.operation := by
  unfold Scan.flush
  split <;> rfl

theorem flush_operators (st : Scan) : st.flush.operators_ = st.operators_ := by
  unfold Scan.flush
  split <;> rfl

theorem flush_number (st : Scan) : st.flush.number = [] := by
  unfold Scan.flush
  split
  · rename_i h
    simpa using h
  · rfl

theorem flush_dot_count (st : Scan) (h : st.dot_count_ = 0) : st.flush.dot_count_ = 0 := by
  unfold Scan.flush
  split
  · exact h
  · rfl

theorem flush_of_empty (st : Scan) (h : st.number = []) : st.flush = st := by
  simp [Scan.flush, h]

/-- An operator symbol, met with an empty name accumulator, flushes the number and enters
the operator branch. -/
theorem step_operator {D : Type} (L : Libm D) (x_ : D) (prev : Option Char) (c next : Char)
    (st : Scan) (hc : IsOperator c = true) (hop : st.operation = [])
    (hd : st.dot_count_ ≤ 1) :
    ToPostfixStep L x_ prev c next st = OperatorBranch prev c next st.flush := by
  obtain ⟨h1, h2, h3, h4, h5, _, _⟩ := operator_class c hc
  unfold ToPostfixStep
  rw [NumberBranch_flush c st h1 h2 h3 hd]
  simp [Run.andThen, VariableBranch, FunctionBranch, h4, h5, hc, flush_operation, hop]

theorem OperatorBranch_binary (prev : Option Char) (c next : Char) (st : Scan) (p : Int)
    (hc : ¬ ((c = '+' ∨ c = '-') ∧ IsUnary prev next = true))
    (hp : SetTokenPriority [c] = some p) :
    OperatorBranch prev c next st = .done { st with
      operators_ := ⟨[c], p⟩ :: (PopOperators p st.operators_ st.postfix_).1,
      postfix_ := (PopOperators p st.operators_ st.postfix_).2 } := by
  have h1 : (c == '+' && IsUnary prev next) = false := by
    rw [Bool.and_eq_false_iff]
    by_cases h : c = '+'
    · right
      simpa using fun hu => hc ⟨Or.inl h, hu⟩
    · left
      simpa using h
  have h2 : (c == '-' && IsUnary prev next) = false := by
    rw [Bool.and_eq_false_iff]
    by_cases h : c = '-'
    · right
      simpa using fun hu => hc ⟨Or.inr h, hu⟩
    · left
      simpa using h
  simp [OperatorBranch, h1, h2, hp, PushCharToOperators]

theorem OperatorBranch_unary_minus (prev : Option Char) (next : Char) (st : Scan)
    (hu : IsUnary prev next = true) :
    OperatorBranch prev '-' next st = .done { st with
      operators_ := ⟨['~'], 4⟩ :: (PopOperators 4 st.operators_ st.postfix_).1,
      postfix_ := (PopOperators 4 st.operators_ st.postfix_).2 } := by
  have h4 : SetTokenPriority ['~'] = some 4 := by decide
  simp [OperatorBranch, hu, h4, PushCharToOperators]

theorem OperatorBranch_unary_plus (prev : Option Char) (next : Char) (st : Scan)
    (hu : IsUnary prev next = true) :
    OperatorBranch prev '+' next st = .done st := by
  simp [OperatorBranch, hu]

/-- An opening parenthesis, met with an empty name accumulator, flushes the number and is
pushed on the operator stack. -/
theorem step_lparen {D : Type} (L : Libm D) (x_ : D) (prev : Option Char) (next : Char)
    (st : Scan) (hop : st.operation = []) (hd : st.dot_count_ ≤ 1) :
    ToPostfixStep L x_ prev '(' next st =
      .done { st.flush with operators_ := ⟨['('], 6⟩ :: st.operators_ } := by
  unfold ToPostfixStep
  rw [NumberBranch_flush '(' st (by decide) (by decide) (by decide) hd]
  have h6 : SetTokenPriority ['('] = some 6 := by decide
  have e1 : IsOperator '(' = false := by decide
  have e2 : Char.isAlpha '(' = false := by decide
  simp [Run.andThen, VariableBranch, FunctionBranch, ParenBranch, PushCharToOperators,
    flush_operation, flush_operators, hop, h6, e1, e2]

/-- A closing parenthesis, met with an empty name accumulator, flushes the number and pops
the operator stack into the output down to and including the nearest `(`. -/
theorem step_rparen {D : Type} (L : Libm D) (x_ : D) (prev : Option Char) (next : Char)
    (st : Scan) (hop : st.operation = []) (hd : st.dot_count_ ≤ 1) :
    ToPostfixStep L x_ prev ')' next st =
      .done { st.flush with
        operators_ := (PopToParen st.operators_ st.flush.postfix_).1.tail,
        postfix_ := (PopToParen st.operators_ st.flush.postfix_).2 } := by
  unfold ToPostfixStep
  rw [NumberBranch_flush ')' st (by decide) (by decide) (by decide) hd]
  have e1 : IsOperator ')' = false := by decide
  have e2 : Char.isAlpha ')' = false := by decide
  simp [Run.andThen, VariableBranch, FunctionBranch, ParenBranch,
    flush_operation, flush_operators, hop, e1, e2]

/-- The variable `x`, met with an empty name accumulator, flushes the number and pushes
the text of `x_` as a number token. -/
theorem step_variable {D : Type} (L : Libm D) (x_ : D) (prev : Option Char) (next : Char)
    (st : Scan) (s : List Char) (hs : DoubleToString L x_ = some s)
    (hop : st.operation = []) (hd : st.dot_count_ ≤ 1) :
    ToPostfixStep L x_ prev 'x' next st =
      .done { st.flush with postfix_ := ⟨s, 0⟩ :: st.flush.postfix_ } := by
  unfold ToPostfixStep
  rw [NumberBranch_flush 'x' st (by decide) (by decide) (by decide) hd]
  have e1 : IsOperator 'x' = false := by decide
  simp [Run.andThen, VariableBranch, FunctionBranch, ParenBranch,
    flush_operation, hop, e1, hs]

theorem ToPostfixFinish_eq (st : Scan) (hop : st.operation = []) (hd : st.dot_count_ ≤ 1) :
    ToPostfixFinish st = .done { st.flush with
      operators_ := [],
      postfix_ := (st.operators_.reverse ++ st.flush.postfix_).reverse } := by
  have hd' : ¬ st.dot_count_ > 1 := by omega
  unfold ToPostfixFinish
  cases hn : st.number.isEmpty <;>
    simp [Scan.flush, PushNumberToPostfix, Run.andThen, hn, hd', hop, DrainOperators_eq,
      ReverseStack_eq]

/-- The function `ToPostfix` from the outcome of its `for` loop, when the loop ends with an
empty name accumulator and at most one dot counted. -/
theorem ToPostfix_of_loop {D : Type} (L : Libm D) (m : Model D) (st : Scan)
    (h : ToPostfixLoop L m.x_ none m.expression_
      { number := [], operation := [], dot_count_ := m.dot_count_, postfix_ := m.postfix_,
        operators_ := m.operators_ } = .done st)
    (hop : st.operation = []) (hd : st.dot_count_ ≤ 1) :
    ToPostfix L m = .done { m with
      dot_count_ := st.flush.dot_count_,
      postfix_ := (st.operators_.reverse ++ st.flush.postfix_).reverse,
      operators_ := [] } := by
  unfold ToPostfix
  rw [h]
  simp only [Run.andThen]
  rw [ToPostfixFinish_eq st hop hd]
  rfl

theorem CalculateLoop_cons {D : Type} (L : Libm D) (t : Token) (postfix_ : List Token)
    (m : Model D) :
    CalculateLoop L (t :: postfix_) m =
      (CalculateStep L t { m with postfix_ := t :: postfix_ }).andThen fun m =>
        CalculateLoop L postfix_ { m with postfix_ := postfix_ } := rfl

/-! ## Two literals and one operator -/

theorem ProcessMathExpression_of_valid {D : Type} (L : Libm D) (e : List Char) (x : D)
    (h : ValidateInput e = true) :
    ProcessMathExpression L (Model.fresh L) e x =
      CalculateMathExpression L (Model.holding L x e) := by
  simp [ProcessMathExpression, SetInput, h, Run.andThen, SetX, Model.holding]

theorem litDots_le (a : List Char) : ∀ emp : Bool, litDots emp a ≤ a.count '.' := by
  induction a with
  | nil => intro emp; simp [litDots]
  | cons c t ih =>
    intro emp
    have := ih false
    by_cases hc : c = '.'
    · subst hc
      simp only [litDots, List.count_cons_self]
      split <;> push_cast <;> omega
    · have h1 : (c == '.') = false := by simpa using hc
      simp only [litDots, h1, Bool.false_and, Bool.false_eq_true, if_false]
      rw [List.count_cons_of_ne (fun h => hc h.symm)]
      omega

theorem litDots_nonneg (a : List Char) : ∀ emp : Bool, 0 ≤ litDots emp a := by
  induction a with
  | nil => intro emp; simp [litDots]
  | cons c t ih =>
    intro emp
    have := ih false
    simp only [litDots]
    split <;> omega

theorem NumericLiteral.ne_nil {a : List Char} (h : NumericLiteral a) : a ≠ [] := by
  obtain ⟨_, _, c, hc, _⟩ := h
  rintro rfl
  simp at hc

theorem NumericLiteral.dots {a : List Char} (h : NumericLiteral a) (emp : Bool) :
    litDots emp a ≤ 1 := by
  have h1 := litDots_le a emp
  have h2 := h.2.1
  omega

theorem getLastD_mem {a : List Char} (h : a ≠ []) (d : Char) : a.getLastD d ∈ a := by
  rw [List.getLastD_eq_getLast?, List.getLast?_eq_getLast _ h]
  exact List.getLast_mem h

theorem headD_mem {a : List Char} (h : a ≠ []) (d : Char) : a.headD d ∈ a := by
  cases a with
  | nil => exact absurd rfl h
  | cons c t => simp

/-- The `for` loop of `ToPostfix` on `a op b` with `a` and `b` numeric literals and `op` a
binary operator symbol, from clean stacks. -/
theorem loop_binary_literals {D : Type} (L : Libm D) (x_ : D) (a b : List Char) (op : Char)
    (p : Int) (ha : NumericLiteral a) (hb : NumericLiteral b) (hop : IsOperator op = true)
    (hp : SetTokenPriority [op] = some p) :
    ToPostfixLoop L x_ none (a ++ op :: b)
      { number := [], operation := [], dot_count_ := 0, postfix_ := [], operators_ := [] } =
      .done { number := b, operation := [], dot_count_ := litDots true b,
              postfix_ := [⟨a, 0⟩], operators_ := [⟨[op], p⟩] } := by
  have hane := ha.ne_nil
  have hbne := hb.ne_nil
  rw [scan_literal L x_ a none (op :: b) _ ha.1 rfl]
  have hnotun : IsUnary (some (a.getLastD '\x00')) (b.headD '\x00') = false := by
    have h1 := literal_class _ (ha.1 _ (getLastD_mem hane '\x00'))
    have h2 := literal_class _ (hb.1 _ (headD_mem hbne '\x00'))
    have e : (a.getLastD '\x00' == '(') = false := beq_false_of_ne h1.2.2.1
    simp only [IsUnary, e, h1.2.2.2.2.1, h2.2.2.2.2.1, Bool.or_false]
  have hemp : a.isEmpty = false := by cases a <;> simp at hane ⊢
  simp only [hemp, Bool.false_eq_true, if_false, List.nil_append, List.isEmpty_nil, zero_add]
  rw [ToPostfixLoop_cons, step_operator L x_ _ op _ _ hop rfl (ha.dots true)]
  rw [OperatorBranch_binary _ op _ _ p (by rintro ⟨_, h⟩; rw [hnotun] at h; cases h) hp]
  simp only [Run.andThen, Scan.flush, hemp, Bool.false_eq_true, if_false, PopOperators]
  have := scan_literal L x_ b (some op) []
    { number := [], operation := [], dot_count_ := 0, postfix_ := [⟨a, 0⟩],
      operators_ := [⟨[op], p⟩] } hb.1 rfl
  simp only [List.append_nil, List.nil_append, List.isEmpty_nil, zero_add] at this
  rw [this]
  rfl

/-- The function `ToPostfix` on `a op b`: the RPN sequence is `a b op`. -/
theorem ToPostfix_binary_literals {D : Type} (L : Libm D) (x : D) (a b : List Char) (op : Char)
    (p : Int) (ha : NumericLiteral a) (hb : NumericLiteral b) (hop : IsOperator op = true)
    (hp : SetTokenPriority [op] = some p) :
    ToPostfix L (Model.holding L x (a ++ op :: b)) =
      .done { Model.holding L x (a ++ op :: b) with
        postfix_ := [⟨a, 0⟩, ⟨b, 0⟩, ⟨[op], p⟩] } := by
  have hl := loop_binary_literals L x a b op p ha hb hop hp
  have hbne := hb.ne_nil
  have hemp : b.isEmpty = false := by cases b <;> simp at hbne ⊢
  rw [ToPostfix_of_loop L (Model.holding L x (a ++ op :: b)) _ hl rfl (hb.dots true)]
  simp [Scan.flush, hemp, Model.holding, Model.fresh]

theorem ValidateInput_binary_literals (a b : List Char) (op : Char) (ha : NumericLiteral a)
    (hb : NumericLiteral b) (hop : IsOperator op = true)
    (hlen : a.length + b.length + 1 ≤ 255) : ValidateInput (a ++ op :: b) = true := by
  rw [ValidateInput_iff]
  have hcl : ∀ c ∈ a ++ op :: b, c ≠ '(' ∧ c ≠ ')' := by
    intro c hc
    simp only [List.mem_append, List.mem_cons] at hc
    rcases hc with h | h | h
    · have := literal_class c (ha.1 c h)
      exact ⟨this.2.2.1, this.2.2.2.1⟩
    · subst h
      have := operator_class c hop
      exact ⟨by simpa using this.2.2.2.2.2.1, by simpa using this.2.2.2.2.2.2⟩
    · have := literal_class c (hb.1 c h)
      exact ⟨this.2.2.1, this.2.2.2.1⟩
  refine ⟨⟨by simp; omega, by simp; omega⟩, ?_, ?_, ?_⟩
  · rw [List.count_eq_zero_of_not_mem (fun h => (hcl _ h).1 rfl),
      List.count_eq_zero_of_not_mem (fun h => (hcl _ h).2 rfl)]
  · obtain ⟨_, _, c, hc, hd⟩ := ha
    exact ⟨c, by simp [hc], Or.inl ((isDigit_iff c).mp hd)⟩
  · intro c hc
    have hane := ha.ne_nil
    cases a with
    | nil => exact absurd rfl hane
    | cons d t =>
      simp only [List.cons_append, List.head?_cons, Option.some.injEq] at hc
      subst hc
      have := literal_class d (ha.1 d (List.mem_cons_self _ _))
      have h5 := this.2.2.2.2.1
      simp only [IsOperator, Bool.or_eq_false_iff, beq_eq_false_iff_ne, ne_eq] at h5
      tauto

theorem not_mem_e_binary_literals (a b : List Char) (op : Char) (ha : NumericLiteral a)
    (hb : NumericLiteral b) (hop : IsOperator op = true) : 'e' ∉ a ++ op :: b := by
  intro h
  simp only [List.mem_append, List.mem_cons] at h
  rcases h with h | h | h
  · exact (literal_class _ (ha.1 _ h)).1 rfl
  · subst h
    exact absurd hop (by decide)
  · exact (literal_class _ (hb.1 _ h)).1 rfl

/-- The function `Calculate` on the RPN sequence `a b op`. -/
theorem Calculate_binary {D : Type} (L : Libm D) (m : Model D) (a b : List Char) (op : Char)
    (p : Int) (va vb r : D) (s : List Char) (hp : p ≠ 0) (hop : IsOperator op = true)
    (hva : L.stod a = some va) (hvb : L.stod b = some vb)
    (hs : DoubleToString L (ArithmeticResult L va vb op) = some s) (hr : L.stod s = some r)
    (hpf : m.postfix_ = [⟨a, 0⟩, ⟨b, 0⟩, ⟨[op], p⟩]) (hc : m.calculation_ = []) :
    Calculate L m = .done { m with postfix_ := [], calculation_ := [], result_ := r } := by
  have hp' : (p == 0) = false := by simpa using hp
  simp [Calculate, hpf, CalculateLoop, CalculateStep, Run.andThen, hc, hp', hop, hva, hvb,
    PushResult, hs, hr]

/-- Evaluating `a op b` for numeric literals `a`, `b` and a binary operator symbol `op`:
the value returned is the operator's result printed by `DoubleToString` and read back. -/
theorem evaluate_binary_literals {D : Type} (L : Libm D) (x : D) (a b : List Char) (op : Char)
    (p : Int) (va vb r : D) (s : List Char) (ha : NumericLiteral a) (hb : NumericLiteral b)
    (hop : IsOperator op = true) (hp : SetTokenPriority [op] = some p)
    (hlen : a.length + b.length + 1 ≤ 255)
    (hva : L.stod a = some va) (hvb : L.stod b = some vb)
    (hs : DoubleToString L (ArithmeticResult L va vb op) = some s) (hr : L.stod s = some r) :
    ProcessMathExpression L (Model.fresh L) (a ++ op :: b) x =
      .done { Model.holding L x (a ++ op :: b) with result_ := r } := by
  rw [ProcessMathExpression_of_valid L _ _ (ValidateInput_binary_literals a b op ha hb hop hlen)]
  unfold CalculateMathExpression
  rw [ReplaceScientificNotation_no_e _ (not_mem_e_binary_literals a b op ha hb hop)]
  rw [Run.done_andThen, ToPostfix_binary_literals L x a b op p ha hb hop hp, Run.done_andThen]
  have hp0 : p ≠ 0 := by
    rcases operator_cases op hop with h | h | h | h | h | h <;> subst h <;>
      simp [SetTokenPriority, priorities_, List.lookup] at hp <;> omega
  rw [Calculate_binary L _ a b op p va vb r s hp0 hop hva hvb hs hr rfl rfl]
  rfl

/-! ## Power, modulo and the free variable (C9, C10) -/

/-- C9 as stated fails: `0.1^8` returns 0 although `pow(0.1, 8)` is 0.00000001, and
`0.00000001%1` returns 0 although `fmod(0.00000001, 1)` is 0.00000001: the operator's
result goes through `DoubleToString`, which keeps 7 decimals. -/
theorem power_result_is_rounded :
    returned (ProcessMathExpression exact (Model.fresh exact) "0.1^8".toList (.fin 0)) =
      .done (.fin 0) ∧
    exact.stod "0.1".toList = some (.fin (1 / 10)) ∧ exact.stod "8".toList = some (.fin 8) ∧
    exact.pow (.fin (1 / 10)) (.fin 8) = .fin (1 / 100000000) ∧
    returned (ProcessMathExpression exact (Model.fresh exact) "0.00000001%1".toList (.fin 0)) =
      .done (.fin 0) ∧
    exact.stod "0.00000001".toList = some (.fin (1 / 100000000)) ∧
    exact.stod "1".toList = some (.fin 1) ∧
    exact.fmod (.fin (1 / 100000000)) (.fin 1) = .fin (1 / 100000000) ∧
    Dbl.fin (1 / 100000000) ≠ .fin 0 := by
  refine ⟨by decide!, by decide!, by decide!, by decide!, by decide!, by decide!, by decide!,
    by decide!, by decide!⟩

/-- C9, amended: for numeric literals `a` and `b` that `std::stod` reads as `va` and `vb`,
evaluating `a^b` returns `pow(va, vb)` printed with 7 decimals by `DoubleToString` and read
back by `std::stod`, and evaluating `a%b` returns `fmod(va, vb)` printed and read back the
same way (provided the text fits the buffer of `DoubleToString`). -/
theorem power_and_modulo_rounded {D : Type} (L : Libm D) (x : D) (a b : List Char) (va vb : D)
    (ha : NumericLiteral a) (hb : NumericLiteral b) (hlen : a.length + b.length + 1 ≤ 255)
    (hva : L.stod a = some va) (hvb : L.stod b = some vb) :
    (∀ s r, DoubleToString L (L.pow va vb) = some s → L.stod s = some r →
      ProcessMathExpression L (Model.fresh L) (a ++ '^' :: b) x =
        .done { Model.holding L x (a ++ '^' :: b) with result_ := r }) ∧
    (∀ s r, DoubleToString L (L.fmod va vb) = some s → L.stod s = some r →
      ProcessMathExpression L (Model.fresh L) (a ++ '%' :: b) x =
        .done { Model.holding L x (a ++ '%' :: b) with result_ := r }) := by
  constructor
  · intro s r hs hr
    exact evaluate_binary_literals L x a b '^' 3 va vb r s ha hb (by decide) (by decide) hlen
      hva hvb hs hr
  · intro s r hs hr
    exact evaluate_binary_literals L x a b '%' 2 va vb r s ha hb (by decide) (by decide) hlen
      hva hvb hs hr

/-- C9, amended, at `101%10`, which returns 1. -/
theorem power_and_modulo_rounded_witness :
    ProcessMathExpression exact (Model.fresh exact) "101%10".toList (.fin 0) =
      .done { Model.holding exact (.fin 0) "101%10".toList with result_ := .fin 1 } :=
  (power_and_modulo_rounded exact (.fin 0) "101".toList "10".toList (.fin 101) (.fin 10)
    (by unfold NumericLiteral; decide) (by unfold NumericLiteral; decide) (by decide)
    (by decide!) (by decide!)).2 "1.0000000".toList (.fin 1) (by decide!) (by decide!)

/-- C10 as stated fails: with `x = 0.00000001` evaluating `x` returns 0, not the value of
the variable. -/
theorem variable_value_is_rounded :
    returned (ProcessMathExpression exact (Model.fresh exact) "x".toList
      (.fin (1 / 100000000))) = .done (.fin 0) ∧
    Dbl.fin (1 / 100000000) ≠ .fin 0 := by
  refine ⟨by decide!, by decide!⟩

/-- C10, amended: for every variable value `v` whose text `s = DoubleToString(v)` fits the
buffer, each `x` becomes a number token (priority 0) with text `s`; evaluating `x`
returns `s` read back by `std::stod`, that is `v` rounded to 7 decimals; and `x^x` with
`x = 8` returns 16777216. -/
theorem variable_value {D : Type} (L : Libm D) (v r : D) (s : List Char)
    (hs : DoubleToString L v = some s) (hr : L.stod s = some r) :
    (∀ st : Scan, VariableBranch L v 'x' st =
      .done { st with postfix_ := ⟨s, 0⟩ :: st.postfix_ }) ∧
    ProcessMathExpression L (Model.fresh L) ['x'] v =
      .done { Model.holding L v ['x'] with result_ := r } ∧
    returned (ProcessMathExpression exact (Model.fresh exact) "x^x".toList (.fin 8)) =
      .done (.fin 16777216) := by
  refine ⟨?_, ?_, by decide!⟩
  · intro st
    simp [VariableBranch, hs]
  · rw [ProcessMathExpression_of_valid L _ _ (by decide)]
    unfold CalculateMathExpression
    rw [ReplaceScientificNotation_no_e _ (show 'e' ∉ ['x'] by decide)]
    simp only [Run.andThen]
    have hl : ToPostfixLoop L (Model.holding L v ['x']).x_ none
        (Model.holding L v ['x']).expression_
        { number := [], operation := [], dot_count_ := (Model.holding L v ['x']).dot_count_,
          postfix_ := (Model.holding L v ['x']).postfix_,
          operators_ := (Model.holding L v ['x']).operators_ } =
        .done { number := [], operation := [], dot_count_ := 0, postfix_ := [⟨s, 0⟩],
                operators_ := [] } := by
      simp only [Model.holding, Model.fresh]
      rw [ToPostfixLoop_cons, step_variable L v none _ _ s hs rfl (by simp)]
      rfl
    rw [ToPostfix_of_loop L _ _ hl rfl (by simp)]
    simp [Calculate, CalculateLoop, CalculateStep, Run.andThen, Scan.flush, hr, Model.holding,
      Model.fresh]

/-- C10, amended, at `x = 8`. -/
theorem variable_value_witness :
    DoubleToString exact (.fin 8) = some "8.0000000".toList ∧
    ProcessMathExpression exact (Model.fresh exact) ['x'] (.fin 8) =
      .done { Model.holding exact (.fin 8) ['x'] with result_ := .fin 8 } :=
  ⟨by decide!, (variable_value exact (.fin 8) (.fin 8) "8.0000000".toList (by decide!)
    (by decide!)).2.1⟩

/-! ## Negative-exponent literals (C7) -/

/-- The loop of `ToPostfix` over `A*10^` from clean stacks: `A` and `10` are in the
output, `^` and `*` wait on the operator stack. -/
theorem loop_mantissa_times_ten {D : Type} (L : Libm D) (x_ : D) (A rest : List Char)
    (hA : NumericLiteral A) :
    ToPostfixLoop L x_ none (A ++ '*' :: '1' :: '0' :: '^' :: rest) (Scan.mk [] [] 0 [] []) =
    ToPostfixLoop L x_ (some '^') rest
      (Scan.mk [] [] 0 [⟨['1', '0'], 0⟩, ⟨A, 0⟩] [⟨['^'], 3⟩, ⟨['*'], 2⟩]) := by
  have hane := hA.ne_nil
  have hemp : A.isEmpty = false := by cases A <;> simp at hane ⊢
  have hd : ¬ litDots true A > 1 := by have := hA.dots true; omega
  rw [scan_literal L x_ A none _ _ hA.1 rfl]
  simp [ToPostfixLoop_cons, ToPostfixStep, NumberBranch, VariableBranch, FunctionBranch,
    OperatorBranch, ParenBranch, PushNumberToPostfix, PushCharToOperators,
    PushOperationToOperators, hemp, hd, IsUnary, IsOperator, SetTokenPriority, priorities_,
    PopOperators, Run.andThen, List.lookup]

/-- The function `ToPostfix` on the normalized form `A*10^-B` of `Ae-B`. -/
theorem ToPostfix_negative_exponent {D : Type} (L : Libm D) (x : D) (A B : List Char)
    (hA : NumericLiteral A) (hB : NumericLiteral B) :
    ToPostfix L (Model.holding L x (A ++ '*' :: '1' :: '0' :: '^' :: '-' :: B)) =
      .done { Model.holding L x (A ++ '*' :: '1' :: '0' :: '^' :: '-' :: B) with
        postfix_ := [⟨A, 0⟩, ⟨['1', '0'], 0⟩, ⟨B, 0⟩, ⟨['~'], 4⟩, ⟨['^'], 3⟩, ⟨['*'], 2⟩] } := by
  have hbne := hB.ne_nil
  have hemp : B.isEmpty = false := by cases B <;> simp at hbne ⊢
  have hl : ToPostfixLoop L x none (A ++ '*' :: '1' :: '0' :: '^' :: '-' :: B)
      (Scan.mk [] [] 0 [] []) =
      .done (Scan.mk B [] (litDots true B) [⟨['1', '0'], 0⟩, ⟨A, 0⟩]
        [⟨['~'], 4⟩, ⟨['^'], 3⟩, ⟨['*'], 2⟩]) := by
    rw [loop_mantissa_times_ten L x A _ hA, ToPostfixLoop_cons]
    have hs : ToPostfixStep L x (some '^') '-' (B.headD '\x00')
        (Scan.mk [] [] 0 [⟨['1', '0'], 0⟩, ⟨A, 0⟩] [⟨['^'], 3⟩, ⟨['*'], 2⟩]) =
        .done (Scan.mk [] [] 0 [⟨['1', '0'], 0⟩, ⟨A, 0⟩]
          [⟨['~'], 4⟩, ⟨['^'], 3⟩, ⟨['*'], 2⟩]) := by
      simp [ToPostfixStep, NumberBranch, VariableBranch, FunctionBranch, OperatorBranch,
        ParenBranch, PushNumberToPostfix, PushCharToOperators, PushOperationToOperators,
        IsUnary, IsOperator, SetTokenPriority, priorities_, PopOperators, Run.andThen,
        List.lookup]
    rw [hs, Run.done_andThen]
    have hb := scan_literal L x B (some '-') []
      (Scan.mk [] [] 0 [⟨['1', '0'], 0⟩, ⟨A, 0⟩] [⟨['~'], 4⟩, ⟨['^'], 3⟩, ⟨['*'], 2⟩]) hB.1 rfl
    simp only [List.append_nil, List.nil_append, List.isEmpty_nil, zero_add] at hb
    exact hb
  rw [ToPostfix_of_loop L (Model.holding L x _) _ hl rfl (hB.dots true)]
  simp [Scan.flush, hemp, Model.holding, Model.fresh]

/-- The function `ToPostfix` on `A*10^(-B)`. -/
theorem ToPostfix_parenthesised_exponent {D : Type} (L : Libm D) (x : D) (A B : List Char)
    (hA : NumericLiteral A) (hB : NumericLiteral B) :
    ToPostfix L
      (Model.holding L x (A ++ '*' :: '1' :: '0' :: '^' :: '(' :: '-' :: (B ++ [')']))) =
      .done { Model.holding L x
          (A ++ '*' :: '1' :: '0' :: '^' :: '(' :: '-' :: (B ++ [')'])) with
        postfix_ := [⟨A, 0⟩, ⟨['1', '0'], 0⟩, ⟨B, 0⟩, ⟨['~'], 4⟩, ⟨['^'], 3⟩, ⟨['*'], 2⟩] } := by
  have hbne := hB.ne_nil
  have hemp : B.isEmpty = false := by cases B <;> simp at hbne ⊢
  have hd : ¬ litDots true B > 1 := by have := hB.dots true; omega
  have hl : ToPostfixLoop L x none
      (A ++ '*' :: '1' :: '0' :: '^' :: '(' :: '-' :: (B ++ [')'])) (Scan.mk [] [] 0 [] []) =
      .done (Scan.mk [] [] 0 [⟨['~'], 4⟩, ⟨B, 0⟩, ⟨['1', '0'], 0⟩, ⟨A, 0⟩]
        [⟨['^'], 3⟩, ⟨['*'], 2⟩]) := by
    rw [loop_mantissa_times_ten L x A _ hA]
    have hs : ToPostfixLoop L x (some '^') ('(' :: '-' :: (B ++ [')']))
        (Scan.mk [] [] 0 [⟨['1', '0'], 0⟩, ⟨A, 0⟩] [⟨['^'], 3⟩, ⟨['*'], 2⟩]) =
        ToPostfixLoop L x (some '-') (B ++ [')'])
          (Scan.mk [] [] 0 [⟨['1', '0'], 0⟩, ⟨A, 0⟩]
            [⟨['~'], 4⟩, ⟨['('], 6⟩, ⟨['^'], 3⟩, ⟨['*'], 2⟩]) := by
      simp [ToPostfixLoop_cons, ToPostfixStep, NumberBranch, VariableBranch, FunctionBranch,
        OperatorBranch, ParenBranch, PushNumberToPostfix, PushCharToOperators,
        PushOperationToOperators, IsUnary, IsOperator, SetTokenPriority, priorities_,
        PopOperators, Run.andThen, List.lookup]
    rw [hs]
    have hb := scan_literal L x B (some '-') [')']
      (Scan.mk [] [] 0 [⟨['1', '0'], 0⟩, ⟨A, 0⟩]
        [⟨['~'], 4⟩, ⟨['('], 6⟩, ⟨['^'], 3⟩, ⟨['*'], 2⟩]) hB.1 rfl
    simp only [List.nil_append, List.isEmpty_nil, zero_add, hemp, Bool.false_eq_true,
      if_false] at hb
    rw [hb]
    simp [ToPostfixLoop_cons, ToPostfixStep, NumberBranch, VariableBranch, FunctionBranch,
      OperatorBranch, ParenBranch, PushNumberToPostfix, PushCharToOperators,
      PushOperationToOperators, IsUnary, IsOperator, SetTokenPriority, priorities_,
      PopToParen, Run.andThen, List.lookup, hemp, hd, ToPostfixLoop]
  rw [ToPostfix_of_loop L (Model.holding L x _) _ hl rfl (by simp)]
  simp [Scan.flush, Model.holding, Model.fresh]

theorem CalculateStep_expression {D : Type} (L : Libm D) (t : Token) (m : Model D)
    (e : List Char) :
    CalculateStep L t { m with expression_ := e } =
      (CalculateStep L t m).map (fun m' => { m' with expression_ := e }) := by
  unfold CalculateStep
  simp only [PushResult]
  repeat' split
  all_goals simp_all [Run.map]

theorem CalculateLoop_expression {D : Type} (L : Libm D) (postfix_ : List Token) :
    ∀ (m : Model D) (e : List Char),
      CalculateLoop L postfix_ { m with expression_ := e } =
        (CalculateLoop L postfix_ m).map (fun m' => { m' with expression_ := e }) := by
  induction postfix_ with
  | nil => intro m e; rfl
  | cons t rest ih =>
    intro m e
    rw [CalculateLoop_cons, CalculateLoop_cons]
    have h := CalculateStep_expression L t { m with postfix_ := t :: rest } e
    simp only at h
    rw [h]
    cases CalculateStep L t { m with postfix_ := t :: rest } with
    | done m1 =>
      simp only [Run.map, Run.andThen]
      exact ih { m1 with postfix_ := rest } e
    | thrown m1 => rfl
    | undefined => rfl
    | unfinished => rfl

/-- The function `Calculate` does not read `expression_`. -/
theorem Calculate_expression {D : Type} (L : Libm D) (m : Model D) (e : List Char) :
    Calculate L { m with expression_ := e } =
      (Calculate L m).map (fun m' => { m' with expression_ := e }) := by
  unfold Calculate
  have h := CalculateLoop_expression L m.postfix_ m e
  simp only at h ⊢
  rw [h]
  cases CalculateLoop L m.postfix_ m with
  | done m1 =>
    simp only [Run.map, Run.andThen]
    rcases hc : m1.calculation_ with _ | ⟨a, calc1⟩
    · rfl
    · cases hs : L.stod a.value with
      | none => simp [hs, hc]
      | some r => cases hq : calc1.isEmpty <;> simp [hs, hq]
  | thrown m1 => rfl
  | undefined => rfl
  | unfinished => rfl

theorem returned_map_expression {D : Type} (r : Run (Model D)) (e : List Char) :
    returned (r.map (fun m' => { m' with expression_ := e })) = returned r := by
  cases r <;> rfl

theorem expandE_append_of_not_mem (a rest : List Char) (h : 'e' ∉ a) :
    expandE (a ++ rest) = a ++ expandE rest := by
  induction a with
  | nil => rfl
  | cons c t ih =>
    simp only [List.mem_cons, not_or] at h
    have hc : c ≠ 'e' := fun h' => h.1 h'.symm
    simp [expandE, hc, ih h.2]

theorem expandE_of_not_mem (a : List Char) (h : 'e' ∉ a) : expandE a = a := by
  have := expandE_append_of_not_mem a [] h
  simpa [expandE] using this

theorem NumericLiteral.not_mem_e {a : List Char} (h : NumericLiteral a) : 'e' ∉ a :=
  fun hm => (literal_class _ (h.1 _ hm)).1 rfl

/-- C7: for numeric literals `A` and `B` such that the normalizer accepts `Ae-B`, the
tokenizer produces for `Ae-B` and for `A*10^(-B)` the same RPN sequence `A 10 B ~ ^ *`, and
evaluating the two expressions gives the same outcome (the same value, or the same
failure). -/
theorem negative_exponent_as_power {D : Type} (L : Libm D) (x : D) (A B : List Char)
    (hA : NumericLiteral A) (hB : NumericLiteral B)
    (hacc : ∃ m', ReplaceScientificNotation (Model.holding L x (A ++ 'e' :: '-' :: B)) =
      .done m') :
    (ReplaceScientificNotation (Model.holding L x (A ++ 'e' :: '-' :: B))).andThen
        (ToPostfix L) =
      .done { Model.holding L x (A ++ '*' :: '1' :: '0' :: '^' :: '-' :: B) with
        postfix_ := exponentRPN A B } ∧
    (ReplaceScientificNotation (Model.holding L x
        (A ++ '*' :: '1' :: '0' :: '^' :: '(' :: '-' :: (B ++ [')'])))).andThen (ToPostfix L) =
      .done { Model.holding L x
          (A ++ '*' :: '1' :: '0' :: '^' :: '(' :: '-' :: (B ++ [')'])) with
        postfix_ := exponentRPN A B } ∧
    returned (CalculateMathExpression L (Model.holding L x (A ++ 'e' :: '-' :: B))) =
      returned (CalculateMathExpression L (Model.holding L x
        (A ++ '*' :: '1' :: '0' :: '^' :: '(' :: '-' :: (B ++ [')'])))) := by
  obtain ⟨m', hm'⟩ := hacc
  have hexp : expandE (A ++ 'e' :: '-' :: B) = A ++ '*' :: '1' :: '0' :: '^' :: '-' :: B := by
    rw [expandE_append_of_not_mem _ _ hA.not_mem_e]
    simp [expandE, expandE_of_not_mem B hB.not_mem_e]
  have h1 : ReplaceScientificNotation (Model.holding L x (A ++ 'e' :: '-' :: B)) =
      .done (Model.holding L x (A ++ '*' :: '1' :: '0' :: '^' :: '-' :: B)) := by
    rw [hm', ReplaceScientificNotation_done _ _ hm']
    simp only [Model.holding]
    rw [hexp]
  have hne : 'e' ∉ A ++ '*' :: '1' :: '0' :: '^' :: '(' :: '-' :: (B ++ [')']) := by
    intro h
    simp only [List.mem_append, List.mem_cons, List.mem_singleton] at h
    rcases h with h | h | h | h | h | h | h | h | h
    · exact hA.not_mem_e h
    · exact absurd h (by decide)
    · exact absurd h (by decide)
    · exact absurd h (by decide)
    · exact absurd h (by decide)
    · exact absurd h (by decide)
    · exact absurd h (by decide)
    · exact hB.not_mem_e h
    · exact absurd h (by decide)
  have h2 : ReplaceScientificNotation (Model.holding L x
      (A ++ '*' :: '1' :: '0' :: '^' :: '(' :: '-' :: (B ++ [')']))) =
      .done (Model.holding L x (A ++ '*' :: '1' :: '0' :: '^' :: '(' :: '-' :: (B ++ [')']))) :=
    ReplaceScientificNotation_no_e _ hne
  have t1 := ToPostfix_negative_exponent L x A B hA hB
  have t2 := ToPostfix_parenthesised_exponent L x A B hA hB
  refine ⟨?_, ?_, ?_⟩
  · rw [h1, Run.done_andThen, t1]
    rfl
  · rw [h2, Run.done_andThen, t2]
    rfl
  · unfold CalculateMathExpression
    rw [h1, h2, Run.done_andThen, Run.done_andThen, t1, t2, Run.done_andThen, Run.done_andThen]
    have := Calculate_expression L
      { Model.holding L x (A ++ '*' :: '1' :: '0' :: '^' :: '-' :: B) with
        postfix_ := exponentRPN A B }
      (A ++ '*' :: '1' :: '0' :: '^' :: '(' :: '-' :: (B ++ [')']))
    simp only [Model.holding, exponentRPN] at this ⊢
    rw [this, returned_map_expression]

/-- C7 at `17.356e-4` and `17.356*10^(-4)`, which both return 0.0017356. -/
theorem negative_exponent_as_power_witness :
    returned (CalculateMathExpression exact (Model.holding exact (.fin 0) "17.356e-4".toList)) =
      .done (.fin (17356 / 10000000)) ∧
    returned (CalculateMathExpression exact (Model.holding exact (.fin 0) "17.356e-4".toList)) =
      returned (CalculateMathExpression exact
        (Model.holding exact (.fin 0) "17.356*10^(-4)".toList)) :=
  ⟨by decide!, (negative_exponent_as_power exact (.fin 0) "17.356".toList "4".toList
    (by unfold NumericLiteral; decide) (by unfold NumericLiteral; decide)
    ⟨_, by rfl⟩).2.2⟩

/-! ## Arithmetic expressions (C8) -/

theorem BinOp.isOperator_sym (op : BinOp) : IsOperator op.sym = true := by
  cases op <;> decide

theorem BinOp.priority_sym (op : BinOp) : SetTokenPriority [op.sym] = some op.prio := by
  cases op <;> decide

theorem BinOp.prio_pos (op : BinOp) : 1 ≤ op.prio := by
  cases op <;> decide

theorem BinOp.arithmetic_sym {D : Type} (L : Libm D) (op : BinOp) (a b : D) :
    ArithmeticResult L a b op.sym = op.apply L a b := by
  cases op <;> simp [ArithmeticResult, BinOp.sym, BinOp.apply]

theorem Low_mono {p q : Int} {S : List Token} (h : Low p S) (hpq : p ≤ q) : Low q S := by
  cases S with
  | nil => trivial
  | cons t S =>
    simp only [Low] at h ⊢
    rcases h with h | h
    · exact Or.inl h
    · exact Or.inr (by omega)

theorem litDots_digits (ds : List Char) (h : ∀ c ∈ ds, c.isDigit = true) :
    ∀ emp : Bool, litDots emp ds = 0 := by
  induction ds with
  | nil => intro emp; rfl
  | cons c t ih =>
    intro emp
    have hc := (digit_class c (h c (List.mem_cons_self _ _))).1
    simp [litDots, hc, ih (fun d hd => h d (List.mem_cons_of_mem _ hd))]

theorem Expr.wf_num {ds : List Char} (h : (Expr.num ds).WellFormed = true) :
    ds ≠ [] ∧ ∀ c ∈ ds, c.isDigit = true := by
  simp only [Expr.WellFormed, Bool.and_eq_true, Bool.not_eq_true', List.all_eq_true] at h
  refine ⟨?_, h.2⟩
  rintro rfl
  simp at h

theorem Expr.wf_bin {l r : Expr} {op : BinOp} (h : (Expr.bin l op r).WellFormed = true) :
    l.WellFormed = true ∧ r.WellFormed = true ∧ op.prio ≤ l.level ∧ op.prio < r.level := by
  simpa [Expr.WellFormed, and_assoc] using h

/-- The text of a well-formed expression starts with a digit or `(`. -/
theorem Expr.print_head (e : Expr) (h : e.WellFormed = true) :
    ∃ c t, e.print = c :: t ∧ (c.isDigit = true ∨ c = '(') := by
  induction e with
  | num ds =>
    obtain ⟨h1, h2⟩ := Expr.wf_num h
    cases ds with
    | nil => exact absurd rfl h1
    | cons c t => exact ⟨c, t, rfl, Or.inl (h2 c (List.mem_cons_self _ _))⟩
  | paren e _ => exact ⟨'(', _, rfl, Or.inr rfl⟩
  | bin l op r ihl _ =>
    obtain ⟨c, t, hp, hc⟩ := ihl (Expr.wf_bin h).1
    exact ⟨c, t ++ op.sym :: r.print, by simp [Expr.print, hp], hc⟩

theorem not_unary_between (p n : Char) (hp : p.isDigit = true ∨ p = ')')
    (hn : n.isDigit = true ∨ n = '(') : IsUnary (some p) n = false := by
  have h1 : (p == '(') = false ∧ IsOperator p = false := by
    rcases hp with h | h
    · have := digit_class p h
      exact ⟨this.2.2.2.2.2.1, this.2.2.2.2.1⟩
    · subst h; decide
  have h2 : IsOperator n = false := by
    rcases hn with h | h
    · exact (digit_class n h).2.2.2.2.1
    · subst h; decide
  simp only [IsUnary, h1.1, h1.2, h2, Bool.or_false]

/-- The `for` loop of `ToPostfix` over the text of a well-formed expression `e`, entered
with empty accumulators and an operator stack that does not yield to the operators of `e`.
It leaves on the operator stack, above what was there, operators of `e` that any later
operator of the enclosing expression pops; the output with these operators drained is the
old output followed by the RPN sequence of `e`. -/
theorem loop_expr {D : Type} (L : Libm D) (x_ : D) (e : Expr) :
    e.WellFormed = true → ∀ (prev : Option Char) (rest : List Char) (st : Scan),
      st.number = [] → st.operation = [] → st.dot_count_ = 0 → Low e.level st.operators_ →
      ∃ (st' : Scan) (p : Char),
        ToPostfixLoop L x_ prev (e.print ++ rest) st = ToPostfixLoop L x_ (some p) rest st' ∧
        (p.isDigit = true ∨ p = ')') ∧ st'.operation = [] ∧ st'.dot_count_ = 0 ∧
        ∃ pend, st'.operators_ = pend ++ st.operators_ ∧ HiPend e.level pend ∧
          pend.reverse ++ st'.flush.postfix_ = e.rpn.reverse ++ st.postfix_ := by
  induction e with
  | num ds =>
    intro hwf prev rest st hn hop hd _
    obtain ⟨hne, hdig⟩ := Expr.wf_num hwf
    have hemp : ds.isEmpty = false := by cases ds <;> simp at hne ⊢
    refine ⟨{ st with number := ds }, ds.getLastD '\x00', ?_,
      Or.inl (hdig _ (getLastD_mem hne _)), hop, hd, [], rfl, ?_, ?_⟩
    · show ToPostfixLoop L x_ prev (ds ++ rest) st = _
      rw [scan_literal L x_ ds prev rest st (fun c hc => Or.inl (hdig c hc)) hop]
      simp [hemp, hn, litDots_digits ds hdig, hd]
    · intro t ht
      simp at ht
    · simp [Scan.flush, hemp, Expr.rpn]
  | paren e ih =>
    intro hwf prev rest st hn hop hd _
    have hwf' : e.WellFormed = true := hwf
    have e1 : (Expr.paren e).print ++ rest = '(' :: (e.print ++ ')' :: rest) := by
      simp [Expr.print]
    rw [e1, ToPostfixLoop_cons, step_lparen L x_ prev _ st hop (by omega), Run.done_andThen,
      flush_of_empty st hn]
    obtain ⟨st2, p2, hl2, _, hop2, hd2, pend2, hops2, hpend2, hout2⟩ :=
      ih hwf' (some '(') (')' :: rest) { st with operators_ := ⟨['('], 6⟩ :: st.operators_ }
        hn hop hd (Or.inl rfl)
    rw [hl2, ToPostfixLoop_cons, step_rparen L x_ _ _ st2 hop2 (by omega), Run.done_andThen]
    simp only at hops2 hout2
    rw [hops2, PopToParen_pend pend2 6 st.operators_ _ (fun t ht => (hpend2 t ht).2)]
    refine ⟨_, ')', rfl, Or.inr rfl, ?_, ?_, [], ?_, ?_, ?_⟩
    · simp [flush_operation, hop2]
    · simp [flush_dot_count st2 hd2]
    · simp
    · intro t ht
      simp at ht
    · have hf := flush_number st2
      generalize st2.flush = f at hf hout2 ⊢
      simpa [Scan.flush, hf, Expr.rpn] using hout2
  | bin l op r ihl ihr =>
    intro hwf prev rest st hn hop hd hlow
    obtain ⟨hwl, hwr, hpl, hpr⟩ := Expr.wf_bin hwf
    have hlow' : Low op.prio st.operators_ := hlow
    have e1 : (Expr.bin l op r).print ++ rest = l.print ++ op.sym :: (r.print ++ rest) := by
      simp [Expr.print]
    rw [e1]
    obtain ⟨st1, p1, hl1, hp1, hop1, hd1, pend1, hops1, hpend1, hout1⟩ :=
      ihl hwl prev (op.sym :: (r.print ++ rest)) st hn hop hd (Low_mono hlow' hpl)
    obtain ⟨c, t, hrp, hc⟩ := Expr.print_head r hwr
    have hnext : (r.print ++ rest).headD '\x00' = c := by simp [hrp]
    rw [hl1, ToPostfixLoop_cons, step_operator L x_ _ _ _ st1 op.isOperator_sym hop1 (by omega),
      hnext, OperatorBranch_binary _ _ _ _ op.prio
        (by rintro ⟨_, h⟩; rw [not_unary_between p1 c hp1 hc] at h; cases h)
        op.priority_sym,
      Run.done_andThen, flush_operators, hops1,
      PopOperators_pend op.prio pend1 st.operators_ _
        (fun t ht => ⟨le_trans hpl (hpend1 t ht).1, (hpend1 t ht).2⟩),
      PopOperators_low op.prio st.operators_ _ hlow', hout1]
    obtain ⟨st3, p3, hl3, hp3, hop3, hd3, pend3, hops3, hpend3, hout3⟩ :=
      ihr hwr (some op.sym) rest
        { st1.flush with operators_ := ⟨[op.sym], op.prio⟩ :: st.operators_,
                         postfix_ := l.rpn.reverse ++ st.postfix_ }
        (flush_number st1) (by rw [flush_operation]; exact hop1) (flush_dot_count st1 hd1)
        (Or.inr hpr)
    refine ⟨st3, p3, hl3, hp3, hop3, hd3, pend3 ++ [⟨[op.sym], op.prio⟩], ?_, ?_, ?_⟩
    · simp [hops3]
    · intro t ht
      simp only [List.mem_append, List.mem_singleton] at ht
      rcases ht with ht | ht
      · exact ⟨le_of_lt (lt_of_lt_of_le hpr (hpend3 t ht).1), (hpend3 t ht).2⟩
      · subst ht
        refine ⟨le_refl _, ?_⟩
        cases op <;> decide
    · simp only at hout3
      simp [hout3, Expr.rpn]

/-- The function `ToPostfix` on the text of a well-formed expression: the RPN sequence of its
tree. -/
theorem ToPostfix_expr {D : Type} (L : Libm D) (x : D) (e : Expr) (hwf : e.WellFormed = true) :
    ToPostfix L (Model.holding L x e.print) =
      .done { Model.holding L x e.print with postfix_ := e.rpn } := by
  obtain ⟨st', p, hl, _, hop, hd, pend, hops, _, hout⟩ :=
    loop_expr L x e hwf none [] (Scan.mk [] [] 0 [] []) rfl rfl rfl trivial
  simp only [List.append_nil] at hl hops hout
  have hl' : ToPostfixLoop L (Model.holding L x e.print).x_ none
      (Model.holding L x e.print).expression_
      { number := [], operation := [], dot_count_ := (Model.holding L x e.print).dot_count_,
        postfix_ := (Model.holding L x e.print).postfix_,
        operators_ := (Model.holding L x e.print).operators_ } = .done st' := by
    simp only [Model.holding, Model.fresh]
    rw [hl]
    rfl
  rw [ToPostfix_of_loop L _ st' hl' hop (by omega), hops, hout, flush_dot_count st' hd]
  simp [Model.holding, Model.fresh]

theorem Expr.print_chars (e : Expr) (hwf : e.WellFormed = true) :
    ∀ c ∈ e.print, c.isDigit = true ∨ IsOperator c = true ∨ c = '(' ∨ c = ')' := by
  induction e with
  | num ds =>
    intro c hc
    exact Or.inl ((Expr.wf_num hwf).2 c hc)
  | paren e ih =>
    intro c hc
    simp only [Expr.print, List.mem_cons, List.mem_append, List.mem_singleton] at hc
    rcases hc with h | h | h
    · exact Or.inr (Or.inr (Or.inl h))
    · exact ih hwf c h
    · simp at h
      exact Or.inr (Or.inr (Or.inr h))
  | bin l op r ihl ihr =>
    intro c hc
    obtain ⟨hwl, hwr, _, _⟩ := Expr.wf_bin hwf
    simp only [Expr.print, List.mem_cons, List.mem_append] at hc
    rcases hc with h | h | h
    · exact ihl hwl c h
    · subst h
      exact Or.inr (Or.inl op.isOperator_sym)
    · exact ihr hwr c h

theorem Expr.print_balanced (e : Expr) (hwf : e.WellFormed = true) :
    e.print.count '(' = e.print.count ')' := by
  induction e with
  | num ds =>
    have h1 : '(' ∉ ds := fun h => absurd ((Expr.wf_num hwf).2 _ h) (by decide)
    have h2 : ')' ∉ ds := fun h => absurd ((Expr.wf_num hwf).2 _ h) (by decide)
    simp [Expr.print, List.count_eq_zero_of_not_mem h1, List.count_eq_zero_of_not_mem h2]
  | paren e ih =>
    have := ih hwf
    simp [Expr.print, List.count_cons, List.count_append, this]
  | bin l op r ihl ihr =>
    obtain ⟨hwl, hwr, _, _⟩ := Expr.wf_bin hwf
    have h1 := ihl hwl
    have h2 := ihr hwr
    have h3 : (op.sym == '(') = false := by cases op <;> decide
    have h4 : (op.sym == ')') = false := by cases op <;> decide
    simp [Expr.print, List.count_cons, List.count_append, h1, h2, h3, h4]

theorem Expr.print_has_digit (e : Expr) (hwf : e.WellFormed = true) :
    ∃ c ∈ e.print, c.isDigit = true := by
  induction e with
  | num ds =>
    obtain ⟨h1, h2⟩ := Expr.wf_num hwf
    cases ds with
    | nil => exact absurd rfl h1
    | cons c t => exact ⟨c, List.mem_cons_self _ _, h2 c (List.mem_cons_self _ _)⟩
  | paren e ih =>
    obtain ⟨c, hc, hd⟩ := ih hwf
    exact ⟨c, by simp [Expr.print, hc], hd⟩
  | bin l op r ihl _ =>
    obtain ⟨c, hc, hd⟩ := ihl (Expr.wf_bin hwf).1
    exact ⟨c, by simp [Expr.print, hc], hd⟩

theorem ValidateInput_expr (e : Expr) (hwf : e.WellFormed = true)
    (hlen : e.print.length ≤ 255) : ValidateInput e.print = true := by
  rw [ValidateInput_iff]
  obtain ⟨c, t, hp, hc⟩ := Expr.print_head e hwf
  refine ⟨⟨by simp [hp], hlen⟩, Expr.print_balanced e hwf, ?_, ?_⟩
  · obtain ⟨d, hd, hdig⟩ := Expr.print_has_digit e hwf
    exact ⟨d, hd, Or.inl ((isDigit_iff d).mp hdig)⟩
  · intro d hd
    rw [hp] at hd
    simp only [List.head?_cons, Option.some.injEq] at hd
    subst hd
    rcases hc with h | h
    · have h5 := (digit_class c h).2.2.2.2.1
      simp only [IsOperator, Bool.or_eq_false_iff, beq_eq_false_iff_ne, ne_eq] at h5
      tauto
    · subst h
      decide

theorem Expr.print_without_e (e : Expr) (hwf : e.WellFormed = true) : 'e' ∉ e.print := by
  intro h
  rcases Expr.print_chars e hwf _ h with h | h | h | h
  · exact absurd h (by decide)
  · exact absurd h (by decide)
  · exact absurd h (by decide)
  · exact absurd h (by decide)

/-- The `while` loop of `Calculate` over the RPN sequence of an expression whose texts all
fit and read back: the text of the expression's value is pushed on the operand stack. -/
theorem CalculateLoop_expr {D : Type} (L : Libm D) (e : Expr) :
    ∀ (t : List Char), e.text L = some t → ∀ (rest : List Token) (m : Model D),
      CalculateLoop L (e.rpn ++ rest) m =
        CalculateLoop L rest
          { m with postfix_ := rest, calculation_ := ⟨t, 0⟩ :: m.calculation_ } := by
  induction e with
  | num ds =>
    intro t ht rest m
    simp only [Expr.text, Option.some.injEq] at ht
    subst ht
    simp [Expr.rpn, CalculateLoop_cons, CalculateStep, Run.andThen]
  | paren e ih =>
    intro t ht rest m
    exact ih t ht rest m
  | bin l op r ihl ihr =>
    intro t ht rest m
    simp only [Expr.text] at ht
    cases hl : l.text L with
    | none => simp [hl] at ht
    | some tl =>
      cases hr : r.text L with
      | none => simp [hl, hr] at ht
      | some tr =>
        cases ha : L.stod tl with
        | none => simp [hl, hr, ha] at ht
        | some a =>
          cases hb : L.stod tr with
          | none => simp [hl, hr, ha, hb] at ht
          | some b =>
            simp only [hl, hr, ha, hb] at ht
            have e1 : (Expr.bin l op r).rpn ++ rest =
                l.rpn ++ (r.rpn ++ ⟨[op.sym], op.prio⟩ :: rest) := by
              simp [Expr.rpn]
            rw [e1, ihl tl hl, ihr tr hr, CalculateLoop_cons]
            have hp : (op.prio == 0) = false := by cases op <;> decide
            simp [CalculateStep, hp, op.isOperator_sym, ha, hb, PushResult,
              BinOp.arithmetic_sym, ht, Run.andThen]

theorem Expr.roundedValue_eq {D : Type} (L : Libm D) (e : Expr) :
    e.roundedValue L = (e.text L).bind L.stod := by
  induction e with
  | num ds => rfl
  | paren e ih => exact ih
  | bin l op r ihl ihr =>
    simp only [Expr.roundedValue, Expr.text, ihl, ihr]
    cases l.text L with
    | none => rfl
    | some tl =>
      cases r.text L with
      | none => simp
      | some tr =>
        simp only [Option.some_bind]
        cases L.stod tl <;> cases L.stod tr <;> rfl

/-- The function `Calculate` on the RPN sequence of an expression, from an empty operand stack. -/
theorem Calculate_expr {D : Type} (L : Libm D) (e : Expr) (v : D) (m : Model D)
    (hv : e.roundedValue L = some v) (hpf : m.postfix_ = e.rpn) (hc : m.calculation_ = []) :
    Calculate L m = .done { m with postfix_ := [], calculation_ := [], result_ := v } := by
  rw [Expr.roundedValue_eq] at hv
  cases ht : e.text L with
  | none => simp [ht] at hv
  | some t =>
    simp only [ht, Option.some_bind] at hv
    have := CalculateLoop_expr L e t ht [] m
    simp only [List.append_nil] at this
    simp [Calculate, hpf, this, CalculateLoop, Run.andThen, hv, hc]

/-- C8 as stated fails: `1/3*3` is 1 in standard infix arithmetic and the code returns
0.9999999, the quotient having been cut to 7 decimals before the multiplication. -/
theorem arithmetic_is_rounded :
    (Expr.bin (.bin (.num ['1']) .div (.num ['3'])) .mul (.num ['3'])).WellFormed = true ∧
    (Expr.bin (.bin (.num ['1']) .div (.num ['3'])) .mul (.num ['3'])).print =
      "1/3*3".toList ∧
    (Expr.bin (.bin (.num ['1']) .div (.num ['3'])) .mul (.num ['3'])).standardValue exact =
      some (.fin 1) ∧
    returned (ProcessMathExpression exact (Model.fresh exact) "1/3*3".toList (.fin 0)) =
      .done (.fin (9999999 / 10000000)) ∧
    Dbl.fin (9999999 / 10000000) ≠ .fin 1 := by
  refine ⟨by decide, by decide, by decide!, by decide!, by decide!⟩

/-- C8, amended: for every well-formed expression over digits, `+ - * /` and parentheses
whose text has at most 255 characters, `CalculateMathExpression` returns the value of
infix arithmetic with conventional precedence in which the result of every operator is
printed with 7 decimals by `DoubleToString` and read back (whenever these texts fit the
buffer and read back), and leaves the stacks empty. -/
theorem arithmetic_expression_value {D : Type} (L : Libm D) (x : D) (e : Expr) (v : D)
    (hwf : e.WellFormed = true) (hlen : e.print.length ≤ 255)
    (hv : e.roundedValue L = some v) :
    ProcessMathExpression L (Model.fresh L) e.print x =
      .done { Model.holding L x e.print with result_ := v } := by
  rw [ProcessMathExpression_of_valid L _ _ (ValidateInput_expr e hwf hlen)]
  unfold CalculateMathExpression
  rw [ReplaceScientificNotation_no_e _ (Expr.print_without_e e hwf), Run.done_andThen,
    ToPostfix_expr L x e hwf, Run.done_andThen,
    Calculate_expr L e v _ hv rfl rfl]
  rfl

/-- C8, amended, at `5*(28-(9-(5-(1+1))))`, which returns 110. -/
theorem arithmetic_expression_value_witness :
    ProcessMathExpression exact (Model.fresh exact) "5*(28-(9-(5-(1+1))))".toList (.fin 0) =
      .done { Model.holding exact (.fin 0) "5*(28-(9-(5-(1+1))))".toList with
        result_ := .fin 110 } :=
  arithmetic_expression_value exact (.fin 0) nestedDifference (.fin 110) (by decide) (by decide)
    (by decide!)

/-! ## The final check of `Calculate` (C13) -/

/-- C13: when the scan of `Calculate` has ended normally with operand stack `calculation_`,
`Calculate` returns normally only if exactly one value is on that stack (and then returns
it), and it throws `std::invalid_argument` whenever two or more values are on it. -/
theorem single_remaining_value {D : Type} (L : Libm D) (m m1 : Model D)
    (h : CalculateLoop L m.postfix_ m = .done m1) :
    (∀ m', Calculate L m = .done m' →
      ∃ a, m1.calculation_ = [a] ∧ L.stod a.value = some m'.result_) ∧
    (2 ≤ m1.calculation_.length → ∃ m', Calculate L m = .thrown m') := by
  unfold Calculate
  rw [h, Run.done_andThen]
  rcases hc : m1.calculation_ with _ | ⟨a, _ | ⟨b, rest⟩⟩
  · simp
  · cases hs : L.stod a.value with
    | none => simp [hs]
    | some r =>
      simp only [hs, List.isEmpty_nil, if_true, Run.done.injEq, List.length_singleton]
      constructor
      · rintro m' rfl
        exact ⟨a, rfl, hs⟩
      · intro h2
        omega
  · cases hs : L.stod a.value with
    | none => simp [hs]
    | some r => simp [hs]

/-- C13 at the RPN sequence `2 3` of `2(3)`: two values remain and `Calculate` throws. -/
theorem single_remaining_value_witness :
    ToPostfix exact (holding "2(3)") =
      .done { holding "2(3)" with postfix_ := [⟨['2'], 0⟩, ⟨['3'], 0⟩] } ∧
    ∃ m', Calculate exact { holding "2(3)" with postfix_ := [⟨['2'], 0⟩, ⟨['3'], 0⟩] } =
      .thrown m' :=
  ⟨by rfl, (single_remaining_value exact
    { holding "2(3)" with postfix_ := [⟨['2'], 0⟩, ⟨['3'], 0⟩] }
    { holding "2(3)" with postfix_ := [], calculation_ := [⟨['3'], 0⟩, ⟨['2'], 0⟩] }
    (by rfl)).2 (by decide)⟩

/-! ## The operator table and the tokens of the tokenizer (C20) -/

theorem lookup_cons_ite (k key : List Char) (v : Int) (rest : List (List Char × Int)) :
    List.lookup k ((key, v) :: rest) = if k = key then some v else List.lookup k rest := by
  by_cases h : k = key
  · subst h
    simp [List.lookup]
  · have : (k == key) = false := by simpa using h
    simp [List.lookup, this, h]

theorem lookup_nil_none (k : List Char) :
    List.lookup k ([] : List (List Char × Int)) = none := rfl

/-- The table of the code is the table of the specification. -/
theorem SetTokenPriority_eq_spec (k : List Char) : SetTokenPriority k = specPriority k := by
  by_cases hk : k ∈ priorities_.map Prod.fst
  · simp only [priorities_, List.map, List.mem_cons, List.mem_singleton, List.not_mem_nil,
      or_false] at hk
    rcases hk with h | h | h | h | h | h | h | h | h | h | h | h | h | h | h | h | h | h <;>
      subst h <;> decide
  · simp only [priorities_, List.map, List.mem_cons, List.mem_singleton, List.not_mem_nil,
      or_false, not_or] at hk
    obtain ⟨h1, h2, h3, h4, h5, h6, h7, h8, h9, h10, h11, h12, h13, h14, h15, h16, h17, h18⟩ := hk
    simp only [SetTokenPriority, priorities_, lookup_cons_ite, specPriority, List.mem_cons,
      List.mem_singleton, List.not_mem_nil, or_false,
      h1, h2, h3, h4, h5, h6, h7, h8, h9, h10, h11, h12, h13, h14, h15, h16, h17, h18,
      if_false, or_self, lookup_nil_none]

theorem SetTokenPriority_ne_zero (k : List Char) : SetTokenPriority k ≠ some 0 := by
  rw [SetTokenPriority_eq_spec]
  unfold specPriority
  repeat' split
  all_goals simp

theorem Run.All_andThen {σ : Type} (P : σ → Prop) (r : Run σ) (f : σ → Run σ)
    (hr : r.All P) (hf : ∀ s, P s → (f s).All P) : (r.andThen f).All P := by
  cases r with
  | done s => exact hf s hr
  | thrown s => exact hr
  | undefined => trivial
  | unfinished => trivial

theorem PopOperators_mem (p : Int) (ops : List Token) :
    ∀ post : List Token,
      (∀ t ∈ (PopOperators p ops post).1, t ∈ ops) ∧
      (∀ t ∈ (PopOperators p ops post).2, t ∈ ops ∨ t ∈ post) := by
  induction ops with
  | nil => intro post; simp [PopOperators]
  | cons a ops ih =>
    intro post
    rw [PopOperators]
    split
    · obtain ⟨h1, h2⟩ := ih (a :: post)
      constructor
      · intro t ht
        exact List.mem_cons_of_mem _ (h1 t ht)
      · intro t ht
        rcases h2 t ht with h | h
        · exact Or.inl (List.mem_cons_of_mem _ h)
        · rcases List.mem_cons.mp h with h | h
          · exact Or.inl (h ▸ List.mem_cons_self _ _)
          · exact Or.inr h
    · exact ⟨fun t ht => ht, fun t ht => Or.inr ht⟩

theorem PopToParen_mem (ops : List Token) :
    ∀ post : List Token,
      (∀ t ∈ (PopToParen ops post).1, t ∈ ops) ∧
      (∀ t ∈ (PopToParen ops post).2, t ∈ ops ∨ t ∈ post) := by
  induction ops with
  | nil => intro post; simp [PopToParen]
  | cons a ops ih =>
    intro post
    rw [PopToParen]
    split
    · obtain ⟨h1, h2⟩ := ih (⟨a.value, a.priority⟩ :: post)
      constructor
      · intro t ht
        exact List.mem_cons_of_mem _ (h1 t ht)
      · intro t ht
        rcases h2 t ht with h | h
        · exact Or.inl (List.mem_cons_of_mem _ h)
        · rcases List.mem_cons.mp h with h | h
          · exact Or.inl (h ▸ List.mem_cons_self _ _)
          · exact Or.inr h
    · exact ⟨fun t ht => ht, fun t ht => Or.inr ht⟩

theorem TokensOk_push_operator (st : Scan) (k : List Char) (p : Int) (h : TokensOk st)
    (hk : SetTokenPriority k = some p) :
    TokensOk { st with operators_ := ⟨k, p⟩ :: st.operators_ } := by
  refine ⟨?_, h.2⟩
  intro t ht
  rcases List.mem_cons.mp ht with h1 | h1
  · subst h1
    exact hk
  · exact h.1 t h1

theorem TokensOk_push_number (st : Scan) (s : List Char) (h : TokensOk st) :
    TokensOk { st with postfix_ := ⟨s, 0⟩ :: st.postfix_ } := by
  refine ⟨h.1, ?_⟩
  intro t ht
  rcases List.mem_cons.mp ht with h1 | h1
  · subst h1
    exact Or.inl rfl
  · exact h.2 t h1

theorem NumberBranch_ok (c : Char) (st : Scan) (h : TokensOk st) :
    (NumberBranch c st).All TokensOk := by
  have key : ∀ st' : Scan, st'.operators_ = st.operators_ →
      (st'.postfix_ = st.postfix_ ∨ st'.postfix_ = ⟨st.number, 0⟩ :: st.postfix_) →
      TokensOk st' := by
    intro st' h1 h2
    refine ⟨by rw [h1]; exact h.1, ?_⟩
    rcases h2 with h2 | h2
    · rw [h2]
      exact h.2
    · rw [h2]
      exact (TokensOk_push_number st st.number h).2
  unfold NumberBranch PushNumberToPostfix
  simp only
  split_ifs <;> first
    | exact key _ rfl (Or.inl rfl)
    | exact key _ rfl (Or.inr rfl)

theorem VariableBranch_ok {D : Type} (L : Libm D) (x_ : D) (c : Char) (st : Scan)
    (h : TokensOk st) : (VariableBranch L x_ c st).All TokensOk := by
  unfold VariableBranch
  split
  · split
    · trivial
    · exact TokensOk_push_number _ _ h
  · exact h

theorem PushOperationToOperators_ok (st : Scan) (h : TokensOk st) :
    (PushOperationToOperators st).All TokensOk := by
  unfold PushOperationToOperators
  split
  · exact h
  · rename_i p hp
    exact TokensOk_push_operator { st with operation := [] } st.operation p h hp

theorem FunctionBranch_ok (c : Char) (st : Scan) (h : TokensOk st) :
    (FunctionBranch c st).All TokensOk := by
  unfold FunctionBranch
  split
  · exact h
  · split
    · exact PushOperationToOperators_ok st h
    · exact h

theorem PushCharToOperators_ok (c : Char) (st : Scan) (h : TokensOk st) :
    (PushCharToOperators st c).All TokensOk := by
  unfold PushCharToOperators
  split
  · exact h
  · rename_i p hp
    exact TokensOk_push_operator st [c] p h hp

theorem TokensOk_pop (st : Scan) (r : List Token × List Token) (h : TokensOk st)
    (h1 : ∀ t ∈ r.1, t ∈ st.operators_)
    (h2 : ∀ t ∈ r.2, t ∈ st.operators_ ∨ t ∈ st.postfix_) :
    TokensOk { st with operators_ := r.1, postfix_ := r.2 } := by
  constructor
  · intro t ht
    exact h.1 t (h1 t ht)
  · intro t ht
    rcases h2 t ht with h3 | h3
    · exact Or.inr (h.1 t h3)
    · exact h.2 t h3

theorem OperatorBranch_ok (prev : Option Char) (c next : Char) (st : Scan) (h : TokensOk st) :
    (OperatorBranch prev c next st).All TokensOk := by
  unfold OperatorBranch
  split
  · exact h
  · simp only
    split
    · exact h
    · have hm := PopOperators_mem (by assumption) st.operators_ st.postfix_
      exact PushCharToOperators_ok _ _ (TokensOk_pop st _ h hm.1 hm.2)

theorem ParenBranch_ok (c : Char) (st : Scan) (h : TokensOk st) :
    (ParenBranch c st).All TokensOk := by
  unfold ParenBranch
  apply Run.All_andThen
  · split
    · exact PushCharToOperators_ok _ _ h
    · exact h
  · intro s hs
    split
    · have hm := PopToParen_mem s.operators_ s.postfix_
      refine TokensOk_pop s ((PopToParen s.operators_ s.postfix_).1.tail,
        (PopToParen s.operators_ s.postfix_).2) hs ?_ hm.2
      intro t ht
      exact hm.1 t (List.mem_of_mem_tail ht)
    · exact hs

theorem ToPostfixStep_ok {D : Type} (L : Libm D) (x_ : D) (prev : Option Char) (c next : Char)
    (st : Scan) (h : TokensOk st) : (ToPostfixStep L x_ prev c next st).All TokensOk := by
  unfold ToPostfixStep
  apply Run.All_andThen
  · apply Run.All_andThen
    · apply Run.All_andThen
      · exact NumberBranch_ok c st h
      · exact fun s hs => VariableBranch_ok L x_ c s hs
    · exact fun s hs => FunctionBranch_ok c s hs
  · intro s hs
    split
    · exact OperatorBranch_ok prev c next s hs
    · exact ParenBranch_ok c s hs

theorem ToPostfixLoop_ok {D : Type} (L : Libm D) (x_ : D) (rest : List Char) :
    ∀ (prev : Option Char) (st : Scan), TokensOk st →
      (ToPostfixLoop L x_ prev rest st).All TokensOk := by
  induction rest with
  | nil => intro prev st h; exact h
  | cons c rest ih =>
    intro prev st h
    rw [ToPostfixLoop_cons]
    exact Run.All_andThen _ _ _ (ToPostfixStep_ok L x_ prev c _ st h) (fun s hs => ih _ s hs)

theorem ToPostfixFinish_ok (st : Scan) (h : TokensOk st) :
    (ToPostfixFinish st).All TokensOk := by
  unfold ToPostfixFinish
  apply Run.All_andThen
  · unfold PushNumberToPostfix
    split
    · split
      · exact h
      · exact TokensOk_push_number _ _ h
    · exact h
  · intro s hs
    apply Run.All_andThen
    · split
      · exact PushOperationToOperators_ok s hs
      · exact hs
    · intro s' hs'
      constructor
      · intro t ht
        cases ht
      · intro t ht
        simp only [ReverseStack_eq, DrainOperators_eq, List.mem_reverse, List.mem_append] at ht
        rcases ht with h1 | h1
        · exact Or.inr (hs'.1 t h1)
        · exact hs'.2 t h1

theorem ToPostfix_ok {D : Type} (L : Libm D) (m : Model D)
    (hops : ∀ t ∈ m.operators_, TableToken t)
    (hpf : ∀ t ∈ m.postfix_, t.priority = 0 ∨ TableToken t) :
    (ToPostfix L m).All (fun m' => (∀ t ∈ m'.operators_, TableToken t) ∧
      ∀ t ∈ m'.postfix_, t.priority = 0 ∨ TableToken t) := by
  have h0 : TokensOk (Scan.mk [] [] m.dot_count_ m.postfix_ m.operators_) := ⟨hops, hpf⟩
  have h1 := Run.All_andThen TokensOk _ ToPostfixFinish
    (ToPostfixLoop_ok L m.x_ m.expression_ none _ h0) ToPostfixFinish_ok
  unfold ToPostfix
  revert h1
  generalize (ToPostfixLoop L m.x_ none m.expression_ _).andThen ToPostfixFinish = r
  intro h1
  cases r with
  | done s => exact h1
  | thrown s => exact h1
  | undefined => trivial
  | unfinished => trivial

/-- C20: the operator table is the table of the specification and has no entry of
precedence 0; a name that is not in the table makes `PushOperationToOperators` throw; and
when `ToPostfix` starts from stacks that hold only table tokens (operator stack) and number
or table tokens (output), then, whether it returns or throws, every token it leaves on the
operator stack is a table token and every token of the output is either a number token of
precedence 0 or a table token of precedence other than 0, never both. -/
theorem operator_table_invariant {D : Type} (L : Libm D) (m : Model D)
    (hops : ∀ t ∈ m.operators_, TableToken t)
    (hpf : ∀ t ∈ m.postfix_, t.priority = 0 ∨ TableToken t) :
    (∀ k, SetTokenPriority k = specPriority k) ∧
    (∀ k, SetTokenPriority k ≠ some 0) ∧
    (∀ st : Scan, SetTokenPriority st.operation = none →
      PushOperationToOperators st = .thrown st) ∧
    (∀ m', ToPostfix L m = .done m' ∨ ToPostfix L m = .thrown m' →
      (∀ t ∈ m'.operators_, TableToken t) ∧
      ∀ t ∈ m'.postfix_, (t.priority = 0 ∧ ¬ TableToken t) ∨
        (TableToken t ∧ t.priority ≠ 0)) := by
  refine ⟨SetTokenPriority_eq_spec, SetTokenPriority_ne_zero, ?_, ?_⟩
  · intro st h
    simp [PushOperationToOperators, h]
  · intro m' hm'
    have h := ToPostfix_ok L m hops hpf
    have h' : (∀ t ∈ m'.operators_, TableToken t) ∧
        ∀ t ∈ m'.postfix_, t.priority = 0 ∨ TableToken t := by
      rcases hm' with e | e <;> rw [e] at h <;> exact h
    refine ⟨h'.1, ?_⟩
    intro t ht
    have hz : TableToken t → t.priority ≠ 0 := by
      intro ht' h0
      unfold TableToken at ht'
      rw [h0] at ht'
      exact SetTokenPriority_ne_zero _ ht'
    rcases h'.2 t ht with h0 | h1
    · exact Or.inl ⟨h0, fun ht' => hz ht' h0⟩
    · exact Or.inr ⟨h1, hz h1⟩

/-- C20 at `3*sin(cos(tan(10)))` on a freshly constructed model. -/
theorem operator_table_invariant_witness :
    ToPostfix exact (holding "3*sin(cos(tan(10)))") =
      .done { holding "3*sin(cos(tan(10)))" with
        postfix_ := [⟨['3'], 0⟩, ⟨['1', '0'], 0⟩, ⟨"tan".toList, 5⟩, ⟨"cos".toList, 5⟩,
          ⟨"sin".toList, 5⟩, ⟨['*'], 2⟩] } ∧
    ∀ t ∈ [(⟨['3'], 0⟩ : Token), ⟨['1', '0'], 0⟩, ⟨"tan".toList, 5⟩, ⟨"cos".toList, 5⟩,
        ⟨"sin".toList, 5⟩, ⟨['*'], 2⟩],
      (t.priority = 0 ∧ ¬ TableToken t) ∨ (TableToken t ∧ t.priority ≠ 0) :=
  ⟨by rfl, ((operator_table_invariant exact (holding "3*sin(cos(tan(10)))")
    (fun t ht => nomatch ht) (fun t ht => nomatch ht)).2.2.2 _ (Or.inl (by rfl))).2⟩

/-! ## Characters outside the accepted set (C14) -/

/-- C14 as stated fails: `1+2!` passes the validator and evaluates to 3; the `!` is not
rejected. -/
theorem unknown_symbol_not_rejected :
    ¬ AcceptedChar '!' ∧ ValidateInput "1+2!".toList = true ∧
    ProcessMathExpression exact (Model.fresh exact) "1+2!".toList (.fin 0) =
      .done { Model.holding exact (.fin 0) "1+2!".toList with result_ := .fin 3 } := by
  refine ⟨?_, by decide, by decide!⟩
  unfold AcceptedChar
  decide

/-- C14, amended: a character outside the accepted set is not rejected; the loop body of
the tokenizer emits no token for it and only flushes a pending number and a pending
function name, so it acts as a separator (`1+2!` evaluates to 3). -/
theorem unknown_symbol_is_separator {D : Type} (L : Libm D) (x_ : D) (prev : Option Char)
    (c next : Char) (st : Scan) (hc : ¬ AcceptedChar c) :
    ToPostfixStep L x_ prev c next st =
      (if !st.number.isEmpty then PushNumberToPostfix st else .done st).andThen fun st =>
        if !st.operation.isEmpty then PushOperationToOperators st else .done st := by
  simp only [AcceptedChar, not_or, Bool.not_eq_true] at hc
  obtain ⟨h1, h2, h3, h4, h5, h6, h7, h8⟩ := hc
  have e2 : (c == '.') = false := by simpa using h2
  have e3 : (c == 'x') = false := by simpa using h3
  have e4 : (c == '(') = false := by simpa using h4
  have e5 : (c == ')') = false := by simpa using h5
  have e7 : (c == 'e') = false := by simpa using h7
  have hn : NumberBranch c st =
      (if !st.number.isEmpty then PushNumberToPostfix st else .done st) := by
    simp [NumberBranch, h1, e2, e7]
  unfold ToPostfixStep
  rw [hn]
  cases hr : (if !st.number.isEmpty then PushNumberToPostfix st else Run.done st) with
  | done s =>
    simp only [Run.andThen, VariableBranch, e3, Bool.false_eq_true, if_false, FunctionBranch,
      h8, Bool.false_and, h6]
    cases ho : s.operation.isEmpty with
    | true => simp [ParenBranch, e4, e5, Run.andThen]
    | false =>
      simp only [Bool.not_false, if_true]
      cases PushOperationToOperators s with
      | done s' => simp [ParenBranch, e4, e5, Run.andThen]
      | thrown s' => rfl
      | undefined => rfl
      | unfinished => rfl
  | thrown s => rfl
  | undefined => rfl
  | unfinished => rfl

/-- C14, amended, at the `!` of `1+2!`: the number `2` is flushed and nothing else happens. -/
theorem unknown_symbol_is_separator_witness :
    ToPostfixStep exact (.fin 0) (some '2') '!' '\x00'
        (Scan.mk ['2'] [] 0 [⟨['1'], 0⟩] [⟨['+'], 1⟩]) =
      .done (Scan.mk [] [] 0 [⟨['2'], 0⟩, ⟨['1'], 0⟩] [⟨['+'], 1⟩]) :=
  (unknown_symbol_is_separator exact (.fin 0) (some '2') '!' '\x00'
    (Scan.mk ['2'] [] 0 [⟨['1'], 0⟩] [⟨['+'], 1⟩])
    (by unfold AcceptedChar; decide)).trans (by rfl)

/-! ## How the loop body moves the accumulators, and how `ToPostfix` can end -/

theorem Run.andThen_eq_done {σ : Type} {r : Run σ} {f : σ → Run σ} {s : σ}
    (h : r.andThen f = .done s) : ∃ s1, r = .done s1 ∧ f s1 = .done s := by
  cases r with
  | done s1 => exact ⟨s1, rfl, h⟩
  | thrown s1 => simp [Run.andThen] at h
  | undefined => simp [Run.andThen] at h
  | unfinished => simp [Run.andThen] at h

theorem NumberBranch_done {c : Char} {st s : Scan} (h : NumberBranch c st = .done s) :
    s.operation = st.operation ∧ s.operators_ = st.operators_ ∧
    ((c.isDigit || c == '.' || c == 'e') = true →
      s.number = st.number ++ [c] ∧
      s.dot_count_ = st.dot_count_ + (if c == '.' && !st.number.isEmpty then 1 else 0) ∧
      s.postfix_ = st.postfix_) ∧
    ((c.isDigit || c == '.' || c == 'e') = false →
      s.number = [] ∧ s = st.flush ∧ (st.number ≠ [] → st.dot_count_ ≤ 1)) := by
  unfold NumberBranch PushNumberToPostfix at h
  simp only at h
  by_cases hl : (c.isDigit || c == '.' || c == 'e') = true
  · rw [if_pos hl] at h
    simp only [Run.done.injEq] at h
    subst h
    refine ⟨?_, ?_, ?_, ?_⟩
    · split <;> rfl
    · split <;> rfl
    · intro _
      refine ⟨?_, ?_, ?_⟩
      · split <;> rfl
      · split <;> simp_all
      · split <;> rfl
    · intro h'
      rw [hl] at h'
      cases h'
  · have hl' : (c.isDigit || c == '.' || c == 'e') = false := by simpa using hl
    have hdot : (c == '.') = false := by
      simp only [Bool.or_eq_false_iff] at hl'
      exact hl'.1.2
    rw [if_neg hl] at h
    simp only [hdot, Bool.false_and, Bool.false_eq_true, if_false] at h
    cases hn : st.number.isEmpty with
    | true =>
      simp only [hn, Bool.not_true, Bool.false_eq_true, if_false, Run.done.injEq] at h
      subst h
      have hnil : st.number = [] := by simpa using hn
      refine ⟨rfl, rfl, (fun h' => by rw [hl'] at h'; cases h'), fun _ => ⟨hnil, ?_, ?_⟩⟩
      · simp [Scan.flush, hn]
      · intro h2
        exact absurd hnil h2
    | false =>
      simp only [hn, Bool.not_false, if_true] at h
      by_cases hd : st.dot_count_ > 1
      · rw [if_pos hd] at h
        cases h
      · rw [if_neg hd] at h
        simp only [Run.done.injEq] at h
        subst h
        refine ⟨rfl, rfl, (fun h' => by rw [hl'] at h'; cases h'), fun _ => ⟨rfl, ?_, ?_⟩⟩
        · simp [Scan.flush, hn]
        · intro _
          omega

theorem VariableBranch_done {D : Type} {L : Libm D} {x_ : D} {c : Char} {st s : Scan}
    (h : VariableBranch L x_ c st = .done s) :
    s.number = st.number ∧ s.operation = st.operation ∧ s.dot_count_ = st.dot_count_ ∧
    s.operators_ = st.operators_ := by
  unfold VariableBranch at h
  split at h
  · split at h
    · cases h
    · simp only [Run.done.injEq] at h
      subst h
      exact ⟨rfl, rfl, rfl, rfl⟩
  · simp only [Run.done.injEq] at h
    subst h
    exact ⟨rfl, rfl, rfl, rfl⟩

theorem FunctionBranch_done {c : Char} {st s : Scan} (h : FunctionBranch c st = .done s) :
    s.number = st.number ∧ s.dot_count_ = st.dot_count_ ∧ s.postfix_ = st.postfix_ ∧
    ((c.isAlpha && c != 'x') = true → s.operation = st.operation ++ [c]) ∧
    ((c.isAlpha && c != 'x') = false → s.operation = [] ∧
      (st.operation ≠ [] → SetTokenPriority st.operation ≠ none)) := by
  unfold FunctionBranch PushOperationToOperators at h
  by_cases hl : (c.isAlpha && c != 'x') = true
  · rw [if_pos hl] at h
    simp only [Run.done.injEq] at h
    subst h
    exact ⟨rfl, rfl, rfl, fun _ => rfl, (fun h' => by rw [hl] at h'; cases h')⟩
  · rw [if_neg hl] at h
    cases ho : st.operation.isEmpty with
    | true =>
      simp only [ho, Bool.not_true, Bool.false_eq_true, if_false, Run.done.injEq] at h
      subst h
      have hnil : st.operation = [] := by simpa using ho
      exact ⟨rfl, rfl, rfl, fun h' => absurd h' hl, fun _ => ⟨hnil, fun h2 => absurd hnil h2⟩⟩
    | false =>
      simp only [ho, Bool.not_false, if_true] at h
      cases hp : SetTokenPriority st.operation with
      | none => simp [hp] at h
      | some p =>
        simp only [hp, Run.done.injEq] at h
        subst h
        exact ⟨rfl, rfl, rfl, fun h' => absurd h' hl, fun _ => ⟨rfl, fun _ => by simp⟩⟩

theorem PushCharToOperators_done {c : Char} {st s : Scan}
    (h : PushCharToOperators st c = .done s) :
    s.number = st.number ∧ s.operation = st.operation ∧ s.dot_count_ = st.dot_count_ := by
  unfold PushCharToOperators at h
  split at h
  · cases h
  · simp only [Run.done.injEq] at h
    subst h
    exact ⟨rfl, rfl, rfl⟩

theorem OperatorBranch_done {prev : Option Char} {c next : Char} {st s : Scan}
    (h : OperatorBranch prev c next st = .done s) :
    s.number = st.number ∧ s.operation = st.operation ∧ s.dot_count_ = st.dot_count_ := by
  unfold OperatorBranch at h
  split at h
  · simp only [Run.done.injEq] at h
    subst h
    exact ⟨rfl, rfl, rfl⟩
  · simp only at h
    split at h
    · cases h
    · have := PushCharToOperators_done h
      exact this

theorem ParenBranch_done {c : Char} {st s : Scan} (h : ParenBranch c st = .done s) :
    s.number = st.number ∧ s.operation = st.operation ∧ s.dot_count_ = st.dot_count_ := by
  unfold ParenBranch at h
  obtain ⟨s1, h1, h2⟩ := Run.andThen_eq_done h
  have e1 : s1.number = st.number ∧ s1.operation = st.operation ∧
      s1.dot_count_ = st.dot_count_ := by
    split at h1
    · exact PushCharToOperators_done h1
    · simp only [Run.done.injEq] at h1
      subst h1
      exact ⟨rfl, rfl, rfl⟩
  split at h2 <;> simp only [Run.done.injEq] at h2 <;> subst h2 <;> exact e1

/-- What a normal return of the loop body tells about the accumulators: the number
accumulator is extended by a digit, `.` or `e` and emptied by any other character, which
needs at most one dot counted; the name accumulator is extended by a letter other than `x`
and emptied by any other character, which needs the pending name to be in the table. -/
theorem ToPostfixStep_done {D : Type} {L : Libm D} {x_ : D} {prev : Option Char}
    {c next : Char} {st s : Scan} (h : ToPostfixStep L x_ prev c next st = .done s) :
    ((c.isDigit || c == '.' || c == 'e') = true →
      s.number = st.number ++ [c] ∧
      s.dot_count_ = st.dot_count_ + (if c == '.' && !st.number.isEmpty then 1 else 0)) ∧
    ((c.isDigit || c == '.' || c == 'e') = false →
      s.number = [] ∧ s.dot_count_ = st.flush.dot_count_ ∧
      (st.number ≠ [] → st.dot_count_ ≤ 1)) ∧
    ((c.isAlpha && c != 'x') = true → s.operation = st.operation ++ [c]) ∧
    ((c.isAlpha && c != 'x') = false → s.operation = [] ∧
      (st.operation ≠ [] → SetTokenPriority st.operation ≠ none)) := by
  unfold ToPostfixStep at h
  obtain ⟨s3, h3, h4⟩ := Run.andThen_eq_done h
  obtain ⟨s2, h2, h3'⟩ := Run.andThen_eq_done h3
  obtain ⟨s1, h1, h2'⟩ := Run.andThen_eq_done h2
  have n1 := NumberBranch_done h1
  have v1 := VariableBranch_done h2'
  have f1 := FunctionBranch_done h3'
  have o1 : s.number = s3.number ∧ s.operation = s3.operation ∧
      s.dot_count_ = s3.dot_count_ := by
    split at h4
    · exact OperatorBranch_done h4
    · exact ParenBranch_done h4
  refine ⟨?_, ?_, ?_, ?_⟩
  · intro hl
    obtain ⟨a, b, _⟩ := n1.2.2.1 hl
    exact ⟨by rw [o1.1, f1.1, v1.1, a], by rw [o1.2.2, f1.2.1, v1.2.2.1, b]⟩
  · intro hl
    obtain ⟨a, b, d⟩ := n1.2.2.2 hl
    exact ⟨by rw [o1.1, f1.1, v1.1, a], by rw [o1.2.2, f1.2.1, v1.2.2.1, b], d⟩
  · intro hl
    rw [o1.2.1, f1.2.2.2.1 hl, v1.2.1, n1.1]
  · intro hl
    obtain ⟨a, b⟩ := f1.2.2.2.2 hl
    refine ⟨by rw [o1.2.1, a], ?_⟩
    rw [v1.2.1, n1.1] at b
    exact b

/-! ## Unknown function names (C11) -/

theorem Run.Settled_andThen {σ : Type} (r : Run σ) (f : σ → Run σ) (hr : r.Settled)
    (hf : ∀ s, (f s).Settled) : (r.andThen f).Settled := by
  cases r with
  | done s => exact hf s
  | thrown s => trivial
  | undefined => exact hr
  | unfinished => exact hr

theorem Run.Settled_cases {σ : Type} {r : Run σ} (h : r.Settled) :
    (∃ s, r = .done s) ∨ ∃ s, r = .thrown s := by
  cases r with
  | done s => exact Or.inl ⟨s, rfl⟩
  | thrown s => exact Or.inr ⟨s, rfl⟩
  | undefined => exact absurd h id
  | unfinished => exact absurd h id

theorem PushNumberToPostfix_settled (st : Scan) : (PushNumberToPostfix st).Settled := by
  unfold PushNumberToPostfix
  split <;> trivial

theorem PushOperationToOperators_settled (st : Scan) :
    (PushOperationToOperators st).Settled := by
  unfold PushOperationToOperators
  split <;> trivial

theorem PushCharToOperators_settled (st : Scan) (c : Char) :
    (PushCharToOperators st c).Settled := by
  unfold PushCharToOperators
  split <;> trivial

/-- The loop body of `ToPostfix` returns or throws when the text of `x_` fits the buffer
of `DoubleToString`. -/
theorem ToPostfixStep_settled {D : Type} (L : Libm D) (x_ : D) (prev : Option Char)
    (c next : Char) (st : Scan) (hx : DoubleToString L x_ ≠ none) :
    (ToPostfixStep L x_ prev c next st).Settled := by
  unfold ToPostfixStep
  apply Run.Settled_andThen
  · apply Run.Settled_andThen
    · apply Run.Settled_andThen
      · unfold NumberBranch
        simp only []
        split_ifs <;> first | trivial | exact PushNumberToPostfix_settled _
      · intro s
        unfold VariableBranch
        split
        · cases hd : DoubleToString L x_ with
          | none => exact absurd hd hx
          | some t => trivial
        · trivial
    · intro s
      unfold FunctionBranch
      split
      · trivial
      · split
        · exact PushOperationToOperators_settled _
        · trivial
  · intro s
    split
    · unfold OperatorBranch
      split
      · trivial
      · simp only
        split
        · trivial
        · exact PushCharToOperators_settled _ _
    · unfold ParenBranch
      apply Run.Settled_andThen
      · split
        · exact PushCharToOperators_settled _ _
        · trivial
      · intro s'
        split <;> trivial

theorem ToPostfixLoop_settled {D : Type} (L : Libm D) (x_ : D) (rest : List Char)
    (hx : DoubleToString L x_ ≠ none) :
    ∀ (prev : Option Char) (st : Scan), (ToPostfixLoop L x_ prev rest st).Settled := by
  induction rest with
  | nil => intro prev st; trivial
  | cons c rest ih =>
    intro prev st
    rw [ToPostfixLoop_cons]
    exact Run.Settled_andThen _ _ (ToPostfixStep_settled L x_ prev c _ st hx) (fun s => ih _ s)

theorem ToPostfixFinish_settled (st : Scan) : (ToPostfixFinish st).Settled := by
  unfold ToPostfixFinish
  apply Run.Settled_andThen
  · split
    · exact PushNumberToPostfix_settled _
    · trivial
  · intro s
    apply Run.Settled_andThen
    · split
      · exact PushOperationToOperators_settled _
      · trivial
    · intro s'
      trivial

/-- The function `ToPostfix` returns or throws when the text of `x_` fits the buffer of
`DoubleToString`. -/
theorem ToPostfix_settled {D : Type} (L : Libm D) (m : Model D)
    (hx : DoubleToString L m.x_ ≠ none) : (ToPostfix L m).Settled := by
  unfold ToPostfix
  have h := Run.Settled_andThen _ ToPostfixFinish
    (ToPostfixLoop_settled L m.x_ m.expression_ hx none
      (Scan.mk [] [] m.dot_count_ m.postfix_ m.operators_)) ToPostfixFinish_settled
  revert h
  generalize (ToPostfixLoop L m.x_ none m.expression_ _).andThen ToPostfixFinish = r
  intro h
  cases r <;> exact h

theorem ToPostfixFinish_done {st s : Scan} (h : ToPostfixFinish st = .done s) :
    st.operation ≠ [] → SetTokenPriority st.operation ≠ none := by
  unfold ToPostfixFinish at h
  obtain ⟨s1, h1, h2⟩ := Run.andThen_eq_done h
  obtain ⟨s2, h3, _⟩ := Run.andThen_eq_done h2
  have e1 : s1.operation = st.operation := by
    split at h1
    · unfold PushNumberToPostfix at h1
      split at h1
      · cases h1
      · simp only [Run.done.injEq] at h1
        subst h1
        rfl
    · simp only [Run.done.injEq] at h1
      subst h1
      rfl
  intro hne hnone
  rw [← e1] at hne hnone
  have hemp : s1.operation.isEmpty = false := by
    cases ho : s1.operation with
    | nil => exact absurd ho hne
    | cons a t => rfl
  simp [hemp, PushOperationToOperators, hnone] at h3

theorem flushesUnknown_nil (acc : List Char) :
    flushesUnknown acc [] = (!acc.isEmpty && (SetTokenPriority acc).isNone) := rfl

theorem flushesUnknown_cons (acc : List Char) (c : Char) (rest : List Char) :
    flushesUnknown acc (c :: rest) =
      if c.isAlpha && c != 'x' then flushesUnknown (acc ++ [c]) rest
      else (!acc.isEmpty && (SetTokenPriority acc).isNone) || flushesUnknown [] rest := rfl

/-- When the scan comes to flush a name that is not in the table, `ToPostfix` does not
return normally. -/
theorem loop_flushesUnknown {D : Type} (L : Libm D) (x_ : D) (rest : List Char) :
    ∀ (prev : Option Char) (st : Scan), flushesUnknown st.operation rest = true →
      ∀ s, (ToPostfixLoop L x_ prev rest st).andThen ToPostfixFinish ≠ .done s := by
  induction rest with
  | nil =>
    intro prev st hf s hs
    simp only [flushesUnknown_nil, Bool.and_eq_true, Bool.not_eq_true',
      Option.isNone_iff_eq_none] at hf
    have hne : st.operation ≠ [] := by
      intro h
      simp [h] at hf
    exact ToPostfixFinish_done (by simpa [ToPostfixLoop, Run.andThen] using hs) hne hf.2
  | cons c rest ih =>
    intro prev st hf s hs
    rw [ToPostfixLoop_cons] at hs
    obtain ⟨s1, h1, h2⟩ := Run.andThen_eq_done hs
    obtain ⟨s0, h0, h0'⟩ := Run.andThen_eq_done h1
    have hd := ToPostfixStep_done h0
    have hs' : (ToPostfixLoop L x_ (some c) rest s0).andThen ToPostfixFinish = .done s := by
      rw [h0']
      exact h2
    by_cases hl : (c.isAlpha && c != 'x') = true
    · rw [flushesUnknown_cons, if_pos hl] at hf
      rw [← hd.2.2.1 hl] at hf
      exact ih _ s0 hf s hs'
    · have hl' : (c.isAlpha && c != 'x') = false := by simpa using hl
      rw [flushesUnknown_cons, if_neg hl] at hf
      simp only [Bool.or_eq_true, Bool.and_eq_true, Bool.not_eq_true',
        Option.isNone_iff_eq_none] at hf
      obtain ⟨e0, e1⟩ := hd.2.2.2 hl'
      rcases hf with hf | hf
      · have hne : st.operation ≠ [] := by
          intro h
          simp [h] at hf
        exact e1 hne hf.2
      · rw [← e0] at hf
        exact ih _ s0 hf s hs'

theorem SetTokenPriority_letters (run : List Char) (hall : ∀ c ∈ run, c.isAlpha = true)
    (hnf : run ∉ functionNames) : SetTokenPriority run = none := by
  rw [SetTokenPriority_eq_spec]
  unfold specPriority
  have h1 : ∀ c : Char, c.isAlpha = false → run ≠ [c] := by
    intro c hc e
    have := hall c (by rw [e]; exact List.mem_singleton_self c)
    rw [hc] at this
    cases this
  simp only [functionNames, List.mem_cons, List.mem_singleton, not_or, List.not_mem_nil,
    not_false_eq_true, and_true] at hnf
  obtain ⟨a1, a2, a3, a4, a5, a6, a7, a8, a9⟩ := hnf
  simp only [List.mem_cons, List.mem_singleton, List.not_mem_nil, or_false,
    h1 ')' (by decide), h1 '(' (by decide), h1 '~' (by decide), h1 '^' (by decide),
    h1 '%' (by decide), h1 '*' (by decide), h1 '/' (by decide), h1 '-' (by decide),
    h1 '+' (by decide), a1, a2, a3, a4, a5, a6, a7, a8, a9, or_self, if_false]

theorem flushesUnknown_run (run : List Char) (h : ∀ c ∈ run, c.isAlpha = true ∧ c ≠ 'x') :
    ∀ (acc post : List Char),
      flushesUnknown acc (run ++ post) = flushesUnknown (acc ++ run) post := by
  induction run with
  | nil => intro acc post; simp
  | cons c run ih =>
    intro acc post
    have hc := h c (List.mem_cons_self c run)
    have hl : (c.isAlpha && c != 'x') = true := by simp [hc.1, hc.2]
    rw [List.cons_append, flushesUnknown_cons, if_pos hl,
      ih (fun d hd => h d (List.mem_cons_of_mem c hd)), List.append_assoc]
    rfl

theorem flushesUnknown_end (run post : List Char) (hne : run ≠ [])
    (hp : SetTokenPriority run = none)
    (hpost : ∀ c, post.head? = some c → ¬ (c.isAlpha = true ∧ c ≠ 'x')) :
    flushesUnknown run post = true := by
  have he : (!run.isEmpty && (SetTokenPriority run).isNone) = true := by
    cases run with
    | nil => exact absurd rfl hne
    | cons a t => simp [hp]
  cases post with
  | nil => rw [flushesUnknown_nil, he]
  | cons c post =>
    have hl : ¬ (c.isAlpha && c != 'x') = true := by
      have := hpost c rfl
      simpa using this
    rw [flushesUnknown_cons, if_neg hl, he]
    rfl

theorem flushesUnknown_skip (rest : List Char) (h : flushesUnknown [] rest = true) :
    ∀ (pre acc : List Char), (pre = [] → acc = []) →
      (∀ c, pre.getLast? = some c → ¬ (c.isAlpha = true ∧ c ≠ 'x')) →
      flushesUnknown acc (pre ++ rest) = true := by
  intro pre
  induction pre with
  | nil =>
    intro acc ha _
    rw [ha rfl]
    exact h
  | cons c pre ih =>
    intro acc _ hlast
    rw [List.cons_append, flushesUnknown_cons]
    cases pre with
    | nil =>
      have hl : ¬ (c.isAlpha && c != 'x') = true := by
        have := hlast c rfl
        simpa using this
      rw [if_neg hl, List.nil_append, h]
      simp
    | cons d pre =>
      have hlast2 : ∀ a, (d :: pre).getLast? = some a → ¬ (a.isAlpha = true ∧ a ≠ 'x') := by
        intro a ha
        apply hlast a
        rw [List.getLast?_cons_cons]
        exact ha
      split
      · exact ih _ (fun e => by cases e) hlast2
      · rw [ih [] (fun _ => rfl) hlast2]
        simp

/-- A text with a maximal run of letters that is not a function name makes the scan flush
an unknown name. -/
theorem flushesUnknown_of_name (e : List Char) (h : HasUnknownName e) :
    flushesUnknown [] e = true := by
  obtain ⟨pre, run, post, he, hne, hall, hpre, hpost, hnf⟩ := h
  rw [he, List.append_assoc]
  apply flushesUnknown_skip _ _ pre [] (fun _ => rfl) hpre
  rw [flushesUnknown_run run hall, List.nil_append]
  exact flushesUnknown_end run post hne
    (SetTokenPriority_letters run (fun c hc => (hall c hc).1) hnf) hpost

theorem ToPostfix_unknown_name {D : Type} (L : Libm D) (m : Model D)
    (h : HasUnknownName m.expression_) :
    (∀ m2, ToPostfix L m ≠ .done m2) ∧
      (DoubleToString L m.x_ ≠ none → ∃ m2, ToPostfix L m = .thrown m2) := by
  have hnd : ∀ m2, ToPostfix L m ≠ .done m2 := by
    intro m2 hm
    unfold ToPostfix at hm
    cases hr : (ToPostfixLoop L m.x_ none m.expression_
      (Scan.mk [] [] m.dot_count_ m.postfix_ m.operators_)).andThen ToPostfixFinish with
    | done s =>
      exact loop_flushesUnknown L m.x_ m.expression_ none
        (Scan.mk [] [] m.dot_count_ m.postfix_ m.operators_)
        (flushesUnknown_of_name _ h) s hr
    | thrown s => rw [hr] at hm; cases hm
    | undefined => rw [hr] at hm; cases hm
    | unfinished => rw [hr] at hm; cases hm
  refine ⟨hnd, fun hx => ?_⟩
  rcases Run.Settled_cases (ToPostfix_settled L m hx) with ⟨s, hs⟩ | ⟨s, hs⟩
  · exact absurd hs (hnd s)
  · exact ⟨s, hs⟩

/-- C11 as stated fails when the letters are the `e` of scientific notation: `15e3` passes
the validator and the normalizer, its only run of letters, `e`, is not a function name,
and it evaluates to 15000. -/
theorem exponent_letter_is_not_a_name :
    ValidateInput "15e3".toList = true ∧
    (∃ m1, ReplaceScientificNotation (holding "15e3") = .done m1) ∧
    HasUnknownName "15e3".toList ∧
    returned (CalculateMathExpression exact (holding "15e3")) = .done (.fin 15000) := by
  have hn : ReplaceScientificNotation (holding "15e3") = .done (holding "15*10^3") := by
    decide!
  refine ⟨by decide, ⟨_, hn⟩, ?_, by decide!⟩
  refine ⟨"15".toList, "e".toList, "3".toList, by decide, by decide, by decide, ?_, ?_, by decide⟩
  · intro c hc
    cases hc
    decide
  · intro c hc
    cases hc
    decide

/-- C11, amended: for every expression accepted by the normalizer whose normalized text
(every `e` replaced by `*10^`) contains a maximal run of letters other than `x` that is
not one of cos, sin, tan, acos, asin, atan, ln, log, sqrt, `CalculateMathExpression` does
not return a value, and it throws `std::invalid_argument` when the text of `x` fits the
buffer of `DoubleToString`. -/
theorem unknown_function_name_rejected {D : Type} (L : Libm D) (x : D) (e : List Char)
    (m1 : Model D) (hn : ReplaceScientificNotation (Model.holding L x e) = .done m1)
    (hu : HasUnknownName m1.expression_) :
    (∀ m2, CalculateMathExpression L (Model.holding L x e) ≠ .done m2) ∧
      (DoubleToString L x ≠ none →
        ∃ m2, CalculateMathExpression L (Model.holding L x e) = .thrown m2) := by
  have hx : m1.x_ = x := by
    rw [ReplaceScientificNotation_done _ _ hn]
    rfl
  obtain ⟨hnd, hth⟩ := ToPostfix_unknown_name L m1 hu
  unfold CalculateMathExpression
  rw [hn]
  simp only [Run.andThen]
  constructor
  · intro m2 hm
    cases hp : ToPostfix L m1 with
    | done s => exact hnd s hp
    | thrown s => rw [hp] at hm; cases hm
    | undefined => rw [hp] at hm; cases hm
    | unfinished => rw [hp] at hm; cases hm
  · intro hd
    obtain ⟨s, hs⟩ := hth (by rw [hx]; exact hd)
    exact ⟨s, by rw [hs]⟩

theorem unknown_function_name_rejected_witness :
    ReplaceScientificNotation (Model.holding exact (.fin 0) "coss(6)".toList) =
      .done (holding "coss(6)") ∧
    HasUnknownName (holding "coss(6)").expression_ ∧
    (∀ m2, CalculateMathExpression exact (Model.holding exact (.fin 0) "coss(6)".toList) ≠
      .done m2) ∧
    (DoubleToString exact (.fin 0) ≠ none →
      ∃ m2, CalculateMathExpression exact (Model.holding exact (.fin 0) "coss(6)".toList) =
        .thrown m2) :=
  have hu : HasUnknownName (holding "coss(6)").expression_ := by
    refine ⟨[], "coss".toList, "(6)".toList, by decide, by decide, by decide, ?_, ?_,
      by decide⟩
    · intro c hc
      cases hc
    · intro c hc
      cases hc
      decide
  ⟨by decide!, hu,
    unknown_function_name_rejected exact (.fin 0) "coss(6)".toList (holding "coss(6)")
      (by decide!) hu⟩

/-! ## The decimal-point check (C12) -/

/-- C12 fails for a literal that starts with a dot: `.5.5` passes the validator, its
literal has two dots, and it evaluates to 0.5, because the first dot is read while the
number accumulator is empty and is not counted; `6.7.0-6` is rejected as the claim says. -/
theorem leading_dot_escapes_dot_check :
    ValidateInput ".5.5".toList = true ∧ ".5.5".toList.count '.' = 2 ∧
    (ToPostfix exact (holding ".5.5")).map (fun m => (m.postfix_, m.dot_count_)) =
      .done ([⟨".5.5".toList, 0⟩], 0) ∧
    returned (ProcessMathExpression exact (Model.fresh exact) ".5.5".toList (.fin 0)) =
      .done (.fin (1 / 2)) ∧
    ∃ m, ProcessMathExpression exact (Model.fresh exact) "6.7.0-6".toList (.fin 0) =
      .thrown m := by
  exact ⟨by decide, by decide, by decide!, by decide!, _, by with_unfolding_all rfl⟩

theorem flushesDots_nil (emp : Bool) (d : Int) :
    flushesDots emp d [] = (!emp && decide (d > 1)) := rfl

theorem flushesDots_cons (emp : Bool) (d : Int) (c : Char) (rest : List Char) :
    flushesDots emp d (c :: rest) =
      if c.isDigit || c == '.' || c == 'e' then
        flushesDots false (d + (if c == '.' && !emp then 1 else 0)) rest
      else (!emp && decide (d > 1)) || flushesDots true (if emp then d else 0) rest := rfl

theorem ToPostfixFinish_dots {st s : Scan} (h : ToPostfixFinish st = .done s) :
    st.number ≠ [] → st.dot_count_ ≤ 1 := by
  unfold ToPostfixFinish at h
  obtain ⟨s1, h1, _⟩ := Run.andThen_eq_done h
  intro hne
  have hemp : st.number.isEmpty = false := by
    cases hn : st.number with
    | nil => exact absurd hn hne
    | cons a t => rfl
  simp only [hemp, Bool.not_false, if_true, PushNumberToPostfix] at h1
  split at h1
  · cases h1
  · omega

/-- When the scan comes to flush a number with more than one dot counted, `ToPostfix` does
not return normally. -/
theorem loop_flushesDots {D : Type} (L : Libm D) (x_ : D) (rest : List Char) :
    ∀ (prev : Option Char) (st : Scan),
      flushesDots st.number.isEmpty st.dot_count_ rest = true →
      ∀ s, (ToPostfixLoop L x_ prev rest st).andThen ToPostfixFinish ≠ .done s := by
  induction rest with
  | nil =>
    intro prev st hf s hs
    simp only [flushesDots_nil, Bool.and_eq_true, Bool.not_eq_true', decide_eq_true_eq] at hf
    have hne : st.number ≠ [] := by
      intro h
      simp [h] at hf
    have := ToPostfixFinish_dots (by simpa [ToPostfixLoop, Run.andThen] using hs) hne
    omega
  | cons c rest ih =>
    intro prev st hf s hs
    rw [ToPostfixLoop_cons] at hs
    obtain ⟨s1, h1, h2⟩ := Run.andThen_eq_done hs
    obtain ⟨s0, h0, h0b⟩ := Run.andThen_eq_done h1
    have hd := ToPostfixStep_done h0
    have hs2 : (ToPostfixLoop L x_ (some c) rest s0).andThen ToPostfixFinish = .done s := by
      rw [h0b]
      exact h2
    by_cases hl : (c.isDigit || c == '.' || c == 'e') = true
    · rw [flushesDots_cons, if_pos hl] at hf
      obtain ⟨e1, e2⟩ := hd.1 hl
      have hemp : s0.number.isEmpty = false := by
        rw [e1]
        cases st.number <;> rfl
      exact ih _ s0 (by rw [hemp, e2]; exact hf) s hs2
    · have hl2 : (c.isDigit || c == '.' || c == 'e') = false := by simpa using hl
      rw [flushesDots_cons, if_neg hl] at hf
      simp only [Bool.or_eq_true, Bool.and_eq_true, Bool.not_eq_true', decide_eq_true_eq] at hf
      obtain ⟨e1, e2, e3⟩ := hd.2.1 hl2
      rcases hf with hf | hf
      · have hne : st.number ≠ [] := by
          intro h
          simp [h] at hf
        have := e3 hne
        omega
      · have hemp : s0.number.isEmpty = true := by rw [e1]; rfl
        have hdc : s0.dot_count_ = if st.number.isEmpty then st.dot_count_ else 0 := by
          rw [e2]
          unfold Scan.flush
          split <;> rfl
        exact ih _ s0 (by rw [hemp, hdc]; exact hf) s hs2

theorem flushesDots_skip (rest : List Char) (h : flushesDots true 0 rest = true) :
    ∀ (pre : List Char) (emp : Bool) (d : Int), (emp = true → d = 0) →
      (pre = [] → emp = true) →
      (∀ c, pre.getLast? = some c → ¬ (c.isDigit || c == '.' || c == 'e') = true) →
      flushesDots emp d (pre ++ rest) = true := by
  intro pre
  induction pre with
  | nil =>
    intro emp d hd he _
    have e1 := he rfl
    rw [e1, hd e1]
    exact h
  | cons c pre ih =>
    intro emp d hd _ hlast
    rw [List.cons_append, flushesDots_cons]
    have hd2 : (if emp = true then d else 0) = 0 := by
      split
      · rename_i he
        exact hd he
      · rfl
    cases pre with
    | nil =>
      rw [if_neg (hlast c rfl), List.nil_append, hd2, h]
      simp
    | cons a pre =>
      have hlast2 : ∀ b, (a :: pre).getLast? = some b →
          ¬ (b.isDigit || b == '.' || b == 'e') = true := by
        intro b hb
        apply hlast b
        rw [List.getLast?_cons_cons]
        exact hb
      split
      · exact ih false _ (fun e => by cases e) (fun e => by cases e) hlast2
      · rw [hd2, ih true 0 (fun _ => rfl) (fun _ => rfl) hlast2]
        simp

theorem flushesDots_run (post : List Char)
    (hpost : ∀ c, post.head? = some c → ¬ (c.isDigit || c == '.' || c == 'e') = true) :
    ∀ (lit : List Char) (d : Int), (∀ c ∈ lit, c.isDigit = true ∨ c = '.') →
      1 < d + lit.count '.' → flushesDots false d (lit ++ post) = true := by
  intro lit
  induction lit with
  | nil =>
    intro d _ hd
    simp only [List.count_nil, Nat.cast_zero, add_zero] at hd
    rw [List.nil_append]
    cases post with
    | nil => simp [flushesDots_nil, hd]
    | cons c post =>
      rw [flushesDots_cons, if_neg (hpost c rfl)]
      simp [hd]
  | cons c lit ih =>
    intro d hl hd
    have hc := hl c (List.mem_cons_self _ _)
    have hlit : (c.isDigit || c == '.' || c == 'e') = true := by
      rcases hc with hc | hc
      · simp [hc]
      · simp [hc]
    rw [List.cons_append, flushesDots_cons, if_pos hlit]
    apply ih _ (fun a ha => hl a (List.mem_cons_of_mem _ ha))
    by_cases hdot : c = '.'
    · subst hdot
      rw [List.count_cons_self] at hd
      simp only [beq_self_eq_true, Bool.not_false, Bool.and_self, if_true]
      push_cast at hd
      omega
    · rw [List.count_cons_of_ne (fun e => hdot e.symm)] at hd
      have e : (c == '.') = false := by simpa using hdot
      simp only [e, Bool.false_and, Bool.false_eq_true, if_false, add_zero]
      exact hd

/-- A text without `e` that has a maximal run of digits and dots starting with a digit and
holding two or more dots makes the scan flush a number with more than one dot counted. -/
theorem flushesDots_of_literal (e : List Char) (hne : 'e' ∉ e) (h : HasDottedLiteral e) :
    flushesDots true 0 e = true := by
  obtain ⟨pre, lit, post, he, hlit, ⟨c, t, hc, hcd⟩, hdots, hpre, hpost⟩ := h
  have hnote : ∀ a ∈ e, (a == 'e') = false := by
    intro a ha
    have : a ≠ 'e' := fun h2 => hne (h2 ▸ ha)
    simpa using this
  have hpre2 : ∀ a, pre.getLast? = some a → ¬ (a.isDigit || a == '.' || a == 'e') = true := by
    intro a ha
    have hmem : a ∈ e := by
      rw [he]
      simp only [List.mem_append]
      exact Or.inl (Or.inl (List.mem_of_getLast?_eq_some ha))
    have := hpre a ha
    simpa [hnote a hmem] using this
  have hpost2 : ∀ a, post.head? = some a → ¬ (a.isDigit || a == '.' || a == 'e') = true := by
    intro a ha
    have hmem : a ∈ e := by
      rw [he]
      simp only [List.mem_append]
      exact Or.inr (List.mem_of_mem_head? ha)
    have := hpost a ha
    simpa [hnote a hmem] using this
  rw [he, List.append_assoc]
  apply flushesDots_skip _ _ pre true 0 (fun _ => rfl) (fun _ => rfl) hpre2
  subst hc
  rw [List.cons_append, flushesDots_cons]
  have hlitc : (c.isDigit || c == '.' || c == 'e') = true := by simp [hcd]
  rw [if_pos hlitc]
  simp only [Bool.not_true, Bool.and_false, Bool.false_eq_true, if_false, add_zero]
  apply flushesDots_run post hpost2 t 0 (fun a ha => hlit a (List.mem_cons_of_mem _ ha))
  have hcdot : c ≠ '.' := by
    intro e2
    rw [e2] at hcd
    exact absurd hcd (by decide)
  rw [List.count_cons_of_ne (fun e2 => hcdot e2.symm)] at hdots
  omega

/-- Where C12 holds: for every expression accepted by the normalizer whose normalized text
contains a maximal run of digits and dots that starts with a digit and holds two or more
dots, `CalculateMathExpression` does not return a value, and it throws
`std::invalid_argument` when the text of `x` fits the buffer of `DoubleToString`. -/
theorem dotted_literal_after_digit_rejected {D : Type} (L : Libm D) (x : D) (e : List Char)
    (m1 : Model D) (hn : ReplaceScientificNotation (Model.holding L x e) = .done m1)
    (hl : HasDottedLiteral m1.expression_) :
    (∀ m2, CalculateMathExpression L (Model.holding L x e) ≠ .done m2) ∧
      (DoubleToString L x ≠ none →
        ∃ m2, CalculateMathExpression L (Model.holding L x e) = .thrown m2) := by
  have hm1 := ReplaceScientificNotation_done _ _ hn
  have hx : m1.x_ = x := by rw [hm1]; rfl
  have hd0 : m1.dot_count_ = 0 := by rw [hm1]; rfl
  have hnoe : 'e' ∉ m1.expression_ := by
    rw [hm1]
    exact not_mem_expandE _
  have hnd : ∀ m2, ToPostfix L m1 ≠ .done m2 := by
    intro m2 hm
    unfold ToPostfix at hm
    cases hr : (ToPostfixLoop L m1.x_ none m1.expression_
      (Scan.mk [] [] m1.dot_count_ m1.postfix_ m1.operators_)).andThen ToPostfixFinish with
    | done s =>
      refine loop_flushesDots L m1.x_ m1.expression_ none
        (Scan.mk [] [] m1.dot_count_ m1.postfix_ m1.operators_) ?_ s hr
      show flushesDots true m1.dot_count_ m1.expression_ = true
      rw [hd0]
      exact flushesDots_of_literal _ hnoe hl
    | thrown s => rw [hr] at hm; cases hm
    | undefined => rw [hr] at hm; cases hm
    | unfinished => rw [hr] at hm; cases hm
  unfold CalculateMathExpression
  rw [hn]
  simp only [Run.andThen]
  constructor
  · intro m2 hm
    cases hp : ToPostfix L m1 with
    | done s => exact hnd s hp
    | thrown s => rw [hp] at hm; cases hm
    | undefined => rw [hp] at hm; cases hm
    | unfinished => rw [hp] at hm; cases hm
  · intro hd
    rcases Run.Settled_cases (ToPostfix_settled L m1 (by rw [hx]; exact hd)) with
      ⟨s, hs⟩ | ⟨s, hs⟩
    · exact absurd hs (hnd s)
    · exact ⟨s, by rw [hs]⟩

/-- The rejection of a dotted literal that starts with a digit, at `6.7.0-6`. -/
theorem dotted_literal_after_digit_rejected_witness :
    HasDottedLiteral (holding "6.7.0-6").expression_ ∧
    ∃ m2, CalculateMathExpression exact (Model.holding exact (.fin 0) "6.7.0-6".toList) =
      .thrown m2 :=
  have hl : HasDottedLiteral (holding "6.7.0-6").expression_ := by
    refine ⟨[], "6.7.0".toList, "-6".toList, by decide, by decide, ⟨_, _, rfl, by decide⟩,
      by decide, ?_, ?_⟩
    · intro c hc
      cases hc
    · intro c hc
      cases hc
      decide
  ⟨hl, (dotted_literal_after_digit_rejected exact (.fin 0) "6.7.0-6".toList
    (holding "6.7.0-6") (by decide!) hl).2 (by decide!)⟩

/-! ## Operand order of the binary operators (C15) -/

/-- C15 as stated fails in its consequence: `0.00000001-0` returns 0 and `1/3` returns
0.3333333, not the difference and the quotient of the operands, because the result of the
operator is printed with 7 decimals before it is returned. -/
theorem difference_and_quotient_are_rounded :
    returned (ProcessMathExpression exact (Model.fresh exact) "0.00000001-0".toList (.fin 0)) =
      .done (.fin 0) ∧
    exact.stod "0.00000001".toList = some (.fin (1 / 100000000)) ∧
    exact.stod "0".toList = some (.fin 0) ∧
    exact.sub (.fin (1 / 100000000)) (.fin 0) = .fin (1 / 100000000) ∧
    Dbl.fin (1 / 100000000) ≠ .fin 0 ∧
    returned (ProcessMathExpression exact (Model.fresh exact) "1/3".toList (.fin 0)) =
      .done (.fin (3333333 / 10000000)) ∧
    exact.stod "1".toList = some (.fin 1) ∧ exact.stod "3".toList = some (.fin 3) ∧
    exact.div (.fin 1) (.fin 3) = .fin (1 / 3) ∧
    Dbl.fin (1 / 3) ≠ .fin (3333333 / 10000000) := by
  refine ⟨by decide!, by decide!, by decide!, by decide!, by decide!, by decide!, by decide!,
    by decide!, by decide!, by decide!⟩

/-- C15, amended: on the RPN sequence `a b op`, with `a` and `b` number tokens that
`std::stod` reads as `va` and `vb` and `op` one of `+ - * / ^ %`, `Calculate` applies the
operator with `va` (pushed first) on the left and `vb` (pushed last) on the right, and the
result is the operator's value printed with 7 decimals by `DoubleToString` and read back
by `std::stod`; so `a-b` returns `va - vb` and `a/b` returns `va / vb`, each printed and
read back (provided the text fits the buffer of `DoubleToString`). -/
theorem binary_operand_order {D : Type} (L : Libm D) (x : D) (a b : List Char) (va vb : D)
    (hva : L.stod a = some va) (hvb : L.stod b = some vb) :
    (ArithmeticResult L va vb '+' = L.add va vb ∧ ArithmeticResult L va vb '-' = L.sub va vb ∧
      ArithmeticResult L va vb '*' = L.mul va vb ∧ ArithmeticResult L va vb '/' = L.div va vb ∧
      ArithmeticResult L va vb '^' = L.pow va vb ∧
      ArithmeticResult L va vb '%' = L.fmod va vb) ∧
    (∀ (op : Char) (p : Int) (s : List Char) (r : D) (m : Model D), IsOperator op = true →
      p ≠ 0 → DoubleToString L (ArithmeticResult L va vb op) = some s → L.stod s = some r →
      m.postfix_ = [⟨a, 0⟩, ⟨b, 0⟩, ⟨[op], p⟩] → m.calculation_ = [] →
      Calculate L m = .done { m with postfix_ := [], calculation_ := [], result_ := r }) ∧
    (NumericLiteral a → NumericLiteral b → a.length + b.length + 1 ≤ 255 →
      (∀ s r, DoubleToString L (L.sub va vb) = some s → L.stod s = some r →
        ProcessMathExpression L (Model.fresh L) (a ++ '-' :: b) x =
          .done { Model.holding L x (a ++ '-' :: b) with result_ := r }) ∧
      (∀ s r, DoubleToString L (L.div va vb) = some s → L.stod s = some r →
        ProcessMathExpression L (Model.fresh L) (a ++ '/' :: b) x =
          .done { Model.holding L x (a ++ '/' :: b) with result_ := r })) := by
  refine ⟨⟨rfl, rfl, rfl, rfl, rfl, rfl⟩, ?_, ?_⟩
  · intro op p s r m hop hp hs hr hpf hc
    exact Calculate_binary L m a b op p va vb r s hp hop hva hvb hs hr hpf hc
  · intro ha hb hlen
    constructor
    · intro s r hs hr
      exact evaluate_binary_literals L x a b '-' 1 va vb r s ha hb (by decide) (by decide) hlen
        hva hvb hs hr
    · intro s r hs hr
      exact evaluate_binary_literals L x a b '/' 2 va vb r s ha hb (by decide) (by decide) hlen
        hva hvb hs hr

/-- C15, amended, at `7-2`, which returns 5, and `7/2`, which returns 3.5. -/
theorem binary_operand_order_witness :
    ProcessMathExpression exact (Model.fresh exact) "7-2".toList (.fin 0) =
      .done { Model.holding exact (.fin 0) "7-2".toList with result_ := .fin 5 } ∧
    ProcessMathExpression exact (Model.fresh exact) "7/2".toList (.fin 0) =
      .done { Model.holding exact (.fin 0) "7/2".toList with result_ := .fin (7 / 2) } :=
  have h := (binary_operand_order exact (.fin 0) "7".toList "2".toList (.fin 7) (.fin 2)
    (by decide!) (by decide!)).2.2 (by unfold NumericLiteral; decide)
    (by unfold NumericLiteral; decide) (by decide)
  ⟨h.1 "5.0000000".toList (.fin 5) (by decide!) (by decide!),
    h.2 "3.5000000".toList (.fin (7 / 2)) (by decide!) (by decide!)⟩

/-! ## Leading unary plus (C17) -/

theorem NormalizeFrom_plus (rest : List Char) :
    ∀ (pre t : List Char), NormalizeFrom pre rest = .done t →
      NormalizeFrom ('+' :: pre) rest = .done ('+' :: t) := by
  induction rest with
  | nil =>
    intro pre t h
    simp only [NormalizeFrom, Run.done.injEq] at h ⊢
    rw [h]
  | cons c rest ih =>
    intro pre t h
    unfold NormalizeFrom at h ⊢
    by_cases hc : c = 'e'
    · rw [if_pos hc] at h ⊢
      split at h
      · rename_i hcond
        simp only [Bool.and_eq_true, decide_eq_true_eq] at hcond
        obtain ⟨hnext, hlen, hlast⟩ := hcond
        have hpre : pre ≠ [] := by
          intro e
          rw [e] at hlen
          simp at hlen
        have hl : ('+' :: pre).getLastD '\x00' = pre.getLastD '\x00' := by
          cases pre with
          | nil => exact absurd rfl hpre
          | cons a p => simp [List.getLastD]
        have hcond2 : ((!rest.isEmpty && ((rest.headD '\x00').isDigit ||
            rest.headD '\x00' == '+' || rest.headD '\x00' == '-')) &&
            (decide (('+' :: pre).length > 1) && (('+' :: pre).getLastD '\x00').isDigit)) =
            true := by
          rw [hl]
          simp only [Bool.and_eq_true, decide_eq_true_eq]
          exact ⟨hnext, by simp only [List.length_cons]; omega, hlast⟩
        rw [if_pos hcond2]
        exact ih _ t h
      · cases h
    · rw [if_neg hc] at h ⊢
      exact ih _ t h

theorem ToPostfixStep_prev {D : Type} (L : Libm D) (x_ : D) (p q : Option Char)
    (c next : Char) (st : Scan) (h : IsUnary p next = IsUnary q next) :
    ToPostfixStep L x_ p c next st = ToPostfixStep L x_ q c next st := by
  unfold ToPostfixStep OperatorBranch
  rw [h]

/-- The scan of a text does not depend on whether the text starts the expression or
follows a `+`. -/
theorem ToPostfixLoop_after_plus {D : Type} (L : Libm D) (x_ : D) (t : List Char) (st : Scan) :
    ToPostfixLoop L x_ (some '+') t st = ToPostfixLoop L x_ none t st := by
  cases t with
  | nil => rfl
  | cons c rest =>
    rw [ToPostfixLoop_cons, ToPostfixLoop_cons]
    rw [ToPostfixStep_prev L x_ (some '+') none c _ st (by simp [IsUnary, IsOperator])]

/-- The loop body at a `+` that starts the expression changes nothing. -/
theorem ToPostfixStep_leading_plus {D : Type} (L : Libm D) (x_ : D) (next : Char)
    (d : Int) (pf ops : List Token) :
    ToPostfixStep L x_ none '+' next (Scan.mk [] [] d pf ops) =
      .done (Scan.mk [] [] d pf ops) := by
  simp [ToPostfixStep, NumberBranch, VariableBranch, FunctionBranch, OperatorBranch, IsUnary,
    IsOperator, Run.andThen]

theorem ToPostfix_leading_plus {D : Type} (L : Libm D) (m : Model D) :
    ToPostfix L { m with expression_ := '+' :: m.expression_ } =
      (ToPostfix L m).map (fun m1 => { m1 with expression_ := '+' :: m.expression_ }) := by
  unfold ToPostfix
  simp only
  rw [ToPostfixLoop_cons]
  have h := ToPostfixStep_leading_plus L m.x_ (m.expression_.headD '\x00') m.dot_count_
    m.postfix_ m.operators_
  rw [h, Run.done_andThen, ToPostfixLoop_after_plus]
  cases (ToPostfixLoop L m.x_ none m.expression_
    (Scan.mk [] [] m.dot_count_ m.postfix_ m.operators_)).andThen ToPostfixFinish <;> rfl

theorem ValidateInput_plus (E : List Char) (h : ValidateInput E = true)
    (hlen : E.length ≤ 254) : ValidateInput ('+' :: E) = true := by
  simp only [ValidateInput, Bool.and_eq_true, decide_eq_true_eq, beq_iff_eq] at h ⊢
  obtain ⟨⟨⟨⟨_, _⟩, h3⟩, h4⟩, _⟩ := h
  refine ⟨⟨⟨⟨rfl, by simp only [List.length_cons]; omega⟩, ?_⟩, ?_⟩, by simp⟩
  · rw [List.count_cons_of_ne (by decide), List.count_cons_of_ne (by decide)]
    exact h3
  · rw [List.any_cons, h4, Bool.or_true]

/-- C17: when `E`, of at most 254 characters, evaluates successfully, `+E` evaluates
successfully to the same result (the final object differs only in holding the longer
text); the loop body emits no token for the leading `+`, and the RPN of `+E` is the RPN
of `E`. -/
theorem leading_unary_plus {D : Type} (L : Libm D) (x : D) (E : List Char) (m : Model D)
    (hlen : E.length ≤ 254)
    (h : ProcessMathExpression L (Model.fresh L) E x = .done m) :
    ProcessMathExpression L (Model.fresh L) ('+' :: E) x =
      .done { m with expression_ := '+' :: m.expression_ } ∧
    (∀ (next : Char) (d : Int) (pf ops : List Token),
      ToPostfixStep L x none '+' next (Scan.mk [] [] d pf ops) =
        .done (Scan.mk [] [] d pf ops)) ∧
    ((ReplaceScientificNotation (Model.holding L x ('+' :: E))).andThen (ToPostfix L)).map
        (fun m1 => m1.postfix_) =
      ((ReplaceScientificNotation (Model.holding L x E)).andThen (ToPostfix L)).map
        (fun m1 => m1.postfix_) := by
  have hv : ValidateInput E = true := by
    cases hv : ValidateInput E with
    | true => rfl
    | false => simp [ProcessMathExpression, SetInput, hv, Run.andThen] at h
  rw [ProcessMathExpression_of_valid L _ _ hv] at h
  rw [ProcessMathExpression_of_valid L _ _ (ValidateInput_plus E hv hlen)]
  unfold CalculateMathExpression at h ⊢
  obtain ⟨m2, h12, hc⟩ := Run.andThen_eq_done h
  obtain ⟨m1, hn, hp⟩ := Run.andThen_eq_done h12
  have hn1 := hn
  rw [ReplaceScientificNotation_eq] at hn1
  have hm1 := ReplaceScientificNotation_done _ _ hn
  cases hN : NormalizeFrom [] (Model.holding L x E).expression_ with
  | done t =>
    have ht : m1.expression_ = t := by
      rw [hN] at hn1
      simp only [Run.map, Run.done.injEq] at hn1
      rw [← hn1]
    have hN2 : NormalizeFrom [] ('+' :: E) = .done ('+' :: t) := by
      have := NormalizeFrom_plus E [] t hN
      unfold NormalizeFrom
      rw [if_neg (by decide)]
      exact this
    have hn2 : ReplaceScientificNotation (Model.holding L x ('+' :: E)) =
        .done { m1 with expression_ := '+' :: m1.expression_ } := by
      rw [ReplaceScientificNotation_eq]
      have e : (Model.holding L x ('+' :: E)).expression_ = '+' :: E := rfl
      rw [e, hN2, ht, hm1]
      rfl
    have hp2 := ToPostfix_leading_plus L m1
    rw [hp] at hp2
    simp only [Run.map] at hp2
    refine ⟨?_, ToPostfixStep_leading_plus L x, ?_⟩
    · rw [hn2, Run.done_andThen, hp2, Run.done_andThen]
      have hc2 := Calculate_expression L m2 ('+' :: m1.expression_)
      rw [hc] at hc2
      simp only [Run.map] at hc2
      rw [hc2]
      have e2 : m2.expression_ = m1.expression_ := by
        unfold ToPostfix at hp
        cases hr : (ToPostfixLoop L m1.x_ none m1.expression_
          (Scan.mk [] [] m1.dot_count_ m1.postfix_ m1.operators_)).andThen ToPostfixFinish with
        | done s =>
          rw [hr] at hp
          simp only [Run.map, Run.done.injEq] at hp
          rw [← hp]
          rfl
        | thrown s => rw [hr] at hp; cases hp
        | undefined => rw [hr] at hp; cases hp
        | unfinished => rw [hr] at hp; cases hp
      have e3 : m.expression_ = m2.expression_ := by
        have hc3 := Calculate_expression L m2 m2.expression_
        have e4 : ({ m2 with expression_ := m2.expression_ } : Model D) = m2 := rfl
        rw [e4, hc] at hc3
        simp only [Run.map, Run.done.injEq] at hc3
        rw [hc3]
      rw [e3, e2]
    · rw [hn2, hn, Run.done_andThen, Run.done_andThen, hp2, hp]
      rfl
  | thrown t => rw [hN] at hn1; cases hn1
  | undefined => rw [hN] at hn1; cases hn1
  | unfinished => rw [hN] at hn1; cases hn1

/-- C17 at `+156+344`, which returns 500 as `156+344` does. -/
theorem leading_unary_plus_witness :
    ProcessMathExpression exact (Model.fresh exact) "156+344".toList (.fin 0) =
      .done { holding "156+344" with result_ := .fin 500 } ∧
    ProcessMathExpression exact (Model.fresh exact) ('+' :: "156+344".toList) (.fin 0) =
      .done { holding "156+344" with result_ := .fin 500,
                                     expression_ := '+' :: "156+344".toList } :=
  ⟨by decide!,
    (leading_unary_plus exact (.fin 0) "156+344".toList
      { holding "156+344" with result_ := .fin 500 } (by decide) (by decide!)).1⟩

/-! ## Division by zero and the root of a negative number (C19) -/

theorem ValidateInput_minus (E : List Char) (h : ValidateInput E = true)
    (hlen : E.length ≤ 254) : ValidateInput ('-' :: E) = true := by
  simp only [ValidateInput, Bool.and_eq_true, decide_eq_true_eq, beq_iff_eq] at h ⊢
  obtain ⟨⟨⟨⟨_, _⟩, h3⟩, h4⟩, _⟩ := h
  refine ⟨⟨⟨⟨rfl, by simp only [List.length_cons]; omega⟩, ?_⟩, ?_⟩, by simp⟩
  · rw [List.count_cons_of_ne (by decide), List.count_cons_of_ne (by decide)]
    exact h3
  · rw [List.any_cons, h4, Bool.or_true]

/-- The function `ToPostfix` on `-a/b` for numeric literals `a` and `b`: the RPN sequence
is `a ~ b /`. -/
theorem ToPostfix_negated_quotient {D : Type} (L : Libm D) (x : D) (a b : List Char)
    (ha : NumericLiteral a) (hb : NumericLiteral b) :
    ToPostfix L (Model.holding L x ('-' :: (a ++ '/' :: b))) =
      .done { Model.holding L x ('-' :: (a ++ '/' :: b)) with
        postfix_ := [⟨a, 0⟩, ⟨['~'], 4⟩, ⟨b, 0⟩, ⟨['/'], 2⟩] } := by
  have hane := ha.ne_nil
  have hbne := hb.ne_nil
  have hempa : a.isEmpty = false := by cases a <;> simp at hane ⊢
  have hempb : b.isEmpty = false := by cases b <;> simp at hbne ⊢
  have hl : ToPostfixLoop L x none ('-' :: (a ++ '/' :: b)) (Scan.mk [] [] 0 [] []) =
      .done (Scan.mk b [] (litDots true b) [⟨['~'], 4⟩, ⟨a, 0⟩] [⟨['/'], 2⟩]) := by
    rw [ToPostfixLoop_cons, step_operator L x none '-' _ _ (by decide) rfl (by decide),
      OperatorBranch_unary_minus none _ _ rfl]
    simp only [Run.andThen, Scan.flush, List.isEmpty_nil, if_true, PopOperators]
    rw [scan_literal L x a (some '-') ('/' :: b) _ ha.1 rfl]
    simp only [hempa, Bool.false_eq_true, if_false, List.nil_append, List.isEmpty_nil, zero_add]
    rw [ToPostfixLoop_cons, step_operator L x _ '/' _ _ (by decide) rfl (ha.dots true),
      OperatorBranch_binary _ '/' _ _ 2 (by rintro ⟨h | h, _⟩ <;> cases h) (by decide)]
    simp only [Run.andThen, Scan.flush, hempa, Bool.false_eq_true, if_false, PopOperators]
    have := scan_literal L x b (some '/') []
      (Scan.mk [] [] 0 [⟨['~'], 4⟩, ⟨a, 0⟩] [⟨['/'], 2⟩]) hb.1 rfl
    simp only [List.append_nil, List.nil_append, List.isEmpty_nil, zero_add] at this
    simpa [PopOperators] using this
  rw [ToPostfix_of_loop L (Model.holding L x _) _ hl rfl (hb.dots true)]
  simp [Scan.flush, hempb, Model.holding, Model.fresh]

/-- Evaluating `-a/b` for numeric literals `a` and `b`: the negation of `a` is printed and
read back, then divided by `b`, and the quotient is printed and read back. -/
theorem evaluate_negated_quotient {D : Type} (L : Libm D) (x : D) (a b : List Char)
    (va vb r r2 : D) (s s2 : List Char) (ha : NumericLiteral a) (hb : NumericLiteral b)
    (hlen : a.length + b.length + 2 ≤ 255)
    (hva : L.stod a = some va) (hvb : L.stod b = some vb)
    (hs : DoubleToString L (L.neg va) = some s) (hr : L.stod s = some r)
    (hs2 : DoubleToString L (L.div r vb) = some s2) (hr2 : L.stod s2 = some r2) :
    ProcessMathExpression L (Model.fresh L) ('-' :: (a ++ '/' :: b)) x =
      .done { Model.holding L x ('-' :: (a ++ '/' :: b)) with result_ := r2 } := by
  have hv := ValidateInput_minus _
    (ValidateInput_binary_literals a b '/' ha hb (by decide) (by omega))
    (by simp only [List.length_append, List.length_cons]; omega)
  rw [ProcessMathExpression_of_valid L _ _ hv]
  unfold CalculateMathExpression
  have hne : 'e' ∉ (Model.holding L x ('-' :: (a ++ '/' :: b))).expression_ := by
    intro h
    have h2 : 'e' ∈ '-' :: (a ++ '/' :: b) := h
    rw [List.mem_cons] at h2
    rcases h2 with h2 | h2
    · cases h2
    · exact not_mem_e_binary_literals a b '/' ha hb (by decide) h2
  rw [ReplaceScientificNotation_no_e _ hne, Run.done_andThen,
    ToPostfix_negated_quotient L x a b ha hb, Run.done_andThen]
  have ht : TrigonometryResult L va ['~'] = L.neg va := by
    simp [TrigonometryResult]
  have ho : ArithmeticResult L r vb '/' = L.div r vb := rfl
  simp [Calculate, CalculateLoop, CalculateStep, Run.andThen, IsOperator, hva, hvb, PushResult,
    ht, ho, hs, hr, hs2, hr2, Model.holding, Model.fresh]

/-- Where the exact `sqrt` gives a finite value, that value is the non-negative root. -/
theorem Dbl.sqrt_fin {q r : ℚ} (h : Dbl.sqrt (.fin q) = .fin r) : 0 ≤ r ∧ r * r = q := by
  simp only [Dbl.sqrt] at h
  split_ifs at h with hq hsq
  simp only [Dbl.fin.injEq] at h
  subst h
  obtain ⟨h1, h2⟩ := hsq
  have hq0 : 0 ≤ q := not_lt.1 hq
  have hnum : (q.num.natAbs : ℤ) = q.num := Int.natAbs_of_nonneg (Rat.num_nonneg.2 hq0)
  constructor
  · positivity
  · rw [div_mul_div_comm]
    have e1 : ((Dbl.isqrt q.num.natAbs : ℚ) * (Dbl.isqrt q.num.natAbs : ℚ)) = (q.num : ℚ) := by
      have : ((Dbl.isqrt q.num.natAbs * Dbl.isqrt q.num.natAbs : ℕ) : ℚ) =
          (q.num.natAbs : ℚ) := by
        rw [h1]
      rw [Nat.cast_mul] at this
      rw [this]
      have h3 : ((q.num.natAbs : ℤ) : ℚ) = (q.num : ℚ) := by rw [hnum]
      rw [← h3]
      exact (Int.cast_natCast _).symm
    have e2 : ((Dbl.isqrt q.den : ℚ) * (Dbl.isqrt q.den : ℚ)) = (q.den : ℚ) := by
      have : ((Dbl.isqrt q.den * Dbl.isqrt q.den : ℕ) : ℚ) = (q.den : ℚ) := by rw [h2]
      rw [Nat.cast_mul] at this
      exact this
    rw [e1, e2]
    exact Rat.num_div_den q

/-- C19 as stated fails for `-a/0` with a small positive `a`: `-0.00000001/0` evaluates to
NaN, not to minus infinity, because the negation of `a` is printed with 7 decimals (as
`-0.0000000`) before it is divided. -/
theorem negated_small_dividend_gives_nan :
    NumericLiteral "0.00000001".toList ∧
    exact.stod "0.00000001".toList = some (.fin (1 / 100000000)) ∧
    (0 : ℚ) < 1 / 100000000 ∧
    returned (ProcessMathExpression exact (Model.fresh exact) "-0.00000001/0".toList (.fin 0)) =
      .done .nan := by
  refine ⟨by unfold NumericLiteral; decide, by decide!, by norm_num, by decide!⟩

/-- C19, amended: for every numeric literal `a` (of at most 252 characters) with a value
`q > 0`, evaluating `a/0` succeeds and returns plus infinity; evaluating `-a/0` (when the
text of `-q` fits the buffer of `DoubleToString`) succeeds and returns minus infinity when
`-q`, printed with 7 decimals and read back, is negative, and NaN when it reads back as
zero; evaluating `sqrt(-1.0)` succeeds and returns NaN. -/
theorem division_by_zero_and_negative_root (a : List Char) (q : ℚ) (ha : NumericLiteral a)
    (hlen : a.length ≤ 252) (hq : exact.stod a = some (.fin q)) (hpos : 0 < q) :
    returned (ProcessMathExpression exact (Model.fresh exact) (a ++ "/0".toList) (.fin 0)) =
      .done (.inf false) ∧
    (∀ s r, DoubleToString exact (.fin (-q)) = some s → exact.stod s = some (.fin r) →
      (r < 0 → returned (ProcessMathExpression exact (Model.fresh exact)
        ('-' :: (a ++ "/0".toList)) (.fin 0)) = .done (.inf true)) ∧
      (r = 0 → returned (ProcessMathExpression exact (Model.fresh exact)
        ('-' :: (a ++ "/0".toList)) (.fin 0)) = .done .nan)) ∧
    returned (ProcessMathExpression exact (Model.fresh exact) "sqrt(-1.0)".toList (.fin 0)) =
      .done .nan := by
  have h0 : NumericLiteral "0".toList := by unfold NumericLiteral; decide
  have hz : exact.stod "0".toList = some (.fin 0) := by decide!
  refine ⟨?_, ?_, by decide!⟩
  · have hd : ArithmeticResult exact (.fin q) (.fin 0) '/' = .inf false := by
      have : ArithmeticResult exact (.fin q) (.fin 0) '/' = Dbl.div (.fin q) (.fin 0) := rfl
      rw [this]
      simp [Dbl.div, hpos.ne', not_lt.2 hpos.le]
    have := evaluate_binary_literals exact (.fin 0) a "0".toList '/' 2 (.fin q) (.fin 0)
      (.inf false) "inf".toList ha h0 (by decide) (by decide)
      (by simp only [String.toList, List.length_cons, List.length_nil]; omega) hq hz
      (by rw [hd]; decide!) (by decide!)
    have e : a ++ "/0".toList = a ++ '/' :: "0".toList := rfl
    rw [e, this]
    rfl
  · intro s r hs hr
    have e : '-' :: (a ++ "/0".toList) = '-' :: (a ++ '/' :: "0".toList) := rfl
    constructor
    · intro hneg
      have hd : exact.div (.fin r) (.fin 0) = .inf true := by
        show Dbl.div (.fin r) (.fin 0) = .inf true
        simp [Dbl.div, hneg.ne, hneg]
      have := evaluate_negated_quotient exact (.fin 0) a "0".toList (.fin q) (.fin 0) (.fin r)
        (.inf true) s "-inf".toList ha h0
        (by simp only [String.toList, List.length_cons, List.length_nil]; omega) hq hz hs hr
        (by rw [hd]; decide!) (by decide!)
      rw [e, this]
      rfl
    · intro hzero
      have hd : exact.div (.fin r) (.fin 0) = .nan := by
        show Dbl.div (.fin r) (.fin 0) = .nan
        simp [Dbl.div, hzero]
      have := evaluate_negated_quotient exact (.fin 0) a "0".toList (.fin q) (.fin 0) (.fin r)
        .nan s "nan".toList ha h0
        (by simp only [String.toList, List.length_cons, List.length_nil]; omega) hq hz hs hr
        (by rw [hd]; decide!) (by decide!)
      rw [e, this]
      rfl

/-- C19, amended, at `1/0`, which returns plus infinity, and `-1/0`, which returns minus
infinity. -/
theorem division_by_zero_and_negative_root_witness :
    returned (ProcessMathExpression exact (Model.fresh exact) "1/0".toList (.fin 0)) =
      .done (.inf false) ∧
    returned (ProcessMathExpression exact (Model.fresh exact) "-1/0".toList (.fin 0)) =
      .done (.inf true) :=
  have h := division_by_zero_and_negative_root "1".toList 1 (by unfold NumericLiteral; decide)
    (by decide) (by decide!) (by norm_num)
  ⟨h.1, (h.2.1 "-1.0000000".toList (-1) (by decide!) (by decide!)).1 (by norm_num)⟩

/-! ## The scan of a text inside a pair of parentheses -/

theorem Run.map_andThen_of {σ : Type} (r : Run σ) (f : σ → Run σ) (g : σ → σ)
    (Q : σ → Prop) (hr : ∀ s, r = .done s → Q s)
    (hf : ∀ s, Q s → f (g s) = (f s).map g) :
    (r.map g).andThen f = (r.andThen f).map g := by
  cases r with
  | done s => exact hf s (hr s rfl)
  | thrown s => rfl
  | undefined => rfl
  | unfinished => rfl

theorem parenCount_cons (t : Token) (ops : List Token) :
    parenCount (t :: ops) = parenCount ops + (if t.value = ['('] then 1 else 0) := by
  unfold parenCount
  rw [List.countP_cons]
  simp

theorem PopOperators_frame (p : Int) (tk : Token) (F P : List Token) (htk : tk.value = ['(']) :
    ∀ (ops pf : List Token), PopOperators p (ops ++ tk :: F) (pf ++ P) =
      ((PopOperators p ops pf).1 ++ tk :: F, (PopOperators p ops pf).2 ++ P) := by
  intro ops
  induction ops with
  | nil =>
    intro pf
    simp [PopOperators, htk]
  | cons t ops ih =>
    intro pf
    rw [List.cons_append]
    unfold PopOperators
    split
    · have := ih (t :: pf)
      rw [List.cons_append] at this
      exact this
    · rfl

theorem PopOperators_parenCount (p : Int) :
    ∀ (ops pf : List Token), parenCount (PopOperators p ops pf).1 = parenCount ops := by
  intro ops
  induction ops with
  | nil => intro pf; rfl
  | cons t ops ih =>
    intro pf
    unfold PopOperators
    split
    · rename_i h
      simp only [Bool.and_eq_true, bne_iff_ne, ne_eq] at h
      rw [ih, parenCount_cons, if_neg h.2, Nat.add_zero]
    · rfl

theorem PopToParen_frame (F P : List Token) :
    ∀ (ops pf : List Token), 0 < parenCount ops →
      PopToParen (ops ++ F) (pf ++ P) =
        ((PopToParen ops pf).1 ++ F, (PopToParen ops pf).2 ++ P) := by
  intro ops
  induction ops with
  | nil =>
    intro pf h
    simp [parenCount] at h
  | cons t ops ih =>
    intro pf h
    rw [List.cons_append]
    unfold PopToParen
    split
    · rename_i hv
      simp only [bne_iff_ne, ne_eq] at hv
      rw [parenCount_cons, if_neg hv, Nat.add_zero] at h
      have := ih (⟨t.value, t.priority⟩ :: pf) h
      rw [List.cons_append] at this
      exact this
    · rfl

theorem PopToParen_parenCount :
    ∀ (ops pf : List Token), parenCount (PopToParen ops pf).1.tail = parenCount ops - 1 := by
  intro ops
  induction ops with
  | nil => intro pf; rfl
  | cons t ops ih =>
    intro pf
    unfold PopToParen
    split
    · rename_i hv
      simp only [bne_iff_ne, ne_eq] at hv
      rw [ih, parenCount_cons, if_neg hv, Nat.add_zero]
    · rename_i hv
      simp only [bne_iff_ne, ne_eq, not_not] at hv
      rw [parenCount_cons, if_pos hv]
      rfl

theorem DrainOperators_append (P : List Token) :
    ∀ (ops pf : List Token), DrainOperators ops (pf ++ P) = DrainOperators ops pf ++ P := by
  intro ops
  induction ops with
  | nil => intro pf; rfl
  | cons t ops ih =>
    intro pf
    unfold DrainOperators
    rw [← ih]
    rfl

/-- With no `(` of its own on the operator stack, the `)` loop pops the whole stack into
the output, as the final drain does, and stops at the `(` underneath. -/
theorem PopToParen_to_frame (tk : Token) (F P : List Token) (htk : tk.value = ['(']) :
    ∀ (ops pf : List Token), parenCount ops = 0 →
      PopToParen (ops ++ tk :: F) (pf ++ P) = (tk :: F, DrainOperators ops pf ++ P) := by
  intro ops
  induction ops with
  | nil =>
    intro pf _
    simp [PopToParen, DrainOperators, htk]
  | cons t ops ih =>
    intro pf h
    rw [parenCount_cons] at h
    have hv : ¬ t.value = ['('] := by
      intro hv
      rw [if_pos hv] at h
      omega
    rw [if_neg hv, Nat.add_zero] at h
    rw [List.cons_append]
    unfold PopToParen DrainOperators
    have hb : (t.value != ['(']) = true := by simpa using hv
    rw [if_pos hb]
    have := ih (⟨t.value, t.priority⟩ :: pf) h
    rw [List.cons_append] at this
    exact this

theorem NumberBranch_frame (F P : List Token) (c : Char) (st : Scan) :
    NumberBranch c (st.frame F P) = (NumberBranch c st).map (Scan.frame F P) := by
  unfold NumberBranch PushNumberToPostfix Scan.frame
  simp only
  split_ifs <;> rfl

theorem VariableBranch_frame {D : Type} (L : Libm D) (x_ : D) (F P : List Token) (c : Char)
    (st : Scan) :
    VariableBranch L x_ c (st.frame F P) = (VariableBranch L x_ c st).map (Scan.frame F P) := by
  unfold VariableBranch Scan.frame
  split
  · cases DoubleToString L x_ <;> rfl
  · rfl

theorem FunctionBranch_frame (F P : List Token) (c : Char) (st : Scan) :
    FunctionBranch c (st.frame F P) = (FunctionBranch c st).map (Scan.frame F P) := by
  unfold FunctionBranch PushOperationToOperators Scan.frame
  simp only
  split_ifs
  · rfl
  · cases SetTokenPriority st.operation <;> rfl
  · rfl

theorem PushCharToOperators_frame (F P : List Token) (c : Char) (st : Scan) :
    PushCharToOperators (st.frame F P) c = (PushCharToOperators st c).map (Scan.frame F P) := by
  unfold PushCharToOperators Scan.frame
  cases SetTokenPriority [c] <;> rfl

theorem OperatorBranch_frame (tk : Token) (F P : List Token) (htk : tk.value = ['('])
    (prev : Option Char) (c next : Char) (st : Scan) :
    OperatorBranch prev c next (st.frame (tk :: F) P) =
      (OperatorBranch prev c next st).map (Scan.frame (tk :: F) P) := by
  unfold OperatorBranch
  split
  · rfl
  · simp only
    cases hp : SetTokenPriority [if (c == '-' && IsUnary prev next) = true then '~' else c] with
    | none => rfl
    | some p =>
      simp only
      have h1 := PopOperators_frame p tk F P htk st.operators_ st.postfix_
      have h2 := PushCharToOperators_frame (tk :: F) P
        (if (c == '-' && IsUnary prev next) = true then '~' else c)
        { st with operators_ := (PopOperators p st.operators_ st.postfix_).1,
                  postfix_ := (PopOperators p st.operators_ st.postfix_).2 }
      rw [← h2]
      unfold Scan.frame
      simp only
      rw [h1]

theorem PopToParen_ne_nil :
    ∀ (ops pf : List Token), 0 < parenCount ops → (PopToParen ops pf).1 ≠ [] := by
  intro ops
  induction ops with
  | nil =>
    intro pf h
    simp [parenCount] at h
  | cons t ops ih =>
    intro pf h
    unfold PopToParen
    split
    · rename_i hv
      simp only [bne_iff_ne, ne_eq] at hv
      rw [parenCount_cons, if_neg hv, Nat.add_zero] at h
      exact ih _ h
    · exact List.cons_ne_nil _ _

theorem ParenBranch_frame (F P : List Token) (c : Char) (st : Scan)
    (h : c = ')' → 0 < parenCount st.operators_) :
    ParenBranch c (st.frame F P) = (ParenBranch c st).map (Scan.frame F P) := by
  unfold ParenBranch
  by_cases h1 : c = '('
  · subst h1
    simp only [beq_self_eq_true, if_true]
    rw [PushCharToOperators_frame]
    cases PushCharToOperators st '(' <;> rfl
  · have e1 : (c == '(') = false := by simpa using h1
    simp only [e1, Bool.false_eq_true, if_false, Run.andThen]
    by_cases h2 : c = ')'
    · subst h2
      simp only [beq_self_eq_true, if_true, Run.map]
      have := PopToParen_frame F P st.operators_ st.postfix_ (h rfl)
      unfold Scan.frame
      simp only
      rw [this]
      have hne := PopToParen_ne_nil st.operators_ st.postfix_ (h rfl)
      cases hq : (PopToParen st.operators_ st.postfix_).1 with
      | nil => exact absurd hq hne
      | cons a t => rfl
    · have e2 : (c == ')') = false := by simpa using h2
      simp only [e2, Bool.false_eq_true, if_false]
      rfl

theorem FunctionBranch_parenCount {c : Char} {st s : Scan} (h : FunctionBranch c st = .done s)
    (hop : ∀ a ∈ st.operation, a.isAlpha = true) :
    parenCount s.operators_ = parenCount st.operators_ := by
  unfold FunctionBranch PushOperationToOperators at h
  split_ifs at h with h1 h2
  · simp only [Run.done.injEq] at h
    subst h
    rfl
  · cases hp : SetTokenPriority st.operation with
    | none => rw [hp] at h; cases h
    | some p =>
      rw [hp] at h
      simp only [Run.done.injEq] at h
      subst h
      simp only
      rw [parenCount_cons, if_neg, Nat.add_zero]
      intro hv
      have := hop '(' (by rw [show st.operation = ['('] from hv]; exact List.mem_singleton_self _)
      exact absurd this (by decide)
  · simp only [Run.done.injEq] at h
    subst h
    rfl

theorem front_parenCount {D : Type} {L : Libm D} {x_ : D} {c : Char} {st s : Scan}
    (h : ((NumberBranch c st).andThen (VariableBranch L x_ c)).andThen (FunctionBranch c) =
      .done s)
    (hop : ∀ a ∈ st.operation, a.isAlpha = true) :
    parenCount s.operators_ = parenCount st.operators_ := by
  obtain ⟨s2, h2, h3⟩ := Run.andThen_eq_done h
  obtain ⟨s1, h1, h2'⟩ := Run.andThen_eq_done h2
  have n1 := NumberBranch_done h1
  have v1 := VariableBranch_done h2'
  have hop2 : ∀ a ∈ s2.operation, a.isAlpha = true := by
    rw [v1.2.1, n1.1]
    exact hop
  rw [FunctionBranch_parenCount h3 hop2, v1.2.2.2, n1.2.1]

theorem OperatorBranch_parenCount {prev : Option Char} {c next : Char} {st s : Scan}
    (hc : IsOperator c = true) (h : OperatorBranch prev c next st = .done s) :
    parenCount s.operators_ = parenCount st.operators_ := by
  unfold OperatorBranch PushCharToOperators at h
  split at h
  · simp only [Run.done.injEq] at h
    subst h
    rfl
  · simp only at h
    cases hp : SetTokenPriority [if (c == '-' && IsUnary prev next) = true then '~' else c] with
    | none => rw [hp] at h; cases h
    | some p =>
      rw [hp] at h
      simp only [Run.done.injEq] at h
      subst h
      simp only
      rw [parenCount_cons, PopOperators_parenCount, if_neg, Nat.add_zero]
      intro hv
      simp only [List.cons.injEq, and_true] at hv
      split at hv
      · cases hv
      · rw [hv] at hc
        cases hc

theorem ParenBranch_parenCount {c : Char} {st s : Scan} (h : ParenBranch c st = .done s) :
    parenCount s.operators_ =
      if c = '(' then parenCount st.operators_ + 1
      else if c = ')' then parenCount st.operators_ - 1
      else parenCount st.operators_ := by
  unfold ParenBranch PushCharToOperators at h
  by_cases h1 : c = '('
  · subst h1
    have h6 : SetTokenPriority ['('] = some 6 := by decide
    simp only [beq_self_eq_true, if_true, h6, Run.andThen, show ('(' == ')') = false by decide,
      Bool.false_eq_true, if_false, Run.done.injEq] at h
    subst h
    simp only [if_true]
    rw [parenCount_cons, if_pos rfl]
  · have e1 : (c == '(') = false := by simpa using h1
    simp only [e1, Bool.false_eq_true, if_false, Run.andThen] at h
    rw [if_neg h1]
    by_cases h2 : c = ')'
    · subst h2
      simp only [beq_self_eq_true, if_true, Run.done.injEq] at h
      subst h
      simp only [if_true]
      exact PopToParen_parenCount _ _
    · have e2 : (c == ')') = false := by simpa using h2
      simp only [e2, Bool.false_eq_true, if_false, Run.done.injEq] at h
      subst h
      rw [if_neg h2]

/-- What a normal return of the loop body tells about the `(` tokens on the operator stack:
one more after a `(`, one less after a `)`, as many after any other character. -/
theorem ToPostfixStep_parenCount {D : Type} {L : Libm D} {x_ : D} {prev : Option Char}
    {c next : Char} {st s : Scan} (h : ToPostfixStep L x_ prev c next st = .done s)
    (hop : ∀ a ∈ st.operation, a.isAlpha = true) :
    (parenCount s.operators_ =
      if c = '(' then parenCount st.operators_ + 1
      else if c = ')' then parenCount st.operators_ - 1
      else parenCount st.operators_) ∧
    ∀ a ∈ s.operation, a.isAlpha = true := by
  constructor
  · unfold ToPostfixStep at h
    obtain ⟨s3, h3, h4⟩ := Run.andThen_eq_done h
    have hf := front_parenCount h3 hop
    split at h4
    · rename_i hc
      have hcl := operator_class c hc
      have e1 : c ≠ '(' := by simpa using hcl.2.2.2.2.2.1
      have e2 : c ≠ ')' := by simpa using hcl.2.2.2.2.2.2
      rw [if_neg e1, if_neg e2, OperatorBranch_parenCount hc h4, hf]
    · rw [ParenBranch_parenCount h4, hf]
  · have hd := ToPostfixStep_done h
    by_cases hl : (c.isAlpha && c != 'x') = true
    · rw [hd.2.2.1 hl]
      intro a ha
      rw [List.mem_append, List.mem_singleton] at ha
      rcases ha with ha | ha
      · exact hop a ha
      · subst ha
        simp only [Bool.and_eq_true] at hl
        exact hl.1
    · have hl2 : (c.isAlpha && c != 'x') = false := by simpa using hl
      rw [(hd.2.2.2 hl2).1]
      intro a ha
      cases ha

/-- The loop body on a state with a `(` token and more under the operator stack, and more
under the output: it works as on the state without them, as long as a `)` finds a `(` of
the text's own on the operator stack. -/
theorem ToPostfixStep_frame {D : Type} (L : Libm D) (x_ : D) (tk : Token) (F P : List Token)
    (htk : tk.value = ['(']) (prev : Option Char) (c next : Char) (st : Scan)
    (hpc : c = ')' → 0 < parenCount st.operators_)
    (hop : ∀ a ∈ st.operation, a.isAlpha = true) :
    ToPostfixStep L x_ prev c next (st.frame (tk :: F) P) =
      (ToPostfixStep L x_ prev c next st).map (Scan.frame (tk :: F) P) := by
  unfold ToPostfixStep
  rw [NumberBranch_frame,
    Run.map_andThen_of _ _ _ (fun _ => True) (fun _ _ => trivial)
      (fun s _ => VariableBranch_frame L x_ (tk :: F) P c s),
    Run.map_andThen_of _ _ _ (fun _ => True) (fun _ _ => trivial)
      (fun s _ => FunctionBranch_frame (tk :: F) P c s)]
  apply Run.map_andThen_of _ _ _ (fun s3 => c = ')' → 0 < parenCount s3.operators_)
  · intro s3 h3 hc
    rw [front_parenCount h3 hop]
    exact hpc hc
  · intro s3 h3
    split
    · exact OperatorBranch_frame tk F P htk prev c next s3
    · exact ParenBranch_frame (tk :: F) P c s3 h3

theorem ToPostfixStep_unary {D : Type} (L : Libm D) (x_ : D) (p q : Option Char)
    (c n n2 : Char) (st : Scan) (h : IsUnary p n = IsUnary q n2) :
    ToPostfixStep L x_ p c n st = ToPostfixStep L x_ q c n2 st := by
  unfold ToPostfixStep OperatorBranch
  rw [h]

theorem IsUnary_next (p : Option Char) (n n2 : Char) (h : IsOperator n = IsOperator n2) :
    IsUnary p n = IsUnary p n2 := by
  unfold IsUnary
  rw [h]

/-- The loop of `ToPostfix` over a properly nested text `E` that is followed by a `)`, on a
state with a `(` token and more under the operator stack: it works as the loop over `E`
alone on the state without them. -/
theorem loop_frame {D : Type} (L : Libm D) (x_ : D) (tk : Token) (F P : List Token)
    (htk : tk.value = ['(']) (rest : List Char) :
    ∀ (E : List Char) (prev prev2 : Option Char) (st s : Scan) (d : Nat),
      (∀ n, IsUnary prev n = IsUnary prev2 n) → nested d E = true →
      parenCount st.operators_ = d → (∀ a ∈ st.operation, a.isAlpha = true) →
      ToPostfixLoop L x_ prev E st = .done s →
      (∃ pv, ToPostfixLoop L x_ prev2 (E ++ ')' :: rest) (st.frame (tk :: F) P) =
        ToPostfixLoop L x_ pv (')' :: rest) (s.frame (tk :: F) P)) ∧
      parenCount s.operators_ = 0 ∧ ∀ a ∈ s.operation, a.isAlpha = true := by
  intro E
  induction E with
  | nil =>
    intro prev prev2 st s d _ hn hpc hop h
    simp only [ToPostfixLoop, Run.done.injEq] at h
    subst h
    have hd : d = 0 := by simpa [nested] using hn
    exact ⟨⟨prev2, rfl⟩, by rw [hpc, hd], hop⟩
  | cons c E ih =>
    intro prev prev2 st s d hu hn hpc hop h
    rw [ToPostfixLoop_cons] at h
    obtain ⟨s1, h1, h2⟩ := Run.andThen_eq_done h
    have hcond : c = ')' → 0 < parenCount st.operators_ := by
      intro hc
      subst hc
      rw [hpc]
      cases d with
      | zero => simp [nested] at hn
      | succ d1 => omega
    have hnext : IsOperator (E.headD '\x00') = IsOperator ((E ++ ')' :: rest).headD '\x00') := by
      cases E with
      | nil => rfl
      | cons a t => rfl
    have hstep : ToPostfixStep L x_ prev2 c ((E ++ ')' :: rest).headD '\x00')
        (st.frame (tk :: F) P) = .done (s1.frame (tk :: F) P) := by
      rw [← ToPostfixStep_unary L x_ prev prev2 c (E.headD '\x00') _ _
        ((IsUnary_next prev _ _ hnext).trans (hu _)),
        ToPostfixStep_frame L x_ tk F P htk prev c _ st hcond hop, h1]
      rfl
    obtain ⟨hcount, hop1⟩ := ToPostfixStep_parenCount h1 hop
    have hn1 : nested (parenCount s1.operators_) E = true := by
      rw [hcount, hpc]
      unfold nested at hn
      by_cases e1 : c = '('
      · rw [if_pos e1] at hn ⊢
        exact hn
      · rw [if_neg e1] at hn ⊢
        by_cases e2 : c = ')'
        · rw [if_pos e2] at hn ⊢
          cases d with
          | zero => cases hn
          | succ d1 => exact hn
        · rw [if_neg e2] at hn ⊢
          exact hn
    obtain ⟨⟨pv, hloop⟩, hz, hops⟩ := ih (some c) (some c) s1 s _ (fun _ => rfl) hn1 rfl hop1 h2
    refine ⟨⟨pv, ?_⟩, hz, hops⟩
    rw [List.cons_append, ToPostfixLoop_cons, hstep, Run.done_andThen]
    exact hloop

/-- What `ToPostfix` does after its loop, told with the loop body: the flushes of a `)`
step, then the drain. -/
theorem ToPostfixFinish_eq_front {D : Type} (L : Libm D) (x_ : D) (s : Scan) :
    ToPostfixFinish s =
      (((NumberBranch ')' s).andThen (VariableBranch L x_ ')')).andThen
        (FunctionBranch ')')).andThen fun st =>
        .done { st with operators_ := [],
                        postfix_ := ReverseStack (DrainOperators st.operators_ st.postfix_) } := by
  have e1 : Char.isDigit ')' = false := by decide
  have e2 : Char.isAlpha ')' = false := by decide
  unfold ToPostfixFinish NumberBranch VariableBranch FunctionBranch
  simp only [e1, e2, show (')' == '.') = false by decide, show (')' == 'e') = false by decide,
    show (')' == 'x') = false by decide, Bool.false_and, Bool.or_false, Bool.false_eq_true,
    if_false]
  cases hn : s.number.isEmpty
  · simp only [Bool.not_false, if_true]
    cases hp : PushNumberToPostfix s with
    | done s1 => rfl
    | thrown s1 => rfl
    | undefined => rfl
    | unfinished => rfl
  · rfl

/-- The `)` that closes the text: when `ToPostfix` on the text alone ends normally, the
loop body at the `)` flushes the accumulators and pops the operators of the text into the
output, as the end of `ToPostfix` does, and removes the `(` underneath. -/
theorem step_close_frame {D : Type} (L : Libm D) (x_ : D) (tk : Token) (F P : List Token)
    (htk : tk.value = ['(']) (pv : Option Char) (next : Char) (s s2 : Scan)
    (hfin : ToPostfixFinish s = .done s2) (hpc : parenCount s.operators_ = 0)
    (hop : ∀ a ∈ s.operation, a.isAlpha = true) :
    ToPostfixStep L x_ pv ')' next (s.frame (tk :: F) P) =
      .done (Scan.mk [] [] s2.dot_count_ (s2.postfix_.reverse ++ P) F) := by
  rw [ToPostfixFinish_eq_front L x_] at hfin
  obtain ⟨s3, h3, h4⟩ := Run.andThen_eq_done hfin
  have hpc3 : parenCount s3.operators_ = 0 := by rw [front_parenCount h3 hop, hpc]
  obtain ⟨sb, hb, hc⟩ := Run.andThen_eq_done h3
  obtain ⟨sa, ha, hb2⟩ := Run.andThen_eq_done hb
  have n1 := NumberBranch_done ha
  have v1 := VariableBranch_done hb2
  have f1 := FunctionBranch_done hc
  have hnum : s3.number = [] := by
    rw [f1.1, v1.1]
    exact (n1.2.2.2 (by decide)).1
  have hopn : s3.operation = [] := (f1.2.2.2.2 (by decide)).1
  simp only [Run.done.injEq] at h4
  unfold ToPostfixStep
  rw [NumberBranch_frame,
    Run.map_andThen_of _ _ _ (fun _ => True) (fun _ _ => trivial)
      (fun s _ => VariableBranch_frame L x_ (tk :: F) P ')' s),
    Run.map_andThen_of _ _ _ (fun _ => True) (fun _ _ => trivial)
      (fun s _ => FunctionBranch_frame (tk :: F) P ')' s), h3]
  simp only [Run.map, Run.andThen, show IsOperator ')' = false by decide, Bool.false_eq_true,
    if_false]
  unfold ParenBranch
  simp only [show (')' == '(') = false by decide, Bool.false_eq_true, if_false, Run.andThen,
    beq_self_eq_true, if_true, Run.done.injEq]
  have hp := PopToParen_to_frame tk F P htk s3.operators_ s3.postfix_ hpc3
  unfold Scan.frame
  simp only
  rw [hp, ← h4]
  simp only [List.tail_cons, ReverseStack_eq, List.reverse_reverse, hnum, hopn]

theorem ToPostfixFinish_operators {s s2 : Scan} (h : ToPostfixFinish s = .done s2) :
    s2.operators_ = [] ∧ s2.number = [] ∧ s2.operation = [] := by
  rw [ToPostfixFinish_eq_front exact (.fin 0)] at h
  obtain ⟨s3, h3, h4⟩ := Run.andThen_eq_done h
  obtain ⟨sb, hb, hc⟩ := Run.andThen_eq_done h3
  obtain ⟨sa, ha, hb2⟩ := Run.andThen_eq_done hb
  have n1 := NumberBranch_done ha
  have v1 := VariableBranch_done hb2
  have f1 := FunctionBranch_done hc
  simp only [Run.done.injEq] at h4
  subst h4
  refine ⟨rfl, ?_, (f1.2.2.2.2 (by decide)).1⟩
  show s3.number = []
  rw [f1.1, v1.1]
  exact (n1.2.2.2 (by decide)).1

/-- The function `ToPostfix` on `q E )`, where the scan of the prefix `q` leaves a `(`
token on top of the tokens `F` on the operator stack and `E` is properly nested: when
`ToPostfix` on `E` ends normally, the RPN of `q E )` is the RPN of `E` followed by `F`. -/
theorem ToPostfix_framed {D : Type} (L : Libm D) (m m2 : Model D) (q : List Char)
    (tk : Token) (F : List Token) (htk : tk.value = ['('])
    (hp : m.postfix_ = []) (ho : m.operators_ = [])
    (hq : ∀ rest, ToPostfixLoop L m.x_ none (q ++ rest) (Scan.mk [] [] m.dot_count_ [] []) =
      ToPostfixLoop L m.x_ (some '(') rest (Scan.mk [] [] m.dot_count_ [] (tk :: F)))
    (hn : nested 0 m.expression_ = true)
    (h : ToPostfix L m = .done m2) :
    ToPostfix L { m with expression_ := q ++ m.expression_ ++ [')'] } =
      .done { m2 with expression_ := q ++ m.expression_ ++ [')'],
                      postfix_ := m2.postfix_ ++ F } := by
  unfold ToPostfix at h ⊢
  simp only [hp, ho] at h ⊢
  cases hr : (ToPostfixLoop L m.x_ none m.expression_
      (Scan.mk [] [] m.dot_count_ [] [])).andThen ToPostfixFinish with
  | done s2 =>
    rw [hr] at h
    simp only [Run.map, Run.done.injEq] at h
    obtain ⟨s, hs, hfin⟩ := Run.andThen_eq_done hr
    obtain ⟨⟨pv, hloop⟩, hz, hops⟩ := loop_frame L m.x_ tk F [] htk [] m.expression_ none
      (some '(') (Scan.mk [] [] m.dot_count_ [] []) s 0 (fun _ => rfl) hn rfl
      (fun a ha => by cases ha) hs
    have hloop2 : ToPostfixLoop L m.x_ none (q ++ m.expression_ ++ [')'])
        (Scan.mk [] [] m.dot_count_ [] []) =
        .done (Scan.mk [] [] s2.dot_count_ (s2.postfix_.reverse ++ []) F) := by
      rw [List.append_assoc, hq]
      have e : Scan.mk [] [] m.dot_count_ [] (tk :: F) =
          (Scan.mk [] [] m.dot_count_ [] []).frame (tk :: F) [] := rfl
      rw [e, hloop, ToPostfixLoop_cons,
        step_close_frame L m.x_ tk F [] htk pv _ s s2 hfin hz hops]
      rfl
    rw [hloop2]
    obtain ⟨e1, _, _⟩ := ToPostfixFinish_operators hfin
    rw [← h]
    simp [Run.andThen, ToPostfixFinish, Run.map, Scan.toModel, ReverseStack_eq,
      DrainOperators_eq, e1]
  | thrown s2 => rw [hr] at h; cases h
  | undefined => rw [hr] at h; cases h
  | unfinished => rw [hr] at h; cases h

theorem NormalizeFrom_prefix (q rest : List Char) :
    ∀ (pre t : List Char), NormalizeFrom pre rest = .done t →
      NormalizeFrom (q ++ pre) rest = .done (q ++ t) := by
  induction rest with
  | nil =>
    intro pre t h
    simp only [NormalizeFrom, Run.done.injEq] at h ⊢
    rw [h]
  | cons c rest ih =>
    intro pre t h
    unfold NormalizeFrom at h ⊢
    by_cases hc : c = 'e'
    · rw [if_pos hc] at h ⊢
      split at h
      · rename_i hcond
        simp only [Bool.and_eq_true, decide_eq_true_eq] at hcond
        obtain ⟨hnext, hlen, hlast⟩ := hcond
        have hpre : pre ≠ [] := by
          intro e
          rw [e] at hlen
          simp at hlen
        have hl : (q ++ pre).getLastD '\x00' = pre.getLastD '\x00' := by
          rw [List.getLastD_eq_getLast?, List.getLastD_eq_getLast?,
            List.getLast?_append_of_ne_nil _ hpre]
        have hcond2 : ((!rest.isEmpty && ((rest.headD '\x00').isDigit ||
            rest.headD '\x00' == '+' || rest.headD '\x00' == '-')) &&
            (decide ((q ++ pre).length > 1) && ((q ++ pre).getLastD '\x00').isDigit)) =
            true := by
          rw [hl]
          simp only [Bool.and_eq_true, decide_eq_true_eq]
          exact ⟨hnext, by simp only [List.length_append]; omega, hlast⟩
        rw [if_pos hcond2, List.append_assoc]
        exact ih _ t h
      · cases h
    · rw [if_neg hc] at h ⊢
      rw [List.append_assoc]
      exact ih _ t h

theorem NormalizeFrom_suffix (suf : List Char) (hs : 'e' ∉ suf) (rest : List Char) :
    ∀ (pre t : List Char), NormalizeFrom pre rest = .done t →
      NormalizeFrom pre (rest ++ suf) = .done (t ++ suf) := by
  induction rest with
  | nil =>
    intro pre t h
    simp only [NormalizeFrom, Run.done.injEq] at h
    rw [List.nil_append, NormalizeFrom_no_e pre suf hs, h]
  | cons c rest ih =>
    intro pre t h
    rw [List.cons_append]
    unfold NormalizeFrom at h ⊢
    by_cases hc : c = 'e'
    · rw [if_pos hc] at h ⊢
      split at h
      · rename_i hcond
        have hne : rest ≠ [] := by
          intro e
          rw [e] at hcond
          simp at hcond
        have e1 : (rest ++ suf).isEmpty = rest.isEmpty := by
          cases rest with
          | nil => exact absurd rfl hne
          | cons a r => rfl
        have e2 : (rest ++ suf).headD '\x00' = rest.headD '\x00' := by
          cases rest with
          | nil => exact absurd rfl hne
          | cons a r => rfl
        rw [e1, e2, if_pos hcond]
        exact ih _ t h
      · cases h
    · rw [if_neg hc] at h ⊢
      exact ih _ t h

/-- The normalizer on `q E suf`, where `q` and `suf` hold no `e`: when it accepts `E` it
accepts `q E suf`, and rewrites `E` in it as it does alone. -/
theorem NormalizeFrom_framed (q suf E t : List Char) (hq : 'e' ∉ q) (hs : 'e' ∉ suf)
    (h : NormalizeFrom [] E = .done t) :
    NormalizeFrom [] (q ++ E ++ suf) = .done (q ++ t ++ suf) := by
  rw [List.append_assoc, NormalizeFrom_skip [] q _ hq, List.nil_append]
  have h1 := NormalizeFrom_prefix q E [] t h
  rw [List.append_nil] at h1
  exact NormalizeFrom_suffix suf hs E q _ h1

theorem nested_expandE (E : List Char) : ∀ d, nested d (expandE E) = nested d E := by
  induction E with
  | nil => intro d; rfl
  | cons c E ih =>
    intro d
    unfold expandE
    by_cases hc : c = 'e'
    · subst hc
      simp only [if_true]
      simp only [nested, show ¬ ('*' = '(') by decide, show ¬ ('*' = ')') by decide,
        show ¬ ('1' = '(') by decide, show ¬ ('1' = ')') by decide,
        show ¬ ('0' = '(') by decide, show ¬ ('0' = ')') by decide,
        show ¬ ('^' = '(') by decide, show ¬ ('^' = ')') by decide,
        show ¬ ('e' = '(') by decide, show ¬ ('e' = ')') by decide, if_false]
      exact ih d
    · rw [if_neg hc]
      unfold nested
      split
      · exact ih _
      · split
        · cases d with
          | zero => rfl
          | succ d1 => exact ih _
        · exact ih _

theorem ValidateInput_framed (q E : List Char) (h : ValidateInput E = true)
    (hlen : q.length + E.length + 1 ≤ 255) (ho : q.count '(' = 1) (hc : q.count ')' = 0)
    (hh : ∃ a t, q = a :: t ∧ a ≠ '*' ∧ a ≠ '/' ∧ a ≠ '^' ∧ a ≠ '%') :
    ValidateInput (q ++ E ++ [')']) = true := by
  obtain ⟨a, t, rfl, h1, h2, h3, h4⟩ := hh
  simp only [ValidateInput, Bool.and_eq_true, decide_eq_true_eq, beq_iff_eq] at h ⊢
  obtain ⟨⟨⟨⟨_, _⟩, hcount⟩, hany⟩, _⟩ := h
  refine ⟨⟨⟨⟨rfl, ?_⟩, ?_⟩, ?_⟩, ?_⟩
  · simp only [List.length_append, List.length_cons, List.length_nil] at hlen ⊢
    omega
  · rw [List.count_append, List.count_append, List.count_append, List.count_append, ho, hc,
      hcount]
    simp
    omega
  · rw [List.any_append, List.any_append, hany]
    simp
  · simp [h1, h2, h3, h4]

theorem CalculateStep_output {D : Type} (L : Libm D) (t : Token) (m : Model D)
    (p : List Token) :
    CalculateStep L t { m with postfix_ := p } =
      (CalculateStep L t m).map (fun m1 => { m1 with postfix_ := p }) := by
  unfold CalculateStep
  simp only [PushResult]
  repeat' split
  all_goals simp_all [Run.map]

theorem CalculateLoop_output {D : Type} (L : Libm D) (B : List Token) (m : Model D)
    (p : List Token) :
    CalculateLoop L B { m with postfix_ := p } = CalculateLoop L B m := by
  cases B <;> rfl

/-- The loop of `Calculate` over a sequence that continues: it works through the first
part as it does alone. -/
theorem CalculateLoop_append {D : Type} (L : Libm D) (B : List Token) (A : List Token) :
    ∀ (m mA : Model D), CalculateLoop L A m = .done mA →
      CalculateLoop L (A ++ B) m = CalculateLoop L B mA := by
  induction A with
  | nil =>
    intro m mA h
    simp only [CalculateLoop, Run.done.injEq] at h
    rw [← h, List.nil_append]
    exact (CalculateLoop_output L B m []).symm
  | cons t A ih =>
    intro m mA h
    rw [List.cons_append, CalculateLoop_cons]
    rw [CalculateLoop_cons] at h
    have e1 := CalculateStep_output L t m (t :: A)
    have e2 := CalculateStep_output L t m (t :: (A ++ B))
    simp only at e1 e2
    rw [e1] at h
    rw [e2]
    cases hstep : CalculateStep L t m with
    | done m1 =>
      rw [hstep] at h
      simp only [Run.map, Run.andThen] at h ⊢
      rw [CalculateLoop_output] at h ⊢
      rw [CalculateLoop_output] at h ⊢
      exact ih m1 mA h
    | thrown m1 => rw [hstep] at h; cases h
    | undefined => rw [hstep] at h; cases h
    | unfinished => rw [hstep] at h; cases h

theorem CalculateLoop_done_output {D : Type} (L : Libm D) (A : List Token) :
    ∀ (m mA : Model D), CalculateLoop L A m = .done mA → mA.postfix_ = [] := by
  induction A with
  | nil =>
    intro m mA h
    simp only [CalculateLoop, Run.done.injEq] at h
    rw [← h]
  | cons t A ih =>
    intro m mA h
    rw [CalculateLoop_cons] at h
    obtain ⟨m1, _, h2⟩ := Run.andThen_eq_done h
    exact ih _ mA h2

/-- The function `Calculate` on the RPN of an expression followed by the token of a
function or of the unary minus: the function is applied to the value of the expression,
and the result is printed by `DoubleToString` and read back. -/
theorem Calculate_then_unary {D : Type} (L : Libm D) (m m3 : Model D) (tok : Token)
    (s : List Char) (r : D) (hprio : tok.priority ≠ 0)
    (hnop : IsOperator (tok.value.headD '\x00') = false)
    (h : Calculate L m = .done m3)
    (hs : DoubleToString L (TrigonometryResult L m3.result_ tok.value) = some s)
    (hr : L.stod s = some r) :
    Calculate L { m with postfix_ := m.postfix_ ++ [tok] } = .done { m3 with result_ := r } := by
  unfold Calculate at h ⊢
  obtain ⟨mc, hloop, hend⟩ := Run.andThen_eq_done h
  have hl2 := CalculateLoop_append L [tok] m.postfix_ m mc hloop
  simp only
  rw [CalculateLoop_output, hl2]
  have hpf : mc.postfix_ = [] := CalculateLoop_done_output L m.postfix_ m mc hloop
  rcases hcalc : mc.calculation_ with _ | ⟨a, calc1⟩
  · rw [hcalc] at hend
    cases hend
  · rw [hcalc] at hend
    simp only at hend
    cases hv : L.stod a.value with
    | none => rw [hv] at hend; cases hend
    | some v =>
      rw [hv] at hend
      simp only at hend
      cases he : calc1.isEmpty with
      | false => rw [he] at hend; cases hend
      | true =>
        rw [he] at hend
        simp only [if_true, Run.done.injEq] at hend
        have hnil : calc1 = [] := by simpa using he
        subst hnil
        have hres : m3.result_ = v := by rw [← hend]
        rw [hres] at hs
        have hp0 : (tok.priority == 0) = false := by simpa using hprio
        have hnop2 : IsOperator (tok.value.head?.getD '\x00') = false := by
          simpa using hnop
        rw [← hend]
        simp [CalculateLoop, CalculateStep, Run.andThen, hp0, hnop2, hcalc, hv, PushResult, hs,
          hr, hpf]

theorem ToPostfix_done_expression {D : Type} {L : Libm D} {m m2 : Model D}
    (h : ToPostfix L m = .done m2) :
    m2.expression_ = m.expression_ ∧ m2.x_ = m.x_ := by
  unfold ToPostfix at h
  cases hr : (ToPostfixLoop L m.x_ none m.expression_
    (Scan.mk [] [] m.dot_count_ m.postfix_ m.operators_)).andThen ToPostfixFinish with
  | done s =>
    rw [hr] at h
    simp only [Run.map, Run.done.injEq] at h
    rw [← h]
    exact ⟨rfl, rfl⟩
  | thrown s => rw [hr] at h; cases h
  | undefined => rw [hr] at h; cases h
  | unfinished => rw [hr] at h; cases h

theorem Calculate_done_expression {D : Type} {L : Libm D} {m m3 : Model D}
    (h : Calculate L m = .done m3) : m3.expression_ = m.expression_ := by
  have hc := Calculate_expression L m m.expression_
  have e : ({ m with expression_ := m.expression_ } : Model D) = m := rfl
  rw [e, h] at hc
  simp only [Run.map, Run.done.injEq] at hc
  rw [hc]

/-- The scan of a function name and the `(` after it, from clean stacks: the token of the
function and a `(` token are on the operator stack. -/
theorem scan_function_name {D : Type} (L : Libm D) (x_ : D) (f : List Char) (p : Int)
    (hf : f ∈ functionNames) (hp : SetTokenPriority f = some p) (d : Int) (rest : List Char) :
    ToPostfixLoop L x_ none (f ++ ['('] ++ rest) (Scan.mk [] [] d [] []) =
      ToPostfixLoop L x_ (some '(') rest (Scan.mk [] [] d [] [⟨['('], 6⟩, ⟨f, p⟩]) := by
  simp only [functionNames, List.mem_cons, List.mem_singleton, List.not_mem_nil, or_false]
    at hf
  rcases hf with h | h | h | h | h | h | h | h | h <;> subst h
  all_goals
    have hp2 := hp
    simp only [SetTokenPriority_eq_spec] at hp2
    simp [specPriority] at hp2
    subst hp2
    simp [ToPostfixLoop_cons, ToPostfixStep, NumberBranch, VariableBranch, FunctionBranch,
      OperatorBranch, ParenBranch, PushNumberToPostfix, PushCharToOperators,
      PushOperationToOperators, IsUnary, IsOperator, SetTokenPriority, priorities_,
      PopOperators, Run.andThen, List.lookup]

/-- The scan of `-(` from clean stacks: the token `~` and a `(` token are on the operator
stack. -/
theorem scan_minus_paren {D : Type} (L : Libm D) (x_ : D) (d : Int) (rest : List Char) :
    ToPostfixLoop L x_ none (['-', '('] ++ rest) (Scan.mk [] [] d [] []) =
      ToPostfixLoop L x_ (some '(') rest (Scan.mk [] [] d [] [⟨['('], 6⟩, ⟨['~'], 4⟩]) := by
  simp [ToPostfixLoop_cons, ToPostfixStep, NumberBranch, VariableBranch, FunctionBranch,
    OperatorBranch, ParenBranch, PushNumberToPostfix, PushCharToOperators,
    PushOperationToOperators, IsUnary, IsOperator, SetTokenPriority, priorities_,
    PopOperators, Run.andThen, List.lookup]

/-- Evaluating `q E )`, where the scan of the prefix `q` (a function name and `(`, or
`-(`) leaves a `(` token on top of the token `tok` on the operator stack, and `E` is
properly nested and evaluates successfully: the RPN is the RPN of `E` followed by `tok`,
and the result is the function of `tok` applied to the value of `E`, printed by
`DoubleToString` and read back. -/
theorem evaluate_framed {D : Type} (L : Libm D) (x : D) (q : List Char) (tok : Token)
    (E : List Char) (m : Model D)
    (hqe : 'e' ∉ q) (hqo : q.count '(' = 1) (hqc : q.count ')' = 0)
    (hqh : ∃ a t, q = a :: t ∧ a ≠ '*' ∧ a ≠ '/' ∧ a ≠ '^' ∧ a ≠ '%')
    (hscan : ∀ d rest, ToPostfixLoop L x none (q ++ rest) (Scan.mk [] [] d [] []) =
      ToPostfixLoop L x (some '(') rest (Scan.mk [] [] d [] [⟨['('], 6⟩, tok]))
    (hprio : tok.priority ≠ 0) (hnop : IsOperator (tok.value.headD '\x00') = false)
    (hn : nested 0 E = true) (hlen : q.length + E.length + 1 ≤ 255)
    (h : ProcessMathExpression L (Model.fresh L) E x = .done m) :
    ((ReplaceScientificNotation (Model.holding L x (q ++ E ++ [')']))).andThen
        (ToPostfix L)).map (fun m1 => m1.postfix_) =
      ((ReplaceScientificNotation (Model.holding L x E)).andThen (ToPostfix L)).map
        (fun m1 => m1.postfix_ ++ [tok]) ∧
    ∀ s r, DoubleToString L (TrigonometryResult L m.result_ tok.value) = some s →
      L.stod s = some r →
      ProcessMathExpression L (Model.fresh L) (q ++ E ++ [')']) x =
        .done { m with expression_ := q ++ m.expression_ ++ [')'], result_ := r } := by
  have hv : ValidateInput E = true := by
    cases hv : ValidateInput E with
    | true => rfl
    | false => simp [ProcessMathExpression, SetInput, hv, Run.andThen] at h
  rw [ProcessMathExpression_of_valid L _ _ hv] at h
  rw [ProcessMathExpression_of_valid L _ _ (ValidateInput_framed q E hv hlen hqo hqc hqh)]
  unfold CalculateMathExpression at h ⊢
  obtain ⟨m2, h12, hc⟩ := Run.andThen_eq_done h
  obtain ⟨m1, hnorm, hp⟩ := Run.andThen_eq_done h12
  have hnorm1 := hnorm
  rw [ReplaceScientificNotation_eq] at hnorm1
  have hm1 := ReplaceScientificNotation_done _ _ hnorm
  cases hN : NormalizeFrom [] (Model.holding L x E).expression_ with
  | done t =>
    have ht : m1.expression_ = t := by
      rw [hN] at hnorm1
      simp only [Run.map, Run.done.injEq] at hnorm1
      rw [← hnorm1]
    have hte : t = expandE E := by
      have := NormalizeFrom_done _ _ _ hN
      simpa using this
    have hN2 : NormalizeFrom [] (q ++ E ++ [')']) = .done (q ++ t ++ [')']) :=
      NormalizeFrom_framed q [')'] E t hqe (by decide) hN
    have hnorm2 : ReplaceScientificNotation (Model.holding L x (q ++ E ++ [')'])) =
        .done { m1 with expression_ := q ++ m1.expression_ ++ [')'] } := by
      rw [ReplaceScientificNotation_eq]
      have e : (Model.holding L x (q ++ E ++ [')'])).expression_ = q ++ E ++ [')'] := rfl
      rw [e, hN2, ht, hm1]
      rfl
    have hx1 : m1.x_ = x := by rw [hm1]; rfl
    have hpf1 : m1.postfix_ = [] := by rw [hm1]; rfl
    have hop1 : m1.operators_ = [] := by rw [hm1]; rfl
    have hn1 : nested 0 m1.expression_ = true := by rw [ht, hte, nested_expandE]; exact hn
    have hp2 := ToPostfix_framed L m1 m2 q ⟨['('], 6⟩ [tok] rfl hpf1 hop1
      (fun rest => by rw [hx1]; exact hscan _ rest) hn1 hp
    constructor
    · rw [hnorm2, hnorm, Run.done_andThen, Run.done_andThen, hp2, hp]
      rfl
    · intro s r hs hr
      rw [hnorm2, Run.done_andThen, hp2, Run.done_andThen]
      have e2 : ({ m2 with expression_ := q ++ m1.expression_ ++ [')'],
                           postfix_ := m2.postfix_ ++ [tok] } : Model D) =
          { ({ m2 with postfix_ := m2.postfix_ ++ [tok] } : Model D) with
            expression_ := q ++ m1.expression_ ++ [')'] } := rfl
      rw [e2, Calculate_expression,
        Calculate_then_unary L m2 m tok s r hprio hnop hc hs hr]
      have e3 : m.expression_ = m1.expression_ := by
        rw [Calculate_done_expression hc, (ToPostfix_done_expression hp).1]
      rw [e3]
      rfl
  | thrown t => rw [hN] at hnorm1; cases hnorm1
  | undefined => rw [hN] at hnorm1; cases hnorm1
  | unfinished => rw [hN] at hnorm1; cases hnorm1

/-! ## Function application and unary minus (C16, C18) -/

/-- C16 as stated fails in two ways.  The value is rounded: `0.0000000000000001` is
properly nested and evaluates to 1e-16, whose square root is 1e-8, and
`sqrt(0.0000000000000001)` returns 0, because the result is printed with 7 decimals.  The
length is bounded: the text of 251 digits `1` evaluates successfully, and `cos(` that text
`)`, of 256 characters, is rejected by the validator. -/
theorem function_value_is_rounded :
    nested 0 "0.0000000000000001".toList = true ∧
    returned (ProcessMathExpression exact (Model.fresh exact) "0.0000000000000001".toList
      (.fin 0)) = .done (.fin (1 / 10000000000000000)) ∧
    exact.sqrt (.fin (1 / 10000000000000000)) = .fin (1 / 100000000) ∧
    returned (ProcessMathExpression exact (Model.fresh exact)
      "sqrt(0.0000000000000001)".toList (.fin 0)) = .done (.fin 0) ∧
    Dbl.fin (1 / 100000000) ≠ .fin 0 ∧
    "cos".toList ∈ functionNames ∧ nested 0 (List.replicate 251 '1') = true ∧
    returned (ProcessMathExpression exact (Model.fresh exact) (List.replicate 251 '1')
      (.fin 0)) = .done (.fin ((10 ^ 251 - 1) / 9)) ∧
    ProcessMathExpression exact (Model.fresh exact)
      ("cos".toList ++ ['('] ++ List.replicate 251 '1' ++ [')']) (.fin 0) =
        .thrown (Model.fresh exact) := by
  refine ⟨by decide, by decide!, by decide!, by decide!, by decide!, by decide, by decide!,
    by decide!, by decide!⟩

/-- C16, amended: for every function name `f` of the table (with precedence `p`) and every
expression `E` with properly nested parentheses that evaluates successfully, with `f(E)`
of at most 255 characters: the RPN of `f(E)` is the RPN of `E` followed by the token `f`,
and `f(E)` evaluates to `f` applied to the value of `E`, printed with 7 decimals by
`DoubleToString` and read back by `std::stod` (provided the text fits the buffer); `log`
is `log10` and `ln` is `log`. -/
theorem function_application {D : Type} (L : Libm D) (x : D) (f : List Char) (p : Int)
    (E : List Char) (m : Model D) (hf : f ∈ functionNames)
    (hp : SetTokenPriority f = some p) (hn : nested 0 E = true)
    (hlen : f.length + E.length + 2 ≤ 255)
    (h : ProcessMathExpression L (Model.fresh L) E x = .done m) :
    ((ReplaceScientificNotation (Model.holding L x (f ++ ['('] ++ E ++ [')']))).andThen
        (ToPostfix L)).map (fun m1 => m1.postfix_) =
      ((ReplaceScientificNotation (Model.holding L x E)).andThen (ToPostfix L)).map
        (fun m1 => m1.postfix_ ++ [⟨f, p⟩]) ∧
    (∀ s r, DoubleToString L (TrigonometryResult L m.result_ f) = some s →
      L.stod s = some r →
      ProcessMathExpression L (Model.fresh L) (f ++ ['('] ++ E ++ [')']) x =
        .done { m with expression_ := f ++ ['('] ++ m.expression_ ++ [')'], result_ := r }) ∧
    (∀ v, TrigonometryResult L v "cos".toList = L.cos v ∧
      TrigonometryResult L v "sin".toList = L.sin v ∧
      TrigonometryResult L v "tan".toList = L.tan v ∧
      TrigonometryResult L v "acos".toList = L.acos v ∧
      TrigonometryResult L v "asin".toList = L.asin v ∧
      TrigonometryResult L v "atan".toList = L.atan v ∧
      TrigonometryResult L v "sqrt".toList = L.sqrt v ∧
      TrigonometryResult L v "log".toList = L.log10 v ∧
      TrigonometryResult L v "ln".toList = L.log v) := by
  have hfacts : 'e' ∉ f ++ ['('] ∧ (f ++ ['(']).count '(' = 1 ∧ (f ++ ['(']).count ')' = 0 ∧
      (∃ a t, f ++ ['('] = a :: t ∧ a ≠ '*' ∧ a ≠ '/' ∧ a ≠ '^' ∧ a ≠ '%') ∧
      IsOperator (f.headD '\x00') = false ∧ p ≠ 0 := by
    have hp0 : p ≠ 0 := by
      intro e
      rw [e] at hp
      exact SetTokenPriority_ne_zero f hp
    simp only [functionNames, List.mem_cons, List.mem_singleton, List.not_mem_nil, or_false]
      at hf
    rcases hf with h | h | h | h | h | h | h | h | h <;> subst h <;>
      exact ⟨by decide, by decide, by decide, ⟨_, _, rfl, by decide, by decide, by decide,
        by decide⟩, by decide, hp0⟩
  obtain ⟨h1, h2, h3, h4, h5, h6⟩ := hfacts
  have hmain := evaluate_framed L x (f ++ ['(']) ⟨f, p⟩ E m h1 h2 h3 h4
    (fun d rest => scan_function_name L x f p hf hp d rest) h6 h5 hn
    (by simp only [List.length_append, List.length_cons, List.length_nil]; omega) h
  refine ⟨hmain.1, hmain.2, ?_⟩
  intro v
  refine ⟨?_, ?_, ?_, ?_, ?_, ?_, ?_, ?_, ?_⟩ <;> simp [TrigonometryResult]

/-- C16, amended, at `sqrt((7+9)*4)`: `(7+9)*4` evaluates to 64 and the root to 8. -/
theorem function_application_witness :
    ProcessMathExpression exact (Model.fresh exact) "(7+9)*4".toList (.fin 0) =
      .done { holding "(7+9)*4" with result_ := .fin 64 } ∧
    ProcessMathExpression exact (Model.fresh exact)
      ("sqrt".toList ++ ['('] ++ "(7+9)*4".toList ++ [')']) (.fin 0) =
      .done { holding "(7+9)*4" with
        expression_ := "sqrt".toList ++ ['('] ++ "(7+9)*4".toList ++ [')'],
        result_ := .fin 8 } :=
  ⟨by decide!,
    (function_application exact (.fin 0) "sqrt".toList 3 "(7+9)*4".toList
      { holding "(7+9)*4" with result_ := .fin 64 } (by decide) (by decide) (by decide)
      (by decide) (by decide!)).2.1 "8.0000000".toList (.fin 8) (by decide!) (by decide!)⟩

/-- C18 as stated fails in two ways.  The value is rounded: `0.123456789` evaluates to
itself and `-(0.123456789)` returns -0.1234568, because the result is printed with 7
decimals.  The length is bounded: the text of 254 digits `1` evaluates successfully, and
`-(` that text `)`, of 257 characters, is rejected by the validator. -/
theorem negation_is_rounded :
    nested 0 "0.123456789".toList = true ∧
    returned (ProcessMathExpression exact (Model.fresh exact) "0.123456789".toList (.fin 0)) =
      .done (.fin (123456789 / 1000000000)) ∧
    returned (ProcessMathExpression exact (Model.fresh exact) "-(0.123456789)".toList
      (.fin 0)) = .done (.fin (-(1234568 / 10000000))) ∧
    exact.neg (.fin (123456789 / 1000000000)) ≠ .fin (-(1234568 / 10000000)) ∧
    nested 0 (List.replicate 254 '1') = true ∧
    returned (ProcessMathExpression exact (Model.fresh exact) (List.replicate 254 '1')
      (.fin 0)) = .done (.fin ((10 ^ 254 - 1) / 9)) ∧
    ProcessMathExpression exact (Model.fresh exact)
      (['-', '('] ++ List.replicate 254 '1' ++ [')']) (.fin 0) =
        .thrown (Model.fresh exact) := by
  refine ⟨by decide, by decide!, by decide!, by decide!, by decide!, by decide!, by decide!⟩

/-- C18, amended: for every expression `E` with properly nested parentheses that evaluates
successfully, with `-(E)` of at most 255 characters: the RPN of `-(E)` is the RPN of `E`
followed by the token `~` with precedence 4, and `-(E)` evaluates to the negation of the
value of `E`, printed with 7 decimals by `DoubleToString` and read back by `std::stod`
(provided the text fits the buffer); `(-(-(-10)))-(-(-10))` evaluates to -20 and
`58-(-5)/2^3-12` to 46.625. -/
theorem unary_minus_negates {D : Type} (L : Libm D) (x : D) (E : List Char) (m : Model D)
    (hn : nested 0 E = true) (hlen : E.length + 3 ≤ 255)
    (h : ProcessMathExpression L (Model.fresh L) E x = .done m) :
    ((ReplaceScientificNotation (Model.holding L x (['-', '('] ++ E ++ [')']))).andThen
        (ToPostfix L)).map (fun m1 => m1.postfix_) =
      ((ReplaceScientificNotation (Model.holding L x E)).andThen (ToPostfix L)).map
        (fun m1 => m1.postfix_ ++ [⟨['~'], 4⟩]) ∧
    (∀ s r, DoubleToString L (L.neg m.result_) = some s → L.stod s = some r →
      ProcessMathExpression L (Model.fresh L) (['-', '('] ++ E ++ [')']) x =
        .done { m with expression_ := ['-', '('] ++ m.expression_ ++ [')'], result_ := r }) ∧
    returned (ProcessMathExpression exact (Model.fresh exact) "(-(-(-10)))-(-(-10))".toList
      (.fin 0)) = .done (.fin (-20)) ∧
    returned (ProcessMathExpression exact (Model.fresh exact) "58-(-5)/2^3-12".toList
      (.fin 0)) = .done (.fin (46625 / 1000)) := by
  have hmain := evaluate_framed L x ['-', '('] ⟨['~'], 4⟩ E m (by decide) (by decide)
    (by decide) ⟨_, _, rfl, by decide, by decide, by decide, by decide⟩
    (fun d rest => scan_minus_paren L x d rest) (by decide) (by decide) hn
    (by simp only [List.length_cons, List.length_nil]; omega) h
  have ht : ∀ v, TrigonometryResult L v ['~'] = L.neg v := by
    intro v
    simp [TrigonometryResult]
  refine ⟨hmain.1, ?_, by decide!, by decide!⟩
  intro s r hs hr
  exact hmain.2 s r (by rw [ht]; exact hs) hr

/-- C18, amended, at `-(2*(3+4))`: `2*(3+4)` evaluates to 14 and its negation to -14. -/
theorem unary_minus_negates_witness :
    ProcessMathExpression exact (Model.fresh exact) "2*(3+4)".toList (.fin 0) =
      .done { holding "2*(3+4)" with result_ := .fin 14 } ∧
    ProcessMathExpression exact (Model.fresh exact)
      (['-', '('] ++ "2*(3+4)".toList ++ [')']) (.fin 0) =
      .done { holding "2*(3+4)" with
        expression_ := ['-', '('] ++ "2*(3+4)".toList ++ [')'],
        result_ := .fin (-14) } :=
  ⟨by decide!,
    (unary_minus_negates exact (.fin 0) "2*(3+4)".toList
      { holding "2*(3+4)" with result_ := .fin 14 } (by decide) (by decide)
      (by decide!)).2.1 "-14.0000000".toList (.fin (-14)) (by decide!) (by decide!)⟩

/-! ## The length bound of the validator (C21) -/

/-- C21: every input of 256 or more characters is rejected by `SetInput`, whatever its
content, and the object is unchanged; an input of exactly 255 characters that satisfies the
other three conditions of the validator (as many `(` as `)`, a digit or `x` present, first
character none of `*`, `/`, `^`, `%`) is accepted and stored. -/
theorem length_bound_is_tight {D : Type} (m : Model D) (s : List Char) :
    (256 ≤ s.length → ValidateInput s = false ∧ SetInput m s = .thrown m) ∧
    (s.length = 255 → s.count '(' = s.count ')' →
      (∃ c ∈ s, c.isDigit = true ∨ c = 'x') →
      (∀ c, s.head? = some c → c ≠ '*' ∧ c ≠ '/' ∧ c ≠ '^' ∧ c ≠ '%') →
      ValidateInput s = true ∧ SetInput m s = .done { m with expression_ := s }) := by
  constructor
  · intro h
    have hv : ValidateInput s = false := by
      cases hv : ValidateInput s with
      | false => rfl
      | true =>
        have := ((ValidateInput_iff s).1 hv).1.2
        omega
    exact ⟨hv, by simp [SetInput, hv]⟩
  · intro hlen hpar hdig hfirst
    have hv : ValidateInput s = true := by
      rw [ValidateInput_iff]
      refine ⟨⟨by omega, by omega⟩, hpar, ?_, hfirst⟩
      obtain ⟨c, hc, hd⟩ := hdig
      refine ⟨c, hc, ?_⟩
      rcases hd with hd | hd
      · exact Or.inl ((isDigit_iff c).1 hd)
      · exact Or.inr hd
    exact ⟨hv, by simp [SetInput, hv]⟩

/-- C21 at 260 characters `0`, rejected, and at 255 digits `7`, accepted. -/
theorem length_bound_is_tight_witness :
    SetInput (Model.fresh exact) (List.replicate 260 '0') = .thrown (Model.fresh exact) ∧
    SetInput (Model.fresh exact) (List.replicate 255 '7') =
      .done { Model.fresh exact with expression_ := List.replicate 255 '7' } :=
  ⟨((length_bound_is_tight (Model.fresh exact) (List.replicate 260 '0')).1
      (by rw [List.length_replicate]; decide)).2,
    ((length_bound_is_tight (Model.fresh exact) (List.replicate 255 '7')).2
      (List.length_replicate 255 '7') (by decide!)
      ⟨'7', List.mem_replicate.2 ⟨by decide, rfl⟩, Or.inl (by decide)⟩
      (by
        intro c hc
        have e : (List.replicate 255 '7').head? = some '7' := by decide!
        rw [e] at hc
        cases hc
        decide)).2⟩

/-! ## Redundant parentheses (C30) -/

theorem nested_of_prefixes (E : List Char) :
    ∀ d : Nat, (∀ p, p <+: E → p.count ')' ≤ d + p.count '(') →
      d + E.count '(' = E.count ')' → nested d E = true := by
  induction E with
  | nil =>
    intro d _ hb
    simp only [List.count_nil, Nat.add_zero] at hb
    subst hb
    rfl
  | cons c E ih =>
    intro d hp hb
    unfold nested
    by_cases h1 : c = '('
    · subst h1
      rw [if_pos rfl]
      apply ih (d + 1)
      · intro p hpre
        have := hp ('(' :: p) (List.cons_prefix_cons.2 ⟨rfl, hpre⟩)
        rw [List.count_cons_of_ne (by decide), List.count_cons_self] at this
        omega
      · rw [List.count_cons_self, List.count_cons_of_ne (by decide)] at hb
        omega
    · rw [if_neg h1]
      by_cases h2 : c = ')'
      · subst h2
        rw [if_pos rfl]
        have h0 := hp [')'] (List.cons_prefix_cons.2 ⟨rfl, List.nil_prefix⟩)
        have e1 : ([')'] : List Char).count ')' = 1 := by decide
        have e2 : ([')'] : List Char).count '(' = 0 := by decide
        rw [e1, e2] at h0
        cases d with
        | zero => omega
        | succ d1 =>
          simp only
          apply ih d1
          · intro p hpre
            have := hp (')' :: p) (List.cons_prefix_cons.2 ⟨rfl, hpre⟩)
            rw [List.count_cons_self, List.count_cons_of_ne (by decide)] at this
            omega
          · rw [List.count_cons_self, List.count_cons_of_ne (by decide)] at hb
            omega
      · rw [if_neg h2]
        apply ih d
        · intro p hpre
          have := hp (c :: p) (List.cons_prefix_cons.2 ⟨rfl, hpre⟩)
          rw [List.count_cons_of_ne (fun e => h2 e.symm),
            List.count_cons_of_ne (fun e => h1 e.symm)] at this
          exact this
        · rw [List.count_cons_of_ne (fun e => h2 e.symm),
            List.count_cons_of_ne (fun e => h1 e.symm)] at hb
          exact hb

/-- A validated text of which no prefix closes more parentheses than it opens is properly
nested. -/
theorem nested_of_NoEarlyClose (E : List Char) (h : NoEarlyClose E)
    (hv : ValidateInput E = true) : nested 0 E = true := by
  apply nested_of_prefixes E 0
  · intro p hp
    have := h p hp
    omega
  · have := ((ValidateInput_iff E).1 hv).2.1
    omega

/-- The scan of a `(` from clean stacks: a `(` token is on the operator stack. -/
theorem scan_open_paren {D : Type} (L : Libm D) (x_ : D) (d : Int) (rest : List Char) :
    ToPostfixLoop L x_ none (['('] ++ rest) (Scan.mk [] [] d [] []) =
      ToPostfixLoop L x_ (some '(') rest (Scan.mk [] [] d [] [⟨['('], 6⟩]) := by
  simp [ToPostfixLoop_cons, ToPostfixStep, NumberBranch, VariableBranch, FunctionBranch,
    OperatorBranch, ParenBranch, PushNumberToPostfix, PushCharToOperators,
    PushOperationToOperators, IsUnary, IsOperator, SetTokenPriority, priorities_,
    PopOperators, Run.andThen, List.lookup]

/-- C30: for every expression `E` of at most 253 characters of which no prefix closes more
parentheses than it opens and that evaluates successfully, `(E)` tokenizes to the same RPN
sequence as `E` and evaluates successfully to the same value (the final object differs
only in holding the longer text). -/
theorem redundant_parentheses {D : Type} (L : Libm D) (x : D) (E : List Char) (m : Model D)
    (hlen : E.length ≤ 253) (hne : NoEarlyClose E)
    (h : ProcessMathExpression L (Model.fresh L) E x = .done m) :
    ((ReplaceScientificNotation (Model.holding L x (['('] ++ E ++ [')']))).andThen
        (ToPostfix L)).map (fun m1 => m1.postfix_) =
      ((ReplaceScientificNotation (Model.holding L x E)).andThen (ToPostfix L)).map
        (fun m1 => m1.postfix_) ∧
    ProcessMathExpression L (Model.fresh L) (['('] ++ E ++ [')']) x =
      .done { m with expression_ := ['('] ++ m.expression_ ++ [')'] } := by
  have hv : ValidateInput E = true := by
    cases hv : ValidateInput E with
    | true => rfl
    | false => simp [ProcessMathExpression, SetInput, hv, Run.andThen] at h
  have hn := nested_of_NoEarlyClose E hne hv
  rw [ProcessMathExpression_of_valid L _ _ hv] at h
  rw [ProcessMathExpression_of_valid L _ _ (ValidateInput_framed ['('] E hv
    (by simp only [List.length_cons, List.length_nil]; omega) (by decide) (by decide)
    ⟨_, _, rfl, by decide, by decide, by decide, by decide⟩)]
  unfold CalculateMathExpression at h ⊢
  obtain ⟨m2, h12, hc⟩ := Run.andThen_eq_done h
  obtain ⟨m1, hnorm, hp⟩ := Run.andThen_eq_done h12
  have hnorm1 := hnorm
  rw [ReplaceScientificNotation_eq] at hnorm1
  have hm1 := ReplaceScientificNotation_done _ _ hnorm
  cases hN : NormalizeFrom [] (Model.holding L x E).expression_ with
  | done t =>
    have ht : m1.expression_ = t := by
      rw [hN] at hnorm1
      simp only [Run.map, Run.done.injEq] at hnorm1
      rw [← hnorm1]
    have hte : t = expandE E := by
      have := NormalizeFrom_done _ _ _ hN
      simpa using this
    have hN2 : NormalizeFrom [] (['('] ++ E ++ [')']) = .done (['('] ++ t ++ [')']) :=
      NormalizeFrom_framed ['('] [')'] E t (by decide) (by decide) hN
    have hnorm2 : ReplaceScientificNotation (Model.holding L x (['('] ++ E ++ [')'])) =
        .done { m1 with expression_ := ['('] ++ m1.expression_ ++ [')'] } := by
      rw [ReplaceScientificNotation_eq]
      have e : (Model.holding L x (['('] ++ E ++ [')'])).expression_ = ['('] ++ E ++ [')'] :=
        rfl
      rw [e, hN2, ht, hm1]
      rfl
    have hx1 : m1.x_ = x := by rw [hm1]; rfl
    have hpf1 : m1.postfix_ = [] := by rw [hm1]; rfl
    have hop1 : m1.operators_ = [] := by rw [hm1]; rfl
    have hn1 : nested 0 m1.expression_ = true := by rw [ht, hte, nested_expandE]; exact hn
    have hp2 := ToPostfix_framed L m1 m2 ['('] ⟨['('], 6⟩ [] rfl hpf1 hop1
      (fun rest => by rw [hx1]; exact scan_open_paren L x _ rest) hn1 hp
    rw [List.append_nil] at hp2
    constructor
    · rw [hnorm2, hnorm, Run.done_andThen, Run.done_andThen, hp2, hp]
      rfl
    · rw [hnorm2, Run.done_andThen, hp2, Run.done_andThen]
      have e2 : ({ m2 with expression_ := ['('] ++ m1.expression_ ++ [')'],
                           postfix_ := m2.postfix_ } : Model D) =
          { m2 with expression_ := ['('] ++ m1.expression_ ++ [')'] } := rfl
      rw [e2, Calculate_expression, hc]
      have e3 : m.expression_ = m1.expression_ := by
        rw [Calculate_done_expression hc, (ToPostfix_done_expression hp).1]
      rw [e3]
      rfl
  | thrown t => rw [hN] at hnorm1; cases hnorm1
  | undefined => rw [hN] at hnorm1; cases hnorm1
  | unfinished => rw [hN] at hnorm1; cases hnorm1

/-- C30 at `(2+3)*4`, which evaluates to 20 with and without the parentheses around it. -/
theorem redundant_parentheses_witness :
    ProcessMathExpression exact (Model.fresh exact) "(2+3)*4".toList (.fin 0) =
      .done { holding "(2+3)*4" with result_ := .fin 20 } ∧
    ProcessMathExpression exact (Model.fresh exact) (['('] ++ "(2+3)*4".toList ++ [')'])
      (.fin 0) =
      .done { holding "(2+3)*4" with
        expression_ := ['('] ++ "(2+3)*4".toList ++ [')'], result_ := .fin 20 } :=
  ⟨by decide!,
    (redundant_parentheses exact (.fin 0) "(2+3)*4".toList
      { holding "(2+3)*4" with result_ := .fin 20 } (by decide)
      (by
        have key : ∀ p ∈ "(2+3)*4".toList.inits, p.count ')' ≤ p.count '(' := by decide
        intro p hp
        exact key p ((List.mem_inits _ _).2 hp))
      (by decide!)).2⟩

/-! ## The closing parenthesis and the operator stack (C24) -/

theorem PopOperators_popped (p : Int) (ops : List Token) :
    ∀ post : List Token, ∀ t ∈ (PopOperators p ops post).2,
      t ∈ post ∨ (t ∈ ops ∧ t.value ≠ ['(']) := by
  induction ops with
  | nil =>
    intro post t ht
    exact Or.inl ht
  | cons a ops ih =>
    intro post t ht
    unfold PopOperators at ht
    split at ht
    · rename_i hc
      simp only [Bool.and_eq_true, bne_iff_ne, ne_eq] at hc
      rcases ih (a :: post) t ht with h | h
      · rcases List.mem_cons.1 h with h1 | h1
        · subst h1
          exact Or.inr ⟨List.mem_cons_self _ _, hc.2⟩
        · exact Or.inl h1
      · exact Or.inr ⟨List.mem_cons_of_mem _ h.1, h.2⟩
    · exact Or.inl ht

theorem PopToParen_popped (ops : List Token) :
    ∀ post : List Token, ∀ t ∈ (PopToParen ops post).2,
      t ∈ post ∨ (t ∈ ops ∧ t.value ≠ ['(']) := by
  induction ops with
  | nil =>
    intro post t ht
    exact Or.inl ht
  | cons a ops ih =>
    intro post t ht
    unfold PopToParen at ht
    split at ht
    · rename_i hc
      simp only [bne_iff_ne, ne_eq] at hc
      rcases ih (⟨a.value, a.priority⟩ :: post) t ht with h | h
      · rcases List.mem_cons.1 h with h1 | h1
        · subst h1
          exact Or.inr ⟨List.mem_cons_self _ _, hc⟩
        · exact Or.inl h1
      · exact Or.inr ⟨List.mem_cons_of_mem _ h.1, h.2⟩
    · exact Or.inl ht

theorem ParenFree_push_number (st : Scan) (s : List Char) (h : ParenFree st) :
    ∀ t ∈ (⟨s, 0⟩ : Token) :: st.postfix_,
      t.priority ≠ 0 → t.value ≠ ['('] ∧ t.value ≠ [')'] := by
  intro t ht hp
  rcases List.mem_cons.1 ht with h1 | h1
  · subst h1
    exact absurd rfl hp
  · exact h.1 t h1 hp

theorem ParenFree_pop (st : Scan) (r : List Token × List Token) (h : ParenFree st)
    (h1 : ∀ t ∈ r.1, t ∈ st.operators_)
    (h2 : ∀ t ∈ r.2, t ∈ st.postfix_ ∨ (t ∈ st.operators_ ∧ t.value ≠ ['('])) :
    ParenFree { st with operators_ := r.1, postfix_ := r.2 } := by
  refine ⟨?_, fun t ht => h.2.1 t (h1 t ht), h.2.2⟩
  intro t ht hp
  rcases h2 t ht with h3 | h3
  · exact h.1 t h3 hp
  · exact ⟨h3.2, h.2.1 t h3.1⟩

theorem NumberBranch_pf (c : Char) (st : Scan) (h : ParenFree st) :
    (NumberBranch c st).All ParenFree := by
  have key : ∀ s : Scan, s.operators_ = st.operators_ → s.operation = st.operation →
      (s.postfix_ = st.postfix_ ∨ s.postfix_ = ⟨st.number, 0⟩ :: st.postfix_) →
      ParenFree s := by
    intro s h1 h2 h3
    refine ⟨?_, by rw [h1]; exact h.2.1, by rw [h2]; exact h.2.2⟩
    rcases h3 with h3 | h3
    · rw [h3]
      exact h.1
    · rw [h3]
      exact ParenFree_push_number st st.number h
  unfold NumberBranch PushNumberToPostfix
  simp only
  split_ifs <;> first
    | exact key _ rfl rfl (Or.inl rfl)
    | exact key _ rfl rfl (Or.inr rfl)

theorem VariableBranch_pf {D : Type} (L : Libm D) (x_ : D) (c : Char) (st : Scan)
    (h : ParenFree st) : (VariableBranch L x_ c st).All ParenFree := by
  unfold VariableBranch
  split
  · split
    · trivial
    · rename_i s _
      exact ⟨ParenFree_push_number st s h, h.2.1, h.2.2⟩
  · exact h

theorem PushOperationToOperators_pf (st : Scan) (h : ParenFree st) :
    (PushOperationToOperators st).All ParenFree := by
  unfold PushOperationToOperators
  split
  · exact h
  · refine ⟨h.1, ?_, fun a ha => by cases ha⟩
    intro t ht
    rcases List.mem_cons.1 ht with h1 | h1
    · subst h1
      intro hv
      have hv2 : st.operation = [')'] := hv
      have := h.2.2 ')' (by rw [hv2]; exact List.mem_singleton_self _)
      exact absurd this (by decide)
    · exact h.2.1 t h1

theorem FunctionBranch_pf (c : Char) (st : Scan) (h : ParenFree st) :
    (FunctionBranch c st).All ParenFree := by
  unfold FunctionBranch
  split
  · rename_i hc
    simp only [Bool.and_eq_true] at hc
    refine ⟨h.1, h.2.1, ?_⟩
    intro a ha
    rcases List.mem_append.1 ha with h1 | h1
    · exact h.2.2 a h1
    · rw [List.mem_singleton] at h1
      subst h1
      exact hc.1
  · split
    · exact PushOperationToOperators_pf st h
    · exact h

theorem PushCharToOperators_pf (c : Char) (st : Scan) (h : ParenFree st) (hc : c ≠ ')') :
    (PushCharToOperators st c).All ParenFree := by
  unfold PushCharToOperators
  split
  · exact h
  · refine ⟨h.1, ?_, h.2.2⟩
    intro t ht
    rcases List.mem_cons.1 ht with h1 | h1
    · subst h1
      intro hv
      simp only [List.cons.injEq, and_true] at hv
      exact hc hv
    · exact h.2.1 t h1

theorem OperatorBranch_pf (prev : Option Char) (c next : Char) (st : Scan)
    (hc : IsOperator c = true) (h : ParenFree st) :
    (OperatorBranch prev c next st).All ParenFree := by
  unfold OperatorBranch
  split
  · exact h
  · simp only
    split
    · exact h
    · rename_i p _
      have hm := PopOperators_mem p st.operators_ st.postfix_
      have hp := PopOperators_popped p st.operators_ st.postfix_
      apply PushCharToOperators_pf _ _ (ParenFree_pop st _ h hm.1 hp)
      split
      · decide
      · intro e
        rw [e] at hc
        cases hc

theorem ParenBranch_pf (c : Char) (st : Scan) (h : ParenFree st) :
    (ParenBranch c st).All ParenFree := by
  unfold ParenBranch
  apply Run.All_andThen
  · split
    · rename_i hc
      have e : c = '(' := by simpa using hc
      exact PushCharToOperators_pf _ _ h (by rw [e]; decide)
    · exact h
  · intro s hs
    split
    · have hm := PopToParen_mem s.operators_ s.postfix_
      have hp := PopToParen_popped s.operators_ s.postfix_
      refine ParenFree_pop s ((PopToParen s.operators_ s.postfix_).1.tail,
        (PopToParen s.operators_ s.postfix_).2) hs ?_ hp
      intro t ht
      exact hm.1 t (List.mem_of_mem_tail ht)
    · exact hs

theorem ToPostfixStep_pf {D : Type} (L : Libm D) (x_ : D) (prev : Option Char) (c next : Char)
    (st : Scan) (h : ParenFree st) : (ToPostfixStep L x_ prev c next st).All ParenFree := by
  unfold ToPostfixStep
  apply Run.All_andThen
  · apply Run.All_andThen
    · apply Run.All_andThen
      · exact NumberBranch_pf c st h
      · exact fun s hs => VariableBranch_pf L x_ c s hs
    · exact fun s hs => FunctionBranch_pf c s hs
  · intro s hs
    split
    · rename_i hc
      exact OperatorBranch_pf prev c next s hc hs
    · exact ParenBranch_pf c s hs

theorem ToPostfixLoop_pf {D : Type} (L : Libm D) (x_ : D) (rest : List Char) :
    ∀ (prev : Option Char) (st : Scan), ParenFree st →
      (ToPostfixLoop L x_ prev rest st).All ParenFree := by
  induction rest with
  | nil => intro prev st h; exact h
  | cons c rest ih =>
    intro prev st h
    rw [ToPostfixLoop_cons]
    exact Run.All_andThen _ _ _ (ToPostfixStep_pf L x_ prev c _ st h) (fun s hs => ih _ s hs)

theorem Run.andThen_assoc {σ : Type} (r : Run σ) (f g : σ → Run σ) :
    (r.andThen f).andThen g = r.andThen fun s => (f s).andThen g := by
  cases r <;> rfl

/-- The loop of `ToPostfix` over a text that continues with a character that is not an
operator symbol: the loop over the first part, then the loop over the rest. -/
theorem ToPostfixLoop_append {D : Type} (L : Libm D) (x_ : D) (c : Char) (post : List Char)
    (hc : IsOperator c = false) :
    ∀ (pre : List Char) (prev : Option Char) (st : Scan),
      ToPostfixLoop L x_ prev (pre ++ c :: post) st =
        (ToPostfixLoop L x_ prev pre st).andThen
          (ToPostfixLoop L x_ (if pre.isEmpty then prev else pre.getLast?) (c :: post)) := by
  intro pre
  induction pre with
  | nil =>
    intro prev st
    rfl
  | cons a pre ih =>
    intro prev st
    rw [List.cons_append, ToPostfixLoop_cons, ToPostfixLoop_cons, Run.andThen_assoc]
    have hnext : IsOperator (pre.headD '\x00') =
        IsOperator ((pre ++ c :: post).headD '\x00') := by
      cases pre with
      | nil => rw [List.nil_append, List.headD_cons, hc]; rfl
      | cons b t => rfl
    rw [ToPostfixStep_unary L x_ prev prev a _ _ st (IsUnary_next prev _ _ hnext)]
    congr 1
    funext s
    rw [ih (some a) s]
    congr 2
    cases pre with
    | nil => rfl
    | cons b t => simp [List.getLast?_cons_cons]

/-- The number of `(` tokens on the operator stack after the loop of `ToPostfix` over the
first part of a text is the nesting depth there. -/
theorem loop_depth {D : Type} (L : Libm D) (x_ : D) (rest : List Char) :
    ∀ (pre : List Char) (prev : Option Char) (st s : Scan),
      ToPostfixLoop L x_ prev pre st = .done s → (∀ a ∈ st.operation, a.isAlpha = true) →
      nested (parenCount st.operators_) (pre ++ rest) = true →
      nested (parenCount s.operators_) rest = true ∧ ∀ a ∈ s.operation, a.isAlpha = true := by
  intro pre
  induction pre with
  | nil =>
    intro prev st s h hop hn
    simp only [ToPostfixLoop, Run.done.injEq] at h
    subst h
    exact ⟨hn, hop⟩
  | cons c pre ih =>
    intro prev st s h hop hn
    rw [ToPostfixLoop_cons] at h
    obtain ⟨s1, h1, h2⟩ := Run.andThen_eq_done h
    obtain ⟨hcount, hop1⟩ := ToPostfixStep_parenCount h1 hop
    apply ih (some c) s1 s h2 hop1
    rw [hcount]
    rw [List.cons_append] at hn
    unfold nested at hn
    by_cases e1 : c = '('
    · rw [if_pos e1] at hn ⊢
      exact hn
    · rw [if_neg e1] at hn ⊢
      by_cases e2 : c = ')'
      · rw [if_pos e2] at hn ⊢
        cases hd : parenCount st.operators_ with
        | zero => rw [hd] at hn; cases hn
        | succ d1 => rw [hd] at hn; exact hn
      · rw [if_neg e2] at hn ⊢
        exact hn

theorem parenCount_pos {ops : List Token} (h : 0 < parenCount ops) :
    ∃ t ∈ ops, t.value = ['('] := by
  unfold parenCount at h
  obtain ⟨t, ht, hv⟩ := List.countP_pos_iff.1 h
  exact ⟨t, ht, by simpa using hv⟩

theorem parenCount_zero {ops : List Token} (h : parenCount ops = 0) :
    ∀ t ∈ ops, t.value ≠ ['('] := by
  intro t ht hv
  have : 0 < parenCount ops := by
    unfold parenCount
    exact List.countP_pos_iff.2 ⟨t, ht, by simpa using hv⟩
  omega

/-- C24 as stated fails: `)1(` is accepted by the validator (one `(`, one `)`), the `)` is
processed with an empty operator stack, the `(` token reaches the RPN output and the
evaluator, which treats it as a function that returns 0; `1)+(2` likewise evaluates, to
1. -/
theorem closing_parenthesis_without_open :
    ValidateInput ")1(".toList = true ∧
    (∃ post, (holding ")1(").expression_ = [] ++ ')' :: post) ∧
    ToPostfixLoop exact (.fin 0) none [] (Scan.mk [] [] 0 [] []) =
      .done (Scan.mk [] [] 0 [] []) ∧
    ToPostfix exact (holding ")1(") =
      .done { holding ")1(" with postfix_ := [⟨['1'], 0⟩, ⟨['('], 6⟩] } ∧
    returned (ProcessMathExpression exact (Model.fresh exact) ")1(".toList (.fin 0)) =
      .done (.fin 0) ∧
    ValidateInput "1)+(2".toList = true ∧
    ToPostfix exact (holding "1)+(2") =
      .done { holding "1)+(2" with
        postfix_ := [⟨['1'], 0⟩, ⟨['2'], 0⟩, ⟨['('], 6⟩, ⟨['+'], 1⟩] } ∧
    returned (ProcessMathExpression exact (Model.fresh exact) "1)+(2".toList (.fin 0)) =
      .done (.fin 1) := by
  refine ⟨by decide, ⟨"1(".toList, by decide⟩, by rfl, by decide!, by decide!, by decide,
    by decide!, by decide!⟩

/-- C24, amended: for every input accepted by the validator and by the normalizer of which
no prefix closes more parentheses than it opens, each time the tokenizer comes to a `)`
the operator stack holds a `(` token, and when `ToPostfix` returns no parenthesis token is
in the RPN output. -/
theorem closing_parenthesis_finds_open {D : Type} (L : Libm D) (x : D) (e : List Char)
    (m1 : Model D) (hv : ValidateInput e = true) (hne : NoEarlyClose e)
    (hnorm : ReplaceScientificNotation (Model.holding L x e) = .done m1) :
    (∀ pre post s, m1.expression_ = pre ++ ')' :: post →
      ToPostfixLoop L m1.x_ none pre (Scan.mk [] [] m1.dot_count_ [] []) = .done s →
      ToPostfixLoop L m1.x_ none m1.expression_ (Scan.mk [] [] m1.dot_count_ [] []) =
        ToPostfixLoop L m1.x_ pre.getLast? (')' :: post) s ∧
      ∃ t ∈ s.operators_, t.value = ['(']) ∧
    (∀ m2, ToPostfix L m1 = .done m2 →
      ∀ t ∈ m2.postfix_, t ≠ ⟨['('], 6⟩ ∧ t ≠ ⟨[')'], 6⟩) := by
  have hm1 := ReplaceScientificNotation_done _ _ hnorm
  have hpf1 : m1.postfix_ = [] := by rw [hm1]; rfl
  have hop1 : m1.operators_ = [] := by rw [hm1]; rfl
  have hn : nested 0 m1.expression_ = true := by
    rw [hm1]
    show nested 0 (expandE e) = true
    rw [nested_expandE]
    exact nested_of_NoEarlyClose e hne hv
  have h0 : ParenFree (Scan.mk [] [] m1.dot_count_ [] []) :=
    ⟨(fun t ht => by cases ht), (fun t ht => by cases ht), (fun a ha => by cases ha)⟩
  constructor
  · intro pre post s he hs
    have hd := loop_depth L m1.x_ (')' :: post) pre none (Scan.mk [] [] m1.dot_count_ [] []) s
      hs (fun a ha => by cases ha) (by rw [← he]; exact hn)
    constructor
    · rw [he, ToPostfixLoop_append L m1.x_ ')' post (by decide) pre none, hs,
        Run.done_andThen]
      cases pre with
      | nil => rfl
      | cons a t => rfl
    · apply parenCount_pos
      have h1 := hd.1
      unfold nested at h1
      simp only [show ¬ (')' = '(') by decide, if_false, if_true] at h1
      cases hc : parenCount s.operators_ with
      | zero => rw [hc] at h1; cases h1
      | succ d1 => omega
  · intro m2 hm2 t ht
    unfold ToPostfix at hm2
    rw [hpf1, hop1] at hm2
    cases hr : (ToPostfixLoop L m1.x_ none m1.expression_
        (Scan.mk [] [] m1.dot_count_ [] [])).andThen ToPostfixFinish with
    | done s2 =>
      rw [hr] at hm2
      simp only [Run.map, Run.done.injEq] at hm2
      obtain ⟨s, hs, hfin⟩ := Run.andThen_eq_done hr
      have hpfree : ParenFree s := by
        have := ToPostfixLoop_pf L m1.x_ m1.expression_ none _ h0
        rw [hs] at this
        exact this
      have hd := loop_depth L m1.x_ [] m1.expression_ none
        (Scan.mk [] [] m1.dot_count_ [] []) s hs
        (fun a ha => by cases ha) (by rw [List.append_nil]; exact hn)
      have hz : parenCount s.operators_ = 0 := by
        have h1 := hd.1
        unfold nested at h1
        simpa using h1
      rw [ToPostfixFinish_eq_front L m1.x_] at hfin
      obtain ⟨s3, h3, h4⟩ := Run.andThen_eq_done hfin
      have hz3 : parenCount s3.operators_ = 0 := by rw [front_parenCount h3 hd.2, hz]
      have hpf3 : ParenFree s3 := by
        have h5 : ((NumberBranch ')' s).andThen (VariableBranch L m1.x_ ')')).andThen
            (FunctionBranch ')') |>.All ParenFree := by
          apply Run.All_andThen
          · apply Run.All_andThen
            · exact NumberBranch_pf ')' s hpfree
            · exact fun s hs => VariableBranch_pf L m1.x_ ')' s hs
          · exact fun s hs => FunctionBranch_pf ')' s hs
        rw [h3] at h5
        exact h5
      simp only [Run.done.injEq] at h4
      have ht2 : t ∈ s3.operators_ ∨ t ∈ s3.postfix_ := by
        rw [← hm2, ← h4] at ht
        simp only [Scan.toModel, ReverseStack_eq, DrainOperators_eq, List.mem_reverse,
          List.mem_append] at ht
        exact ht
      rcases ht2 with h6 | h6
      · have hv1 := parenCount_zero hz3 t h6
        have hv2 := hpf3.2.1 t h6
        constructor
        · intro e1
          rw [e1] at hv1
          exact hv1 rfl
        · intro e1
          rw [e1] at hv2
          exact hv2 rfl
      · have hv1 := hpf3.1 t h6
        constructor
        · intro e1
          rw [e1] at hv1
          exact (hv1 (by decide)).1 rfl
        · intro e1
          rw [e1] at hv1
          exact (hv1 (by decide)).2 rfl
    | thrown s2 => rw [hr] at hm2; cases hm2
    | undefined => rw [hr] at hm2; cases hm2
    | unfinished => rw [hr] at hm2; cases hm2

/-- C24, amended, at `(1+2)*3`. -/
theorem closing_parenthesis_finds_open_witness :
    ValidateInput "(1+2)*3".toList = true ∧ NoEarlyClose "(1+2)*3".toList ∧
    ToPostfix exact (holding "(1+2)*3") =
      .done { holding "(1+2)*3" with
        postfix_ := [⟨['1'], 0⟩, ⟨['2'], 0⟩, ⟨['+'], 1⟩, ⟨['3'], 0⟩, ⟨['*'], 2⟩] } ∧
    ∀ m2, ToPostfix exact (holding "(1+2)*3") = .done m2 →
      ∀ t ∈ m2.postfix_, t ≠ ⟨['('], 6⟩ ∧ t ≠ ⟨[')'], 6⟩ :=
  have hne : NoEarlyClose "(1+2)*3".toList := by
    have key : ∀ p ∈ "(1+2)*3".toList.inits, p.count ')' ≤ p.count '(' := by decide
    intro p hp
    exact key p ((List.mem_inits _ _).2 hp)
  ⟨by decide, hne, by decide!,
    (closing_parenthesis_finds_open exact (.fin 0) "(1+2)*3".toList (holding "(1+2)*3")
      (by decide) hne (by decide!)).2⟩

/-! ## Two binary operators in a row (C25) -/

theorem not_unary_between_literals (a b : List Char) (ha : NumericLiteral a)
    (hb : NumericLiteral b) (rest : List Char) :
    IsUnary (some (a.getLastD '\x00')) ((b ++ rest).headD '\x00') = false := by
  have hane := ha.ne_nil
  have hbne := hb.ne_nil
  have h1 := literal_class _ (ha.1 _ (getLastD_mem hane '\x00'))
  have hh : (b ++ rest).headD '\x00' = b.headD '\x00' := by
    cases b with
    | nil => exact absurd rfl hbne
    | cons c t => rfl
  have h2 := literal_class _ (hb.1 _ (headD_mem hbne '\x00'))
  have e : (a.getLastD '\x00' == '(') = false := beq_false_of_ne h1.2.2.1
  rw [hh]
  simp only [IsUnary, e, h1.2.2.2.2.1, h2.2.2.2.2.1, Bool.or_false]

/-- The loop of `ToPostfix` on `a p b q c` from clean stacks, up to the end of `c`. -/
theorem loop_two_operators {D : Type} (L : Libm D) (x_ : D) (a b c : List Char) (p q : Char)
    (pp pq : Int) (ha : NumericLiteral a) (hb : NumericLiteral b) (hc : NumericLiteral c)
    (hp : IsOperator p = true) (hq : IsOperator q = true)
    (hpp : SetTokenPriority [p] = some pp) (hpq : SetTokenPriority [q] = some pq) :
    ToPostfixLoop L x_ none (a ++ p :: (b ++ q :: c)) (Scan.mk [] [] 0 [] []) =
      .done (Scan.mk c [] (litDots true c)
        (if pp ≥ pq then [⟨[p], pp⟩, ⟨b, 0⟩, ⟨a, 0⟩] else [⟨b, 0⟩, ⟨a, 0⟩])
        (if pp ≥ pq then [⟨[q], pq⟩] else [⟨[q], pq⟩, ⟨[p], pp⟩])) := by
  have hane := ha.ne_nil
  have hbne := hb.ne_nil
  have hempa : a.isEmpty = false := by cases a <;> simp at hane ⊢
  have hempb : b.isEmpty = false := by cases b <;> simp at hbne ⊢
  have hpne : ([p] != ['(']) = true := by
    have := (operator_class p hp).2.2.2.2.2.1
    simpa using this
  rw [scan_literal L x_ a none _ _ ha.1 rfl]
  simp only [hempa, Bool.false_eq_true, if_false, List.nil_append, List.isEmpty_nil, zero_add]
  rw [ToPostfixLoop_cons, step_operator L x_ _ p _ _ hp rfl (ha.dots true),
    OperatorBranch_binary _ p _ _ pp
      (by rintro ⟨_, h⟩; rw [not_unary_between_literals a b ha hb] at h; cases h) hpp]
  simp only [Run.andThen, Scan.flush, hempa, Bool.false_eq_true, if_false, PopOperators]
  rw [scan_literal L x_ b (some p) (q :: c) _ hb.1 rfl]
  simp only [hempb, Bool.false_eq_true, if_false, List.nil_append, List.isEmpty_nil, zero_add]
  rw [ToPostfixLoop_cons, step_operator L x_ _ q _ _ hq rfl (hb.dots true),
    OperatorBranch_binary _ q _ _ pq
      (by
        rintro ⟨_, h⟩
        have := not_unary_between_literals b c hb hc []
        rw [List.append_nil] at this
        rw [this] at h
        cases h) hpq]
  simp only [Run.andThen, Scan.flush, hempb, Bool.false_eq_true, if_false]
  by_cases hge : pp ≥ pq
  · have hpop : PopOperators pq [⟨[p], pp⟩] [⟨b, 0⟩, ⟨a, 0⟩] =
        ([], [⟨[p], pp⟩, ⟨b, 0⟩, ⟨a, 0⟩]) := by
      have hcond : (decide (pp ≥ pq) && ([p] != ['('])) = true := by simp [hge, hpne]
      simp only [PopOperators, hcond, if_true]
    rw [hpop, if_pos hge, if_pos hge]
    have := scan_literal L x_ c (some q) []
      (Scan.mk [] [] 0 [⟨[p], pp⟩, ⟨b, 0⟩, ⟨a, 0⟩] [⟨[q], pq⟩]) hc.1 rfl
    simp only [List.append_nil, List.nil_append, List.isEmpty_nil, zero_add] at this
    rw [this]
    rfl
  · have hpop : PopOperators pq [⟨[p], pp⟩] [⟨b, 0⟩, ⟨a, 0⟩] =
        ([⟨[p], pp⟩], [⟨b, 0⟩, ⟨a, 0⟩]) := by
      have hcond : (decide (pp ≥ pq) && ([p] != ['('])) = false := by simp [hge]
      simp only [PopOperators, hcond, Bool.false_eq_true, if_false]
    rw [hpop, if_neg hge, if_neg hge]
    have := scan_literal L x_ c (some q) []
      (Scan.mk [] [] 0 [⟨b, 0⟩, ⟨a, 0⟩] [⟨[q], pq⟩, ⟨[p], pp⟩]) hc.1 rfl
    simp only [List.append_nil, List.nil_append, List.isEmpty_nil, zero_add] at this
    rw [this]
    rfl

/-- The function `Calculate` on the RPN sequence `a b p c q`: `p` is applied to `a` and
`b`, then `q` to that result and `c`; each result is printed by `DoubleToString` and read
back. -/
theorem Calculate_left_grouped {D : Type} (L : Libm D) (m : Model D) (a b c : List Char)
    (p q : Char) (pp pq : Int) (va vb vc r1 r2 : D) (s1 s2 : List Char)
    (hpp : pp ≠ 0) (hpq : pq ≠ 0) (hp : IsOperator p = true) (hq : IsOperator q = true)
    (hva : L.stod a = some va) (hvb : L.stod b = some vb) (hvc : L.stod c = some vc)
    (hs1 : DoubleToString L (ArithmeticResult L va vb p) = some s1)
    (hr1 : L.stod s1 = some r1)
    (hs2 : DoubleToString L (ArithmeticResult L r1 vc q) = some s2)
    (hr2 : L.stod s2 = some r2)
    (hpf : m.postfix_ = [⟨a, 0⟩, ⟨b, 0⟩, ⟨[p], pp⟩, ⟨c, 0⟩, ⟨[q], pq⟩])
    (hc : m.calculation_ = []) :
    Calculate L m = .done { m with postfix_ := [], calculation_ := [], result_ := r2 } := by
  have hpp2 : (pp == 0) = false := by simpa using hpp
  have hpq2 : (pq == 0) = false := by simpa using hpq
  simp [Calculate, hpf, CalculateLoop, CalculateStep, Run.andThen, hc, hpp2, hpq2, hp, hq, hva,
    hvb, hvc, PushResult, hs1, hr1, hs2, hr2]

/-- C25: for number literals `a`, `b`, `c` and binary operator symbols `p`, `q` with table
precedences `pp`, `pq`, the tokenizer turns `a p b q c` into the RPN sequence
`a b p c q` when `pp ≥ pq` and into `a b c q p` otherwise; so operators of equal
precedence, `^` included, group from the left, and `Calculate` applies `p` to `a` and `b`
first and `q` to that result and `c` (`2^3^2` is 64). -/
theorem two_operator_order {D : Type} (L : Libm D) (x : D) (a b c : List Char) (p q : Char)
    (pp pq : Int) (ha : NumericLiteral a) (hb : NumericLiteral b) (hc : NumericLiteral c)
    (hp : IsOperator p = true) (hq : IsOperator q = true)
    (hpp : SetTokenPriority [p] = some pp) (hpq : SetTokenPriority [q] = some pq) :
    ToPostfix L (Model.holding L x (a ++ p :: (b ++ q :: c))) =
      .done { Model.holding L x (a ++ p :: (b ++ q :: c)) with
        postfix_ := if pp ≥ pq then [⟨a, 0⟩, ⟨b, 0⟩, ⟨[p], pp⟩, ⟨c, 0⟩, ⟨[q], pq⟩]
          else [⟨a, 0⟩, ⟨b, 0⟩, ⟨c, 0⟩, ⟨[q], pq⟩, ⟨[p], pp⟩] } ∧
    (pp ≥ pq → ∀ (va vb vc r1 r2 : D) (s1 s2 : List Char),
      L.stod a = some va → L.stod b = some vb → L.stod c = some vc →
      DoubleToString L (ArithmeticResult L va vb p) = some s1 → L.stod s1 = some r1 →
      DoubleToString L (ArithmeticResult L r1 vc q) = some s2 → L.stod s2 = some r2 →
      (ToPostfix L (Model.holding L x (a ++ p :: (b ++ q :: c)))).andThen (Calculate L) =
        .done { Model.holding L x (a ++ p :: (b ++ q :: c)) with result_ := r2 }) ∧
    returned (ProcessMathExpression exact (Model.fresh exact) "2^3^2".toList (.fin 0)) =
      .done (.fin 64) := by
  have hcne := hc.ne_nil
  have hempc : c.isEmpty = false := by cases c <;> simp at hcne ⊢
  have hl := loop_two_operators L x a b c p q pp pq ha hb hc hp hq hpp hpq
  have htok : ToPostfix L (Model.holding L x (a ++ p :: (b ++ q :: c))) =
      .done { Model.holding L x (a ++ p :: (b ++ q :: c)) with
        postfix_ := if pp ≥ pq then [⟨a, 0⟩, ⟨b, 0⟩, ⟨[p], pp⟩, ⟨c, 0⟩, ⟨[q], pq⟩]
          else [⟨a, 0⟩, ⟨b, 0⟩, ⟨c, 0⟩, ⟨[q], pq⟩, ⟨[p], pp⟩] } := by
    rw [ToPostfix_of_loop L (Model.holding L x _) _ hl rfl (hc.dots true)]
    by_cases hge : pp ≥ pq
    · simp [Scan.flush, hempc, Model.holding, Model.fresh, hge]
    · simp [Scan.flush, hempc, Model.holding, Model.fresh, hge]
  refine ⟨htok, ?_, by decide!⟩
  intro hge va vb vc r1 r2 s1 s2 hva hvb hvc hs1 hr1 hs2 hr2
  have hp0 : ∀ (o : Char) (po : Int), IsOperator o = true → SetTokenPriority [o] = some po →
      po ≠ 0 := by
    intro o po _ h e
    rw [e] at h
    exact SetTokenPriority_ne_zero [o] h
  rw [htok, Run.done_andThen, if_pos hge,
    Calculate_left_grouped L _ a b c p q pp pq va vb vc r1 r2 s1 s2 (hp0 p pp hp hpp)
      (hp0 q pq hq hpq) hp hq hva hvb hvc hs1 hr1 hs2 hr2 rfl rfl]
  rfl

/-- C25 at `8-3-2` (equal precedence, RPN `8 3 - 2 -`) and `8-3*2` (RPN `8 3 2 * -`). -/
theorem two_operator_order_witness :
    ToPostfix exact (holding "8-3-2") =
      .done { holding "8-3-2" with
        postfix_ := [⟨['8'], 0⟩, ⟨['3'], 0⟩, ⟨['-'], 1⟩, ⟨['2'], 0⟩, ⟨['-'], 1⟩] } ∧
    ToPostfix exact (holding "8-3*2") =
      .done { holding "8-3*2" with
        postfix_ := [⟨['8'], 0⟩, ⟨['3'], 0⟩, ⟨['2'], 0⟩, ⟨['*'], 2⟩, ⟨['-'], 1⟩] } :=
  ⟨(two_operator_order exact (.fin 0) ['8'] ['3'] ['2'] '-' '-' 1 1
      (by unfold NumericLiteral; decide) (by unfold NumericLiteral; decide)
      (by unfold NumericLiteral; decide) (by decide) (by decide) (by decide) (by decide)).1,
    (two_operator_order exact (.fin 0) ['8'] ['3'] ['2'] '-' '*' 1 2
      (by unfold NumericLiteral; decide) (by unfold NumericLiteral; decide)
      (by unfold NumericLiteral; decide) (by decide) (by decide) (by decide) (by decide)).1⟩

/-! ## Unary minus before a power (C26) -/

/-- The function `ToPostfix` on `-a^b` for numeric literals `a` and `b`: the RPN sequence
is `a ~ b ^`. -/
theorem ToPostfix_negated_power {D : Type} (L : Libm D) (x : D) (a b : List Char)
    (ha : NumericLiteral a) (hb : NumericLiteral b) :
    ToPostfix L (Model.holding L x ('-' :: (a ++ '^' :: b))) =
      .done { Model.holding L x ('-' :: (a ++ '^' :: b)) with
        postfix_ := [⟨a, 0⟩, ⟨['~'], 4⟩, ⟨b, 0⟩, ⟨['^'], 3⟩] } := by
  have hane := ha.ne_nil
  have hbne := hb.ne_nil
  have hempa : a.isEmpty = false := by cases a <;> simp at hane ⊢
  have hempb : b.isEmpty = false := by cases b <;> simp at hbne ⊢
  have hl : ToPostfixLoop L x none ('-' :: (a ++ '^' :: b)) (Scan.mk [] [] 0 [] []) =
      .done (Scan.mk b [] (litDots true b) [⟨['~'], 4⟩, ⟨a, 0⟩] [⟨['^'], 3⟩]) := by
    rw [ToPostfixLoop_cons, step_operator L x none '-' _ _ (by decide) rfl (by decide),
      OperatorBranch_unary_minus none _ _ rfl]
    simp only [Run.andThen, Scan.flush, List.isEmpty_nil, if_true, PopOperators]
    rw [scan_literal L x a (some '-') ('^' :: b) _ ha.1 rfl]
    simp only [hempa, Bool.false_eq_true, if_false, List.nil_append, List.isEmpty_nil, zero_add]
    rw [ToPostfixLoop_cons, step_operator L x _ '^' _ _ (by decide) rfl (ha.dots true),
      OperatorBranch_binary _ '^' _ _ 3 (by rintro ⟨h | h, _⟩ <;> cases h) (by decide)]
    simp only [Run.andThen, Scan.flush, hempa, Bool.false_eq_true, if_false, PopOperators]
    have := scan_literal L x b (some '^') []
      (Scan.mk [] [] 0 [⟨['~'], 4⟩, ⟨a, 0⟩] [⟨['^'], 3⟩]) hb.1 rfl
    simp only [List.append_nil, List.nil_append, List.isEmpty_nil, zero_add] at this
    simpa [PopOperators] using this
  rw [ToPostfix_of_loop L (Model.holding L x _) _ hl rfl (hb.dots true)]
  simp [Scan.flush, hempb, Model.holding, Model.fresh]

/-- C26: for number literals `a` and `b`, the tokenizer turns `-a^b` into the RPN sequence
`a ~ b ^` (the `~`, of precedence 4, is popped by the `^`, of precedence 3), so the
evaluator negates `a` first and raises the negated value to `b`: it evaluates as
`pow(-a, b)`, each of the two results being carried as the text of `DoubleToString`, not
as `-(pow(a, b))`; `-2^2` gives 4, and `-(pow(2, 2))` is -4. -/
theorem unary_minus_before_power {D : Type} (L : Libm D) (x : D) (a b : List Char)
    (ha : NumericLiteral a) (hb : NumericLiteral b) :
    ToPostfix L (Model.holding L x ('-' :: (a ++ '^' :: b))) =
      .done { Model.holding L x ('-' :: (a ++ '^' :: b)) with
        postfix_ := [⟨a, 0⟩, ⟨['~'], 4⟩, ⟨b, 0⟩, ⟨['^'], 3⟩] } ∧
    (a.length + b.length + 2 ≤ 255 → ∀ (va vb r1 r2 : D) (s1 s2 : List Char),
      L.stod a = some va → L.stod b = some vb →
      DoubleToString L (L.neg va) = some s1 → L.stod s1 = some r1 →
      DoubleToString L (L.pow r1 vb) = some s2 → L.stod s2 = some r2 →
      ProcessMathExpression L (Model.fresh L) ('-' :: (a ++ '^' :: b)) x =
        .done { Model.holding L x ('-' :: (a ++ '^' :: b)) with result_ := r2 }) ∧
    returned (ProcessMathExpression exact (Model.fresh exact) "-2^2".toList (.fin 0)) =
      .done (.fin 4) ∧
    exact.pow (exact.neg (.fin 2)) (.fin 2) = .fin 4 ∧
    exact.neg (exact.pow (.fin 2) (.fin 2)) = .fin (-4) := by
  refine ⟨ToPostfix_negated_power L x a b ha hb, ?_, by decide!, by decide!, by decide!⟩
  intro hlen va vb r1 r2 s1 s2 hva hvb hs1 hr1 hs2 hr2
  have hv := ValidateInput_minus _
    (ValidateInput_binary_literals a b '^' ha hb (by decide) (by omega))
    (by simp only [List.length_append, List.length_cons]; omega)
  rw [ProcessMathExpression_of_valid L _ _ hv]
  unfold CalculateMathExpression
  have hne : 'e' ∉ (Model.holding L x ('-' :: (a ++ '^' :: b))).expression_ := by
    intro h
    have h2 : 'e' ∈ '-' :: (a ++ '^' :: b) := h
    rw [List.mem_cons] at h2
    rcases h2 with h2 | h2
    · cases h2
    · exact not_mem_e_binary_literals a b '^' ha hb (by decide) h2
  rw [ReplaceScientificNotation_no_e _ hne, Run.done_andThen,
    ToPostfix_negated_power L x a b ha hb, Run.done_andThen]
  have ht : TrigonometryResult L va ['~'] = L.neg va := by
    simp [TrigonometryResult]
  have ho : ArithmeticResult L r1 vb '^' = L.pow r1 vb := rfl
  simp [Calculate, CalculateLoop, CalculateStep, Run.andThen, IsOperator, hva, hvb, PushResult,
    ht, ho, hs1, hr1, hs2, hr2, Model.holding, Model.fresh]

/-- C26 at `-3^2`, which gives 9. -/
theorem unary_minus_before_power_witness :
    ProcessMathExpression exact (Model.fresh exact) "-3^2".toList (.fin 0) =
      .done { holding "-3^2" with result_ := .fin 9 } :=
  (unary_minus_before_power exact (.fin 0) ['3'] ['2'] (by unfold NumericLiteral; decide)
    (by unfold NumericLiteral; decide)).2.1 (by decide) (.fin 3) (.fin 2) (.fin (-3)) (.fin 9)
    "-3.0000000".toList "9.0000000".toList (by decide!) (by decide!) (by decide!) (by decide!)
    (by decide!) (by decide!)

/-! ## Adjacent signs (C29) -/

theorem unary_before_sign (a : List Char) (c : Char) (rest : List Char)
    (hc : IsOperator c = true) :
    IsUnary (some (a.getLastD '\x00')) ((c :: rest).headD '\x00') = true := by
  simp [IsUnary, hc]

/-- The loop of `ToPostfix` on `a+-b` and on `a-+b`: the first sign is unary because an
operator symbol follows it, the second because an operator symbol precedes it; one `~` is
pushed and no binary operator. -/
theorem loop_sign_pair {D : Type} (L : Libm D) (x_ : D) (a b : List Char) (c1 c2 : Char)
    (ha : NumericLiteral a) (hb : NumericLiteral b)
    (hc : (c1 = '+' ∧ c2 = '-') ∨ (c1 = '-' ∧ c2 = '+')) :
    ToPostfixLoop L x_ none (a ++ c1 :: c2 :: b) (Scan.mk [] [] 0 [] []) =
      .done (Scan.mk b [] (litDots true b) [⟨a, 0⟩] [⟨['~'], 4⟩]) := by
  have hane := ha.ne_nil
  have hempa : a.isEmpty = false := by cases a <;> simp at hane ⊢
  rw [scan_literal L x_ a none _ _ ha.1 rfl]
  simp only [hempa, Bool.false_eq_true, if_false, List.nil_append, List.isEmpty_nil, zero_add]
  rcases hc with ⟨h1, h2⟩ | ⟨h1, h2⟩ <;> subst h1 <;> subst h2
  · rw [ToPostfixLoop_cons, step_operator L x_ _ '+' _ _ (by decide) rfl (ha.dots true),
      OperatorBranch_unary_plus _ _ _ (unary_before_sign a '-' b (by decide))]
    simp only [Run.andThen, Scan.flush, hempa, Bool.false_eq_true, if_false]
    rw [ToPostfixLoop_cons, step_operator L x_ _ '-' _ _ (by decide) rfl (by simp),
      OperatorBranch_unary_minus _ _ _ (by simp [IsUnary, IsOperator])]
    simp only [Run.andThen, Scan.flush, List.isEmpty_nil, if_true, PopOperators]
    have := scan_literal L x_ b (some '-') []
      (Scan.mk [] [] 0 [⟨a, 0⟩] [⟨['~'], 4⟩]) hb.1 rfl
    simp only [List.append_nil, List.nil_append, List.isEmpty_nil, zero_add] at this
    simpa using this
  · rw [ToPostfixLoop_cons, step_operator L x_ _ '-' _ _ (by decide) rfl (ha.dots true),
      OperatorBranch_unary_minus _ _ _ (unary_before_sign a '+' b (by decide))]
    simp only [Run.andThen, Scan.flush, hempa, Bool.false_eq_true, if_false, PopOperators]
    rw [ToPostfixLoop_cons, step_operator L x_ _ '+' _ _ (by decide) rfl (by simp),
      OperatorBranch_unary_plus _ _ _ (by simp [IsUnary, IsOperator])]
    simp only [Run.andThen, Scan.flush, List.isEmpty_nil, if_true]
    have := scan_literal L x_ b (some '+') []
      (Scan.mk [] [] 0 [⟨a, 0⟩] [⟨['~'], 4⟩]) hb.1 rfl
    simp only [List.append_nil, List.nil_append, List.isEmpty_nil, zero_add] at this
    simpa using this

/-- The loop of `ToPostfix` on `a--b`: both signs are unary; the second `~` pops the
first into the output. -/
theorem loop_double_minus {D : Type} (L : Libm D) (x_ : D) (a b : List Char)
    (ha : NumericLiteral a) (hb : NumericLiteral b) :
    ToPostfixLoop L x_ none (a ++ '-' :: '-' :: b) (Scan.mk [] [] 0 [] []) =
      .done (Scan.mk b [] (litDots true b) [⟨['~'], 4⟩, ⟨a, 0⟩] [⟨['~'], 4⟩]) := by
  have hane := ha.ne_nil
  have hempa : a.isEmpty = false := by cases a <;> simp at hane ⊢
  rw [scan_literal L x_ a none _ _ ha.1 rfl]
  simp only [hempa, Bool.false_eq_true, if_false, List.nil_append, List.isEmpty_nil, zero_add]
  rw [ToPostfixLoop_cons, step_operator L x_ _ '-' _ _ (by decide) rfl (ha.dots true),
    OperatorBranch_unary_minus _ _ _ (unary_before_sign a '-' b (by decide))]
  simp only [Run.andThen, Scan.flush, hempa, Bool.false_eq_true, if_false, PopOperators]
  rw [ToPostfixLoop_cons, step_operator L x_ _ '-' _ _ (by decide) rfl (by simp),
    OperatorBranch_unary_minus _ _ _ (by simp [IsUnary, IsOperator])]
  simp only [Run.andThen, Scan.flush, List.isEmpty_nil, if_true]
  have hpop : PopOperators 4 [⟨['~'], 4⟩] [⟨a, 0⟩] = ([], [⟨['~'], 4⟩, ⟨a, 0⟩]) := by
    simp [PopOperators]
  rw [hpop]
  have := scan_literal L x_ b (some '-') []
    (Scan.mk [] [] 0 [⟨['~'], 4⟩, ⟨a, 0⟩] [⟨['~'], 4⟩]) hb.1 rfl
  simp only [List.append_nil, List.nil_append, List.isEmpty_nil, zero_add] at this
  simpa using this

/-- The function `Calculate` on the RPN sequence `a b ~`: two values remain and it throws
(when the text of the negated value fits the buffer of `DoubleToString`). -/
theorem Calculate_two_remain {D : Type} (L : Libm D) (m : Model D) (a b : List Char)
    (hfb : ∀ vb, L.stod b = some vb → DoubleToString L (L.neg vb) ≠ none)
    (hpf : m.postfix_ = [⟨a, 0⟩, ⟨b, 0⟩, ⟨['~'], 4⟩]) (hc : m.calculation_ = []) :
    ∃ m2, Calculate L m = .thrown m2 := by
  have ht : ∀ v, TrigonometryResult L v ['~'] = L.neg v := by
    intro v
    simp [TrigonometryResult]
  cases hvb : L.stod b with
  | none =>
    simp [Calculate, hpf, CalculateLoop, CalculateStep, Run.andThen, hc, IsOperator, hvb]
  | some vb =>
    cases hs : DoubleToString L (L.neg vb) with
    | none => exact absurd hs (hfb vb hvb)
    | some s =>
      cases hr : L.stod s with
      | none =>
        simp [Calculate, hpf, CalculateLoop, CalculateStep, Run.andThen, hc, IsOperator, hvb,
          PushResult, ht, hs, hr]
      | some r =>
        simp [Calculate, hpf, CalculateLoop, CalculateStep, Run.andThen, hc, IsOperator, hvb,
          PushResult, ht, hs, hr]

/-- The function `Calculate` on the RPN sequence `a ~ b ~`: two values remain and it
throws (when the texts of the negated values fit the buffer of `DoubleToString`). -/
theorem Calculate_two_negated_remain {D : Type} (L : Libm D) (m : Model D) (a b : List Char)
    (hfa : ∀ va, L.stod a = some va → DoubleToString L (L.neg va) ≠ none)
    (hfb : ∀ vb, L.stod b = some vb → DoubleToString L (L.neg vb) ≠ none)
    (hpf : m.postfix_ = [⟨a, 0⟩, ⟨['~'], 4⟩, ⟨b, 0⟩, ⟨['~'], 4⟩]) (hc : m.calculation_ = []) :
    ∃ m2, Calculate L m = .thrown m2 := by
  have ht : ∀ v, TrigonometryResult L v ['~'] = L.neg v := by
    intro v
    simp [TrigonometryResult]
  cases hva : L.stod a with
  | none =>
    simp [Calculate, hpf, CalculateLoop, CalculateStep, Run.andThen, hc, IsOperator, hva]
  | some va =>
    cases hs1 : DoubleToString L (L.neg va) with
    | none => exact absurd hs1 (hfa va hva)
    | some s1 =>
      cases hvb : L.stod b with
      | none =>
        simp [Calculate, hpf, CalculateLoop, CalculateStep, Run.andThen, hc, IsOperator, hva,
          PushResult, ht, hs1, hvb]
      | some vb =>
        cases hs2 : DoubleToString L (L.neg vb) with
        | none => exact absurd hs2 (hfb vb hvb)
        | some s2 =>
          cases hr : L.stod s2 with
          | none =>
            simp [Calculate, hpf, CalculateLoop, CalculateStep, Run.andThen, hc, IsOperator,
              hva, hvb, PushResult, ht, hs1, hs2, hr]
          | some r =>
            simp [Calculate, hpf, CalculateLoop, CalculateStep, Run.andThen, hc, IsOperator,
              hva, hvb, PushResult, ht, hs1, hs2, hr]

theorem ValidateInput_literal_first (a rest : List Char) (ha : NumericLiteral a)
    (hpar : rest.count '(' = rest.count ')') (hlen : a.length + rest.length ≤ 255) :
    ValidateInput (a ++ rest) = true := by
  rw [ValidateInput_iff]
  have hane := ha.ne_nil
  have hcl : ∀ c ∈ a, c ≠ '(' ∧ c ≠ ')' := by
    intro c hc
    have := literal_class c (ha.1 c hc)
    exact ⟨this.2.2.1, this.2.2.2.1⟩
  refine ⟨⟨?_, by simp only [List.length_append]; omega⟩, ?_, ?_, ?_⟩
  · cases a with
    | nil => exact absurd rfl hane
    | cons d t => simp
  · rw [List.count_append, List.count_append,
      List.count_eq_zero_of_not_mem (fun h => (hcl _ h).1 rfl),
      List.count_eq_zero_of_not_mem (fun h => (hcl _ h).2 rfl), hpar]
  · obtain ⟨_, _, c, hc, hd⟩ := ha
    exact ⟨c, by simp [hc], Or.inl ((isDigit_iff c).mp hd)⟩
  · intro c hc
    cases a with
    | nil => exact absurd rfl hane
    | cons d t =>
      simp only [List.cons_append, List.head?_cons, Option.some.injEq] at hc
      subst hc
      have := literal_class d (ha.1 d (List.mem_cons_self _ _))
      have h5 := this.2.2.2.2.1
      simp only [IsOperator, Bool.or_eq_false_iff, beq_eq_false_iff_ne, ne_eq] at h5
      tauto

theorem evaluate_of_tokens {D : Type} (L : Libm D) (x : D) (e : List Char) (m2 : Model D)
    (hv : ValidateInput e = true) (hne : 'e' ∉ e)
    (ht : ToPostfix L (Model.holding L x e) = .done m2) :
    ProcessMathExpression L (Model.fresh L) e x = Calculate L m2 := by
  rw [ProcessMathExpression_of_valid L _ _ hv]
  unfold CalculateMathExpression
  rw [ReplaceScientificNotation_no_e _ hne, Run.done_andThen, ht, Run.done_andThen]

/-- The loop of `ToPostfix` on `a*-b`: the `*` is binary, the `-` after it unary. -/
theorem loop_times_minus {D : Type} (L : Libm D) (x_ : D) (a b : List Char)
    (ha : NumericLiteral a) (hb : NumericLiteral b) :
    ToPostfixLoop L x_ none (a ++ '*' :: '-' :: b) (Scan.mk [] [] 0 [] []) =
      .done (Scan.mk b [] (litDots true b) [⟨a, 0⟩] [⟨['~'], 4⟩, ⟨['*'], 2⟩]) := by
  have hane := ha.ne_nil
  have hempa : a.isEmpty = false := by cases a <;> simp at hane ⊢
  rw [scan_literal L x_ a none _ _ ha.1 rfl]
  simp only [hempa, Bool.false_eq_true, if_false, List.nil_append, List.isEmpty_nil, zero_add]
  rw [ToPostfixLoop_cons, step_operator L x_ _ '*' _ _ (by decide) rfl (ha.dots true),
    OperatorBranch_binary _ '*' _ _ 2 (by rintro ⟨h | h, _⟩ <;> cases h) (by decide)]
  simp only [Run.andThen, Scan.flush, hempa, Bool.false_eq_true, if_false, PopOperators]
  rw [ToPostfixLoop_cons, step_operator L x_ _ '-' _ _ (by decide) rfl (by simp),
    OperatorBranch_unary_minus _ _ _ (by simp [IsUnary, IsOperator])]
  simp only [Run.andThen, Scan.flush, List.isEmpty_nil, if_true]
  have hpop : PopOperators 4 [⟨['*'], 2⟩] [⟨a, 0⟩] = ([⟨['*'], 2⟩], [⟨a, 0⟩]) := by
    simp [PopOperators]
  rw [hpop]
  have := scan_literal L x_ b (some '-') []
    (Scan.mk [] [] 0 [⟨a, 0⟩] [⟨['~'], 4⟩, ⟨['*'], 2⟩]) hb.1 rfl
  simp only [List.append_nil, List.nil_append, List.isEmpty_nil, zero_add] at this
  simpa using this

/-- The loop of `ToPostfix` on `a+(-b)`: the `+` is binary, the `-` after the `(`
unary. -/
theorem loop_plus_negated {D : Type} (L : Libm D) (x_ : D) (a b : List Char)
    (ha : NumericLiteral a) (hb : NumericLiteral b) :
    ToPostfixLoop L x_ none (a ++ '+' :: '(' :: '-' :: (b ++ [')'])) (Scan.mk [] [] 0 [] []) =
      .done (Scan.mk [] [] 0 [⟨['~'], 4⟩, ⟨b, 0⟩, ⟨a, 0⟩] [⟨['+'], 1⟩]) := by
  have hane := ha.ne_nil
  have hbne := hb.ne_nil
  have hempa : a.isEmpty = false := by cases a <;> simp at hane ⊢
  have hempb : b.isEmpty = false := by cases b <;> simp at hbne ⊢
  have hd : ¬ litDots true b > 1 := by have := hb.dots true; omega
  have hnu : IsUnary (some (a.getLastD '\x00')) '(' = false := by
    have h1 := literal_class _ (ha.1 _ (getLastD_mem hane '\x00'))
    have e : (a.getLastD '\x00' == '(') = false := beq_false_of_ne h1.2.2.1
    simp only [IsUnary, e, h1.2.2.2.2.1, Bool.false_or]
    decide
  rw [scan_literal L x_ a none _ _ ha.1 rfl]
  simp only [hempa, Bool.false_eq_true, if_false, List.nil_append, List.isEmpty_nil, zero_add]
  rw [ToPostfixLoop_cons, step_operator L x_ _ '+' _ _ (by decide) rfl (ha.dots true),
    OperatorBranch_binary _ '+' _ _ 1
      (by
        rintro ⟨_, h⟩
        rw [List.headD_cons, hnu] at h
        cases h) (by decide)]
  simp only [Run.andThen, Scan.flush, hempa, Bool.false_eq_true, if_false, PopOperators]
  have hs : ToPostfixLoop L x_ (some '+') ('(' :: '-' :: (b ++ [')']))
      (Scan.mk [] [] 0 [⟨a, 0⟩] [⟨['+'], 1⟩]) =
      ToPostfixLoop L x_ (some '-') (b ++ [')'])
        (Scan.mk [] [] 0 [⟨a, 0⟩] [⟨['~'], 4⟩, ⟨['('], 6⟩, ⟨['+'], 1⟩]) := by
    simp [ToPostfixLoop_cons, ToPostfixStep, NumberBranch, VariableBranch, FunctionBranch,
      OperatorBranch, ParenBranch, PushNumberToPostfix, PushCharToOperators,
      PushOperationToOperators, IsUnary, IsOperator, SetTokenPriority, priorities_,
      PopOperators, Run.andThen, List.lookup]
  rw [hs]
  have hb2 := scan_literal L x_ b (some '-') [')']
    (Scan.mk [] [] 0 [⟨a, 0⟩] [⟨['~'], 4⟩, ⟨['('], 6⟩, ⟨['+'], 1⟩]) hb.1 rfl
  simp only [List.nil_append, List.isEmpty_nil, zero_add, hempb, Bool.false_eq_true,
    if_false] at hb2
  rw [hb2]
  simp [ToPostfixLoop_cons, ToPostfixStep, NumberBranch, VariableBranch, FunctionBranch,
    OperatorBranch, ParenBranch, PushNumberToPostfix, PushCharToOperators,
    PushOperationToOperators, IsUnary, IsOperator, SetTokenPriority, priorities_,
    PopToParen, Run.andThen, List.lookup, hempb, hd, ToPostfixLoop]

/-- The function `Calculate` on the RPN sequence `a b ~ op`: `b` is negated, then `op` is
applied to `a` and the negated value; each result is printed by `DoubleToString` and read
back. -/
theorem Calculate_negated_right {D : Type} (L : Libm D) (m : Model D) (a b : List Char)
    (op : Char) (p : Int) (va vb r1 r2 : D) (s1 s2 : List Char) (hp : p ≠ 0)
    (hop : IsOperator op = true) (hva : L.stod a = some va) (hvb : L.stod b = some vb)
    (hs1 : DoubleToString L (L.neg vb) = some s1) (hr1 : L.stod s1 = some r1)
    (hs2 : DoubleToString L (ArithmeticResult L va r1 op) = some s2)
    (hr2 : L.stod s2 = some r2)
    (hpf : m.postfix_ = [⟨a, 0⟩, ⟨b, 0⟩, ⟨['~'], 4⟩, ⟨[op], p⟩]) (hc : m.calculation_ = []) :
    Calculate L m = .done { m with postfix_ := [], calculation_ := [], result_ := r2 } := by
  have ht : TrigonometryResult L vb ['~'] = L.neg vb := by
    simp [TrigonometryResult]
  have hp2 : (p == 0) = false := by simpa using hp
  have hnop : IsOperator '~' = false := by decide
  simp [Calculate, hpf, CalculateLoop, CalculateStep, Run.andThen, hc, hp2, hop, hnop, hva, hvb,
    PushResult, ht, hs1, hr1, hs2, hr2]

/-- C29: for number literals `a` and `b`, in `a+-b`, `a-+b` and `a--b` the first sign is
classified as unary because the next character is an operator symbol, no binary operator
is emitted (the RPN sequences are `a b ~`, `a b ~` and `a ~ b ~`), two values remain on
the operand stack and `CalculateMathExpression` throws `std::invalid_argument` (when the
text of each negated value fits the buffer of `DoubleToString`); whereas `a+(-b)` and
`a*-b` tokenize to `a b ~ +` and `a b ~ *` and evaluate to the sum of `a` and the negated
`b` and to the product of `a` and the negated `b`, each result carried as the text of
`DoubleToString` (`7+(-2)` is 5 and `7*-2` is -14). -/
theorem adjacent_signs {D : Type} (L : Libm D) (x : D) (a b : List Char)
    (ha : NumericLiteral a) (hb : NumericLiteral b) (hlen : a.length + b.length + 4 ≤ 255)
    (hfa : ∀ va, L.stod a = some va → DoubleToString L (L.neg va) ≠ none)
    (hfb : ∀ vb, L.stod b = some vb → DoubleToString L (L.neg vb) ≠ none) :
    (∀ next, IsUnary (some (a.getLastD '\x00')) next = IsOperator next) ∧
    ToPostfix L (Model.holding L x (a ++ '+' :: '-' :: b)) =
      .done { Model.holding L x (a ++ '+' :: '-' :: b) with
        postfix_ := [⟨a, 0⟩, ⟨b, 0⟩, ⟨['~'], 4⟩] } ∧
    ToPostfix L (Model.holding L x (a ++ '-' :: '+' :: b)) =
      .done { Model.holding L x (a ++ '-' :: '+' :: b) with
        postfix_ := [⟨a, 0⟩, ⟨b, 0⟩, ⟨['~'], 4⟩] } ∧
    ToPostfix L (Model.holding L x (a ++ '-' :: '-' :: b)) =
      .done { Model.holding L x (a ++ '-' :: '-' :: b) with
        postfix_ := [⟨a, 0⟩, ⟨['~'], 4⟩, ⟨b, 0⟩, ⟨['~'], 4⟩] } ∧
    (∃ m2, ProcessMathExpression L (Model.fresh L) (a ++ '+' :: '-' :: b) x = .thrown m2) ∧
    (∃ m2, ProcessMathExpression L (Model.fresh L) (a ++ '-' :: '+' :: b) x = .thrown m2) ∧
    (∃ m2, ProcessMathExpression L (Model.fresh L) (a ++ '-' :: '-' :: b) x = .thrown m2) ∧
    ToPostfix L (Model.holding L x (a ++ '+' :: '(' :: '-' :: (b ++ [')']))) =
      .done { Model.holding L x (a ++ '+' :: '(' :: '-' :: (b ++ [')'])) with
        postfix_ := [⟨a, 0⟩, ⟨b, 0⟩, ⟨['~'], 4⟩, ⟨['+'], 1⟩] } ∧
    ToPostfix L (Model.holding L x (a ++ '*' :: '-' :: b)) =
      .done { Model.holding L x (a ++ '*' :: '-' :: b) with
        postfix_ := [⟨a, 0⟩, ⟨b, 0⟩, ⟨['~'], 4⟩, ⟨['*'], 2⟩] } ∧
    (∀ (va vb r1 : D) (s1 : List Char), L.stod a = some va → L.stod b = some vb →
      DoubleToString L (L.neg vb) = some s1 → L.stod s1 = some r1 →
      (∀ s2 r2, DoubleToString L (L.add va r1) = some s2 → L.stod s2 = some r2 →
        ProcessMathExpression L (Model.fresh L) (a ++ '+' :: '(' :: '-' :: (b ++ [')'])) x =
          .done { Model.holding L x (a ++ '+' :: '(' :: '-' :: (b ++ [')'])) with
            result_ := r2 }) ∧
      (∀ s2 r2, DoubleToString L (L.mul va r1) = some s2 → L.stod s2 = some r2 →
        ProcessMathExpression L (Model.fresh L) (a ++ '*' :: '-' :: b) x =
          .done { Model.holding L x (a ++ '*' :: '-' :: b) with result_ := r2 })) ∧
    returned (ProcessMathExpression exact (Model.fresh exact) "7+(-2)".toList (.fin 0)) =
      .done (.fin 5) ∧
    returned (ProcessMathExpression exact (Model.fresh exact) "7*-2".toList (.fin 0)) =
      .done (.fin (-14)) := by
  have hane := ha.ne_nil
  have hbne := hb.ne_nil
  have hempb : b.isEmpty = false := by cases b <;> simp at hbne ⊢
  have hu : ∀ next, IsUnary (some (a.getLastD '\x00')) next = IsOperator next := by
    intro next
    have h1 := literal_class _ (ha.1 _ (getLastD_mem hane '\x00'))
    have e : (a.getLastD '\x00' == '(') = false := beq_false_of_ne h1.2.2.1
    simp only [IsUnary, e, h1.2.2.2.2.1, Bool.false_or]
  have hcl : ∀ c ∈ b, c ≠ '(' ∧ c ≠ ')' := by
    intro c hc
    have := literal_class c (hb.1 c hc)
    exact ⟨this.2.2.1, this.2.2.2.1⟩
  have hnoe : ∀ c1 c2 : Char, c1 ≠ 'e' → c2 ≠ 'e' → 'e' ∉ a ++ c1 :: c2 :: b := by
    intro c1 c2 h1 h2 h
    simp only [List.mem_append, List.mem_cons] at h
    rcases h with h | h | h | h
    · exact ha.not_mem_e h
    · exact h1 h.symm
    · exact h2 h.symm
    · exact hb.not_mem_e h
  have hval : ∀ c1 c2 : Char, c1 ≠ '(' → c1 ≠ ')' → c2 ≠ '(' → c2 ≠ ')' →
      ValidateInput (a ++ c1 :: c2 :: b) = true := by
    intro c1 c2 h1 h2 h3 h4
    apply ValidateInput_literal_first a _ ha
    · rw [List.count_cons_of_ne (fun e => h1 e.symm), List.count_cons_of_ne (fun e => h3 e.symm),
        List.count_cons_of_ne (fun e => h2 e.symm), List.count_cons_of_ne (fun e => h4 e.symm),
        List.count_eq_zero_of_not_mem (fun h => (hcl _ h).1 rfl),
        List.count_eq_zero_of_not_mem (fun h => (hcl _ h).2 rfl)]
    · simp only [List.length_cons]
      omega
  have hval2 : ValidateInput (a ++ '+' :: '(' :: '-' :: (b ++ [')'])) = true := by
    apply ValidateInput_literal_first a _ ha
    · simp only [List.count_cons_self, List.count_cons_of_ne, List.count_append,
        List.count_nil, ne_eq, not_false_eq_true, show ¬ ('(' = '+') by decide,
        show ¬ (')' = '+') by decide, show ¬ ('(' = '-') by decide,
        show ¬ (')' = '-') by decide, show ¬ ('(' = ')') by decide,
        show ¬ (')' = '(') by decide,
        List.count_eq_zero_of_not_mem (fun h => (hcl _ h).1 rfl),
        List.count_eq_zero_of_not_mem (fun h => (hcl _ h).2 rfl)]
    · simp only [List.length_cons, List.length_append, List.length_nil]
      omega
  have hnoe2 : 'e' ∉ a ++ '+' :: '(' :: '-' :: (b ++ [')']) := by
    intro h
    simp only [List.mem_append, List.mem_cons, List.mem_singleton, List.not_mem_nil,
      or_false] at h
    rcases h with h | h | h | h | h | h
    · exact ha.not_mem_e h
    · cases h
    · cases h
    · cases h
    · exact hb.not_mem_e h
    · cases h
  have t1 : ToPostfix L (Model.holding L x (a ++ '+' :: '-' :: b)) =
      .done { Model.holding L x (a ++ '+' :: '-' :: b) with
        postfix_ := [⟨a, 0⟩, ⟨b, 0⟩, ⟨['~'], 4⟩] } := by
    rw [ToPostfix_of_loop L (Model.holding L x _) _
      (loop_sign_pair L x a b '+' '-' ha hb (Or.inl ⟨rfl, rfl⟩)) rfl (hb.dots true)]
    simp [Scan.flush, hempb, Model.holding, Model.fresh]
  have t2 : ToPostfix L (Model.holding L x (a ++ '-' :: '+' :: b)) =
      .done { Model.holding L x (a ++ '-' :: '+' :: b) with
        postfix_ := [⟨a, 0⟩, ⟨b, 0⟩, ⟨['~'], 4⟩] } := by
    rw [ToPostfix_of_loop L (Model.holding L x _) _
      (loop_sign_pair L x a b '-' '+' ha hb (Or.inr ⟨rfl, rfl⟩)) rfl (hb.dots true)]
    simp [Scan.flush, hempb, Model.holding, Model.fresh]
  have t3 : ToPostfix L (Model.holding L x (a ++ '-' :: '-' :: b)) =
      .done { Model.holding L x (a ++ '-' :: '-' :: b) with
        postfix_ := [⟨a, 0⟩, ⟨['~'], 4⟩, ⟨b, 0⟩, ⟨['~'], 4⟩] } := by
    rw [ToPostfix_of_loop L (Model.holding L x _) _
      (loop_double_minus L x a b ha hb) rfl (hb.dots true)]
    simp [Scan.flush, hempb, Model.holding, Model.fresh]
  have t4 : ToPostfix L (Model.holding L x (a ++ '+' :: '(' :: '-' :: (b ++ [')']))) =
      .done { Model.holding L x (a ++ '+' :: '(' :: '-' :: (b ++ [')'])) with
        postfix_ := [⟨a, 0⟩, ⟨b, 0⟩, ⟨['~'], 4⟩, ⟨['+'], 1⟩] } := by
    rw [ToPostfix_of_loop L (Model.holding L x _) _
      (loop_plus_negated L x a b ha hb) rfl (by simp)]
    simp [Scan.flush, Model.holding, Model.fresh]
  have t5 : ToPostfix L (Model.holding L x (a ++ '*' :: '-' :: b)) =
      .done { Model.holding L x (a ++ '*' :: '-' :: b) with
        postfix_ := [⟨a, 0⟩, ⟨b, 0⟩, ⟨['~'], 4⟩, ⟨['*'], 2⟩] } := by
    rw [ToPostfix_of_loop L (Model.holding L x _) _
      (loop_times_minus L x a b ha hb) rfl (hb.dots true)]
    simp [Scan.flush, hempb, Model.holding, Model.fresh]
  refine ⟨hu, t1, t2, t3, ?_, ?_, ?_, t4, t5, ?_, by decide!, by decide!⟩
  · rw [evaluate_of_tokens L x _ _ (hval '+' '-' (by decide) (by decide) (by decide)
      (by decide)) (hnoe '+' '-' (by decide) (by decide)) t1]
    exact Calculate_two_remain L _ a b hfb rfl rfl
  · rw [evaluate_of_tokens L x _ _ (hval '-' '+' (by decide) (by decide) (by decide)
      (by decide)) (hnoe '-' '+' (by decide) (by decide)) t2]
    exact Calculate_two_remain L _ a b hfb rfl rfl
  · rw [evaluate_of_tokens L x _ _ (hval '-' '-' (by decide) (by decide) (by decide)
      (by decide)) (hnoe '-' '-' (by decide) (by decide)) t3]
    exact Calculate_two_negated_remain L _ a b hfa hfb rfl rfl
  · intro va vb r1 s1 hva hvb hs1 hr1
    constructor
    · intro s2 r2 hs2 hr2
      rw [evaluate_of_tokens L x _ _ hval2 hnoe2 t4,
        Calculate_negated_right L _ a b '+' 1 va vb r1 r2 s1 s2 (by decide) (by decide) hva hvb
          hs1 hr1 hs2 hr2 rfl rfl]
      rfl
    · intro s2 r2 hs2 hr2
      rw [evaluate_of_tokens L x _ _ (hval '*' '-' (by decide) (by decide) (by decide)
        (by decide)) (hnoe '*' '-' (by decide) (by decide)) t5,
        Calculate_negated_right L _ a b '*' 2 va vb r1 r2 s1 s2 (by decide) (by decide) hva hvb
          hs1 hr1 hs2 hr2 rfl rfl]
      rfl

/-- C29 at `7+-2`, `7-+2` and `7--2`, which all throw. -/
theorem adjacent_signs_witness :
    (∃ m2, ProcessMathExpression exact (Model.fresh exact) "7+-2".toList (.fin 0) =
      .thrown m2) ∧
    (∃ m2, ProcessMathExpression exact (Model.fresh exact) "7-+2".toList (.fin 0) =
      .thrown m2) ∧
    (∃ m2, ProcessMathExpression exact (Model.fresh exact) "7--2".toList (.fin 0) =
      .thrown m2) :=
  have h := adjacent_signs exact (.fin 0) ['7'] ['2'] (by unfold NumericLiteral; decide)
    (by unfold NumericLiteral; decide) (by decide)
    (by
      intro va hva
      have e : exact.stod ['7'] = some (.fin 7) := by decide!
      rw [e] at hva
      cases hva
      decide!)
    (by
      intro vb hvb
      have e : exact.stod ['2'] = some (.fin 2) := by decide!
      rw [e] at hvb
      cases hvb
      decide!)
  ⟨h.2.2.2.2.1, h.2.2.2.2.2.1, h.2.2.2.2.2.2.1⟩

/-! ## The session after a successful evaluation (C27) -/

theorem CalculateStep_result {D : Type} (L : Libm D) (t : Token) (m : Model D) (r : D) :
    CalculateStep L t { m with result_ := r } =
      (CalculateStep L t m).map (fun m1 => { m1 with result_ := r }) := by
  unfold CalculateStep
  simp only [PushResult]
  repeat' split
  all_goals simp_all [Run.map]

theorem CalculateLoop_result {D : Type} (L : Libm D) (pf : List Token) :
    ∀ (m : Model D) (r : D),
      CalculateLoop L pf { m with result_ := r } =
        (CalculateLoop L pf m).map (fun m1 => { m1 with result_ := r }) := by
  induction pf with
  | nil => intro m r; rfl
  | cons t rest ih =>
    intro m r
    rw [CalculateLoop_cons, CalculateLoop_cons]
    have h := CalculateStep_result L t { m with postfix_ := t :: rest } r
    simp only at h
    rw [h]
    cases CalculateStep L t { m with postfix_ := t :: rest } with
    | done m1 =>
      simp only [Run.map, Run.andThen]
      exact ih { m1 with postfix_ := rest } r
    | thrown m1 => rfl
    | undefined => rfl
    | unfinished => rfl

/-- The function `Calculate` does not read `result_`: from a state that differs only in
`result_` it ends the same way, and when it returns it returns in the same state. -/
theorem Calculate_result {D : Type} (L : Libm D) (m : Model D) (r : D) :
    sameOutcome (Calculate L { m with result_ := r }) (Calculate L m) ∧
    ∀ m2, Calculate L m = .done m2 → Calculate L { m with result_ := r } = .done m2 := by
  unfold Calculate
  have h := CalculateLoop_result L m.postfix_ m r
  simp only at h ⊢
  rw [h]
  cases CalculateLoop L m.postfix_ m with
  | done m1 =>
    simp only [Run.map, Run.andThen]
    rcases hc : m1.calculation_ with _ | ⟨a, calc1⟩
    · exact ⟨trivial, fun m2 h2 => by cases h2⟩
    · cases hs : L.stod a.value with
      | none =>
        simp only [hs]
        exact ⟨trivial, fun m2 h2 => by cases h2⟩
      | some v =>
        cases hq : calc1.isEmpty with
        | true =>
          simp only [hs, hq, if_true]
          exact ⟨rfl, fun m2 h2 => h2⟩
        | false =>
          simp only [hs, hq, Bool.false_eq_true, if_false]
          exact ⟨trivial, fun m2 h2 => by cases h2⟩
  | thrown m1 => exact ⟨trivial, fun m2 h2 => by cases h2⟩
  | undefined => exact ⟨trivial, fun m2 h2 => by cases h2⟩
  | unfinished => exact ⟨trivial, fun m2 h2 => by cases h2⟩

theorem ToPostfix_result {D : Type} (L : Libm D) (m : Model D) (r : D) :
    ToPostfix L { m with result_ := r } =
      (ToPostfix L m).map (fun m1 => { m1 with result_ := r }) := by
  unfold ToPostfix
  simp only
  cases (ToPostfixLoop L m.x_ none m.expression_
    (Scan.mk [] [] m.dot_count_ m.postfix_ m.operators_)).andThen ToPostfixFinish <;> rfl

theorem ReplaceScientificNotation_result {D : Type} (m : Model D) (r : D) :
    ReplaceScientificNotation { m with result_ := r } =
      (ReplaceScientificNotation m).map (fun m1 => { m1 with result_ := r }) := by
  unfold ReplaceScientificNotation
  simp only
  cases ReplaceScientificNotationLoop (m.expression_.length + 1) m.expression_
    (find m.expression_ 'e' 0) <;> rfl

/-- The function `CalculateMathExpression` does not read `result_`. -/
theorem CalculateMathExpression_result {D : Type} (L : Libm D) (m : Model D) (r : D) :
    sameOutcome (CalculateMathExpression L { m with result_ := r })
      (CalculateMathExpression L m) ∧
    ∀ m2, CalculateMathExpression L m = .done m2 →
      CalculateMathExpression L { m with result_ := r } = .done m2 := by
  unfold CalculateMathExpression
  rw [ReplaceScientificNotation_result]
  cases ReplaceScientificNotation m with
  | done m1 =>
    simp only [Run.map, Run.andThen]
    rw [ToPostfix_result]
    cases ToPostfix L m1 with
    | done ma =>
      simp only [Run.map]
      exact Calculate_result L ma r
    | thrown ma => exact ⟨trivial, fun m2 h2 => by cases h2⟩
    | undefined => exact ⟨trivial, fun m2 h2 => by cases h2⟩
    | unfinished => exact ⟨trivial, fun m2 h2 => by cases h2⟩
  | thrown m1 => exact ⟨trivial, fun m2 h2 => by cases h2⟩
  | undefined => exact ⟨trivial, fun m2 h2 => by cases h2⟩
  | unfinished => exact ⟨trivial, fun m2 h2 => by cases h2⟩

theorem CalculateStep_keeps {D : Type} {L : Libm D} {t : Token} {m m1 : Model D}
    (h : CalculateStep L t m = .done m1) :
    m1 = { m with calculation_ := m1.calculation_ } := by
  unfold CalculateStep PushResult at h
  simp only at h
  repeat' split at h
  all_goals first
    | (simp only [Run.done.injEq] at h; subst h; rfl)
    | cases h

theorem CalculateLoop_keeps {D : Type} {L : Libm D} (pf : List Token) :
    ∀ {m mc : Model D}, CalculateLoop L pf m = .done mc →
      mc = { m with postfix_ := [], calculation_ := mc.calculation_ } := by
  induction pf with
  | nil =>
    intro m mc h
    simp only [CalculateLoop, Run.done.injEq] at h
    rw [← h]
  | cons t rest ih =>
    intro m mc h
    rw [CalculateLoop_cons] at h
    obtain ⟨m1, h1, h2⟩ := Run.andThen_eq_done h
    have k1 := CalculateStep_keeps h1
    have k2 := ih h2
    rw [k2, k1]

theorem Calculate_keeps {D : Type} {L : Libm D} {m m2 : Model D}
    (h : Calculate L m = .done m2) :
    m2 = { m with postfix_ := [], calculation_ := [], result_ := m2.result_ } := by
  unfold Calculate at h
  obtain ⟨mc, hloop, hend⟩ := Run.andThen_eq_done h
  have k := CalculateLoop_keeps m.postfix_ hloop
  rcases hcalc : mc.calculation_ with _ | ⟨a, calc1⟩
  · rw [hcalc] at hend
    cases hend
  · rw [hcalc] at hend
    simp only at hend
    cases hv : L.stod a.value with
    | none => rw [hv] at hend; cases hend
    | some v =>
      rw [hv] at hend
      simp only at hend
      cases he : calc1.isEmpty with
      | false => rw [he] at hend; cases hend
      | true =>
        rw [he] at hend
        simp only [if_true, Run.done.injEq] at hend
        have hnil : calc1 = [] := by simpa using he
        rw [← hend, hnil, k]

theorem flush_dot_zero (st : Scan) (h : st.number = [] → st.dot_count_ = 0) :
    st.flush.dot_count_ = 0 := by
  unfold Scan.flush
  split
  · rename_i he
    exact h (by simpa using he)
  · rfl

/-- Whenever the number accumulator is empty, the dot counter is 0: the loop of `ToPostfix`
keeps this. -/
theorem loop_dot_count {D : Type} (L : Libm D) (x_ : D) (rest : List Char) :
    ∀ (prev : Option Char) (st s : Scan), ToPostfixLoop L x_ prev rest st = .done s →
      (st.number = [] → st.dot_count_ = 0) → (s.number = [] → s.dot_count_ = 0) := by
  induction rest with
  | nil =>
    intro prev st s h hj
    simp only [ToPostfixLoop, Run.done.injEq] at h
    subst h
    exact hj
  | cons c rest ih =>
    intro prev st s h hj
    rw [ToPostfixLoop_cons] at h
    obtain ⟨s1, h1, h2⟩ := Run.andThen_eq_done h
    have hd := ToPostfixStep_done h1
    apply ih (some c) s1 s h2
    intro hn
    by_cases hl : (c.isDigit || c == '.' || c == 'e') = true
    · have := (hd.1 hl).1
      rw [this] at hn
      cases hq : st.number with
      | nil => rw [hq] at hn; cases hn
      | cons a t => rw [hq] at hn; cases hn
    · have hl2 : (c.isDigit || c == '.' || c == 'e') = false := by simpa using hl
      rw [(hd.2.1 hl2).2.1]
      exact flush_dot_zero st hj

theorem ToPostfixFinish_dot_count {s s2 : Scan} (h : ToPostfixFinish s = .done s2)
    (hj : s.number = [] → s.dot_count_ = 0) : s2.dot_count_ = 0 := by
  rw [ToPostfixFinish_eq_front exact (.fin 0)] at h
  obtain ⟨s3, h3, h4⟩ := Run.andThen_eq_done h
  obtain ⟨sb, hb, hc⟩ := Run.andThen_eq_done h3
  obtain ⟨sa, ha, hb2⟩ := Run.andThen_eq_done hb
  have n1 := NumberBranch_done ha
  have v1 := VariableBranch_done hb2
  have f1 := FunctionBranch_done hc
  simp only [Run.done.injEq] at h4
  rw [← h4]
  show s3.dot_count_ = 0
  rw [f1.2.1, v1.2.2.1, (n1.2.2.2 (by decide)).2.1]
  exact flush_dot_zero s hj

/-- When `ToPostfix` returns from a state with dot counter 0, the dot counter is 0 again
and the operator stack is empty; the other members it does not change. -/
theorem ToPostfix_leaves {D : Type} {L : Libm D} {m m2 : Model D}
    (h : ToPostfix L m = .done m2) (hd : m.dot_count_ = 0) :
    m2 = { m with dot_count_ := 0, operators_ := [], postfix_ := m2.postfix_ } := by
  unfold ToPostfix at h
  cases hr : (ToPostfixLoop L m.x_ none m.expression_
      (Scan.mk [] [] m.dot_count_ m.postfix_ m.operators_)).andThen ToPostfixFinish with
  | done s2 =>
    rw [hr] at h
    simp only [Run.map, Run.done.injEq] at h
    obtain ⟨s, hs, hfin⟩ := Run.andThen_eq_done hr
    have hj := loop_dot_count L m.x_ m.expression_ none _ s hs (fun _ => hd)
    have hdot := ToPostfixFinish_dot_count hfin hj
    have hops := (ToPostfixFinish_operators hfin).1
    rw [← h]
    simp only [Scan.toModel, hdot, hops]
  | thrown s2 => rw [hr] at h; cases h
  | undefined => rw [hr] at h; cases h
  | unfinished => rw [hr] at h; cases h

/-- A clean object differs from a freshly constructed one in `expression_`, `x_` and
`result_` only. -/
theorem Model.Clean.fields {D : Type} {m : Model D} (h : m.Clean) :
    m = { expression_ := m.expression_, x_ := m.x_, dot_count_ := 0, postfix_ := [],
          operators_ := [], calculation_ := [], result_ := m.result_ } := by
  obtain ⟨h1, h2, h3, h4⟩ := h
  cases m
  simp only at h1 h2 h3 h4
  subst h1 h2 h3 h4
  rfl

/-- C27: when `CalculateMathExpression` returns normally from a state whose operator stack,
RPN output and operand stack are empty and whose dot counter is 0, the three stacks are
empty again and the dot counter is 0; a second call (without a new `SetInput`) returns
normally in the same state, so with the same value; and any later evaluation through
`SetInput`, `SetX`, `CalculateMathExpression` ends as it does on a freshly constructed
`Model`: it returns the same value, or throws, or has undefined behaviour, in both. -/
theorem successful_evaluation_leaves_clean {D : Type} (L : Libm D) (m m2 : Model D)
    (hc : m.Clean) (h : CalculateMathExpression L m = .done m2) :
    m2.Clean ∧ CalculateMathExpression L m2 = .done m2 ∧
    ∀ e x, sameOutcome (ProcessMathExpression L m2 e x)
      (ProcessMathExpression L (Model.fresh L) e x) := by
  unfold CalculateMathExpression at h
  obtain ⟨ma, h12, hcalc⟩ := Run.andThen_eq_done h
  obtain ⟨m1, hnorm, hp⟩ := Run.andThen_eq_done h12
  have hm1 := ReplaceScientificNotation_done _ _ hnorm
  obtain ⟨c1, c2, c3, c4⟩ := hc
  have hd1 : m1.dot_count_ = 0 := by rw [hm1]; exact c4
  have kA := ToPostfix_leaves hp hd1
  have kC := Calculate_keeps hcalc
  have hclean : m2.Clean := by
    refine ⟨?_, ?_, ?_, ?_⟩
    · rw [kC]
      show ma.operators_ = []
      rw [kA]
    · rw [kC]
    · rw [kC]
    · rw [kC]
      show ma.dot_count_ = 0
      rw [kA]
  have hm2 : m2 = { m1 with result_ := m2.result_ } := by
    have e1 := hclean.fields
    have hx : m2.x_ = m1.x_ := by
      rw [kC]
      show ma.x_ = m1.x_
      rw [kA]
    have he : m2.expression_ = m1.expression_ := by
      rw [kC]
      show ma.expression_ = m1.expression_
      rw [kA]
    have hc1 : Model.Clean m1 := by
      rw [hm1]
      exact ⟨c1, c2, c3, c4⟩
    have e2 := hc1.fields
    rw [e1, hx, he]
    conv => rhs; rw [e2]
  refine ⟨hclean, ?_, ?_⟩
  · have hnoe : 'e' ∉ m2.expression_ := by
      rw [hm2, hm1]
      exact not_mem_expandE _
    unfold CalculateMathExpression
    rw [ReplaceScientificNotation_no_e _ hnoe, Run.done_andThen]
    have ht : ToPostfix L m2 = .done { ma with result_ := m2.result_ } := by
      conv => lhs; rw [hm2]
      rw [ToPostfix_result, hp]
      rfl
    rw [ht, Run.done_andThen]
    exact (Calculate_result L ma m2.result_).2 m2 hcalc
  · intro e x
    unfold ProcessMathExpression SetInput
    cases hv : ValidateInput e with
    | false => exact trivial
    | true =>
      simp only [if_true, Run.andThen, SetX]
      have e3 : ({ m2 with expression_ := e, x_ := x } : Model D) =
          { Model.holding L x e with result_ := m2.result_ } := by
        have e1 := hclean.fields
        rw [e1]
        rfl
      have e4 : ({ Model.fresh L with expression_ := e, x_ := x } : Model D) =
          Model.holding L x e := rfl
      have e5 : ({ ({ m2 with expression_ := e } : Model D) with x_ := x } : Model D) =
          { m2 with expression_ := e, x_ := x } := rfl
      have e6 : ({ ({ Model.fresh L with expression_ := e } : Model D) with x_ := x }
          : Model D) = { Model.fresh L with expression_ := e, x_ := x } := rfl
      rw [e5, e6, e3, e4]
      exact (CalculateMathExpression_result L (Model.holding L x e) m2.result_).1

/-- C27 at `1+2`: the evaluation returns 3 and leaves a clean object, a second call returns
the same state, and a later `2*3` ends as on a fresh object. -/
theorem successful_evaluation_leaves_clean_witness :
    (holding "1+2").Clean ∧
    CalculateMathExpression exact (holding "1+2") =
      .done { holding "1+2" with result_ := .fin 3 } ∧
    ({ holding "1+2" with result_ := .fin 3 } : Model Dbl).Clean ∧
    CalculateMathExpression exact { holding "1+2" with result_ := .fin 3 } =
      .done { holding "1+2" with result_ := .fin 3 } ∧
    sameOutcome
      (ProcessMathExpression exact { holding "1+2" with result_ := .fin 3 } "2*3".toList
        (.fin 0))
      (ProcessMathExpression exact (Model.fresh exact) "2*3".toList (.fin 0)) :=
  have h := successful_evaluation_leaves_clean exact (holding "1+2")
    { holding "1+2" with result_ := .fin 3 } ⟨rfl, rfl, rfl, rfl⟩ (by with_unfolding_all rfl)
  ⟨⟨rfl, rfl, rfl, rfl⟩, by with_unfolding_all rfl, h.1, h.2.1, h.2.2 _ _⟩

/-! ## The credit schedules -/

theorem int32_of_fits (z : Int) (h1 : -(2 : Int) ^ 31 ≤ z) (h2 : z < 2 ^ 31) : int32 z = z := by
  unfold int32
  rw [Int.emod_eq_of_lt (by omega) (by omega)]
  omega

/-- The loop of `CalculateDifferentialCredit` on finite values, in closed form. -/
theorem DifferentialLoop_fin (r t : ℚ) (month : Int) (left : Nat) :
    ∀ (i : Int) (A p pc tot : ℚ),
      DifferentialLoop (.fin r) (.fin t) month left i
        { amount := .fin A, pay := .fin p, perc := .fin pc, total := .fin tot } =
      { amount := .fin (A - left * t)
        pay := .fin (if i + 1 ≤ month ∧ month ≤ i + left
          then (A - ((month - 1 - i : Int) : ℚ) * t) * r + t else p)
        perc := .fin (pc + left * A * r - t * r * (left * (left - 1) / 2))
        total := .fin (tot + left * t + left * A * r - t * r * (left * (left - 1) / 2)) } := by
  induction left with
  | zero =>
    intro i A p pc tot
    have hc : ¬ (i + 1 ≤ month ∧ month ≤ i + ((0 : Nat) : Int)) := by omega
    simp only [DifferentialLoop, if_neg hc]
    congr 2 <;> simp
  | succ n ih =>
    intro i A p pc tot
    simp only [DifferentialLoop, Dbl.mul, Dbl.add, Dbl.sub, Dbl.neg]
    have hpay : (if month = i + 1 then Dbl.fin (A * r + t) else Dbl.fin p) =
        Dbl.fin (if month = i + 1 then A * r + t else p) := by
      split_ifs <;> rfl
    rw [hpay, ih]
    congr 2
    · push_cast
      ring
    · by_cases h1 : month = i + 1
      · have hc1 : ¬ (i + 1 + 1 ≤ month ∧ month ≤ i + 1 + (n : Int)) := by omega
        have hc2 : i + 1 ≤ month ∧ month ≤ i + ((n + 1 : Nat) : Int) := by
          push_cast
          omega
        rw [if_neg hc1, if_pos hc2, if_pos h1]
        have e : ((month - 1 - i : Int) : ℚ) = 0 := by
          have : month - 1 - i = 0 := by omega
          rw [this]
          rfl
        rw [e]
        ring
      · by_cases h2 : i + 1 + 1 ≤ month ∧ month ≤ i + 1 + (n : Int)
        · have hc2 : i + 1 ≤ month ∧ month ≤ i + ((n + 1 : Nat) : Int) := by
            push_cast
            omega
          rw [if_pos h2, if_pos hc2]
          push_cast
          ring
        · have hc2 : ¬ (i + 1 ≤ month ∧ month ≤ i + ((n + 1 : Nat) : Int)) := by
            push_cast
            omega
          rw [if_neg h2, if_neg hc2, if_neg h1]
    · push_cast
      ring
    · push_cast
      ring

/-- C22: in exact arithmetic, for `n = term * k ≥ 1` (the `int` product, which is the
mathematical product when that fits 32 bits), monthly rate `r = rate / 1200` and
`1 ≤ month ≤ n`, `CalculateResult(k, amount, term, rate, month, 'd')` returns the payment
`amount / n + (amount - (month - 1) * amount / n) * r`, the interest
`amount * r * (n + 1) / 2` and the total `amount + interest`. -/
theorem differential_credit_schedule (k term month : Int) (amount rate : ℚ)
    (hn : 1 ≤ int32 (term * k)) (hm1 : 1 ≤ month) (hm2 : month ≤ int32 (term * k)) :
    CalculateResult k (.fin amount) term (.fin rate) month 'd' =
      (.fin (amount / (int32 (term * k) : ℚ) +
          (amount - ((month : ℚ) - 1) * amount / (int32 (term * k) : ℚ)) * (rate / 1200)),
       .fin (amount * (rate / 1200) * ((int32 (term * k) : ℚ) + 1) / 2),
       .fin (amount + amount * (rate / 1200) * ((int32 (term * k) : ℚ) + 1) / 2)) ∧
    (-(2 : Int) ^ 31 ≤ term * k → term * k < 2 ^ 31 → int32 (term * k) = term * k) := by
  refine ⟨?_, int32_of_fits _⟩
  obtain ⟨N, hNe⟩ : ∃ N : Nat, int32 (term * k) = (N : Int) :=
    ⟨(int32 (term * k)).toNat, (Int.toNat_of_nonneg (by omega)).symm⟩
  rw [hNe] at hn hm2
  have hN : (N : ℚ) ≠ 0 := by
    have : 1 ≤ N := by omega
    positivity
  have h12 : (12 : ℚ) ≠ 0 := by norm_num
  have h100 : (100 : ℚ) ≠ 0 := by norm_num
  have hcond : (0 : Int) + 1 ≤ month ∧ month ≤ 0 + (N : Int) := by omega
  have hr : Dbl.div (Dbl.div (.fin rate) (.fin 12)) (.fin 100) = .fin (rate / 12 / 100) := by
    simp only [Dbl.div, if_neg h12, if_neg h100]
  have ht : Dbl.div (.fin amount) (Dbl.ofInt (N : Int)) = .fin (amount / N) := by
    simp only [Dbl.div, Dbl.ofInt, Int.cast_natCast, if_neg hN]
  have hd : ¬ ('d' = 'a') := by decide
  simp only [CalculateResult, if_neg hd, CalculateDifferentialCredit, hNe, hr, ht,
    Int.toNat_ofNat, DifferentialLoop_fin, if_pos hcond, Int.cast_natCast]
  refine Prod.ext ?_ (Prod.ext ?_ ?_)
  · simp only
    congr 1
    push_cast
    field_simp
    ring
  · simp only
    congr 1
    field_simp
    ring
  · simp only
    congr 1
    field_simp
    ring

/-- C22 at the loan of the tests: 300000 over 5 × 12 months at 16 % gives 9000, 122000 and
422000 in the first month. -/
theorem differential_credit_schedule_witness :
    CalculateResult 12 (.fin 300000) 5 (.fin 16) 1 'd' =
      (.fin 9000, .fin 122000, .fin 422000) := by
  have h := (differential_credit_schedule 12 5 1 300000 16 (by decide) (by decide)
    (by decide)).1
  rw [h]
  have e : int32 (5 * 12) = 60 := by decide
  rw [e]
  norm_num

/-- The balance of the recurrence in closed form, multiplied by the rate. -/
theorem specBalance_closed (a r P : ℚ) (i : Nat) :
    specBalance a r P i * r = a * (1 + r) ^ i * r - P * ((1 + r) ^ i - 1) := by
  induction i with
  | zero => simp [specBalance]
  | succ i ih =>
    have e : specBalance a r P (i + 1) * r = specBalance a r P i * r * (1 + r) - P * r := by
      simp only [specBalance]
      ring
    rw [e, ih]
    ring

/-- The power `pow(1 + r, time)` of `CalculateAnnuityCredit` for a time that is not negative. -/
theorem pow_one_add_rate (r : ℚ) (N : Nat) :
    Dbl.pow (Dbl.add (.fin 1) (.fin r)) (Dbl.ofInt (N : Int)) = .fin ((1 + r) ^ N) := by
  have hden : (((N : Int) : ℚ)).den = 1 := Rat.den_intCast _
  have hnum : (((N : Int) : ℚ)).num = (N : Int) := Rat.num_intCast _
  have hneg : ¬ ((1 + r = 0) ∧ ((N : Int) : ℚ) < 0) := by
    intro h
    have : (0 : ℚ) ≤ ((N : Int) : ℚ) := by positivity
    exact absurd h.2 (not_lt.2 this)
  simp only [Dbl.add, Dbl.ofInt, Dbl.pow, hden, if_true, if_neg hneg, hnum, zpow_natCast]

/-- C23: in exact arithmetic, for `n = term * k ≥ 1` (the `int` product, which is the
mathematical product when that fits 32 bits) and monthly rate `r = rate / 1200 > 0`,
`CalculateResult(k, amount, term, rate, month, 'a')` returns the payment
`P = amount * r * (1 + r) ^ n / ((1 + r) ^ n - 1)`, the interest `P * n - amount` and the
total `P * n`, which is `amount + interest`, whatever `month` is; and `P` is the one payment
for which the recurrence `B(0) = amount`, `B(i + 1) = B(i) * (1 + r) - P` has `B(n) = 0`. -/
theorem annuity_credit_amortises (k term month : Int) (amount rate : ℚ)
    (hn : 1 ≤ int32 (term * k)) (hr : 0 < rate / 1200) :
    CalculateResult k (.fin amount) term (.fin rate) month 'a' =
      (.fin (specAnnuityPayment amount (rate / 1200) (int32 (term * k)).toNat),
       .fin (specAnnuityPayment amount (rate / 1200) (int32 (term * k)).toNat *
          (int32 (term * k) : ℚ) - amount),
       .fin (specAnnuityPayment amount (rate / 1200) (int32 (term * k)).toNat *
          (int32 (term * k) : ℚ))) ∧
    specAnnuityPayment amount (rate / 1200) (int32 (term * k)).toNat * (int32 (term * k) : ℚ) =
      amount + (specAnnuityPayment amount (rate / 1200) (int32 (term * k)).toNat *
          (int32 (term * k) : ℚ) - amount) ∧
    (∀ month2, CalculateResult k (.fin amount) term (.fin rate) month2 'a' =
      CalculateResult k (.fin amount) term (.fin rate) month 'a') ∧
    (∀ P, specBalance amount (rate / 1200) P (int32 (term * k)).toNat = 0 ↔
      P = specAnnuityPayment amount (rate / 1200) (int32 (term * k)).toNat) ∧
    (-(2 : Int) ^ 31 ≤ term * k → term * k < 2 ^ 31 → int32 (term * k) = term * k) := by
  obtain ⟨N, hNe⟩ : ∃ N : Nat, int32 (term * k) = (N : Int) :=
    ⟨(int32 (term * k)).toNat, (Int.toNat_of_nonneg (by omega)).symm⟩
  rw [hNe] at hn
  have hN : N ≠ 0 := by omega
  have h12 : (12 : ℚ) ≠ 0 := by norm_num
  have h100 : (100 : ℚ) ≠ 0 := by norm_num
  have hq : (1 : ℚ) < (1 + rate / 1200) ^ N := one_lt_pow₀ (by linarith) hN
  have hden : (1 + rate / 1200) ^ N - 1 ≠ 0 := by
    have : 0 < (1 + rate / 1200) ^ N - 1 := by linarith
    exact ne_of_gt this
  have hrate : Dbl.div (Dbl.div (.fin rate) (.fin 12)) (.fin 100) = .fin (rate / 1200) := by
    simp only [Dbl.div, if_neg h12, if_neg h100]
    congr 1
    ring
  refine ⟨?_, by ring, fun _ => rfl, ?_, int32_of_fits _⟩
  · simp only [CalculateResult, if_true, CalculateAnnuityCredit, hNe]
    rw [hrate, pow_one_add_rate]
    simp only [Dbl.mul, Dbl.sub, Dbl.neg, Dbl.add, Dbl.div, Dbl.ofInt, Int.toNat_ofNat,
      Int.cast_natCast, specAnnuityPayment]
    have hden2 : (1 + rate / 1200) ^ N + -1 ≠ 0 := by
      rw [← sub_eq_add_neg]
      exact hden
    rw [if_neg hden2]
    refine Prod.ext ?_ (Prod.ext ?_ ?_)
    · simp only
      congr 1
      rw [← sub_eq_add_neg]
      ring
    · simp only
      congr 1
      rw [← sub_eq_add_neg, ← sub_eq_add_neg]
      ring
    · simp only
      congr 1
      rw [← sub_eq_add_neg]
      ring
  · intro P
    rw [hNe, Int.toNat_ofNat]
    have hr0 : rate / 1200 ≠ 0 := ne_of_gt hr
    have hcl := specBalance_closed amount (rate / 1200) P N
    unfold specAnnuityPayment
    rw [eq_div_iff hden]
    constructor
    · intro h0
      rw [h0, zero_mul] at hcl
      linarith
    · intro hP
      have : specBalance amount (rate / 1200) P N * (rate / 1200) = 0 := by
        rw [hcl, hP]
        ring
      rcases mul_eq_zero.1 this with h | h
      · exact h
      · exact absurd h hr0

/-- The annuity payment of the loan of the tests lies between 7295.417 and 7295.418. -/
theorem specAnnuityPayment_test :
    (7295417 : ℚ) / 1000 < specAnnuityPayment 300000 (16 / 1200) 60 ∧
    specAnnuityPayment 300000 (16 / 1200) 60 < 7295418 / 1000 := by
  unfold specAnnuityPayment
  norm_num

/-- C23 at the loan of the tests: 300000 over 5 × 12 months at 16 % gives a payment, an
interest and a total whose integer parts are 7295, 137725 and 437725. -/
theorem annuity_credit_amortises_witness :
    ∃ pay perc total : ℚ,
      CalculateResult 12 (.fin 300000) 5 (.fin 16) 1 'a' = (.fin pay, .fin perc, .fin total) ∧
      Int.floor pay = 7295 ∧ Int.floor perc = 137725 ∧ Int.floor total = 437725 := by
  have h := (annuity_credit_amortises 12 5 1 300000 16 (by decide) (by norm_num)).1
  have e : int32 (5 * 12) = 60 := by decide
  rw [e] at h
  have e2 : (60 : Int).toNat = 60 := rfl
  rw [e2] at h
  obtain ⟨h1, h2⟩ := specAnnuityPayment_test
  refine ⟨_, _, _, h, ?_, ?_, ?_⟩
  · rw [Int.floor_eq_iff]
    constructor
    · push_cast
      linarith
    · push_cast
      linarith
  · rw [Int.floor_eq_iff]
    constructor
    · push_cast
      linarith
    · push_cast
      linarith
  · rw [Int.floor_eq_iff]
    constructor
    · push_cast
      linarith
    · push_cast
      linarith

/-! ## Values are carried as text -/

/-- The push of a result leaves the text of `DoubleToString` on top of the operand stack. -/
theorem PushResult_done {D : Type} {L : Libm D} {m m2 : Model D} {v : D}
    (h : PushResult L m v = .done m2) :
    ∃ s, DoubleToString L v = some s ∧ m2.calculation_ = ⟨s, 0⟩ :: m.calculation_ := by
  unfold PushResult at h
  cases hd : DoubleToString L v with
  | none =>
    rw [hd] at h
    cases h
  | some s =>
    rw [hd] at h
    simp only [Run.done.injEq] at h
    subst h
    exact ⟨s, rfl, rfl⟩

/-- A step of the evaluator at a token that is not a number takes its operands from the
operand stack as `stod` reads them and pushes the text of the value it computes. -/
theorem CalculateStep_operation {D : Type} {L : Libm D} {t : Token} {m m2 : Model D}
    (ht : t.priority ≠ 0) (h : CalculateStep L t m = .done m2) :
    ∃ v s rest, DoubleToString L v = some s ∧ m2.calculation_ = ⟨s, 0⟩ :: rest ∧
      ((IsOperator (t.value.headD '\x00') = true ∧ ∃ a b num num2,
          m.calculation_ = a :: b :: rest ∧ L.stod a.value = some num ∧
          L.stod b.value = some num2 ∧
          v = ArithmeticResult L num2 num (t.value.headD '\x00')) ∨
       (IsOperator (t.value.headD '\x00') = false ∧ ∃ a num,
          m.calculation_ = a :: rest ∧ L.stod a.value = some num ∧
          v = TrigonometryResult L num t.value)) := by
  have hp : (t.priority == 0) = false := by simpa using ht
  unfold CalculateStep at h
  simp only [hp, Bool.false_eq_true, if_false] at h
  cases hop : IsOperator (t.value.headD '\x00') with
  | true =>
    rw [hop] at h
    simp only [if_true] at h
    cases hc : m.calculation_ with
    | nil =>
      rw [hc] at h
      cases h
    | cons a calc1 =>
      rw [hc] at h
      simp only at h
      cases ha : L.stod a.value with
      | none =>
        rw [ha] at h
        cases h
      | some num =>
        rw [ha] at h
        simp only at h
        cases calc1 with
        | nil => cases h
        | cons b calc2 =>
          simp only at h
          cases hb : L.stod b.value with
          | none =>
            rw [hb] at h
            cases h
          | some num2 =>
            rw [hb] at h
            simp only at h
            obtain ⟨s, hs, hcalc⟩ := PushResult_done h
            exact ⟨_, s, calc2, hs, hcalc, Or.inl ⟨rfl, a, b, num, num2, rfl, ha, hb, rfl⟩⟩
  | false =>
    rw [hop] at h
    simp only [Bool.false_eq_true, if_false] at h
    cases hc : m.calculation_ with
    | nil =>
      rw [hc] at h
      cases h
    | cons a calc1 =>
      rw [hc] at h
      simp only at h
      cases ha : L.stod a.value with
      | none =>
        rw [ha] at h
        cases h
      | some num =>
        rw [ha] at h
        simp only at h
        obtain ⟨s, hs, hcalc⟩ := PushResult_done h
        exact ⟨_, s, calc1, hs, hcalc, Or.inr ⟨rfl, a, num, rfl, ha, rfl⟩⟩

/-- A step of the evaluator at a number token pushes that token. -/
theorem CalculateStep_number {D : Type} {L : Libm D} {t : Token} {m m2 : Model D}
    (ht : t.priority = 0) (h : CalculateStep L t m = .done m2) :
    m2.calculation_ = t :: m.calculation_ := by
  have hp : (t.priority == 0) = true := by simpa using ht
  unfold CalculateStep at h
  simp only [hp, if_true, Run.done.injEq] at h
  subst h
  rfl

theorem CarriedText_push {D : Type} (L : Libm D) (v : D) (s : List Char) (rest : List Token)
    (h : DoubleToString L v = some s) : CarriedText L (⟨s, 0⟩ :: rest) := by
  cases rest with
  | nil => exact ⟨v, h⟩
  | cons _ _ => exact trivial

theorem CarriedText_under {D : Type} (L : Libm D) (t : Token) (stack : List Token)
    (h : CarriedText L stack) : CarriedText L (t :: stack) := by
  cases stack with
  | nil => exact h.elim
  | cons _ _ => exact trivial

/-- Once the evaluator has met a token that is not a number, a lone token on the operand stack
is a text of `DoubleToString`. -/
theorem CalculateLoop_carried {D : Type} (L : Libm D) (pf : List Token) :
    ∀ m m2 : Model D, CalculateLoop L pf m = .done m2 →
      ((∃ t ∈ pf, t.priority ≠ 0) ∨ CarriedText L m.calculation_) →
      CarriedText L m2.calculation_ := by
  induction pf with
  | nil =>
    intro m m2 h hq
    simp only [CalculateLoop, Run.done.injEq] at h
    subst h
    rcases hq with ⟨t, ht, _⟩ | hq
    · cases ht
    · exact hq
  | cons t pf ih =>
    intro m m2 h hq
    simp only [CalculateLoop] at h
    obtain ⟨m1, hstep, hloop⟩ := Run.andThen_eq_done h
    refine ih _ m2 hloop ?_
    by_cases hn : t.priority = 0
    · have hpush := CalculateStep_number hn hstep
      rcases hq with ⟨u, hu, hupr⟩ | hq
      · rcases List.mem_cons.1 hu with rfl | hu
        · exact absurd hn hupr
        · exact Or.inl ⟨u, hu, hupr⟩
      · right
        show CarriedText L m1.calculation_
        rw [hpush]
        exact CarriedText_under L t _ hq
    · obtain ⟨v, s, rest, hs, hcalc, _⟩ := CalculateStep_operation hn hstep
      right
      show CarriedText L m1.calculation_
      rw [hcalc]
      exact CarriedText_push L v s rest hs

/-- The result of an evaluation whose RPN holds a token that is not a number is what `stod`
reads from a text of `DoubleToString`. -/
theorem Calculate_carried {D : Type} (L : Libm D) (m m2 : Model D)
    (hop : ∃ t ∈ m.postfix_, t.priority ≠ 0) (h : Calculate L m = .done m2) :
    ∃ v s, DoubleToString L v = some s ∧ L.stod s = some m2.result_ := by
  unfold Calculate at h
  obtain ⟨m1, hloop, hfin⟩ := Run.andThen_eq_done h
  have hq := CalculateLoop_carried L m.postfix_ m m1 hloop (Or.inl hop)
  cases hc : m1.calculation_ with
  | nil =>
    rw [hc] at hq
    exact hq.elim
  | cons a calc1 =>
    rw [hc] at hfin hq
    simp only at hfin
    cases ha : L.stod a.value with
    | none =>
      rw [ha] at hfin
      cases hfin
    | some r =>
      rw [ha] at hfin
      simp only at hfin
      cases calc1 with
      | nil =>
        simp only [List.isEmpty_nil, if_true, Run.done.injEq] at hfin
        subst hfin
        obtain ⟨v, hv⟩ := hq
        exact ⟨v, a.value, hv, ha⟩
      | cons b calc2 =>
        simp only [List.isEmpty_cons, Bool.false_eq_true, if_false] at hfin
        cases hfin

theorem digitChar_isDigit : ∀ k, k < 10 → (Nat.digitChar k).isDigit = true ∧
    (Nat.digitChar k).toNat - 48 = k := by
  decide

theorem digitsValue_append (xs ys : List Char) :
    Dbl.digitsValue (xs ++ ys) =
      Dbl.digitsValue xs * 10 ^ ys.length + Dbl.digitsValue ys := by
  unfold Dbl.digitsValue
  have key : ∀ (ys : List Char) (n : Nat),
      ys.foldl (fun n c => 10 * n + (c.toNat - 48)) n =
        n * 10 ^ ys.length + ys.foldl (fun n c => 10 * n + (c.toNat - 48)) 0 := by
    intro ys
    induction ys with
    | nil => intro n; simp
    | cons c ys ih =>
      intro n
      simp only [List.foldl_cons, List.length_cons]
      rw [ih (10 * n + (c.toNat - 48)), ih (10 * 0 + (c.toNat - 48))]
      ring
  rw [List.foldl_append, key]

theorem digitsValue_lt (xs : List Char) (h : ∀ c ∈ xs, c.isDigit = true) :
    Dbl.digitsValue xs < 10 ^ xs.length := by
  induction xs using List.reverseRecOn with
  | nil => simp [Dbl.digitsValue]
  | append_singleton xs c ih =>
    rw [digitsValue_append, List.length_append]
    have h1 := ih (fun d hd => h d (List.mem_append_left _ hd))
    have hc : c.isDigit = true := h c (List.mem_append_right _ (List.mem_singleton_self c))
    have hv : Dbl.digitsValue [c] ≤ 9 := by
      simp only [Char.isDigit, Bool.and_eq_true, decide_eq_true_eq] at hc
      have h2 : c.val.toNat ≤ 57 := hc.2
      simp only [Dbl.digitsValue, List.foldl_cons, List.foldl_nil, Char.toNat]
      omega
    simp only [List.length_singleton, pow_one, pow_succ]
    omega

/-- The decimal digits `toDigitsCore` puts in front of its accumulator. -/
theorem toDigitsCore_spec (fuel : Nat) : ∀ (n : Nat) (ds : List Char), n < fuel →
    ∃ pre, Nat.toDigitsCore 10 fuel n ds = pre ++ ds ∧ pre ≠ [] ∧
      (∀ c ∈ pre, c.isDigit = true) ∧ Dbl.digitsValue pre = n ∧
      10 ^ pre.length ≤ 10 * max n 1 := by
  induction fuel with
  | zero => intro n ds h; omega
  | succ fuel ih =>
    intro n ds h
    have hd := digitChar_isDigit (n % 10) (Nat.mod_lt _ (by decide))
    unfold Nat.toDigitsCore
    simp only
    by_cases h0 : n / 10 = 0
    · rw [if_pos h0]
      refine ⟨[Nat.digitChar (n % 10)], rfl, by simp, ?_, ?_, ?_⟩
      · intro c hc
        rw [List.mem_singleton.1 hc]
        exact hd.1
      · simp only [Dbl.digitsValue, List.foldl_cons, List.foldl_nil]
        rw [hd.2]
        omega
      · simp only [List.length_singleton, pow_one]
        omega
    · rw [if_neg h0]
      obtain ⟨pre, he, hne, hdig, hval, hlen⟩ :=
        ih (n / 10) (Nat.digitChar (n % 10) :: ds) (by omega)
      refine ⟨pre ++ [Nat.digitChar (n % 10)], ?_, by simp, ?_, ?_, ?_⟩
      · rw [he]
        simp
      · intro c hc
        rcases List.mem_append.1 hc with hc | hc
        · exact hdig c hc
        · rw [List.mem_singleton.1 hc]
          exact hd.1
      · rw [digitsValue_append, hval]
        simp only [Dbl.digitsValue, List.foldl_cons, List.foldl_nil, List.length_singleton,
          pow_one]
        rw [hd.2]
        omega
      · rw [List.length_append, List.length_singleton, pow_succ]
        have : max (n / 10) 1 = n / 10 := by omega
        rw [this] at hlen
        omega

/-- The text `Nat.toDigits 10 n`: decimal digits, not empty, of value `n`, without a
superfluous digit. -/
theorem toDigits_spec (n : Nat) :
    Nat.toDigits 10 n ≠ [] ∧ (∀ c ∈ Nat.toDigits 10 n, c.isDigit = true) ∧
    Dbl.digitsValue (Nat.toDigits 10 n) = n ∧
    10 ^ (Nat.toDigits 10 n).length ≤ 10 * max n 1 := by
  obtain ⟨pre, he, hne, hdig, hval, hlen⟩ := toDigitsCore_spec (n + 1) n [] (by omega)
  rw [List.append_nil] at he
  unfold Nat.toDigits
  rw [he]
  exact ⟨hne, hdig, hval, hlen⟩

/-- The seven digits after the point in the text of `sprintf("%.7lf")`. -/
theorem fraction_digits (r : Nat) (hr : r < 10 ^ 7) :
    (Nat.toDigits 10 (10 ^ 7 + r)).tail.length = 7 ∧
    (∀ c ∈ (Nat.toDigits 10 (10 ^ 7 + r)).tail, c.isDigit = true) ∧
    Dbl.digitsValue (Nat.toDigits 10 (10 ^ 7 + r)).tail = r := by
  obtain ⟨hne, hdig, hval, hlen⟩ := toDigits_spec (10 ^ 7 + r)
  have hlt := digitsValue_lt _ hdig
  rw [hval] at hlt
  generalize Nat.toDigits 10 (10 ^ 7 + r) = t at hne hdig hval hlen hlt
  have hup : t.length < 9 := by
    by_contra hc
    have : 10 ^ 9 ≤ 10 ^ t.length := Nat.pow_le_pow_right (by decide) (by omega)
    norm_num at this hlen hr
    omega
  have hlo : 7 < t.length := by
    by_contra hc
    have : 10 ^ t.length ≤ 10 ^ 7 := Nat.pow_le_pow_right (by decide) (by omega)
    omega
  cases t with
  | nil => exact absurd rfl hne
  | cons c fp =>
    have hfl : fp.length = 7 := by
      simp only [List.length_cons] at hup hlo
      omega
    have hfd : ∀ d ∈ fp, d.isDigit = true := fun d hd => hdig d (List.mem_cons_of_mem _ hd)
    have hflt := digitsValue_lt fp hfd
    have hcv : Dbl.digitsValue [c] < 10 ^ 1 :=
      digitsValue_lt [c] (fun d hd => hdig d (by
        rw [List.mem_singleton.1 hd]
        exact List.mem_cons_self _ _))
    have happ := digitsValue_append [c] fp
    rw [List.singleton_append, hval, hfl] at happ
    rw [hfl] at hflt
    refine ⟨hfl, hfd, ?_⟩
    simp only [List.tail_cons]
    norm_num at happ hflt hr hcv
    omega

theorem takeWhile_digits (a : List Char) (b : Char) (c : List Char)
    (ha : ∀ d ∈ a, d.isDigit = true) (hb : b.isDigit = false) :
    (a ++ b :: c).takeWhile Char.isDigit = a ∧ (a ++ b :: c).dropWhile Char.isDigit = b :: c := by
  induction a with
  | nil => simp [List.takeWhile, List.dropWhile, hb]
  | cons x a ih =>
    have hx := ha x (List.mem_cons_self _ _)
    have := ih (fun d hd => ha d (List.mem_cons_of_mem _ hd))
    simp [List.takeWhile, List.dropWhile, hx, this]

theorem takeWhile_all_digits (a : List Char) (ha : ∀ d ∈ a, d.isDigit = true) :
    a.takeWhile Char.isDigit = a := by
  induction a with
  | nil => rfl
  | cons x a ih =>
    have hx := ha x (List.mem_cons_self _ _)
    simp [List.takeWhile, hx, ih (fun d hd => ha d (List.mem_cons_of_mem _ hd))]

theorem digit_facts (c : Char) (h : c.isDigit = true) :
    (c == ' ' || c == '\t' || c == '\n' || c == '\r') = false ∧ (c == '-') = false ∧
    (c == '+') = false ∧ c ≠ 'i' ∧ c ≠ 'n' := by
  refine ⟨?_, ?_, ?_, ?_, ?_⟩
  · rcases hc : (c == ' ' || c == '\t' || c == '\n' || c == '\r') with _ | _
    · rfl
    · simp only [Bool.or_eq_true, beq_iff_eq] at hc
      rcases hc with ((rfl | rfl) | rfl) | rfl <;> revert h <;> decide
  · rcases hc : (c == '-') with _ | _
    · rfl
    · rw [beq_iff_eq] at hc
      subst hc
      revert h
      decide
  · rcases hc : (c == '+') with _ | _
    · rfl
    · rw [beq_iff_eq] at hc
      subst hc
      revert h
      decide
  · rintro rfl
    revert h
    decide
  · rintro rfl
    revert h
    decide

/-- What `stod` reads from a decimal text with an optional minus sign. -/
theorem stod_decimal (negative : Bool) (ip fp : List Char) (hip : ip ≠ [])
    (hipd : ∀ c ∈ ip, c.isDigit = true) (hfpd : ∀ c ∈ fp, c.isDigit = true) :
    Dbl.stod ((if negative then ['-'] else []) ++ ip ++ ['.'] ++ fp) =
      some (.fin (if negative
        then -((Dbl.digitsValue ip : ℚ) + (Dbl.digitsValue fp : ℚ) / (10 ^ fp.length : ℚ))
        else (Dbl.digitsValue ip : ℚ) + (Dbl.digitsValue fp : ℚ) / (10 ^ fp.length : ℚ))) := by
  cases ip with
  | nil => exact absurd rfl hip
  | cons a ip =>
    have ha := hipd a (List.mem_cons_self _ _)
    obtain ⟨f1, f2, f3, f4, f5⟩ := digit_facts a ha
    have hdot : Char.isDigit '.' = false := by decide
    obtain ⟨t1, t2⟩ := takeWhile_digits (a :: ip) '.' fp hipd hdot
    have t3 := takeWhile_all_digits fp hfpd
    have hinf : ¬ ((a :: (ip ++ '.' :: fp)).take 3 = "inf".toList) := by
      intro h
      have : a = 'i' := by
        have := congrArg List.head? h
        simpa using this
      exact f4 this
    have hnan : ¬ ((a :: (ip ++ '.' :: fp)).take 3 = "nan".toList) := by
      intro h
      have : a = 'n' := by
        have := congrArg List.head? h
        simpa using this
      exact f5 this
    have e1 : (a :: ip) ++ ['.'] ++ fp = a :: (ip ++ '.' :: fp) := by simp
    have t1b : (a :: (ip ++ '.' :: fp)).takeWhile Char.isDigit = a :: ip := t1
    have t2b : (a :: (ip ++ '.' :: fp)).dropWhile Char.isDigit = '.' :: fp := t2
    generalize ip ++ '.' :: fp = body at hinf hnan e1 t1b t2b
    have hws : List.dropWhile (fun c => c == ' ' || c == '\t' || c == '\n' || c == '\r')
        (a :: body) = a :: body := by
      rw [List.dropWhile_cons, f1]
      rfl
    have hne : ((a :: ip).isEmpty && fp.isEmpty) = false := rfl
    cases negative with
    | false =>
      simp only [Bool.false_eq_true, if_false, List.nil_append]
      rw [e1]
      unfold Dbl.stod
      simp only [hws, List.headD_cons, f2, f3, Bool.or_self, Bool.false_eq_true, if_false,
        if_neg hinf, if_neg hnan, t1b, t2b, beq_self_eq_true, if_true, List.tail_cons, t3, hne]
    | true =>
      have e2 : ['-'] ++ (a :: ip) ++ ['.'] ++ fp = '-' :: a :: body := by
        rw [← e1]
        simp
      simp only [if_true]
      rw [e2]
      unfold Dbl.stod
      have hws2 : List.dropWhile (fun c => c == ' ' || c == '\t' || c == '\n' || c == '\r')
          ('-' :: a :: body) = '-' :: a :: body := by
        rw [List.dropWhile_cons]
        rfl
      simp only [hws2, List.headD_cons, beq_self_eq_true, Bool.true_or, if_true, List.tail_cons,
        if_neg hinf, if_neg hnan, t1b, t2b, t3, hne, Bool.false_eq_true, if_false]

/-- The integer `scaled7 q` is a nearest integer to `|q| * 10 ^ 7`. -/
theorem scaled7_near (q : ℚ) : |((Dbl.scaled7 q : Nat) : ℚ) - |q| * 10 ^ 7| ≤ 1 / 2 := by
  have hd : (0 : ℚ) < (q.den : ℚ) := by exact_mod_cast q.den_pos
  have habs : |q| = (q.num.natAbs : ℚ) / (q.den : ℚ) := by
    rw [Rat.abs_def, Rat.divInt_eq_div]
    simp only [Int.cast_natCast]
  have hdm := Nat.div_add_mod (q.num.natAbs * 10 ^ 7) q.den
  have hr := Nat.mod_lt (q.num.natAbs * 10 ^ 7) q.den_pos
  have key : |q| * 10 ^ 7 = ((q.num.natAbs * 10 ^ 7 / q.den : Nat) : ℚ) +
      ((q.num.natAbs * 10 ^ 7 % q.den : Nat) : ℚ) / (q.den : ℚ) := by
    rw [habs]
    have h2 : ((q.num.natAbs : ℚ) * 10 ^ 7) =
        (q.den : ℚ) * ((q.num.natAbs * 10 ^ 7 / q.den : Nat) : ℚ) +
          ((q.num.natAbs * 10 ^ 7 % q.den : Nat) : ℚ) := by
      exact_mod_cast hdm.symm
    field_simp
    linarith
  rw [key]
  unfold Dbl.scaled7
  simp only
  generalize q.num.natAbs * 10 ^ 7 / q.den = f at *
  generalize q.num.natAbs * 10 ^ 7 % q.den = r at *
  have hx0 : (0 : ℚ) ≤ (r : ℚ) / (q.den : ℚ) := by positivity
  rw [abs_le]
  split_ifs with h1 h2 h3
  · have : (r : ℚ) / (q.den : ℚ) < 1 / 2 := by
      rw [div_lt_iff₀ hd]
      have : ((2 * r : Nat) : ℚ) < (q.den : ℚ) := by exact_mod_cast h1
      push_cast at this
      linarith
    constructor <;> linarith
  · have h4 : 1 / 2 < (r : ℚ) / (q.den : ℚ) := by
      rw [lt_div_iff₀ hd]
      have : ((q.den : Nat) : ℚ) < ((2 * r : Nat) : ℚ) := by exact_mod_cast h2
      push_cast at this
      linarith
    have h5 : (r : ℚ) / (q.den : ℚ) < 1 := by
      rw [div_lt_iff₀ hd]
      have : ((r : Nat) : ℚ) < (q.den : ℚ) := by exact_mod_cast hr
      linarith
    push_cast
    constructor <;> linarith
  · have h4 : (r : ℚ) / (q.den : ℚ) = 1 / 2 := by
      have : 2 * r = q.den := by omega
      rw [div_eq_iff (ne_of_gt hd), ← this]
      push_cast
      ring
    constructor <;> linarith
  · have h4 : (r : ℚ) / (q.den : ℚ) = 1 / 2 := by
      have : 2 * r = q.den := by omega
      rw [div_eq_iff (ne_of_gt hd), ← this]
      push_cast
      ring
    push_cast
    constructor <;> linarith

/-- In the exact interpretation, `DoubleToString` then `stod` rounds a finite value to seven
decimal places. -/
theorem stod_sprintf7 (q : ℚ) :
    Dbl.stod (Dbl.sprintf7 (.fin q)) =
      some (.fin (if q < 0 then -((Dbl.scaled7 q : ℚ) / 10 ^ 7)
        else (Dbl.scaled7 q : ℚ) / 10 ^ 7)) := by
  obtain ⟨i1, i2, i3, _⟩ := toDigits_spec (Dbl.scaled7 q / 10 ^ 7)
  obtain ⟨f1, f2, f3⟩ := fraction_digits (Dbl.scaled7 q % 10 ^ 7) (Nat.mod_lt _ (by norm_num))
  have h := stod_decimal (decide (q < 0)) _ _ i1 i2 f2
  rw [i3, f3, f1] at h
  have hv : (((Dbl.scaled7 q / 10 ^ 7 : Nat) : ℚ) + ((Dbl.scaled7 q % 10 ^ 7 : Nat) : ℚ) /
      (10 ^ 7 : ℚ)) = (Dbl.scaled7 q : ℚ) / 10 ^ 7 := by
    have := Nat.div_add_mod (Dbl.scaled7 q) (10 ^ 7)
    have h2 : ((Dbl.scaled7 q : Nat) : ℚ) = (10 ^ 7 : ℚ) * ((Dbl.scaled7 q / 10 ^ 7 : Nat) : ℚ) +
        ((Dbl.scaled7 q % 10 ^ 7 : Nat) : ℚ) := by
      exact_mod_cast this.symm
    rw [h2]
    field_simp
    ring
  rw [hv] at h
  simp only [decide_eq_true_eq] at h
  exact h

/-- In the exact interpretation, a value below 0.00000005 in absolute value comes back from
its text as 0. -/
theorem stod_sprintf7_small (q : ℚ) (h : |q| < 5 / 10 ^ 8) :
    Dbl.stod (Dbl.sprintf7 (.fin q)) = some (.fin 0) := by
  have hn := scaled7_near q
  rw [abs_le] at hn
  have h0 : Dbl.scaled7 q = 0 := by
    have : ((Dbl.scaled7 q : Nat) : ℚ) < 1 := by
      have h2 : |q| * 10 ^ 7 < 1 / 2 := by
        have : |q| * 10 ^ 7 < 5 / 10 ^ 8 * 10 ^ 7 := by
          apply mul_lt_mul_of_pos_right h
          norm_num
        norm_num at this ⊢
        linarith
      linarith [hn.2]
    have : Dbl.scaled7 q < 1 := by exact_mod_cast this
    omega
  rw [stod_sprintf7, h0]
  simp

/-- In the exact interpretation the text of a finite value is an optional minus sign, decimal
digits, a point and seven decimal digits. -/
theorem sprintf7_shape (q : ℚ) :
    ∃ ip fp, Dbl.sprintf7 (.fin q) = (if q < 0 then ['-'] else []) ++ ip ++ ['.'] ++ fp ∧
      ip ≠ [] ∧ fp.length = 7 ∧ (∀ c ∈ ip, c.isDigit = true) ∧ ∀ c ∈ fp, c.isDigit = true := by
  obtain ⟨i1, i2, _, _⟩ := toDigits_spec (Dbl.scaled7 q / 10 ^ 7)
  obtain ⟨f1, f2, _⟩ := fraction_digits (Dbl.scaled7 q % 10 ^ 7) (Nat.mod_lt _ (by norm_num))
  exact ⟨_, _, rfl, i1, f1, i2, f2⟩

/-- C28: values are carried as the text of `DoubleToString` and read back by `stod`.  The
value of `x` enters the RPN as the text `DoubleToString(x_)`; every step of the evaluator at
a binary operator or at a function (unary minus included) reads its operands with `stod` and
pushes the text `DoubleToString` of the value it computes; so, whenever the RPN of the
expression holds an operator or a function, the value a successful evaluation returns is
`stod` of a text of `DoubleToString`.  In exact arithmetic that text of a finite value has
exactly seven digits after the point, `stod` of it is the value rounded to seven decimal
places, and it is 0 for a value below 0.00000005 in absolute value; `1/3*3` returns
0.9999999, which is not 1, and `x` with `x = 0.00000001` returns 0. -/
theorem values_carried_as_text {D : Type} (L : Libm D) :
    (∀ (x : D) (st st2 : Scan), VariableBranch L x 'x' st = .done st2 →
      ∃ s, DoubleToString L x = some s ∧ st2.postfix_ = ⟨s, 0⟩ :: st.postfix_) ∧
    (∀ (t : Token) (m m2 : Model D), t.priority ≠ 0 → CalculateStep L t m = .done m2 →
      ∃ v s rest, DoubleToString L v = some s ∧ m2.calculation_ = ⟨s, 0⟩ :: rest ∧
        ((IsOperator (t.value.headD '\x00') = true ∧ ∃ a b num num2,
            m.calculation_ = a :: b :: rest ∧ L.stod a.value = some num ∧
            L.stod b.value = some num2 ∧
            v = ArithmeticResult L num2 num (t.value.headD '\x00')) ∨
         (IsOperator (t.value.headD '\x00') = false ∧ ∃ a num,
            m.calculation_ = a :: rest ∧ L.stod a.value = some num ∧
            v = TrigonometryResult L num t.value))) ∧
    (∀ m ma m2 : Model D, (ReplaceScientificNotation m).andThen (ToPostfix L) = .done ma →
      (∃ t ∈ ma.postfix_, t.priority ≠ 0) → CalculateMathExpression L m = .done m2 →
      ∃ v s, DoubleToString L v = some s ∧ L.stod s = some m2.result_) ∧
    (∀ q : ℚ,
      (∃ ip fp, exact.sprintf7 (.fin q) = (if q < 0 then ['-'] else []) ++ ip ++ ['.'] ++ fp ∧
        ip ≠ [] ∧ fp.length = 7 ∧ (∀ c ∈ ip, c.isDigit = true) ∧
        ∀ c ∈ fp, c.isDigit = true) ∧
      exact.stod (exact.sprintf7 (.fin q)) =
        some (.fin (if q < 0 then -((Dbl.scaled7 q : ℚ) / 10 ^ 7)
          else (Dbl.scaled7 q : ℚ) / 10 ^ 7)) ∧
      |((Dbl.scaled7 q : Nat) : ℚ) - |q| * 10 ^ 7| ≤ 1 / 2 ∧
      (|q| < 5 / 10 ^ 8 → exact.stod (exact.sprintf7 (.fin q)) = some (.fin 0))) ∧
    ProcessMathExpression exact (Model.fresh exact) "1/3*3".toList (.fin 0) =
      .done { holding "1/3*3" with result_ := .fin (9999999 / 10000000) } ∧
    (Dbl.fin (9999999 / 10000000) ≠ Dbl.fin 1) ∧
    ProcessMathExpression exact (Model.fresh exact) "x".toList (.fin (1 / 100000000)) =
      .done { Model.holding exact (.fin (1 / 100000000)) "x".toList with result_ := .fin 0 } := by
  refine ⟨?_, ?_, ?_, ?_, ?_, ?_, ?_⟩
  · intro x st st2 h
    unfold VariableBranch at h
    simp only [beq_self_eq_true, if_true] at h
    cases hd : DoubleToString L x with
    | none =>
      rw [hd] at h
      cases h
    | some s =>
      rw [hd] at h
      simp only [Run.done.injEq] at h
      subst h
      exact ⟨s, rfl, rfl⟩
  · intro t m m2 ht h
    exact CalculateStep_operation ht h
  · intro m ma m2 hrpn hop h
    unfold CalculateMathExpression at h
    rw [hrpn, Run.done_andThen] at h
    exact Calculate_carried L ma m2 hop h
  · intro q
    have e1 : exact.stod = Dbl.stod := rfl
    have e2 : exact.sprintf7 = Dbl.sprintf7 := rfl
    rw [e1, e2]
    exact ⟨sprintf7_shape q, stod_sprintf7 q, scaled7_near q, stod_sprintf7_small q⟩
  · decide!
  · decide!
  · decide!

/-- C28 at `1/3*3` and at the value 0.00000001: the RPN `1 3 / 3 *` holds operators, so the
result 0.9999999 is `stod` of a text of `DoubleToString`; and the text of 0.00000001 reads
back as 0. -/
theorem values_carried_as_text_witness :
    (∃ (v : Dbl) (s : List Char), DoubleToString exact v = some s ∧
      exact.stod s = some (.fin (9999999 / 10000000))) ∧
    exact.stod (exact.sprintf7 (.fin (1 / 100000000))) = some (.fin 0) :=
  ⟨(values_carried_as_text exact).2.2.1 (holding "1/3*3")
      { holding "1/3*3" with
        postfix_ := [⟨['1'], 0⟩, ⟨['3'], 0⟩, ⟨['/'], 2⟩, ⟨['3'], 0⟩, ⟨['*'], 2⟩] }
      { holding "1/3*3" with result_ := .fin (9999999 / 10000000) }
      (by decide!) ⟨⟨['/'], 2⟩, by decide, by decide⟩
      (by decide!),
    ((values_carried_as_text exact).2.2.2.1 (1 / 100000000)).2.2.2 (by norm_num [abs_of_pos])⟩

/-! ## The frame of `SetInput` -/

/-- C31: `SetInput` is atomic.  For a string the validator rejects it throws with the object
as it was, the stored expression and every other member unchanged (and the controller's
call leaves its model as it was); for a string the validator accepts it returns, the stored
expression is exactly that string and no other member has changed. -/
theorem SetInput_atomic {D : Type} (L : Libm D) (m : Model D) (s : List Char) (x : D) :
    (ValidateInput s = false →
      SetInput m s = .thrown m ∧ ProcessMathExpression L m s x = .thrown m) ∧
    (ValidateInput s = true →
      ∃ m2, SetInput m s = .done m2 ∧ m2.expression_ = s ∧ m2.x_ = m.x_ ∧
        m2.dot_count_ = m.dot_count_ ∧ m2.postfix_ = m.postfix_ ∧
        m2.operators_ = m.operators_ ∧ m2.calculation_ = m.calculation_ ∧
        m2.result_ = m.result_) ∧
    (SetInput m s = .thrown m ∨ SetInput m s = .done { m with expression_ := s }) := by
  refine ⟨?_, ?_, ?_⟩
  · intro h
    have h1 : SetInput m s = .thrown m := by
      unfold SetInput
      rw [h]
      rfl
    refine ⟨h1, ?_⟩
    unfold ProcessMathExpression
    rw [h1]
    rfl
  · intro h
    refine ⟨{ m with expression_ := s }, ?_, rfl, rfl, rfl, rfl, rfl, rfl, rfl⟩
    unfold SetInput
    rw [h]
    rfl
  · unfold SetInput
    cases ValidateInput s with
    | false => exact Or.inl rfl
    | true => exact Or.inr rfl

/-- C31 on an object that has evaluated `1+2`: `)` is rejected and leaves it as it was, `2*3`
is accepted and replaces the stored expression only. -/
theorem SetInput_atomic_witness :
    SetInput ({ holding "1+2" with result_ := .fin 3 } : Model Dbl) ")".toList =
      .thrown { holding "1+2" with result_ := .fin 3 } ∧
    ∃ m2, SetInput ({ holding "1+2" with result_ := .fin 3 } : Model Dbl) "2*3".toList =
        .done m2 ∧ m2.expression_ = "2*3".toList ∧ m2.result_ = .fin 3 :=
  have h := SetInput_atomic exact ({ holding "1+2" with result_ := .fin 3 } : Model Dbl)
  ⟨((h ")".toList (.fin 0)).1 (by decide)).1,
    match (h "2*3".toList (.fin 0)).2.1 (by decide) with
    | ⟨m2, h1, h2, _, _, _, _, _, h8⟩ => ⟨m2, h1, h2, h8⟩⟩

/-! ## The differential schedule outside the term -/

/-- The balance, the interest and the total of the loop of `CalculateDifferentialCredit` do
not depend on `month` nor on the payment held. -/
theorem DifferentialLoop_month (m_rate tmp : Dbl) (month month2 : Int) (left : Nat) :
    ∀ (i : Int) (s s2 : DifferentialState), s.amount = s2.amount → s.perc = s2.perc →
      s.total = s2.total →
      (DifferentialLoop m_rate tmp month left i s).amount =
        (DifferentialLoop m_rate tmp month2 left i s2).amount ∧
      (DifferentialLoop m_rate tmp month left i s).perc =
        (DifferentialLoop m_rate tmp month2 left i s2).perc ∧
      (DifferentialLoop m_rate tmp month left i s).total =
        (DifferentialLoop m_rate tmp month2 left i s2).total := by
  induction left with
  | zero =>
    intro i s s2 h1 h2 h3
    exact ⟨h1, h2, h3⟩
  | succ n ih =>
    intro i s s2 h1 h2 h3
    simp only [DifferentialLoop]
    apply ih
    · simp only [h1]
    · simp only [h1, h2]
    · simp only [h1, h3]

/-- A month that the loop of `CalculateDifferentialCredit` does not come to leaves the payment
as it was. -/
theorem DifferentialLoop_pay (m_rate tmp : Dbl) (month : Int) (left : Nat) :
    ∀ (i : Int) (s : DifferentialState), month < i + 1 ∨ i + (left : Int) < month →
      (DifferentialLoop m_rate tmp month left i s).pay = s.pay := by
  induction left with
  | zero =>
    intro i s _
    rfl
  | succ n ih =>
    intro i s h
    have hne : ¬ (month = i + 1) := by
      push_cast at h
      omega
    simp only [DifferentialLoop, if_neg hne]
    rw [ih]
    push_cast at h
    omega

/-- C32: with `n = term * k` (the `int` product), `CalculateDifferentialCredit` returns the
payment 0 when `month < 1` or `month > n`; the interest and the total it returns are the
same for every `month`; and for `n ≤ 0` it returns (0, 0, 0).  This holds for every amount
and rate, finite or not. -/
theorem month_out_of_range (k term month : Int) (amount rate : Dbl) :
    (month < 1 ∨ int32 (term * k) < month →
      (CalculateDifferentialCredit k amount term rate month).1 = .fin 0 ∧
      CalculateResult k amount term rate month 'd' =
        CalculateDifferentialCredit k amount term rate month) ∧
    (∀ month2, (CalculateDifferentialCredit k amount term rate month2).2 =
      (CalculateDifferentialCredit k amount term rate month).2) ∧
    (int32 (term * k) ≤ 0 →
      CalculateDifferentialCredit k amount term rate month = (.fin 0, .fin 0, .fin 0)) := by
  refine ⟨?_, ?_, ?_⟩
  · intro h
    refine ⟨?_, rfl⟩
    simp only [CalculateDifferentialCredit]
    rw [DifferentialLoop_pay]
    by_cases hn : 0 ≤ int32 (term * k)
    · rw [Int.toNat_of_nonneg hn]
      omega
    · have : (int32 (term * k)).toNat = 0 := Int.toNat_eq_zero.2 (by omega)
      rw [this]
      by_cases hm : month < 1
      · left
        omega
      · right
        push_cast
        omega
  · intro month2
    simp only [CalculateDifferentialCredit]
    obtain ⟨_, h2, h3⟩ := DifferentialLoop_month
      (Dbl.div (Dbl.div rate (.fin 12)) (.fin 100))
      (Dbl.div amount (Dbl.ofInt (int32 (term * k)))) month2 month
      (int32 (term * k)).toNat 0
      { amount := amount, pay := .fin 0, perc := .fin 0, total := .fin 0 }
      { amount := amount, pay := .fin 0, perc := .fin 0, total := .fin 0 } rfl rfl rfl
    rw [h2, h3]
  · intro h
    have : (int32 (term * k)).toNat = 0 := Int.toNat_eq_zero.2 h
    simp only [CalculateDifferentialCredit, this, DifferentialLoop]

/-- C32 at the loan of the tests: for the months 0 and 61 of 60 the payment is 0 with the
interest 122000 and the total 422000, and a term of 0 years gives (0, 0, 0). -/
theorem month_out_of_range_witness :
    (CalculateDifferentialCredit 12 (.fin 300000) 5 (.fin 16) 0).1 = .fin 0 ∧
    (CalculateDifferentialCredit 12 (.fin 300000) 5 (.fin 16) 61).1 = .fin 0 ∧
    (CalculateDifferentialCredit 12 (.fin 300000) 5 (.fin 16) 61).2 =
      (CalculateDifferentialCredit 12 (.fin 300000) 5 (.fin 16) 1).2 ∧
    CalculateDifferentialCredit 12 (.fin 300000) 0 (.fin 16) 1 = (.fin 0, .fin 0, .fin 0) :=
  ⟨((month_out_of_range 12 5 0 (.fin 300000) (.fin 16)).1 (Or.inl (by decide))).1,
    ((month_out_of_range 12 5 61 (.fin 300000) (.fin 16)).1 (Or.inr (by decide))).1,
    (month_out_of_range 12 5 1 (.fin 300000) (.fin 16)).2.1 61,
    (month_out_of_range 12 0 1 (.fin 300000) (.fin 16)).2.2 (by decide)⟩

end s21
